import Mathlib

/-!
# IOVA range allocator (`lib/librte_eal/common/eal_common_tiova.c`)

A shallow embedding of the first-fit IOVA allocator.  The two module-scope
tail queues become two Lean lists carried in an explicit state; `uintptr_t`,
`size_t` and `uint64_t` values are natural numbers with every addition and
subtraction reduced modulo `2 ^ 64`.  The model of a function that returns an
address or `RTE_BAD_IOVA` tells which `return` statement is reached: `none` for
a `return RTE_BAD_IOVA`, `some` of the address for the other one.  The 64-bit
word the caller gets is a separate definition (`iova_alloc_ret`), since an
address can be equal to `RTE_BAD_IOVA`.  The outcome of each `malloc` is an
explicit boolean argument.
-/

namespace Tiova

/-- Modulus of the 64-bit unsigned types `uintptr_t`, `size_t`, `uint64_t`. -/
def U64 : Nat := 2 ^ 64

/-- Unsigned 64-bit addition. -/
def uadd (a b : Nat) : Nat := (a + b) % U64

/-- Unsigned 64-bit subtraction. -/
def usub (a b : Nat) : Nat := (a + (U64 - b % U64)) % U64

/-- Descriptor `struct iova_mem_desc` (the queue linkage is the list itself). -/
structure iova_mem_desc where
  vaddr : Nat
  taddr : Nat
  len : Nat
deriving DecidableEq, Repr

/-- The two module-scope queues `iova_alloc_list` and `iova_free_list`. -/
structure State where
  iova_alloc_list : List iova_mem_desc
  iova_free_list : List iova_mem_desc
deriving DecidableEq, Repr

/-- Function `iova_overlap`: inclusive end points, both computed with
wrap-around, and the test `RTE_MAX(start, dsc_start) <= RTE_MIN(end, dsc_end)`. -/
def iova_overlap (id : iova_mem_desc) (vaddr len : Nat) : Bool :=
  let start := vaddr
  let endv := usub (uadd start len) 1
  let dsc_start := id.vaddr
  let dsc_end := usub (uadd id.vaddr id.len) 1
  decide (max start dsc_start ≤ min endv dsc_end)

/-- The first-fit loop of `iova_alloc` over the free list.  A descriptor with
`(f->taddr + len) > (f->taddr + f->len)` is skipped; the first other one is
shrunk from its front and unlinked when its length reaches zero.  The result
is the address handed out and the new free list, `none` when the loop ends
without a fit. -/
def alloc_scan (len : Nat) : List iova_mem_desc → Option (Nat × List iova_mem_desc)
  | [] => none
  | f :: rest =>
    if uadd f.taddr len > uadd f.taddr f.len then
      match alloc_scan len rest with
      | none => none
      | some (t, rest') => some (t, f :: rest')
    else
      let f' : iova_mem_desc :=
        { vaddr := f.vaddr, taddr := uadd f.taddr len, len := usub f.len len }
      some (f.taddr, if f'.len = 0 then rest else f' :: rest)

/-- Function `iova_alloc`.  `mallocOk` is the outcome of the `malloc` of the new
descriptor, reached only once a fitting free descriptor is found.  The first
component tells which `return` is reached: `none` for one of the four
`return RTE_BAD_IOVA`, `some t` for `return a->taddr` with `a->taddr = t`. -/
def iova_alloc (mallocOk : Bool) (st : State) (vaddr len : Nat) : Option Nat × State :=
  if st.iova_free_list = [] then (none, st)
  else if st.iova_alloc_list.any (fun a => iova_overlap a vaddr len) then (none, st)
  else
    match alloc_scan len st.iova_free_list with
    | none => (none, st)
    | some (t, free') =>
      if mallocOk then
        (some t,
          { iova_alloc_list := st.iova_alloc_list ++ [{ vaddr := vaddr, taddr := t, len := len }],
            iova_free_list := free' })
      else (none, st)

/-- The constant `RTE_BAD_IOVA` of `rte_common.h`, which is `((rte_iova_t)-1)`: all 64
bits set. -/
def RTE_BAD_IOVA : Nat := U64 - 1

/-- The `uint64_t` that `iova_alloc` returns: `RTE_BAD_IOVA` from a
`return RTE_BAD_IOVA`, the address `a->taddr` from `return a->taddr`.  The two
are one 64-bit word for the caller. -/
def iova_alloc_ret (mallocOk : Bool) (st : State) (vaddr len : Nat) : Nat :=
  match (iova_alloc mallocOk st vaddr len).1 with
  | none => RTE_BAD_IOVA
  | some t => t

/-- The loop of `iova_sort` once `p` is set.  The queue is
`pre ++ [p] ++ gap ++ rest`; the cursor `c` is the head of `rest` and its
successor is read before the body runs.  When `p->taddr > c->taddr`, `p` is
unlinked and relinked right after `c`; in both cases `p` becomes `c`, so after
a swap the old `p` sits between the new `p` and the next cursor (`gap`). -/
def sort_loop (pre : List iova_mem_desc) (p : iova_mem_desc) (gap : List iova_mem_desc) :
    List iova_mem_desc → List iova_mem_desc
  | [] => pre ++ [p] ++ gap
  | c :: rest =>
    if p.taddr > c.taddr then sort_loop (pre ++ gap) c [p] rest
    else sort_loop (pre ++ [p] ++ gap) c [] rest

/-- Function `iova_sort` on the free list. -/
def iova_sort : List iova_mem_desc → List iova_mem_desc
  | [] => []
  | c :: rest => sort_loop [] c [] rest

/-- The merge loop of `iova_compress` once `p` is set: `p` is never advanced,
a cursor `c` with `p->taddr + p->len != c->taddr` is kept, any other one is
added to `p` and unlinked.  The result is the final `p` and the kept
descriptors in order. -/
def compress_loop (p : iova_mem_desc) : List iova_mem_desc → iova_mem_desc × List iova_mem_desc
  | [] => (p, [])
  | c :: rest =>
    if uadd p.taddr p.len ≠ c.taddr then
      let r := compress_loop p rest
      (r.1, c :: r.2)
    else
      compress_loop { vaddr := p.vaddr, taddr := p.taddr, len := uadd p.len c.len } rest

/-- Function `iova_compress` on the free list: sort, then merge into the head. -/
def iova_compress (l : List iova_mem_desc) : List iova_mem_desc :=
  match iova_sort l with
  | [] => []
  | c :: rest =>
    let r := compress_loop c rest
    r.1 :: r.2

/-- The search of `iova_free` for a free descriptor to extend with `a`: the
first one that starts where `a` ends takes `a` in front, the first one that
ends where `a` starts takes `a` behind; the scan stops at the first hit.
`none` when no descriptor is adjacent. -/
def free_merge (a : iova_mem_desc) : List iova_mem_desc → Option (List iova_mem_desc)
  | [] => none
  | f :: rest =>
    if uadd a.taddr a.len = f.taddr then
      some ({ vaddr := f.vaddr, taddr := a.taddr, len := uadd f.len a.len } :: rest)
    else if a.taddr = uadd f.taddr f.len then
      some ({ vaddr := f.vaddr, taddr := f.taddr, len := uadd f.len a.len } :: rest)
    else
      match free_merge a rest with
      | none => none
      | some rest' => some (f :: rest')

/-- The search of `iova_free` through the allocated list: the descriptors before
the first one with `vaddr` and `len` both equal, that descriptor, and the ones
after it. -/
def find_alloc (vaddr len : Nat) :
    List iova_mem_desc → Option (List iova_mem_desc × iova_mem_desc × List iova_mem_desc)
  | [] => none
  | a :: rest =>
    if vaddr ≠ a.vaddr ∨ len ≠ a.len then
      match find_alloc vaddr len rest with
      | none => none
      | some (pre, x, post) => some (a :: pre, x, post)
    else some ([], a, rest)

/-- Function `iova_free`.  `mallocOk` is the outcome of the `malloc` of a new
free descriptor, reached only when no free descriptor is adjacent. -/
def iova_free (mallocOk : Bool) (st : State) (vaddr len : Nat) : Int × State :=
  if st.iova_alloc_list = [] then (-1, st)
  else
    match find_alloc vaddr len st.iova_alloc_list with
    | none => (-1, st)
    | some (pre, a, post) =>
      match free_merge a st.iova_free_list with
      | some free' =>
        (0, { iova_alloc_list := pre ++ post, iova_free_list := iova_compress free' })
      | none =>
        if mallocOk then
          (0, { iova_alloc_list := pre ++ post,
                iova_free_list := iova_compress
                  (st.iova_free_list ++ [{ vaddr := 0, taddr := a.taddr, len := a.len }]) })
        else (-1, st)

/-- The test of the loop of `iova_search`:
`virtaddr >= a->vaddr && virtaddr < a->vaddr + a->len`. -/
def search_hit (virtaddr : Nat) (a : iova_mem_desc) : Bool :=
  decide (virtaddr ≥ a.vaddr) && decide (virtaddr < uadd a.vaddr a.len)

/-- Function `iova_search`: the first allocated descriptor that passes the test
gives `a->taddr + (virtaddr - a->vaddr)`. -/
def iova_search (st : State) (virtaddr : Nat) : Option Nat :=
  match st.iova_alloc_list.find? (search_hit virtaddr) with
  | none => none
  | some a => some (uadd a.taddr (usub virtaddr a.vaddr))

/-- Function `iova_init`; `iova_base` and `iova_len` are the two fields of
`internal_config` it reads. -/
def iova_init (mallocOk : Bool) (iova_base iova_len : Nat) : Int × State :=
  if mallocOk then
    (0, { iova_alloc_list := [],
          iova_free_list := [{ vaddr := 0, taddr := iova_base, len := iova_len }] })
  else (-1, { iova_alloc_list := [], iova_free_list := [] })

/-- A call of the allocator after initialisation. -/
inductive Op where
  | alloc (vaddr len : Nat) (mallocOk : Bool)
  | free (vaddr len : Nat) (mallocOk : Bool)
deriving DecidableEq, Repr

/-- State after one call. -/
def step (st : State) : Op → State
  | .alloc v l ok => (iova_alloc ok st v l).2
  | .free v l ok => (iova_free ok st v l).2

/-- State after a sequence of calls. -/
def run (st : State) : List Op → State
  | [] => st
  | op :: ops => run (step st op) ops

/-- State right after a successful `iova_init`. -/
def init_state (iova_base iova_len : Nat) : State :=
  (iova_init true iova_base iova_len).2

/-! ## Predicates used to state the properties -/

/-- Address `x` lies in the IOVA range `[taddr, taddr + len)` of `d`. -/
def covers (d : iova_mem_desc) (x : Nat) : Prop := d.taddr ≤ x ∧ x < d.taddr + d.len

instance (d : iova_mem_desc) (x : Nat) : Decidable (covers d x) := by
  unfold covers; infer_instance

/-- Address `x` lies in the virtual range `[vaddr, vaddr + len)`. -/
def in_vrange (vaddr len x : Nat) : Prop := vaddr ≤ x ∧ x < vaddr + len

instance (vaddr len x : Nat) : Decidable (in_vrange vaddr len x) := by
  unfold in_vrange; infer_instance

/-- The free list is in strictly ascending order of `taddr`. -/
def sorted_free (l : List iova_mem_desc) : Prop :=
  l.Pairwise (fun p c => p.taddr < c.taddr)

instance (l : List iova_mem_desc) : Decidable (sorted_free l) := by
  unfold sorted_free; infer_instance

/-- Positions `i` and `j` of the list hold two descriptors `p`, `c` with
`p.taddr + p.len = c.taddr`. -/
def adjacent_at (l : List iova_mem_desc) (i j : Nat) : Prop :=
  i ≠ j ∧ ∃ p c, l.get? i = some p ∧ l.get? j = some c ∧ p.taddr + p.len = c.taddr

/-- The list is fully coalesced: no two of its descriptors are adjacent. -/
def coalesced (l : List iova_mem_desc) : Prop := ∀ i j, ¬ adjacent_at l i j

/-- No address computation of the call wraps around: for an allocation, the end
`vaddr + len` of the virtual range and, for each free descriptor the first-fit
loop may look at, `taddr + len`. -/
def op_no_overflow (st : State) : Op → Prop
  | .alloc v l _ => v + l < U64 ∧ ∀ f ∈ st.iova_free_list, f.taddr + l < U64
  | .free _ _ _ => True

instance (st : State) (op : Op) : Decidable (op_no_overflow st op) := by
  cases op <;> (unfold op_no_overflow; infer_instance)

/-- No address computation wraps around in any call of the sequence. -/
def run_no_overflow (st : State) : List Op → Prop
  | [] => True
  | op :: ops => op_no_overflow st op ∧ run_no_overflow (step st op) ops

instance decRunNoOverflow : (st : State) → (ops : List Op) → Decidable (run_no_overflow st ops)
  | _, [] => by unfold run_no_overflow; infer_instance
  | st, op :: ops => by
    unfold run_no_overflow
    exact @instDecidableAnd _ _ _ (decRunNoOverflow (step st op) ops)

/-- Number of descriptors of the list whose IOVA range holds `x`. -/
def cover_count (l : List iova_mem_desc) (x : Nat) : Nat :=
  l.countP (fun d => decide (covers d x))

/-- The IOVA range of `d` lies inside the window `[base, base + wlen)`. -/
def in_window (base wlen : Nat) (d : iova_mem_desc) : Prop :=
  base ≤ d.taddr ∧ d.taddr + d.len ≤ base + wlen

/-- No address computation of the first-fit loop wraps around for a request of
`len`: neither `taddr + len` nor `taddr + f.len` for any free descriptor. -/
def scan_no_overflow (len : Nat) (l : List iova_mem_desc) : Prop :=
  ∀ f ∈ l, f.taddr + len < U64 ∧ f.taddr + f.len < U64

instance (len : Nat) (l : List iova_mem_desc) : Decidable (scan_no_overflow len l) := by
  unfold scan_no_overflow; infer_instance

/-- What is left of free descriptor `f` after `len` is taken from its front:
nothing when the lengths are equal, else the shrunk descriptor. -/
def shrink_front (f : iova_mem_desc) (len : Nat) : List iova_mem_desc :=
  if f.len = len then []
  else [{ vaddr := f.vaddr, taddr := f.taddr + len, len := f.len - len }]

/-- Every address of the window `[base, base + wlen)` lies in exactly one
descriptor of the two lists, every other address in none, and each descriptor
lies inside the window. -/
def partition_inv (base wlen : Nat) (st : State) : Prop :=
  (∀ x, cover_count (st.iova_free_list ++ st.iova_alloc_list) x
      = if base ≤ x ∧ x < base + wlen then 1 else 0) ∧
  (∀ d ∈ st.iova_free_list ++ st.iova_alloc_list, in_window base wlen d)

/-- The IOVA ranges of two descriptors share no address. -/
def disjoint_ranges (d e : iova_mem_desc) : Prop := ∀ x, ¬ (covers d x ∧ covers e x)

/-- Neither `vaddr + len` nor the last address `vaddr + len - 1` of the virtual
range wraps around. -/
def vrange_ok (vaddr len : Nat) : Prop := 0 < vaddr + len ∧ vaddr + len < U64

instance (vaddr len : Nat) : Decidable (vrange_ok vaddr len) := by
  unfold vrange_ok; infer_instance

/-- The virtual ranges `[vaddr, vaddr + len)` and `[a.vaddr, a.vaddr + a.len)`
share an address. -/
def vranges_overlap (a : iova_mem_desc) (vaddr len : Nat) : Prop :=
  ∃ x, in_vrange vaddr len x ∧ in_vrange a.vaddr a.len x

/-- No call of the sequence frees the allocation `(vaddr, len)`: every
`iova_free(vaddr, len)` in it returns `-1`. -/
def never_freed (vaddr len : Nat) : State → List Op → Prop
  | _, [] => True
  | st, op :: ops =>
    (match op with
      | .free v l ok => v = vaddr ∧ l = len → (iova_free ok st v l).1 = -1
      | .alloc _ _ _ => True) ∧
    never_freed vaddr len (step st op) ops

instance decNeverFreed (vaddr len : Nat) :
    (st : State) → (ops : List Op) → Decidable (never_freed vaddr len st ops)
  | _, [] => by unfold never_freed; infer_instance
  | st, op :: ops => by
    unfold never_freed
    exact @instDecidableAnd _ _ (by cases op <;> (dsimp only; infer_instance))
      (decNeverFreed vaddr len (step st op) ops)

/-- Successive allocations `(vaddr, len)` with `malloc` succeeding, all of which
must succeed: the addresses returned in order and the final state. -/
def alloc_all (st : State) : List (Nat × Nat) → Option (List Nat × State)
  | [] => some ([], st)
  | r :: rs =>
    match iova_alloc true st r.1 r.2 with
    | (none, _) => none
    | (some t, st') =>
      match alloc_all st' rs with
      | none => none
      | some (ts, st'') => some (t :: ts, st'')

/-- The addresses `base`, `base + l₀`, `base + l₀ + l₁`, ... for lengths
`l₀, l₁, ...`. -/
def prefix_addrs (base : Nat) : List Nat → List Nat
  | [] => []
  | l :: ls => base :: prefix_addrs (base + l) ls

/-- The calls `iova_alloc(vaddr, len)` of a list of requests, `malloc` succeeding. -/
def alloc_ops (reqs : List (Nat × Nat)) : List Op :=
  reqs.map (fun r => Op.alloc r.1 r.2 true)

end Tiova

/-!
# Pipeline controller (`lib/librte_pipeline/rte_swx_ctl.c`)

A shallow embedding of the table staging and commit code and of the reading and
printing of entries as text.  Byte buffers are lists of natural numbers (bytes),
a `NULL` buffer is `none`; a tail queue is a list; `uint32_t` arithmetic is
reduced modulo `2 ^ 32`.  A byte read past the
end of a list reads `0`.  The structures declared in `rte_swx_table.h` and
`rte_swx_ctl.h` carry the fields the code uses.
-/

namespace SwxCtl

/-- Error numbers of `<errno.h>` used by the code. -/
def ENOMEM : Int := 12

/-- Error number `EINVAL`. -/
def EINVAL : Int := 22

/-- Error number `ENODEV`. -/
def ENODEV : Int := 19

/-- Modulus of `uint32_t`. -/
def U32 : Nat := 2 ^ 32

/-- Unsigned 32-bit addition. -/
def uadd32 (a b : Nat) : Nat := (a + b) % U32

/-- Unsigned 32-bit subtraction. -/
def usub32 (a b : Nat) : Nat := (a + (U32 - b % U32)) % U32

/-- Enumeration `enum rte_swx_table_match_type`. -/
inductive match_type where
  | WILDCARD
  | LPM
  | EXACT
deriving DecidableEq, Repr

/-- Entry `struct rte_swx_table_entry` (queue linkage left to the list). -/
structure rte_swx_table_entry where
  key : Option (List Nat)
  key_mask : Option (List Nat)
  key_signature : Nat
  key_priority : Nat
  action_id : Nat
  action_data : Option (List Nat)
deriving DecidableEq, Repr

/-- Match field `struct rte_swx_ctl_table_match_field_info`. -/
structure match_field_info where
  mtype : match_type
  is_header : Bool
  n_bits : Nat
  offset : Nat
deriving DecidableEq, Repr

/-- Parameters `struct rte_swx_table_params`. -/
structure rte_swx_table_params where
  mtype : match_type
  key_size : Nat
  key_offset : Nat
  key_mask0 : Option (List Nat)
  action_data_size : Nat
  n_keys_max : Nat
deriving DecidableEq, Repr

/-- Action argument `struct rte_swx_ctl_action_arg_info`. -/
structure action_arg_info where
  name : String
  n_bits : Nat
deriving DecidableEq, Repr

/-- Controller-side action `struct action`: the name of `info`, the arguments
(`info.n_args` is the length of `args`) and `data_size`. -/
structure action where
  name : String
  args : List action_arg_info
  data_size : Nat
deriving DecidableEq, Repr

/-- Controller-side table `struct table`.  `info_*` are the fields of
`struct rte_swx_ctl_table_info` the code reads, `actions` the `action_id`s of
`struct rte_swx_ctl_table_action_info`, `ops_add` and `ops_free` tell whether
`ops.add` and `ops.free` are set. -/
structure table where
  info_name : String
  info_default_action_is_const : Bool
  info_size : Nat
  mf : List match_field_info
  actions : List Nat
  ops_add : Bool
  ops_free : Bool
  params : rte_swx_table_params
  entries : List rte_swx_table_entry
  pending_add : List rte_swx_table_entry
  pending_modify0 : List rte_swx_table_entry
  pending_modify1 : List rte_swx_table_entry
  pending_delete : List rte_swx_table_entry
  pending_default : Option rte_swx_table_entry
  is_stub : Bool
  n_add : Nat
  n_modify : Nat
  n_delete : Nat
deriving DecidableEq, Repr

/-- Byte `i` of a buffer that may be `NULL`; `dflt` stands for the `NULL` buffer. -/
def byte_at (buf : Option (List Nat)) (i dflt : Nat) : Nat :=
  match buf with
  | none => dflt
  | some l => l.getD i 0

/-- One iteration of the loop of `table_entry_keycmp`: `true` when neither the
mask comparison nor the value comparison returns `1` at byte `i`. -/
def keycmp_byte (params : rte_swx_table_params) (e0 e1 : rte_swx_table_entry) (i : Nat) : Bool :=
  let km0 := byte_at params.key_mask0 i 0xFF
  let km_0 := byte_at e0.key_mask i 0xFF
  let km_1 := byte_at e1.key_mask i 0xFF
  let k_0 := byte_at e0.key i 0
  let k_1 := byte_at e1.key i 0
  if (km_0 &&& km0) ≠ (km_1 &&& km0) then false
  else if (k_0 &&& km_0 &&& km0) ≠ (k_1 &&& km_1 &&& km0) then false
  else true

/-- Function `table_entry_keycmp`: `0` when equal, `1` when not. -/
def table_entry_keycmp (params : rte_swx_table_params) (e0 e1 : rte_swx_table_entry) : Int :=
  if (List.range params.key_size).all (fun i => keycmp_byte params e0 e1 i) then 0 else 1

/-- The call `memset(&buf[start], 0xFF, size)` on a buffer held as a list. -/
def memset_ff (buf : List Nat) (start size : Nat) : List Nat :=
  (List.range buf.length).map
    (fun j => if start ≤ j ∧ j < start + size then 0xFF else buf.getD j 0)

/-- The first loop of `table_params_get`: the index of the first match field
that is not exact, the number of fields when all are. -/
def first_not_exact : List match_field_info → Nat
  | [] => 0
  | f :: rest => if f.mtype ≠ match_type.EXACT then 0 else 1 + first_not_exact rest

/-- The key mask loop of `table_params_get`: one `memset` per match field. -/
def key_mask_fill (first : match_field_info) (key_mask : List Nat) :
    List match_field_info → List Nat
  | [] => key_mask
  | f :: rest =>
    key_mask_fill first (memset_ff key_mask (usub32 f.offset first.offset / 8) (f.n_bits / 8)) rest

/-- The action data size loop of `table_params_get`: the largest `data_size`
among the actions of the table. -/
def action_data_size_max (ctl_actions : List action) (acc : Nat) : List Nat → Nat
  | [] => acc
  | action_id :: rest =>
    let a_data_size :=
      (ctl_actions.getD action_id { name := "", args := [], data_size := 0 }).data_size
    action_data_size_max ctl_actions (if a_data_size > acc then a_data_size else acc) rest

/-- Function `table_params_get` on `ctl->tables[table_id]`, reading
`ctl->actions`; `callocOk` is the outcome of the `calloc` of the key mask. -/
def table_params_get (ctl_actions : List action) (t : table) (callocOk : Bool) : Int × table :=
  let fill (mtype : match_type) (key_size key_offset : Nat) (key_mask : Option (List Nat)) : table :=
    { t with params :=
        { mtype := mtype, key_size := key_size, key_offset := key_offset, key_mask0 := key_mask,
          action_data_size := action_data_size_max ctl_actions 0 t.actions,
          n_keys_max := t.info_size } }
  match t.mf.head?, t.mf.getLast? with
  | some first, some last =>
    let i := first_not_exact t.mf
    let mtype :=
      if i = t.mf.length then match_type.EXACT
      else if i = t.mf.length - 1 ∧ last.mtype = match_type.LPM then match_type.LPM
      else match_type.WILDCARD
    let key_offset := first.offset / 8
    let key_size := usub32 (uadd32 last.offset last.n_bits) first.offset / 8
    if callocOk then
      (0, fill mtype key_size key_offset
        (some (key_mask_fill first (List.replicate key_size 0) t.mf)))
    else (-ENOMEM, t)
  | _, _ => (0, fill match_type.WILDCARD 0 0 none)

/-- Function `table_entry_key_check_em`. -/
def table_entry_key_check_em (t : table) (entry : rte_swx_table_entry) : Int :=
  match entry.key_mask with
  | none => 0
  | some key_mask =>
    if (List.range t.params.key_size).all
        (fun i => (key_mask.getD i 0 &&& byte_at t.params.key_mask0 i 0)
          = byte_at t.params.key_mask0 i 0)
    then 0 else -EINVAL

/-- The action of `ctl->actions` with index `action_id`. -/
def action_at (ctl_actions : List action) (action_id : Nat) : action :=
  ctl_actions.getD action_id { name := "", args := [], data_size := 0 }

/-- Function `table_entry_check` on `ctl->tables[table_id]`, reading
`ctl->actions`. -/
def table_entry_check (ctl_actions : List action) (t : table)
    (entry : Option rte_swx_table_entry) (key_check data_check : Bool) : Int :=
  match entry with
  | none => -EINVAL
  | some e =>
    let key_status : Int :=
      if key_check then
        if t.is_stub then
          if e.key.isSome then -EINVAL
          else if e.key_mask.isSome then -EINVAL
          else 0
        else
          if e.key.isNone then -EINVAL
          else
            match t.params.mtype with
            | match_type.WILDCARD => 0
            | match_type.LPM => 0
            | match_type.EXACT => table_entry_key_check_em t e
      else 0
    if key_status ≠ 0 then key_status
    else if data_check then
      if e.action_id ∉ t.actions then -EINVAL
      else
        let a := action_at ctl_actions e.action_id
        if (a.data_size ≠ 0 ∧ e.action_data.isSome) ∨ (a.data_size = 0 ∧ e.action_data.isNone)
        then 0 else -EINVAL
    else 0

/-- The call `memcpy(dst, src, n)` into a fresh buffer of `n` bytes. -/
def copy_bytes (n : Nat) (src : List Nat) : List Nat :=
  (List.range n).map (fun i => src.getD i 0)

/-- A buffer of `size` zero bytes whose first `n` bytes are then copied from
`src`: `calloc(1, size)` followed by `memcpy(dst, src, n)`. -/
def calloc_copy (size n : Nat) (src : List Nat) : List Nat :=
  (List.range size).map (fun i => if i < n then src.getD i 0 else 0)

/-- Function `table_entry_duplicate` on `ctl->tables[table_id]`, reading
`ctl->actions`; `mallocOk` is the outcome of its allocations. -/
def table_entry_duplicate (ctl_actions : List action) (t : table)
    (entry : Option rte_swx_table_entry) (key_duplicate data_duplicate : Bool)
    (mallocOk : Bool) : Option rte_swx_table_entry :=
  match entry with
  | none => none
  | some e =>
    if ¬ mallocOk then none
    else
      let with_key : Option rte_swx_table_entry :=
        if key_duplicate ∧ ¬ t.is_stub then
          match e.key with
          | none => none
          | some key =>
            some { key := some (copy_bytes t.params.key_size key),
                   key_mask := e.key_mask.map (copy_bytes t.params.key_size),
                   key_signature := e.key_signature,
                   key_priority := e.key_priority,
                   action_id := 0,
                   action_data := none }
        else
          some { key := none, key_mask := none, key_signature := 0, key_priority := 0,
                 action_id := 0, action_data := none }
      match with_key with
      | none => none
      | some new_entry =>
        if data_duplicate then
          if e.action_id ∉ t.actions then none
          else
            let a := action_at ctl_actions e.action_id
            if a.data_size ≠ 0 ∧ e.action_data.isNone then none
            else
              some { new_entry with
                action_id := e.action_id,
                action_data := some (calloc_copy t.params.action_data_size a.data_size
                  (e.action_data.getD [])) }
        else some new_entry

/-- The test of the `table_*_find` loops: `!table_entry_keycmp(table, entry, e)`. -/
def key_equal (params : rte_swx_table_params) (entry e : rte_swx_table_entry) : Bool :=
  decide (table_entry_keycmp params entry e = 0)

/-- Function `table_entries_find`. -/
def table_entries_find (t : table) (entry : rte_swx_table_entry) : Option rte_swx_table_entry :=
  t.entries.find? (key_equal t.params entry)

/-- Function `table_pending_add_find`. -/
def table_pending_add_find (t : table) (entry : rte_swx_table_entry) :
    Option rte_swx_table_entry :=
  t.pending_add.find? (key_equal t.params entry)

/-- Function `table_pending_modify0_find`. -/
def table_pending_modify0_find (t : table) (entry : rte_swx_table_entry) :
    Option rte_swx_table_entry :=
  t.pending_modify0.find? (key_equal t.params entry)

/-- Function `table_pending_modify1_find`. -/
def table_pending_modify1_find (t : table) (entry : rte_swx_table_entry) :
    Option rte_swx_table_entry :=
  t.pending_modify1.find? (key_equal t.params entry)

/-- Function `table_pending_delete_find`. -/
def table_pending_delete_find (t : table) (entry : rte_swx_table_entry) :
    Option rte_swx_table_entry :=
  t.pending_delete.find? (key_equal t.params entry)

/-- The pair `TAILQ_INSERT_AFTER(list, existing, new)`, `TAILQ_REMOVE(list, existing)`
for the first element `existing` that passes `p`: it is replaced in place. -/
def replace_first (p : rte_swx_table_entry → Bool) (new_entry : rte_swx_table_entry) :
    List rte_swx_table_entry → List rte_swx_table_entry
  | [] => []
  | e :: rest => if p e then new_entry :: rest else e :: replace_first p new_entry rest

/-- The list part of `rte_swx_ctl_pipeline_table_entry_add` (after the checks and
the duplication): `entry` is the caller's entry, `new_entry` its duplicate.  A
found element is the first one of its list that is key-equal to `entry`, so
unlinking it is `eraseP`. -/
def entry_add_lists (t : table) (entry new_entry : rte_swx_table_entry) : table :=
  match table_entries_find t entry with
  | some existing_entry =>
    { t with
      pending_modify1 := t.pending_modify1 ++ [new_entry],
      entries := t.entries.eraseP (key_equal t.params entry),
      pending_modify0 := t.pending_modify0 ++ [existing_entry] }
  | none =>
    match table_pending_add_find t entry with
    | some _ =>
      { t with pending_add := replace_first (key_equal t.params entry) new_entry t.pending_add }
    | none =>
      match table_pending_modify1_find t entry with
      | some _ =>
        { t with
          pending_modify1 := replace_first (key_equal t.params entry) new_entry t.pending_modify1 }
      | none =>
        match table_pending_delete_find t entry with
        | some existing_entry =>
          { t with
            pending_modify1 := t.pending_modify1 ++ [new_entry],
            pending_delete := t.pending_delete.eraseP (key_equal t.params entry),
            pending_modify0 := t.pending_modify0 ++ [existing_entry] }
        | none => { t with pending_add := t.pending_add ++ [new_entry] }

/-- The list part of `rte_swx_ctl_pipeline_table_entry_delete` (after the
checks).  After an element of `pending_add` is removed the code goes on to the
`pending_modify1` search. -/
def entry_delete_lists (t : table) (entry : rte_swx_table_entry) : Int × table :=
  match table_entries_find t entry with
  | some existing_entry =>
    (0, { t with
      entries := t.entries.eraseP (key_equal t.params entry),
      pending_delete := t.pending_delete ++ [existing_entry] })
  | none =>
    let t₁ : table :=
      match table_pending_add_find t entry with
      | some _ => { t with pending_add := t.pending_add.eraseP (key_equal t.params entry) }
      | none => t
    match table_pending_modify1_find t₁ entry with
    | some _ =>
      let t₂ : table :=
        { t₁ with pending_modify1 := t₁.pending_modify1.eraseP (key_equal t₁.params entry) }
      match table_pending_modify0_find t₂ entry with
      | none => (-EINVAL, t₂)
      | some real_existing_entry =>
        (0, { t₂ with
          pending_modify0 := t₂.pending_modify0.eraseP (key_equal t₂.params entry),
          pending_delete := t₂.pending_delete ++ [real_existing_entry] })
    | none => (0, t₁)

/-- Table state `struct rte_swx_table_state`; `obj` is an opaque handle. -/
structure rte_swx_table_state where
  obj : Option Nat
  default_action_data : List Nat
  default_action_id : Nat
deriving DecidableEq, Repr

/-- Controller `struct rte_swx_ctl_pipeline`: `info.n_actions` and
`info.n_tables` are the lengths of `actions` and `tables`. -/
structure rte_swx_ctl_pipeline where
  actions : List action
  tables : List table
  ts : List rte_swx_table_state
  ts_next : List rte_swx_table_state
deriving DecidableEq, Repr

/-- Function `table_find`: index and value of the first table with that name. -/
def table_find_from (i : Nat) : List table → String → Option (Nat × table)
  | [], _ => none
  | t :: rest, table_name =>
    if table_name = t.info_name then some (i, t) else table_find_from (i + 1) rest table_name

/-- Function `table_find` on the controller. -/
def table_find (ctl : rte_swx_ctl_pipeline) (table_name : String) : Option (Nat × table) :=
  table_find_from 0 ctl.tables table_name

/-- Function `rte_swx_ctl_pipeline_table_entry_add`.  The controller is not
`NULL`; `table_name` and `entry` may be; `mallocOk` is the outcome of the
allocations of `table_entry_duplicate`. -/
def rte_swx_ctl_pipeline_table_entry_add (ctl : rte_swx_ctl_pipeline)
    (table_name : Option String) (entry : Option rte_swx_table_entry) (mallocOk : Bool) :
    Int × rte_swx_ctl_pipeline :=
  match table_name with
  | none => (-EINVAL, ctl)
  | some name =>
    if name = "" then (-EINVAL, ctl)
    else
      match table_find ctl name with
      | none => (-EINVAL, ctl)
      | some (table_id, t) =>
        match entry with
        | none => (-EINVAL, ctl)
        | some e =>
          if table_entry_check ctl.actions t (some e) true true ≠ 0 then (-EINVAL, ctl)
          else
            match table_entry_duplicate ctl.actions t (some e) true true mallocOk with
            | none => (-ENOMEM, ctl)
            | some new_entry =>
              (0, { ctl with tables := ctl.tables.set table_id (entry_add_lists t e new_entry) })

/-- Function `rte_swx_ctl_pipeline_table_entry_delete`. -/
def rte_swx_ctl_pipeline_table_entry_delete (ctl : rte_swx_ctl_pipeline)
    (table_name : Option String) (entry : Option rte_swx_table_entry) :
    Int × rte_swx_ctl_pipeline :=
  match table_name with
  | none => (-EINVAL, ctl)
  | some name =>
    if name = "" then (-EINVAL, ctl)
    else
      match table_find ctl name with
      | none => (-EINVAL, ctl)
      | some (table_id, t) =>
        match entry with
        | none => (-EINVAL, ctl)
        | some e =>
          if table_entry_check ctl.actions t (some e) true false ≠ 0 then (-EINVAL, ctl)
          else
            ((entry_delete_lists t e).1,
              { ctl with tables := ctl.tables.set table_id (entry_delete_lists t e).2 })

/-- Function `rte_swx_ctl_pipeline_table_default_entry_add`. -/
def rte_swx_ctl_pipeline_table_default_entry_add (ctl : rte_swx_ctl_pipeline)
    (table_name : Option String) (entry : Option rte_swx_table_entry) (mallocOk : Bool) :
    Int × rte_swx_ctl_pipeline :=
  match table_name with
  | none => (-EINVAL, ctl)
  | some name =>
    if name = "" then (-EINVAL, ctl)
    else
      match table_find ctl name with
      | none => (-EINVAL, ctl)
      | some (table_id, t) =>
        if t.info_default_action_is_const then (-EINVAL, ctl)
        else
          match entry with
          | none => (-EINVAL, ctl)
          | some e =>
            if table_entry_check ctl.actions t (some e) false true ≠ 0 then (-EINVAL, ctl)
            else
              match table_entry_duplicate ctl.actions t (some e) false true mallocOk with
              | none => (-ENOMEM, ctl)
              | some new_entry =>
                (0, { ctl with
                  tables := ctl.tables.set table_id { t with pending_default := some new_entry } })

/-- A call that leaves the controller: a backend operation of a table
(`ops.add`, `ops.del`, `ops.create`, `ops.free`) with its arguments and result,
or `rte_swx_pipeline_table_state_set` with the array it publishes. -/
inductive event where
  | add (table_id : Nat) (obj : Option Nat) (entry : rte_swx_table_entry) (status : Int)
  | del (table_id : Nat) (obj : Option Nat) (entry : rte_swx_table_entry) (status : Int)
  | create (table_id : Nat) (entries : List rte_swx_table_entry) (obj : Option Nat)
  | free (table_id : Nat) (obj : Option Nat)
  | table_state_set (ts : List rte_swx_table_state)
deriving DecidableEq, Repr

/-- What is outside the code during a commit: the result of each backend call
and of each allocation, as a function of the calls made so far. -/
structure backend where
  add : List event → Nat → Option Nat → rte_swx_table_entry → Int
  del : List event → Nat → Option Nat → rte_swx_table_entry → Int
  create : List event → Nat → List rte_swx_table_entry → Option Nat
  malloc_ok : List event → Nat → Nat → Bool

/-- Function `table_is_update_pending`: the 32-bit counter `n`. -/
def table_is_update_pending (t : table) (consider_pending_default : Bool) : Nat :=
  (t.pending_add.length + t.pending_modify1.length + t.pending_delete.length
    + (if consider_pending_default ∧ t.pending_default.isSome then 1 else 0)) % U32

/-- Function `table_entry_list_duplicate`: `dst` extended by duplicates of the
elements of `src`, or `-ENOMEM` and the freed (empty) list when a duplication
fails.  The allocation outcome of a duplication is asked for the position the
duplicate takes in `dst`. -/
def table_entry_list_duplicate (ctl_actions : List action) (t : table) (mallocOk : Nat → Bool)
    (dst : List rte_swx_table_entry) :
    List rte_swx_table_entry → Int × List rte_swx_table_entry
  | [] => (0, dst)
  | src_entry :: rest =>
    match table_entry_duplicate ctl_actions t (some src_entry) true true (mallocOk dst.length) with
    | none => (-ENOMEM, [])
    | some dst_entry => table_entry_list_duplicate ctl_actions t mallocOk (dst ++ [dst_entry]) rest

/-- One of the three loops of the incremental branch of `table_rollfwd0`:
`ops.add` (or `ops.del`) on each entry, stopping at the first nonzero status,
counting the calls that succeeded in a 32-bit counter. -/
def apply_calls (b : backend) (is_add : Bool) (table_id : Nat) (obj : Option Nat) :
    List rte_swx_table_entry → List event → Nat → Int × List event × Nat
  | [], log, n => (0, log, n)
  | entry :: rest, log, n =>
    let status := if is_add then b.add log table_id obj entry else b.del log table_id obj entry
    let log' := log ++ [if is_add then event.add table_id obj entry status
                        else event.del table_id obj entry status]
    if status ≠ 0 then (status, log', n)
    else apply_calls b is_add table_id obj rest log' (uadd32 n 1)

/-- Function `table_rollfwd0` on table `table_id`: the status, the table (its
counters), the `ts_next` element and the calls made. -/
def table_rollfwd0 (b : backend) (ctl_actions : List action) (table_id : Nat) (t : table)
    (ts ts_next : rte_swx_table_state) (after_swap : Bool) (log : List event) :
    Int × table × rte_swx_table_state × List event :=
  if t.is_stub ∨ table_is_update_pending t false = 0 then (0, t, ts_next, log)
  else if t.ops_add then
    let r_add := apply_calls b true table_id ts_next.obj t.pending_add log 0
    if r_add.1 ≠ 0 then
      (r_add.1, { t with n_add := r_add.2.2, n_modify := 0, n_delete := 0 }, ts_next, r_add.2.1)
    else
      let r_mod := apply_calls b true table_id ts_next.obj t.pending_modify1 r_add.2.1 0
      if r_mod.1 ≠ 0 then
        (r_mod.1, { t with n_add := r_add.2.2, n_modify := r_mod.2.2, n_delete := 0 }, ts_next,
          r_mod.2.1)
      else
        let r_del := apply_calls b false table_id ts_next.obj t.pending_delete r_mod.2.1 0
        (r_del.1, { t with n_add := r_add.2.2, n_modify := r_mod.2.2, n_delete := r_del.2.2 },
          ts_next, r_del.2.1)
  else if ¬ after_swap then
    let d₀ := table_entry_list_duplicate ctl_actions t (b.malloc_ok log table_id) [] t.entries
    if d₀.1 ≠ 0 then (d₀.1, t, ts_next, log)
    else
      let d₁ := table_entry_list_duplicate ctl_actions t (b.malloc_ok log table_id) d₀.2
        t.pending_add
      if d₁.1 ≠ 0 then (d₁.1, t, ts_next, log)
      else
        let d₂ := table_entry_list_duplicate ctl_actions t (b.malloc_ok log table_id) d₁.2
          t.pending_modify1
        if d₂.1 ≠ 0 then (d₂.1, t, ts_next, log)
        else
          let obj := b.create log table_id d₂.2
          let log' := log ++ [event.create table_id d₂.2 obj]
          match obj with
          | none => (-ENODEV, t, { ts_next with obj := none }, log')
          | some o => (0, t, { ts_next with obj := some o }, log')
  else
    let log' := if ts_next.obj.isSome ∧ t.ops_free then log ++ [event.free table_id ts_next.obj]
                else log
    (0, t, { ts_next with obj := ts.obj }, log')

/-- The call `memcpy(dst, src, n)` into an existing buffer. -/
def overwrite_bytes (dst : List Nat) (n : Nat) (src : List Nat) : List Nat :=
  (List.range dst.length).map (fun i => if i < n then src.getD i 0 else dst.getD i 0)

/-- Function `table_rollfwd1`: the `ts_next` element after the copy of the
pending default entry. -/
def table_rollfwd1 (ctl_actions : List action) (t : table) (ts_next : rte_swx_table_state) :
    rte_swx_table_state :=
  match t.pending_default with
  | none => ts_next
  | some pending_default =>
    let a := action_at ctl_actions pending_default.action_id
    { ts_next with
      default_action_data := overwrite_bytes ts_next.default_action_data a.data_size
        (pending_default.action_data.getD []),
      default_action_id := pending_default.action_id }

/-- Function `table_rollfwd2`. -/
def table_rollfwd2 (t : table) : table :=
  { t with
    entries := t.entries ++ t.pending_add ++ t.pending_modify1,
    pending_add := [],
    pending_modify1 := [],
    pending_modify0 := [],
    pending_delete := [],
    pending_default := none }

/-- One of the three loops of the incremental branch of `table_rollback`: while
the counter is not zero, `ops.add` (or `ops.del`) on the next entry, its status
dropped, and the counter decremented. -/
def undo_calls (b : backend) (is_add : Bool) (table_id : Nat) (obj : Option Nat) :
    List rte_swx_table_entry → List event → Nat → List event × Nat
  | [], log, n => (log, n)
  | entry :: rest, log, n =>
    if n = 0 then (log, n)
    else
      let status := if is_add then b.add log table_id obj entry else b.del log table_id obj entry
      undo_calls b is_add table_id obj rest
        (log ++ [if is_add then event.add table_id obj entry status
                 else event.del table_id obj entry status])
        (n - 1)

/-- Function `table_rollback` on table `table_id`. -/
def table_rollback (b : backend) (table_id : Nat) (t : table)
    (ts ts_next : rte_swx_table_state) (log : List event) :
    table × rte_swx_table_state × List event :=
  if t.is_stub ∨ table_is_update_pending t false = 0 then (t, ts_next, log)
  else if t.ops_add then
    let r_del := undo_calls b true table_id ts_next.obj t.pending_delete log t.n_delete
    let r_mod := undo_calls b true table_id ts_next.obj t.pending_modify0 r_del.1 t.n_modify
    let r_add := undo_calls b false table_id ts_next.obj t.pending_add r_mod.1 t.n_add
    ({ t with n_delete := r_del.2, n_modify := r_mod.2, n_add := r_add.2 }, ts_next, r_add.1)
  else
    let log' := if ts_next.obj.isSome ∧ t.ops_free then log ++ [event.free table_id ts_next.obj]
                else log
    (t, { ts_next with obj := ts.obj }, log')

/-- Function `table_abort`. -/
def table_abort (t : table) : table :=
  { t with
    pending_add := [],
    pending_modify1 := [],
    entries := t.entries ++ t.pending_modify0 ++ t.pending_delete,
    pending_modify0 := [],
    pending_delete := [],
    pending_default := none }

/-- The controller and the calls made so far, as threaded through a commit. -/
structure commit_state where
  ctl : rte_swx_ctl_pipeline
  log : List event

/-- The call `table_rollfwd0(ctl, i, after_swap)`: it reads `ctl->tables[i]`,
`ctl->ts[i]`, `ctl->ts_next[i]` and writes the table and the `ts_next` element. -/
def rollfwd0_at (b : backend) (after_swap : Bool) (s : commit_state) (i : Nat) :
    Int × commit_state :=
  match s.ctl.tables[i]?, s.ctl.ts[i]?, s.ctl.ts_next[i]? with
  | some t, some ts, some ts_next =>
    let r := table_rollfwd0 b s.ctl.actions i t ts ts_next after_swap s.log
    (r.1, { ctl := { s.ctl with tables := s.ctl.tables.set i r.2.1,
                                ts_next := s.ctl.ts_next.set i r.2.2.1 },
            log := r.2.2.2 })
  | _, _, _ => (0, s)

/-- The call `table_rollfwd1(ctl, i)`. -/
def rollfwd1_at (s : commit_state) (i : Nat) : commit_state :=
  match s.ctl.tables[i]?, s.ctl.ts_next[i]? with
  | some t, some ts_next =>
    { s with ctl := { s.ctl with
        ts_next := s.ctl.ts_next.set i (table_rollfwd1 s.ctl.actions t ts_next) } }
  | _, _ => s

/-- The call `table_rollfwd2(ctl, i)`. -/
def rollfwd2_at (s : commit_state) (i : Nat) : commit_state :=
  match s.ctl.tables[i]? with
  | some t => { s with ctl := { s.ctl with tables := s.ctl.tables.set i (table_rollfwd2 t) } }
  | none => s

/-- The call `table_rollback(ctl, i)`. -/
def rollback_at (b : backend) (s : commit_state) (i : Nat) : commit_state :=
  match s.ctl.tables[i]?, s.ctl.ts[i]?, s.ctl.ts_next[i]? with
  | some t, some ts, some ts_next =>
    let r := table_rollback b i t ts ts_next s.log
    { ctl := { s.ctl with tables := s.ctl.tables.set i r.1,
                          ts_next := s.ctl.ts_next.set i r.2.1 },
      log := r.2.2 }
  | _, _, _ => s

/-- The call `table_abort(ctl, i)`. -/
def abort_at (s : commit_state) (i : Nat) : commit_state :=
  match s.ctl.tables[i]? with
  | some t => { s with ctl := { s.ctl with tables := s.ctl.tables.set i (table_abort t) } }
  | none => s

/-- The first loop of `rte_swx_ctl_pipeline_commit`: `table_rollfwd0(ctl, i, 0)`
for each table in turn, left at the first nonzero status. -/
def commit_stage0 (b : backend) : List Nat → commit_state → Int × commit_state
  | [], s => (0, s)
  | i :: rest, s =>
    let r := rollfwd0_at b false s i
    if r.1 ≠ 0 then r else commit_stage0 b rest r.2

/-- The loop after the swap: `table_rollfwd0(ctl, i, 1)` (status dropped),
`table_rollfwd1(ctl, i)`, `table_rollfwd2(ctl, i)` for each table. -/
def commit_after_swap (b : backend) (s : commit_state) (i : Nat) : commit_state :=
  rollfwd2_at (rollfwd1_at (rollfwd0_at b true s i).2 i) i

/-- The loop at label `rollback`: `table_rollback(ctl, i)` and, with
`abort_on_fail`, `table_abort(ctl, i)` for each table. -/
def commit_rollback (b : backend) (abort_on_fail : Bool) (s : commit_state) (i : Nat) :
    commit_state :=
  if abort_on_fail then abort_at (rollback_at b s i) i else rollback_at b s i

/-- Function `rte_swx_ctl_pipeline_commit`, with the calls it makes. -/
def rte_swx_ctl_pipeline_commit (b : backend) (ctl : rte_swx_ctl_pipeline)
    (abort_on_fail : Bool) : Int × rte_swx_ctl_pipeline × List event :=
  let idx := List.range ctl.tables.length
  let r₀ := commit_stage0 b idx { ctl := ctl, log := [] }
  if r₀.1 ≠ 0 then
    let s := idx.foldl (commit_rollback b abort_on_fail) r₀.2
    (r₀.1, s.ctl, s.log)
  else
    let s₁ := idx.foldl rollfwd1_at r₀.2
    let s₂ : commit_state :=
      { ctl := { s₁.ctl with ts := s₁.ctl.ts_next, ts_next := s₁.ctl.ts },
        log := s₁.log ++ [event.table_state_set s₁.ctl.ts_next] }
    let s₃ := idx.foldl (commit_after_swap b) s₂
    (0, s₃.ctl, s₃.log)

/-- Function `rte_swx_ctl_pipeline_abort`. -/
def rte_swx_ctl_pipeline_abort (ctl : rte_swx_ctl_pipeline) : rte_swx_ctl_pipeline :=
  ((List.range ctl.tables.length).foldl abort_at { ctl := ctl, log := [] }).ctl

/-- A call of the public interface on a controller. -/
inductive ctl_op where
  | entry_add (table_name : Option String) (entry : Option rte_swx_table_entry) (mallocOk : Bool)
  | entry_delete (table_name : Option String) (entry : Option rte_swx_table_entry)
  | default_entry_add (table_name : Option String) (entry : Option rte_swx_table_entry)
      (mallocOk : Bool)
  | commit (b : backend) (abort_on_fail : Bool)
  | abort

/-- Controller after one call. -/
def ctl_step (ctl : rte_swx_ctl_pipeline) : ctl_op → rte_swx_ctl_pipeline
  | .entry_add table_name entry ok =>
    (rte_swx_ctl_pipeline_table_entry_add ctl table_name entry ok).2
  | .entry_delete table_name entry =>
    (rte_swx_ctl_pipeline_table_entry_delete ctl table_name entry).2
  | .default_entry_add table_name entry ok =>
    (rte_swx_ctl_pipeline_table_default_entry_add ctl table_name entry ok).2
  | .commit b abort_on_fail => (rte_swx_ctl_pipeline_commit b ctl abort_on_fail).2.1
  | .abort => rte_swx_ctl_pipeline_abort ctl

/-- Controller after a sequence of calls. -/
def ctl_run (ctl : rte_swx_ctl_pipeline) : List ctl_op → rte_swx_ctl_pipeline
  | [] => ctl
  | op :: ops => ctl_run (ctl_step ctl op) ops

/-! ## Predicates used to state the properties of the controller -/

/-- Every table of the controller is empty, as `rte_swx_ctl_pipeline_create`
leaves it: the five lists are empty and there is no pending default. -/
def tables_empty (ctl : rte_swx_ctl_pipeline) : Prop :=
  ∀ t ∈ ctl.tables, t.entries = [] ∧ t.pending_add = [] ∧ t.pending_modify0 = [] ∧
    t.pending_modify1 = [] ∧ t.pending_delete = [] ∧ t.pending_default = none

/-- What `table_entry_keycmp` compares of an entry: for each byte of the key, the
entry mask under the table mask and the key byte under both. -/
def key_class (params : rte_swx_table_params) (e : rte_swx_table_entry) : List (Nat × Nat) :=
  (List.range params.key_size).map (fun i =>
    (byte_at e.key_mask i 0xFF &&& byte_at params.key_mask0 i 0xFF,
     byte_at e.key i 0 &&& byte_at e.key_mask i 0xFF &&& byte_at params.key_mask0 i 0xFF))

/-- The staging invariants of a table: no two elements of `entries`,
`pending_add`, `pending_modify1`, `pending_delete` taken together have the same
key, and `pending_modify0`, `pending_modify1` hold the same keys position by
position. -/
def staging_inv (t : table) : Prop :=
  ((t.entries ++ t.pending_add ++ t.pending_modify1 ++ t.pending_delete).map
      (key_class t.params)).Nodup ∧
  t.pending_modify0.map (key_class t.params) = t.pending_modify1.map (key_class t.params)

/-- The table a call concerns, for a backend call. -/
def event_table_id : event → Option Nat
  | .add table_id _ _ _ => some table_id
  | .del table_id _ _ _ => some table_id
  | .create table_id _ _ => some table_id
  | .free table_id _ => some table_id
  | .table_state_set _ => none

/-- The table has no staged entries. -/
def nothing_staged (t : table) : Prop :=
  t.pending_add = [] ∧ t.pending_modify0 = [] ∧ t.pending_modify1 = [] ∧ t.pending_delete = []

/-- Byte `j` of the key lies in the bytes `memset` by `table_params_get` for
match field `f`: the `n_bits / 8` bytes from byte `(f.offset - first.offset) / 8`. -/
def field_covers (first f : match_field_info) (j : Nat) : Prop :=
  usub32 f.offset first.offset / 8 ≤ j ∧ j < usub32 f.offset first.offset / 8 + f.n_bits / 8

instance (first f : match_field_info) (j : Nat) : Decidable (field_covers first f j) := by
  unfold field_covers; infer_instance

/-! ## A concrete controller -/

/-- A table named `t0` with one exact-match field of 32 bits at offset 0, one
action, and an incremental backend (`ops.add` is set); nothing is installed or
staged. -/
def example_table : table :=
  { info_name := "t0"
    info_default_action_is_const := false
    info_size := 1024
    mf := [{ mtype := match_type.EXACT, is_header := true, n_bits := 32, offset := 0 }]
    actions := [0]
    ops_add := true
    ops_free := true
    params :=
      { mtype := match_type.EXACT
        key_size := 4
        key_offset := 0
        key_mask0 := some [255, 255, 255, 255]
        action_data_size := 2
        n_keys_max := 1024 }
    entries := []
    pending_add := []
    pending_modify0 := []
    pending_modify1 := []
    pending_delete := []
    pending_default := none
    is_stub := false
    n_add := 0
    n_modify := 0
    n_delete := 0 }

/-- A controller with one action of two data bytes and the table `t0`. -/
def example_ctl : rte_swx_ctl_pipeline :=
  { actions := [{ name := "fwd", args := [{ name := "port", n_bits := 16 }], data_size := 2 }]
    tables := [example_table]
    ts := [{ obj := some 1, default_action_data := [0, 0], default_action_id := 0 }]
    ts_next := [{ obj := some 2, default_action_data := [0, 0], default_action_id := 0 }] }

/-- The entry with key bytes `10, 0, 0, k`, no mask, action 0 and action data
`0, a`. -/
def example_entry (k a : Nat) : rte_swx_table_entry :=
  { key := some [10, 0, 0, k]
    key_mask := none
    key_signature := 0
    key_priority := 0
    action_id := 0
    action_data := some [0, a] }

/-- A backend whose every call and allocation succeeds. -/
def example_backend : backend :=
  { add := fun _ _ _ _ => 0
    del := fun _ _ _ _ => 0
    create := fun _ _ _ => some 9
    malloc_ok := fun _ _ _ => true }

/-- A table with an exact-match field of 32 bits at offset 64 and a
longest-prefix field of 16 bits at offset 96. -/
def example_lpm_table : table :=
  { example_table with
    mf := [{ mtype := match_type.EXACT, is_header := true, n_bits := 32, offset := 64 },
           { mtype := match_type.LPM, is_header := true, n_bits := 16, offset := 96 }] }

/-- Calls that install the keys `10, 0, 0, 1` and `10, 0, 0, 2` in table `t0`. -/
def example_install_ops : List ctl_op :=
  [.entry_add (some "t0") (some (example_entry 1 1)) true,
   .entry_add (some "t0") (some (example_entry 2 1)) true,
   .commit example_backend false]

/-- Calls that, after `example_install_ops`, stage a modify of key `10, 0, 0, 1`,
an add of key `10, 0, 0, 3` and a delete of key `10, 0, 0, 2`. -/
def example_stage_ops : List ctl_op :=
  [.entry_add (some "t0") (some (example_entry 1 5)) true,
   .entry_add (some "t0") (some (example_entry 3 1)) true,
   .entry_delete (some "t0") (some (example_entry 2 0))]

/-- The concrete controller with two entries installed and nothing staged. -/
def example_installed : rte_swx_ctl_pipeline :=
  ctl_run example_ctl example_install_ops

/-- The concrete controller with two entries installed and then a modify, an add
and a delete staged. -/
def example_staged : rte_swx_ctl_pipeline :=
  ctl_run example_ctl (example_install_ops ++ example_stage_ops)

/-- The table of a controller that has one table. -/
def table0 (ctl : rte_swx_ctl_pipeline) : table :=
  ctl.tables.getD 0 example_table

/-- Every call of `log'` is a call of `log` or a backend call on table
`table_id`. -/
def log_extends (table_id : Nat) (log log' : List event) : Prop :=
  ∀ ev ∈ log', ev ∈ log ∨ event_table_id ev = some table_id

/-- During a commit, table `i` has nothing staged, its `entries` list is
`entries`, and no backend call was made for it. -/
def table_idle (i : Nat) (entries : List rte_swx_table_entry) (s : commit_state) : Prop :=
  (∃ t, s.ctl.tables[i]? = some t ∧ nothing_staged t ∧ t.entries = entries) ∧
  ∀ ev ∈ s.log, event_table_id ev ≠ some i

/-! ## Predicates used to follow one table through a commit -/

/-- The calls of `log` that concern table `i`. -/
def log_of (i : Nat) (log : List event) : List event :=
  log.filter (fun ev => decide (event_table_id ev = some i))

/-- What a commit holds for table `i`: the table, its `ts` and `ts_next`
elements, and the backend calls made for it. -/
def local_view (i : Nat) (s : commit_state) :
    Option table × Option rte_swx_table_state × Option rte_swx_table_state × List event :=
  (s.ctl.tables[i]?, s.ctl.ts[i]?, s.ctl.ts_next[i]?, log_of i s.log)

/-- The log `log'` is `log` followed by backend calls on table `table_id`. -/
def log_appends (table_id : Nat) (log log' : List event) : Prop :=
  ∃ extra, log' = log ++ extra ∧ ∀ ev ∈ extra, event_table_id ev = some table_id

/-- From `s` to `s'` only table `j`, its `ts_next` element and the log changed,
and the log grew by backend calls on table `j`. -/
def step_local (j : Nat) (s s' : commit_state) : Prop :=
  s'.ctl.actions = s.ctl.actions ∧ s'.ctl.ts = s.ctl.ts ∧
  s'.ctl.tables.length = s.ctl.tables.length ∧
  s'.ctl.ts_next.length = s.ctl.ts_next.length ∧
  (∀ i, i ≠ j → s'.ctl.tables[i]? = s.ctl.tables[i]? ∧
    s'.ctl.ts_next[i]? = s.ctl.ts_next[i]?) ∧
  log_appends j s.log s'.log

/-- The tables `t` and `u` differ at most in the counters `n_add`, `n_modify`
and `n_delete`. -/
def same_up_to_counters (t u : table) : Prop :=
  { u with n_add := 0, n_modify := 0, n_delete := 0 } =
    { t with n_add := 0, n_modify := 0, n_delete := 0 }

/-- The log `log'` is `log` followed by backend calls only. -/
def calls_only (log log' : List event) : Prop :=
  ∃ extra, log' = log ++ extra ∧ ∀ ev ∈ extra, event_table_id ev ≠ none

/-- From `s` to `s'` the actions, the `ts` array and the sizes of the arrays are
kept, and the log grew by backend calls only. -/
def step_frame (s s' : commit_state) : Prop :=
  s'.ctl.actions = s.ctl.actions ∧ s'.ctl.ts = s.ctl.ts ∧
  s'.ctl.tables.length = s.ctl.tables.length ∧
  s'.ctl.ts_next.length = s.ctl.ts_next.length ∧
  calls_only s.log s'.log

/-- The state of a commit whose first loop succeeded, after the loop of
`table_rollfwd1` that precedes the swap. -/
def commit_stage1 (b : backend) (ctl : rte_swx_ctl_pipeline) : commit_state :=
  (List.range ctl.tables.length).foldl rollfwd1_at
    (commit_stage0 b (List.range ctl.tables.length) { ctl := ctl, log := [] }).2

/-- The swap of a commit: `rte_swx_pipeline_table_state_set(ctl->p, ctl->ts_next)`
and the exchange of `ctl->ts` and `ctl->ts_next`. -/
def commit_swap (s : commit_state) : commit_state :=
  { ctl := { s.ctl with ts := s.ctl.ts_next, ts_next := s.ctl.ts },
    log := s.log ++ [event.table_state_set s.ctl.ts_next] }

/-- A backend whose first `add` of a commit succeeds and whose later `add`
calls fail; every other call and allocation succeeds. -/
def example_backend_one_add : backend :=
  { add := fun log _ _ _ => if log.isEmpty then 0 else -ENOMEM
    del := fun _ _ _ _ => 0
    create := fun _ _ _ => some 9
    malloc_ok := fun _ _ _ => true }

/-- The concrete controller with the keys `10, 0, 0, 1` and `10, 0, 0, 2` staged
for add. -/
def example_two_adds : rte_swx_ctl_pipeline :=
  ctl_run example_ctl
    [.entry_add (some "t0") (some (example_entry 1 1)) true,
     .entry_add (some "t0") (some (example_entry 2 1)) true]

/-! ## The entries committed last -/

/-- The entries of a table that a commit has installed and no later commit has
removed: `entries` and the entries moved from it to `pending_modify0` and
`pending_delete`. -/
def committed_entries (t : table) : List rte_swx_table_entry :=
  t.entries ++ t.pending_modify0 ++ t.pending_delete

/-- The `entries` list of each table as it was right after the last successful
commit of a sequence of calls, `snap` when there is none. -/
def ctl_run_committed (ctl : rte_swx_ctl_pipeline) (snap : List (List rte_swx_table_entry)) :
    List ctl_op → List (List rte_swx_table_entry)
  | [] => snap
  | .commit b abort_on_fail :: ops =>
    ctl_run_committed (ctl_step ctl (.commit b abort_on_fail))
      (if (rte_swx_ctl_pipeline_commit b ctl abort_on_fail).1 = 0
        then (ctl_step ctl (.commit b abort_on_fail)).tables.map (fun t => t.entries)
        else snap) ops
  | op :: ops => ctl_run_committed (ctl_step ctl op) snap ops

/-- Each table's committed entries are, up to order, the list of `snap` at its
index. -/
def committed_inv (ctl : rte_swx_ctl_pipeline) (snap : List (List rte_swx_table_entry)) :
    Prop :=
  snap.length = ctl.tables.length ∧
  ∀ (i : Nat) (t : table), ctl.tables[i]? = some t →
    ∃ l, snap[i]? = some l ∧ (committed_entries t).Perm l

/-- A controller with two tables `t0` and `t1`, both with an incremental
backend, and nothing installed or staged. -/
def example_ctl2 : rte_swx_ctl_pipeline :=
  { actions := [{ name := "fwd", args := [{ name := "port", n_bits := 16 }], data_size := 2 }]
    tables := [example_table, { example_table with info_name := "t1" }]
    ts := [{ obj := some 1, default_action_data := [0, 0], default_action_id := 0 },
           { obj := some 3, default_action_data := [0, 0], default_action_id := 0 }]
    ts_next := [{ obj := some 2, default_action_data := [0, 0], default_action_id := 0 },
                { obj := some 4, default_action_data := [0, 0], default_action_id := 0 }] }

/-- A backend whose `add` fails for table 0 and succeeds for the other tables;
every other call and allocation succeeds. -/
def example_backend_table0_fails : backend :=
  { add := fun _ table_id _ _ => if table_id = 0 then -ENOMEM else 0
    del := fun _ _ _ _ => 0
    create := fun _ _ _ => some 9
    malloc_ok := fun _ _ _ => true }

/-- Calls on `example_ctl2`: key `10, 0, 0, 1` is added to table `t1` and
committed, then key `10, 0, 0, 2` is staged for add in table `t0` and key
`10, 0, 0, 3` in table `t1`. -/
def example_stale_ops : List ctl_op :=
  [.entry_add (some "t1") (some (example_entry 1 1)) true,
   .commit example_backend false,
   .entry_add (some "t0") (some (example_entry 2 1)) true,
   .entry_add (some "t1") (some (example_entry 3 1)) true]

/-! ## Creation of the table state -/

/-- Function `table_state_free`: `ops.free` on the object of each table that is
not a stub and has `ops.free` set, then `ctl->ts_next = NULL` (the empty array). -/
def table_state_free (s : commit_state) : commit_state :=
  { ctl := { s.ctl with ts_next := [] },
    log := s.log ++ (List.range s.ctl.tables.length).filterMap (fun i =>
      match s.ctl.tables[i]?, s.ctl.ts_next[i]? with
      | some t, some ts =>
        if ¬ t.is_stub ∧ t.ops_free ∧ ts.obj.isSome then some (event.free i ts.obj) else none
      | _, _ => none) }

/-- One iteration of the loop of `table_state_create`, on table `i`: the status
(`0` to go on) and the state; a `NULL` `default_action_data` is the empty
buffer. -/
def table_state_create_at (b : backend) (s : commit_state) (i : Nat) : Int × commit_state :=
  match s.ctl.tables[i]?, s.ctl.ts[i]?, s.ctl.ts_next[i]? with
  | some t, some ts, some ts_next =>
    let r : Int × rte_swx_table_state × List event :=
      if ¬ t.is_stub ∧ t.ops_add then
        let obj := b.create s.log i t.entries
        (if obj.isNone then -ENODEV else 0, { ts_next with obj := obj },
          s.log ++ [event.create i t.entries obj])
      else (0, ts_next, s.log)
    if r.1 ≠ 0 then
      (r.1, { ctl := { s.ctl with ts_next := s.ctl.ts_next.set i r.2.1 }, log := r.2.2 })
    else
      let ts_next₁ : rte_swx_table_state :=
        if ¬ t.is_stub ∧ ¬ t.ops_add then { r.2.1 with obj := ts.obj } else r.2.1
      if ¬ b.malloc_ok r.2.2 i 0 then
        (-ENOMEM, { ctl := { s.ctl with ts_next := s.ctl.ts_next.set i ts_next₁ }, log := r.2.2 })
      else
        let ts_next₂ : rte_swx_table_state :=
          { ts_next₁ with
            default_action_data := copy_bytes t.params.action_data_size ts.default_action_data,
            default_action_id := ts.default_action_id }
        (0, { ctl := { s.ctl with ts_next := s.ctl.ts_next.set i ts_next₂ }, log := r.2.2 })
  | _, _, _ => (0, s)

/-- The loop of `table_state_create`, left at the first nonzero status. -/
def table_state_create_loop (b : backend) : List Nat → commit_state → Int × commit_state
  | [], s => (0, s)
  | i :: rest, s =>
    let r := table_state_create_at b s i
    if r.1 ≠ 0 then r else table_state_create_loop b rest r.2

/-- Function `table_state_create`, with the calls it makes: `callocOk` is the
outcome of the `calloc` of the `ts_next` array, whose elements start zeroed. -/
def table_state_create (b : backend) (callocOk : Bool) (ctl : rte_swx_ctl_pipeline) :
    Int × rte_swx_ctl_pipeline × List event :=
  if ¬ callocOk then (-ENOMEM, { ctl with ts_next := [] }, [])
  else
    let zeroed : rte_swx_table_state :=
      { obj := none, default_action_data := [], default_action_id := 0 }
    let r := table_state_create_loop b (List.range ctl.tables.length)
      { ctl := { ctl with ts_next := List.replicate ctl.tables.length zeroed }, log := [] }
    if r.1 ≠ 0 then (r.1, (table_state_free r.2).ctl, (table_state_free r.2).log)
    else (0, r.2.ctl, r.2.log)

/-! ## Predicates used to compare `ts` and `ts_next` -/

/-- The `ts` and `ts_next` elements of a table are equivalent: same default
action, same first `action_data_size` bytes of default action data (both buffers
hold that many bytes) and, for a table that is not a stub and has no `ops.add`,
the same table object. -/
def ts_symmetric (t : table) (ts ts_next : rte_swx_table_state) : Prop :=
  ts.default_action_id = ts_next.default_action_id ∧
  (∀ k, k < t.params.action_data_size →
    ts.default_action_data.getD k 0 = ts_next.default_action_data.getD k 0) ∧
  t.params.action_data_size ≤ ts.default_action_data.length ∧
  t.params.action_data_size ≤ ts_next.default_action_data.length ∧
  (t.is_stub = false → t.ops_add = false → ts_next.obj = ts.obj)

/-- Every table of the controller has equivalent `ts` and `ts_next` elements. -/
def ctl_symmetric (ctl : rte_swx_ctl_pipeline) : Prop :=
  ∀ (i : Nat) (t : table) (ts ts_next : rte_swx_table_state),
    ctl.tables[i]? = some t → ctl.ts[i]? = some ts → ctl.ts_next[i]? = some ts_next →
    ts_symmetric t ts ts_next

/-- The kind (`true` for `ops.add`, `false` for `ops.del`) and the entry of a
backend add or del call. -/
def call_of : event → Option (Bool × rte_swx_table_entry)
  | .add _ _ entry _ => some (true, entry)
  | .del _ _ entry _ => some (false, entry)
  | _ => none

/-- The table object a backend add or del call is made on. -/
def event_obj : event → Option Nat
  | .add _ obj _ _ => obj
  | .del _ obj _ _ => obj
  | .create _ _ obj => obj
  | .free _ obj => obj
  | .table_state_set _ => none

/-- The status a backend add or del call returns (`0` for the other calls). -/
def event_status : event → Int
  | .add _ _ _ status => status
  | .del _ _ _ status => status
  | _ => 0

/-- The concrete controller after `table_state_create` with a backend whose
calls all succeed. -/
def example_created : rte_swx_ctl_pipeline :=
  (table_state_create example_backend true example_ctl).2.1

/-- The backend calls `table_rollfwd0` makes for an incremental table, in order:
`add` of the entries of `pending_add`, `add` of those of `pending_modify1`,
`del` of those of `pending_delete`; none for a stub or when no update is
pending. -/
def staged_calls (t : table) : List (Bool × rte_swx_table_entry) :=
  if t.is_stub ∨ table_is_update_pending t false = 0 then []
  else t.pending_add.map (fun e => (true, e)) ++ t.pending_modify1.map (fun e => (true, e)) ++
    t.pending_delete.map (fun e => (false, e))

/-- The events `extra` are add and del calls on the object `obj` that follow the
list `calls` up to the first call that fails: all of `calls`, each returning
`0`, when `status` is `0`, and with a failing call among them otherwise. -/
def calls_spec (obj : Option Nat) (calls : List (Bool × rte_swx_table_entry)) (status : Int)
    (extra : List event) : Prop :=
  (∀ ev ∈ extra, event_obj ev = obj) ∧
  extra.filterMap call_of <+: calls ∧
  (status = 0 → extra.filterMap call_of = calls ∧ ∀ ev ∈ extra, event_status ev = 0) ∧
  (status ≠ 0 → ∃ ev ∈ extra, event_status ev ≠ 0)

/-- Calls that install key `10, 0, 0, 1` with action data `0, 1` and then stage
a modify of its action data to `0, 5`. -/
def example_modify_ops : List ctl_op :=
  [.entry_add (some "t0") (some (example_entry 1 1)) true,
   .commit example_backend false,
   .entry_add (some "t0") (some (example_entry 1 5)) true]

/-- A controller with two tables that have no `ops.add`, so that a commit builds
a new table object with `ops.create`; the `ts` objects are `1` and `3`. -/
def example_ctl_rebuild : rte_swx_ctl_pipeline :=
  { actions := [{ name := "fwd", args := [{ name := "port", n_bits := 16 }], data_size := 2 }]
    tables := [{ example_table with ops_add := false },
               { example_table with info_name := "t1", ops_add := false }]
    ts := [{ obj := some 1, default_action_data := [0, 0], default_action_id := 0 },
           { obj := some 3, default_action_data := [0, 0], default_action_id := 0 }]
    ts_next := [] }

/-- The controller `example_ctl_rebuild` after `table_state_create`, with key
`10, 0, 0, 1` staged for add in table `t0` and key `10, 0, 0, 2` in table `t1`. -/
def example_rebuild_staged : rte_swx_ctl_pipeline :=
  ctl_run (table_state_create example_backend true example_ctl_rebuild).2.1
    [.entry_add (some "t0") (some (example_entry 1 1)) true,
     .entry_add (some "t1") (some (example_entry 2 1)) true]

/-- A backend whose `create` fails for table 0 and returns the object `9` for the
other tables; every other call and allocation succeeds. -/
def example_backend_create0_fails : backend :=
  { add := fun _ _ _ _ => 0
    del := fun _ _ _ _ => 0
    create := fun _ table_id _ => if table_id = 0 then none else some 9
    malloc_ok := fun _ _ _ => true }

/-- A backend whose allocations all fail. -/
def example_backend_no_memory : backend :=
  { add := fun _ _ _ _ => 0
    del := fun _ _ _ _ => 0
    create := fun _ _ _ => some 9
    malloc_ok := fun _ _ _ => false }

/-! ## Reading and printing an entry as text

A C string is held as the list of its characters (none of them `NUL`).  The
functions `strtok_r`, `strtoull` and `strtoul` of the C library are modelled as
the C standard describes them, `unsigned long` having 64 bits; the byte order is
that of a little-endian host.  Where the code does what C leaves undefined (a
`memcpy` through `NULL` or past the end of a buffer, a shift by 64 bits or more,
a read outside an array), the model says so and gives no result. -/

/-- The delimiters `" \f\n\r\t\v"` of the `strtok_r` calls, which are also the
characters `isspace` accepts. -/
def is_delimiter (c : Char) : Bool :=
  c.toNat = 32 ∨ c.toNat = 12 ∨ c.toNat = 10 ∨ c.toNat = 13 ∨ c.toNat = 9 ∨ c.toNat = 11

/-- The tokens that the successive calls `strtok_r(s, " \f\n\r\t\v", &s)` on a
string return, in order: its maximal runs of characters that are not
delimiters.  `cur` holds, reversed, the characters of the token being read. -/
def strtok_tokens (cur : List Char) : List Char → List (List Char)
  | [] => if cur.isEmpty then [] else [cur.reverse]
  | c :: rest =>
    if is_delimiter c then
      if cur.isEmpty then strtok_tokens [] rest else cur.reverse :: strtok_tokens [] rest
    else strtok_tokens (c :: cur) rest

/-- Function `token_is_comment` (`token[1]` of a token of one character is the
terminating `NUL`). -/
def token_is_comment (token : List Char) : Bool :=
  match token with
  | c₀ :: rest =>
    c₀ = '#' ∨ c₀ = ';' ∨ (c₀ = '/' ∧ rest.head? = some '/')
  | [] => false

/-- The constant `RTE_SWX_CTL_ENTRY_TOKENS_MAX`. -/
def RTE_SWX_CTL_ENTRY_TOKENS_MAX : Nat := 256

/-- The token loop of `rte_swx_ctl_pipeline_table_entry_read` over the tokens
`strtok_r` returns: it ends at the end of the string or at the first comment
token, and fails (`none`) on a further token when `token_array` is full. -/
def read_tokens : List (List Char) → List (List Char) → Option (List (List Char))
  | [], token_array => some token_array
  | token :: rest, token_array =>
    if token_is_comment token then some token_array
    else if token_array.length ≥ RTE_SWX_CTL_ENTRY_TOKENS_MAX then none
    else read_tokens rest (token_array ++ [token])

/-- Value of a character as a digit, for the bases up to 16. -/
def digit_value (c : Char) : Option Nat :=
  if 48 ≤ c.toNat ∧ c.toNat ≤ 57 then some (c.toNat - 48)
  else if 97 ≤ c.toNat ∧ c.toNat ≤ 102 then some (c.toNat - 87)
  else if 65 ≤ c.toNat ∧ c.toNat ≤ 70 then some (c.toNat - 55)
  else none

/-- The digits `strtoull` consumes in base `base`: the value they denote (not yet
clamped) and the rest of the string. -/
def strtoull_digits (base : Nat) : List Char → Nat → Nat × List Char
  | [], acc => (acc, [])
  | c :: rest, acc =>
    match digit_value c with
    | some d => if d < base then strtoull_digits base rest (acc * base + d) else (acc, c :: rest)
    | none => (acc, c :: rest)

/-- The call `strtoull(s, &end, 0)`: the value and the string `end` points to.
White space and a sign are skipped; a `0x` or `0X` followed by a hexadecimal
digit selects base 16, another leading `0` base 8, anything else base 10; when
no digit is consumed the value is `0` and `end` is `s`; a value that does not
fit 64 bits gives `ULLONG_MAX`, and a `-` sign negates modulo `2 ^ 64`. -/
def strtoull (s : List Char) : Nat × List Char :=
  let s₁ := s.dropWhile is_delimiter
  let neg : Bool := s₁.head? = some '-'
  let s₂ := if s₁.head? = some '-' ∨ s₁.head? = some '+' then s₁.drop 1 else s₁
  let is_hex : Bool :=
    decide (s₂.head? = some '0') &&
      (decide ((s₂.drop 1).head? = some 'x') || decide ((s₂.drop 1).head? = some 'X')) &&
      (match (s₂.drop 2).head? with
        | some h => (digit_value h).isSome
        | none => false)
  let base := if is_hex then 16 else if s₂.head? = some '0' then 8 else 10
  let s₃ := if is_hex then s₂.drop 2 else s₂
  let r := strtoull_digits base s₃ 0
  if r.2.length = s₃.length then (0, s)
  else if r.1 ≥ 2 ^ 64 then (2 ^ 64 - 1, r.2)
  else if neg then ((2 ^ 64 - r.1) % 2 ^ 64, r.2)
  else (r.1, r.2)

/-- Function `rte_cpu_to_be_64` on a little-endian host: the eight bytes of `x`
in reverse order. -/
def hton64 (x : Nat) : Nat :=
  ((List.range 8).map (fun k => (x >>> (8 * k) % 256) <<< (8 * (7 - k)))).sum

/-- Macro `field_hton` on a little-endian host: `hton64((val) << (64 - n_bits))`
on 64-bit values, for `n_bits` from `1` to `64` (C leaves the shift undefined for
another count). -/
def field_hton (val n_bits : Nat) : Nat :=
  hton64 ((val <<< (64 - n_bits)) % 2 ^ 64)

/-- The first `n` bytes of the 64-bit variable `val` in memory, on a
little-endian host: the source of `memcpy(dst, (uint8_t *)&val, n)`, for `n` up
to `8` (the variable has eight bytes). -/
def val_bytes (val n : Nat) : List Nat :=
  (List.range n).map (fun k => val >>> (8 * k) % 256)

/-- The call `memcpy(&dst[offset], src, n)` on a buffer held as a list, `n`
being the length of `src`; the buffer keeps its size (in C a copy that does not
fit writes out of bounds). -/
def write_bytes (dst : List Nat) (offset : Nat) (src : List Nat) : List Nat :=
  (List.range dst.length).map
    (fun j => if offset ≤ j ∧ j < offset + src.length then src.getD (j - offset) 0
      else dst.getD j 0)

/-- Function `table_entry_alloc`; `callocOk` is the outcome of its
allocations (`true`: each `calloc` returns a buffer, also one of size `0`). -/
def table_entry_alloc (t : table) (callocOk : Bool) : Option rte_swx_table_entry :=
  if ¬ callocOk then none
  else
    some { key := if ¬ t.is_stub then some (List.replicate t.params.key_size 0) else none
           key_mask := if ¬ t.is_stub ∧ t.params.mtype ≠ match_type.EXACT
             then some (List.replicate t.params.key_size 0) else none
           key_signature := 0
           key_priority := 0
           action_id := 0
           action_data := if t.params.action_data_size ≠ 0
             then some (List.replicate t.params.action_data_size 0) else none }

/-- Function `action_find`: index and value of the first action with that
name. -/
def action_find_from (i : Nat) : List action → List Char → Option (Nat × action)
  | [], _ => none
  | a :: rest, action_name =>
    if action_name = a.name.data then some (i, a) else action_find_from (i + 1) rest action_name

/-- Function `action_find` on the actions of the controller. -/
def action_find (ctl_actions : List action) (action_name : List Char) : Option (Nat × action) :=
  action_find_from 0 ctl_actions action_name

/-- Outcome of a part of `rte_swx_ctl_pipeline_table_entry_read`. -/
inductive read_outcome (α : Type) where
  /-- The code runs on with this value. -/
  | ok (a : α)
  /-- The code takes `goto error`. -/
  | error
  /-- The code does what C leaves undefined: a `memcpy` through `NULL` or past
  the end of its source or destination, a shift by 64 bits or more, or a read
  past the tokens stored in `token_array`. -/
  | undefined
deriving DecidableEq, Repr

/-- The call `memcpy(&dst[offset], (uint8_t *)&val, n)` with `val` a 64-bit
variable: the buffer after the copy, `none` when the call is undefined, which is
when `dst` is `NULL`, when the `n` bytes from `offset` on do not lie inside the
buffer, or when `n` exceeds the 8 bytes of `val`. -/
def memcpy_val (dst : Option (List Nat)) (offset val n : Nat) : Option (List Nat) :=
  match dst with
  | none => none
  | some d =>
    if offset + n ≤ d.length ∧ n ≤ 8 then some (write_bytes d offset (val_bytes val n))
    else none

/-- Whether the shift `(val) << (64 - (n_bits))` of the macro `field_hton` is
defined for a `uint32_t` `n_bits`: the count `64 - n_bits`, computed in 32 bits,
must be below 64. -/
def field_hton_defined (n_bits : Nat) : Bool :=
  decide (1 ≤ n_bits ∧ n_bits ≤ 64)

/-- First half of an iteration of the match field loop of
`rte_swx_ctl_pipeline_table_entry_read`: the mask of the token `tokens[1 + i]`
(what follows its first `/`, `UINT64_MAX` without one) is parsed, converted
when the field is a header field, and copied when `entry->key_mask` is not
`NULL`. -/
def read_match_field_mask (offset : Nat) (mf : match_field_info) (token : List Char)
    (entry : rte_swx_table_entry) : read_outcome rte_swx_table_entry :=
  let mf_mask := (token.dropWhile (fun c => c ≠ '/')).drop 1
  if '/' ∈ token ∧ (strtoull mf_mask).2 ≠ [] then read_outcome.error
  else if '/' ∈ token ∧ mf.is_header = true ∧ field_hton_defined mf.n_bits = false then
    read_outcome.undefined
  else
    let mask : Nat :=
      if '/' ∈ token then
        if mf.is_header then field_hton (strtoull mf_mask).1 mf.n_bits else (strtoull mf_mask).1
      else 2 ^ 64 - 1
    match entry.key_mask with
    | none => read_outcome.ok entry
    | some key_mask =>
      match memcpy_val (some key_mask) offset mask (mf.n_bits / 8) with
      | none => read_outcome.undefined
      | some key_mask' => read_outcome.ok { entry with key_mask := some key_mask' }

/-- Second half of an iteration of the match field loop: the value of the token
(what precedes its first `/`) is parsed, converted when the field is a header
field, and copied into `entry->key`. -/
def read_match_field_value (offset : Nat) (mf : match_field_info) (token : List Char)
    (entry : rte_swx_table_entry) : read_outcome rte_swx_table_entry :=
  let mf_val := token.takeWhile (fun c => c ≠ '/')
  if (strtoull mf_val).2 ≠ [] then read_outcome.error
  else if mf.is_header = true ∧ field_hton_defined mf.n_bits = false then read_outcome.undefined
  else
    let val : Nat :=
      if mf.is_header then field_hton (strtoull mf_val).1 mf.n_bits else (strtoull mf_val).1
    match memcpy_val entry.key offset val (mf.n_bits / 8) with
    | none => read_outcome.undefined
    | some key => read_outcome.ok { entry with key := some key }

/-- One iteration of the match field loop of
`rte_swx_ctl_pipeline_table_entry_read`: the token `tokens[1 + i]` of the field
`mf`, `first_offset` being `table->mf[0].offset`. -/
def read_match_field (first_offset : Nat) (mf : match_field_info) (token : List Char)
    (entry : rte_swx_table_entry) : read_outcome rte_swx_table_entry :=
  let offset := usub32 mf.offset first_offset / 8
  match read_match_field_mask offset mf token entry with
  | read_outcome.ok entry' => read_match_field_value offset mf token entry'
  | read_outcome.error => read_outcome.error
  | read_outcome.undefined => read_outcome.undefined

/-- The match field loop, over the fields and the tokens that follow `match`.
A field without a token is reached only when the test
`n_tokens < 1 + table->info.n_match_fields` before the loop has wrapped; the
code then reads past the tokens it stored. -/
def read_match_fields (first_offset : Nat) :
    List match_field_info → List (List Char) → rte_swx_table_entry →
      read_outcome rte_swx_table_entry
  | [], _, entry => read_outcome.ok entry
  | _ :: _, [], _ => read_outcome.undefined
  | mf :: mfs, token :: tokens, entry =>
    match read_match_field first_offset mf token entry with
    | read_outcome.ok entry' => read_match_fields first_offset mfs tokens entry'
    | read_outcome.error => read_outcome.error
    | read_outcome.undefined => read_outcome.undefined

/-- One iteration of the action argument loop: the tokens `arg_name` and
`arg_val` of the argument `arg`, written at `arg_offset` of the action data. -/
def read_action_arg (arg : action_arg_info) (arg_name arg_val : List Char) (arg_offset : Nat)
    (action_data : Option (List Nat)) : read_outcome (Option (List Nat)) :=
  if arg_name ≠ arg.name.data ∨ arg_val.length < 4 ∨
      (arg_val.head? ≠ some 'H' ∧ arg_val.head? ≠ some 'N') ∨
      (arg_val.drop 1).head? ≠ some '(' ∨ arg_val.getLast? ≠ some ')' then read_outcome.error
  else
    let is_nbo : Bool := arg_val.head? = some 'N'
    let r := strtoull ((arg_val.dropLast).drop 2)
    if r.2 ≠ [] then read_outcome.error
    else if is_nbo = true ∧ field_hton_defined arg.n_bits = false then read_outcome.undefined
    else
      let val := if is_nbo then field_hton r.1 arg.n_bits else r.1
      match memcpy_val action_data arg_offset val (arg.n_bits / 8) with
      | none => read_outcome.undefined
      | some action_data' => read_outcome.ok (some action_data')

/-- The action argument loop, over the arguments and the tokens that follow the
action name; `arg_offset` grows by `n_bits / 8` with each argument.  An argument
without its two tokens is reached only when the test
`n_tokens < 2 + action->info.n_args * 2` before the loop has wrapped; the code
then reads past the tokens it stored. -/
def read_action_args : List action_arg_info → List (List Char) → Nat → Option (List Nat) →
    read_outcome (Option (List Nat))
  | [], _, _, action_data => read_outcome.ok action_data
  | arg :: args, arg_name :: arg_val :: tokens, arg_offset, action_data =>
    match read_action_arg arg arg_name arg_val arg_offset action_data with
    | read_outcome.ok action_data' =>
      read_action_args args tokens (uadd32 arg_offset (arg.n_bits / 8)) action_data'
    | read_outcome.error => read_outcome.error
    | read_outcome.undefined => read_outcome.undefined
  | _ :: _, _, _, _ => read_outcome.undefined

/-- The part of `rte_swx_ctl_pipeline_table_entry_read` from the label `action`
on: the action clause, then the test at the label `other` that no token is
left. -/
def read_action (ctl_actions : List action) (tokens : List (List Char))
    (entry : rte_swx_table_entry) : read_outcome rte_swx_table_entry :=
  if tokens ≠ [] ∧ tokens.head? ≠ some "action".data then read_outcome.error
  else if tokens.length < 2 then read_outcome.error
  else
    match action_find ctl_actions (tokens.getD 1 []) with
    | none => read_outcome.error
    | some (action_id, a) =>
      if tokens.length < (2 + a.args.length * 2) % U32 then read_outcome.error
      else
        match read_action_args a.args (tokens.drop 2) 0 entry.action_data with
        | read_outcome.ok action_data =>
          if tokens.drop ((2 + a.args.length * 2) % U32) ≠ [] then read_outcome.error
          else read_outcome.ok { entry with action_id := action_id, action_data := action_data }
        | read_outcome.error => read_outcome.error
        | read_outcome.undefined => read_outcome.undefined

/-- The part of `rte_swx_ctl_pipeline_table_entry_read` from the comment
`Match priority` on: the priority clause (`strtoul`, its value stored in the
`uint32_t` `key_priority`), then the action clause.  `n_tokens` is the number
of tokens of the line in `token_array`: `tokens[1]` is read before the test
`n_tokens < 2`, and when `priority` is the last of
`RTE_SWX_CTL_ENTRY_TOKENS_MAX` tokens that read is past the end of
`token_array`. -/
def read_priority (ctl_actions : List action) (n_tokens : Nat) (tokens : List (List Char))
    (entry : rte_swx_table_entry) : read_outcome rte_swx_table_entry :=
  if tokens.head? = some "priority".data then
    if tokens.length < 2 then
      if n_tokens ≥ RTE_SWX_CTL_ENTRY_TOKENS_MAX then read_outcome.undefined
      else read_outcome.error
    else if (strtoull (tokens.getD 1 [])).2 ≠ [] then read_outcome.error
    else
      read_action ctl_actions (tokens.drop 2)
        { entry with key_priority := (strtoull (tokens.getD 1 [])).1 % U32 }
  else read_action ctl_actions tokens entry

/-- The part of `rte_swx_ctl_pipeline_table_entry_read` on the tokens of a line
that has at least one: the match clause when the first token is `match`, then
the priority clause and the action clause; the action clause alone when the
first token is not `match`. -/
def read_entry (ctl_actions : List action) (t : table) (tokens : List (List Char))
    (entry : rte_swx_table_entry) : read_outcome rte_swx_table_entry :=
  if tokens.head? ≠ some "match".data then read_action ctl_actions tokens entry
  else if tokens.length < (1 + t.mf.length) % U32 then read_outcome.error
  else
    match read_match_fields ((t.mf.map (fun f => f.offset)).getD 0 0) t.mf (tokens.drop 1)
        entry with
    | read_outcome.ok entry₁ =>
      read_priority ctl_actions tokens.length (tokens.drop ((1 + t.mf.length) % U32)) entry₁
    | read_outcome.error => read_outcome.error
    | read_outcome.undefined => read_outcome.undefined

/-- Function `rte_swx_ctl_pipeline_table_entry_read`.  The result is `none` when
the call does what C leaves undefined; otherwise it is the entry returned
(`none` for `NULL`) and the value stored in `*is_blank_or_comment` (`none` when
nothing is stored, which is the case when an entry is returned).  The controller
is not `NULL`; `mallocOk` is the outcome of `strdup` and `table_entry_alloc`. -/
def rte_swx_ctl_pipeline_table_entry_read (ctl : rte_swx_ctl_pipeline)
    (table_name : Option String) (string : Option (List Char)) (mallocOk : Bool) :
    Option (Option rte_swx_table_entry × Option Nat) :=
  match table_name with
  | none => some (none, some 0)
  | some name =>
    if name = "" then some (none, some 0)
    else
      match table_find ctl name with
      | none => some (none, some 0)
      | some (_, t) =>
        match string with
        | none => some (none, some 0)
        | some s =>
          if s = [] then some (none, some 0)
          else
            match table_entry_alloc t mallocOk with
            | none => some (none, some 0)
            | some entry =>
              match read_tokens (strtok_tokens [] s) [] with
              | none => some (none, some 0)
              | some tokens =>
                if tokens = [] then some (none, some 1)
                else
                  match read_entry ctl.actions t tokens entry with
                  | read_outcome.ok e => some (some e, none)
                  | read_outcome.error => some (none, some 0)
                  | read_outcome.undefined => none

/-- The output of `fprintf(f, "%02x", b)` for a byte `b`. -/
def print_02x (b : Nat) : List Char :=
  [Nat.digitChar (b / 16 % 16), Nat.digitChar (b % 16)]

/-- Whether the bytes `buf[0]`, ..., `buf[n - 1]` that a loop reads lie inside
the buffer: a loop of no iteration reads nothing. -/
def buffer_holds (buf : Option (List Nat)) (n : Nat) : Bool :=
  match buf with
  | none => decide (n = 0)
  | some l => decide (n ≤ l.length)

/-- Function `table_entry_printf`: the characters written to `f`; `none` when
the code reads outside an array, which is when `entry->action_id` is not the
index of an action of the pipeline or when a buffer of the entry is `NULL` or
shorter than the loop that prints it. -/
def table_entry_printf (ctl_actions : List action) (t : table) (entry : rte_swx_table_entry) :
    Option (List Char) :=
  match ctl_actions[entry.action_id]? with
  | none => none
  | some a =>
    if buffer_holds entry.key t.params.key_size = false then none
    else if entry.key_mask.isSome ∧ buffer_holds entry.key_mask t.params.key_size = false then
      none
    else if buffer_holds entry.action_data a.data_size = false then none
    else
      some ("match ".data ++
        (List.range t.params.key_size).flatMap (fun i => print_02x (byte_at entry.key i 0)) ++
        (match entry.key_mask with
          | none => []
          | some key_mask =>
            '/' :: (List.range t.params.key_size).flatMap
              (fun i => print_02x (key_mask.getD i 0))) ++
        " priority ".data ++ Nat.toDigits 10 entry.key_priority ++
        " action ".data ++ a.name.data ++ " ".data ++
        (List.range a.data_size).flatMap (fun i => print_02x (byte_at entry.action_data i 0)) ++
        [Char.ofNat 10])

/-- The table `t0` with room for three bytes of action data. -/
def example_table_args : table :=
  { example_table with params := { example_table.params with action_data_size := 3 } }

/-- A controller whose action `set` has an 8-bit argument `a` followed by a
16-bit argument `b`, with the table `example_table_args`. -/
def example_ctl_args : rte_swx_ctl_pipeline :=
  { example_ctl with
    actions := [{ name := "set",
                  args := [{ name := "a", n_bits := 8 }, { name := "b", n_bits := 16 }],
                  data_size := 3 }]
    tables := [example_table_args] }

/-- The concrete controller with a table `t0` that has no action, hence no
action data, while the pipeline has the action `fwd` with its argument. -/
def example_ctl_no_data : rte_swx_ctl_pipeline :=
  { example_ctl with
    tables := [{ example_table with
                 actions := []
                 params := { example_table.params with action_data_size := 0 } }] }

end SwxCtl

namespace Tiova

/-! ## Sortedness and coalescing of the free list -/

/-- Claim C1 fails on the code.  From `iova_init` with base `0x10000000` and
length `0x1400`, four allocations of `0x400` followed by `iova_free` of the third
and then of the first (no address computation wraps) leave the free list in the
order `0x10000800, 0x10000000, 0x10001000`, which is not ascending: `iova_sort`
is a single pass that moves the appended descriptor back by one place only. -/
theorem iova_free_leaves_unsorted :
    run_no_overflow (init_state 0x10000000 0x1400)
      [.alloc 0xA000 0x400 true, .alloc 0xB000 0x400 true, .alloc 0xC000 0x400 true,
       .alloc 0xD000 0x400 true, .free 0xC000 0x400 true, .free 0xA000 0x400 true] ∧
    (run (init_state 0x10000000 0x1400)
      [.alloc 0xA000 0x400 true, .alloc 0xB000 0x400 true, .alloc 0xC000 0x400 true,
       .alloc 0xD000 0x400 true, .free 0xC000 0x400 true,
       .free 0xA000 0x400 true]).iova_free_list =
      [{ vaddr := 0, taddr := 0x10000800, len := 0x400 },
       { vaddr := 0, taddr := 0x10000000, len := 0x400 },
       { vaddr := 0, taddr := 0x10001000, len := 0x400 }] ∧
    ¬ sorted_free (run (init_state 0x10000000 0x1400)
      [.alloc 0xA000 0x400 true, .alloc 0xB000 0x400 true, .alloc 0xC000 0x400 true,
       .alloc 0xD000 0x400 true, .free 0xC000 0x400 true,
       .free 0xA000 0x400 true]).iova_free_list := by
  refine ⟨by decide, by decide, by decide⟩

/-- Claim C2 fails on the code.  From `iova_init` with base `0x10000000` and
length `0x1400`, four allocations of `0x400` followed by `iova_free` of the first,
the third and the fourth leave the free list
`(0x10000000, 0x400), (0x10000800, 0x800), (0x10001000, 0x400)`, whose second
and third descriptors touch: the merge loop of `iova_compress` never advances
`p` beyond the head of the list. -/
theorem iova_free_leaves_uncoalesced :
    (run (init_state 0x10000000 0x1400)
      [.alloc 0xA000 0x400 true, .alloc 0xB000 0x400 true, .alloc 0xC000 0x400 true,
       .alloc 0xD000 0x400 true, .free 0xA000 0x400 true, .free 0xC000 0x400 true,
       .free 0xD000 0x400 true]).iova_free_list =
      [{ vaddr := 0, taddr := 0x10000000, len := 0x400 },
       { vaddr := 0, taddr := 0x10000800, len := 0x800 },
       { vaddr := 0, taddr := 0x10001000, len := 0x400 }] ∧
    ¬ coalesced (run (init_state 0x10000000 0x1400)
      [.alloc 0xA000 0x400 true, .alloc 0xB000 0x400 true, .alloc 0xC000 0x400 true,
       .alloc 0xD000 0x400 true, .free 0xA000 0x400 true, .free 0xC000 0x400 true,
       .free 0xD000 0x400 true]).iova_free_list := by
  have hl : (run (init_state 0x10000000 0x1400)
      [.alloc 0xA000 0x400 true, .alloc 0xB000 0x400 true, .alloc 0xC000 0x400 true,
       .alloc 0xD000 0x400 true, .free 0xA000 0x400 true, .free 0xC000 0x400 true,
       .free 0xD000 0x400 true]).iova_free_list =
      [{ vaddr := 0, taddr := 0x10000000, len := 0x400 },
       { vaddr := 0, taddr := 0x10000800, len := 0x800 },
       { vaddr := 0, taddr := 0x10001000, len := 0x400 }] := by decide
  rw [hl]
  exact ⟨rfl, fun h => h 1 2 ⟨by decide, { vaddr := 0, taddr := 0x10000800, len := 0x800 },
    { vaddr := 0, taddr := 0x10001000, len := 0x400 }, rfl, rfl, by decide⟩⟩

/-! ## Machine arithmetic without wrap-around -/

theorem uadd_eq {a b : Nat} (h : a + b < U64) : uadd a b = a + b :=
  Nat.mod_eq_of_lt h

theorem usub_eq {a b : Nat} (hb : b ≤ a) (ha : a < U64) : usub a b = a - b := by
  unfold usub
  have hb' : b % U64 = b := Nat.mod_eq_of_lt (by omega)
  rw [hb']
  have : a + (U64 - b) = (a - b) + U64 := by omega
  rw [this, Nat.add_mod_right]
  exact Nat.mod_eq_of_lt (by omega)

/-! ## The queue passes permute or merge, they never lose an address -/

theorem cover_count_append (l₁ l₂ : List iova_mem_desc) (x : Nat) :
    cover_count (l₁ ++ l₂) x = cover_count l₁ x + cover_count l₂ x := by
  simp [cover_count]

theorem cover_count_cons (d : iova_mem_desc) (l : List iova_mem_desc) (x : Nat) :
    cover_count (d :: l) x = cover_count l x + (if covers d x then 1 else 0) := by
  simp [cover_count, List.countP_cons]

theorem cover_count_nil (x : Nat) : cover_count [] x = 0 := by
  simp [cover_count]

theorem cover_count_perm {l₁ l₂ : List iova_mem_desc} (h : l₁.Perm l₂) (x : Nat) :
    cover_count l₁ x = cover_count l₂ x :=
  h.countP_eq _

theorem sort_loop_perm (rest : List iova_mem_desc) :
    ∀ (pre : List iova_mem_desc) (p : iova_mem_desc) (gap : List iova_mem_desc),
      (sort_loop pre p gap rest).Perm (pre ++ p :: (gap ++ rest)) := by
  induction rest with
  | nil => intro pre p gap; simp [sort_loop]
  | cons c rest ih =>
    intro pre p gap
    unfold sort_loop
    split
    · refine (ih _ _ _).trans ?_
      simp only [List.append_assoc, List.singleton_append]
      refine List.Perm.append_left pre ?_
      have h1 : (gap ++ c :: ([p] ++ rest)).Perm (gap ++ ([p] ++ c :: rest)) :=
        List.Perm.append_left gap (List.Perm.swap _ _ _)
      refine h1.trans ?_
      simp
    · refine (ih _ _ _).trans ?_
      simp

theorem iova_sort_perm (l : List iova_mem_desc) : (iova_sort l).Perm l := by
  cases l with
  | nil => simp [iova_sort]
  | cons c rest => simpa [iova_sort] using sort_loop_perm rest [] c []

theorem compress_loop_spec (base wlen : Nat) (hw : base + wlen < U64)
    (rest : List iova_mem_desc) :
    ∀ p : iova_mem_desc, in_window base wlen p → (∀ d ∈ rest, in_window base wlen d) →
      (∀ x, cover_count ((compress_loop p rest).1 :: (compress_loop p rest).2) x
          = cover_count (p :: rest) x) ∧
      (∀ d ∈ (compress_loop p rest).1 :: (compress_loop p rest).2, in_window base wlen d) := by
  induction rest with
  | nil => intro p hp _; simpa [compress_loop] using hp
  | cons c rest ih =>
    intro p hp hrest
    have hc : in_window base wlen c := hrest c (List.mem_cons_self _ _)
    have hr : ∀ d ∈ rest, in_window base wlen d := fun d hd => hrest d (List.mem_cons_of_mem _ hd)
    unfold in_window at hp hc
    have hpe : uadd p.taddr p.len = p.taddr + p.len := uadd_eq (by omega)
    unfold compress_loop
    by_cases hadj : uadd p.taddr p.len ≠ c.taddr
    · rw [if_pos hadj]
      obtain ⟨h1, h2⟩ := ih p (by unfold in_window; exact hp) hr
      constructor
      · intro x
        have := h1 x
        simp only [cover_count_cons] at this ⊢
        omega
      · intro d hd
        simp only [List.mem_cons] at hd h2 hrest
        rcases hd with hd | hd | hd
        · exact h2 d (Or.inl hd)
        · exact hrest d (Or.inl hd)
        · exact h2 d (Or.inr hd)
    · rw [if_neg hadj]
      have hadj' : p.taddr + p.len = c.taddr := by
        rw [← hpe]; exact not_not.mp hadj
      have hle : uadd p.len c.len = p.len + c.len := uadd_eq (by omega)
      obtain ⟨h1, h2⟩ := ih { vaddr := p.vaddr, taddr := p.taddr, len := uadd p.len c.len }
        (by unfold in_window; simp only [hle]; omega) hr
      refine ⟨fun x => ?_, h2⟩
      rw [h1 x]
      simp only [cover_count_cons, covers, hle]
      split_ifs <;> omega

theorem iova_compress_spec (base wlen : Nat) (hw : base + wlen < U64)
    (l : List iova_mem_desc) (hl : ∀ d ∈ l, in_window base wlen d) :
    (∀ x, cover_count (iova_compress l) x = cover_count l x) ∧
    (∀ d ∈ iova_compress l, in_window base wlen d) := by
  unfold iova_compress
  have hperm := iova_sort_perm l
  cases hs : iova_sort l with
  | nil =>
    rw [hs] at hperm
    have : l = [] := List.Perm.eq_nil hperm.symm
    subst this
    simp
  | cons c rest =>
    rw [hs] at hperm
    have hin : ∀ d ∈ c :: rest, in_window base wlen d := fun d hd => hl d (hperm.mem_iff.mp hd)
    obtain ⟨h1, h2⟩ := compress_loop_spec base wlen hw rest c
      (hin c (List.mem_cons_self _ _)) (fun d hd => hin d (List.mem_cons_of_mem _ hd))
    exact ⟨fun x => (h1 x).trans (cover_count_perm hperm x), h2⟩

theorem free_merge_spec (base wlen : Nat) (hw : base + wlen < U64) (a : iova_mem_desc)
    (ha : in_window base wlen a) (l : List iova_mem_desc) :
    ∀ l', (∀ d ∈ l, in_window base wlen d) → free_merge a l = some l' →
      (∀ x, cover_count l' x = cover_count l x + (if covers a x then 1 else 0)) ∧
      (∀ d ∈ l', in_window base wlen d) := by
  induction l with
  | nil => intro l' _ h; simp [free_merge] at h
  | cons f rest ih =>
    intro l' hl h
    have hf : in_window base wlen f := hl f (List.mem_cons_self _ _)
    have hr : ∀ d ∈ rest, in_window base wlen d := fun d hd => hl d (List.mem_cons_of_mem _ hd)
    unfold in_window at ha hf
    have hae : uadd a.taddr a.len = a.taddr + a.len := uadd_eq (by omega)
    have hfe : uadd f.taddr f.len = f.taddr + f.len := uadd_eq (by omega)
    unfold free_merge at h
    rw [hae, hfe] at h
    by_cases h1 : a.taddr + a.len = f.taddr
    · rw [if_pos h1] at h
      have hle : uadd f.len a.len = f.len + a.len := uadd_eq (by omega)
      rw [hle] at h
      cases h
      constructor
      · intro x
        simp only [cover_count_cons, covers]
        split_ifs <;> omega
      · intro d hd
        rcases List.mem_cons.mp hd with hd | hd
        · subst hd; unfold in_window; simp only; omega
        · exact hr d hd
    · rw [if_neg h1] at h
      by_cases h2 : a.taddr = f.taddr + f.len
      · rw [if_pos h2] at h
        have hle : uadd f.len a.len = f.len + a.len := uadd_eq (by omega)
        rw [hle] at h
        cases h
        constructor
        · intro x
          simp only [cover_count_cons, covers]
          split_ifs <;> omega
        · intro d hd
          rcases List.mem_cons.mp hd with hd | hd
          · subst hd; unfold in_window; simp only; omega
          · exact hr d hd
      · rw [if_neg h2] at h
        cases hm : free_merge a rest with
        | none => simp [hm] at h
        | some rest' =>
          simp only [hm, Option.some.injEq] at h
          subst h
          obtain ⟨i1, i2⟩ := ih rest' hr hm
          constructor
          · intro x
            have := i1 x
            simp only [cover_count_cons] at this ⊢
            omega
          · intro d hd
            rcases List.mem_cons.mp hd with hd | hd
            · subst hd; unfold in_window; exact hf
            · exact i2 d hd

/-! ## First fit -/

theorem alloc_scan_some (len : Nat) (l : List iova_mem_desc) :
    ∀ t l', scan_no_overflow len l → alloc_scan len l = some (t, l') →
      ∃ pre f post, l = pre ++ f :: post ∧ (∀ g ∈ pre, g.len < len) ∧ len ≤ f.len ∧
        t = f.taddr ∧ l' = pre ++ shrink_front f len ++ post := by
  induction l with
  | nil => intro t l' _ h; simp [alloc_scan] at h
  | cons f rest ih =>
    intro t l' hno h
    obtain ⟨hf1, hf2⟩ := hno f (List.mem_cons_self _ _)
    have hr : scan_no_overflow len rest := fun d hd => hno d (List.mem_cons_of_mem _ hd)
    unfold alloc_scan at h
    rw [uadd_eq hf1, uadd_eq hf2] at h
    by_cases hbig : f.taddr + len > f.taddr + f.len
    · rw [if_pos hbig] at h
      cases hm : alloc_scan len rest with
      | none => simp [hm] at h
      | some r =>
        obtain ⟨t0, rest'⟩ := r
        simp only [hm, Option.some.injEq, Prod.mk.injEq] at h
        obtain ⟨pre, g, post, e1, e2, e3, e4, e5⟩ := ih t0 rest' hr hm
        refine ⟨f :: pre, g, post, by simp [e1], ?_, e3, by rw [← h.1, e4], by simp [← h.2, e5]⟩
        intro d hd
        rcases List.mem_cons.mp hd with hd | hd
        · subst hd; omega
        · exact e2 d hd
    · rw [if_neg hbig] at h
      have hle : len ≤ f.len := by omega
      have hsub : usub f.len len = f.len - len := usub_eq hle (by omega)
      simp only [hsub, Option.some.injEq, Prod.mk.injEq] at h
      refine ⟨[], f, rest, rfl, by simp, hle, h.1.symm, ?_⟩
      rw [← h.2]
      unfold shrink_front
      by_cases hz : f.len - len = 0
      · have : f.len = len := by omega
        simp [hz, this]
      · have : f.len ≠ len := by omega
        simp [hz, this]

theorem alloc_scan_none (len : Nat) (l : List iova_mem_desc) (hno : scan_no_overflow len l) :
    alloc_scan len l = none ↔ ∀ f ∈ l, f.len < len := by
  induction l with
  | nil => simp [alloc_scan]
  | cons f rest ih =>
    obtain ⟨hf1, hf2⟩ := hno f (List.mem_cons_self _ _)
    have hr : scan_no_overflow len rest := fun d hd => hno d (List.mem_cons_of_mem _ hd)
    unfold alloc_scan
    rw [uadd_eq hf1, uadd_eq hf2]
    by_cases hbig : f.taddr + len > f.taddr + f.len
    · rw [if_pos hbig]
      cases hm : alloc_scan len rest with
      | none =>
        have := (ih hr).mp hm
        simp only [List.mem_cons, forall_eq_or_imp, true_iff]
        exact ⟨by omega, this⟩
      | some r =>
        have hne : ¬ ∀ f ∈ rest, f.len < len := fun hall => by
          rw [(ih hr).mpr hall] at hm; cases hm
        exact ⟨fun h => Option.noConfusion h,
          fun h => absurd (fun g hg => h g (List.mem_cons_of_mem _ hg)) hne⟩
    · rw [if_neg hbig]
      refine ⟨fun h => Option.noConfusion h, fun h => ?_⟩
      have := h f (List.mem_cons_self _ _)
      omega

theorem find_alloc_some (vaddr len : Nat) (l : List iova_mem_desc) :
    ∀ pre a post, find_alloc vaddr len l = some (pre, a, post) →
      l = pre ++ a :: post ∧ a.vaddr = vaddr ∧ a.len = len ∧
        ∀ e ∈ pre, ¬ (e.vaddr = vaddr ∧ e.len = len) := by
  induction l with
  | nil => intro pre a post h; simp [find_alloc] at h
  | cons b rest ih =>
    intro pre a post h
    unfold find_alloc at h
    by_cases hb : vaddr ≠ b.vaddr ∨ len ≠ b.len
    · rw [if_pos hb] at h
      cases hm : find_alloc vaddr len rest with
      | none => simp [hm] at h
      | some r =>
        obtain ⟨pre0, x, post0⟩ := r
        simp only [hm, Option.some.injEq, Prod.mk.injEq] at h
        obtain ⟨e1, e2, e3, e4⟩ := ih pre0 x post0 hm
        obtain ⟨h1, h2, h3⟩ := h
        subst h1 h2 h3
        refine ⟨by simp [e1], e2, e3, ?_⟩
        intro e he
        rcases List.mem_cons.mp he with he | he
        · subst he
          rintro ⟨q1, q2⟩
          rcases hb with hb | hb
          · exact hb q1.symm
          · exact hb q2.symm
        · exact e4 e he
    · rw [if_neg hb] at h
      simp only [Option.some.injEq, Prod.mk.injEq] at h
      obtain ⟨h1, h2, h3⟩ := h
      subst h1 h2 h3
      have hb' : vaddr = b.vaddr ∧ len = b.len := by
        constructor
        · by_contra hc; exact hb (Or.inl hc)
        · by_contra hc; exact hb (Or.inr hc)
      exact ⟨rfl, hb'.1.symm, hb'.2.symm, by simp⟩

theorem find_alloc_none (vaddr len : Nat) (l : List iova_mem_desc) :
    find_alloc vaddr len l = none ↔ ∀ e ∈ l, ¬ (e.vaddr = vaddr ∧ e.len = len) := by
  induction l with
  | nil => simp [find_alloc]
  | cons b rest ih =>
    unfold find_alloc
    by_cases hb : vaddr ≠ b.vaddr ∨ len ≠ b.len
    · rw [if_pos hb]
      have hb' : ¬ (b.vaddr = vaddr ∧ b.len = len) := by
        rintro ⟨q1, q2⟩
        rcases hb with hb | hb
        · exact hb q1.symm
        · exact hb q2.symm
      cases hm : find_alloc vaddr len rest with
      | none =>
        simp only [List.mem_cons, forall_eq_or_imp, true_iff]
        exact ⟨hb', ih.mp hm⟩
      | some r =>
        have hne : ¬ ∀ e ∈ rest, ¬ (e.vaddr = vaddr ∧ e.len = len) := fun hall => by
          rw [ih.mpr hall] at hm; cases hm
        exact ⟨fun h => Option.noConfusion h,
          fun h => absurd (fun g hg => h g (List.mem_cons_of_mem _ hg)) hne⟩
    · rw [if_neg hb]
      have hb' : b.vaddr = vaddr ∧ b.len = len := by
        constructor
        · by_contra hc; exact hb (Or.inl (fun h => hc h.symm))
        · by_contra hc; exact hb (Or.inr (fun h => hc h.symm))
      exact ⟨fun h => Option.noConfusion h, fun h => absurd hb' (h b (List.mem_cons_self _ _))⟩

/-! ## The two lists partition the window -/

theorem partition_inv_init (base wlen : Nat) : partition_inv base wlen (init_state base wlen) := by
  constructor
  · intro x
    simp only [init_state, iova_init, if_true, List.append_nil, cover_count_cons, cover_count_nil,
      covers]
    split_ifs <;> omega
  · intro d hd
    simp only [init_state, iova_init, if_true, List.append_nil, List.mem_singleton] at hd
    subst hd
    unfold in_window
    simp

theorem cover_count_shrink_front (f : iova_mem_desc) (len x : Nat) (hle : len ≤ f.len) :
    cover_count (shrink_front f len) x
      + (if covers { vaddr := 0, taddr := f.taddr, len := len } x then 1 else 0)
      = if covers f x then 1 else 0 := by
  unfold shrink_front
  by_cases h : f.len = len
  · rw [if_pos h, cover_count_nil]
    simp only [covers]
    split_ifs <;> omega
  · rw [if_neg h, cover_count_cons, cover_count_nil]
    simp only [covers]
    split_ifs <;> omega

theorem partition_inv_alloc (base wlen : Nat) (hw : base + wlen < U64) (st : State)
    (vaddr len : Nat) (ok : Bool) (hinv : partition_inv base wlen st)
    (hno : op_no_overflow st (.alloc vaddr len ok)) :
    partition_inv base wlen (iova_alloc ok st vaddr len).2 := by
  unfold iova_alloc
  split
  · exact hinv
  split
  · exact hinv
  cases hs : alloc_scan len st.iova_free_list with
  | none => exact hinv
  | some r =>
    obtain ⟨t, free'⟩ := r
    cases ok with
    | false => exact hinv
    | true =>
      obtain ⟨hcnt, hwin⟩ := hinv
      have hscan : scan_no_overflow len st.iova_free_list := by
        intro f hf
        have h1 := hno.2 f hf
        have h2 := hwin f (List.mem_append_left _ hf)
        unfold in_window at h2
        exact ⟨h1, by omega⟩
      obtain ⟨pre, f, post, e1, _, e3, e4, e5⟩ := alloc_scan_some len _ t free' hscan hs
      simp only [if_true]
      have hfw : in_window base wlen f :=
        hwin f (List.mem_append_left _ (by rw [e1]; simp))
      constructor
      · intro x
        have h0 := hcnt x
        have h1 := cover_count_shrink_front f len x e3
        rw [e1] at h0
        simp only [e5, e4, cover_count_append, cover_count_cons, cover_count_nil, covers] at h0 h1 ⊢
        omega
      · intro d hd
        simp only [e5, List.mem_append, List.mem_singleton] at hd
        rcases hd with ((hd | hd) | hd) | hd | hd
        · exact hwin d (List.mem_append_left _ (by rw [e1]; simp [hd]))
        · unfold shrink_front at hd
          by_cases h : f.len = len
          · simp [h] at hd
          · simp only [if_neg h, List.mem_singleton] at hd
            subst hd
            unfold in_window at hfw ⊢
            simp only
            omega
        · exact hwin d (List.mem_append_left _ (by rw [e1]; simp [hd]))
        · exact hwin d (List.mem_append_right _ hd)
        · subst hd
          unfold in_window at hfw ⊢
          simp only [e4]
          omega

theorem partition_inv_free (base wlen : Nat) (hw : base + wlen < U64) (st : State)
    (vaddr len : Nat) (ok : Bool) (hinv : partition_inv base wlen st) :
    partition_inv base wlen (iova_free ok st vaddr len).2 := by
  unfold iova_free
  split
  · exact hinv
  cases hf : find_alloc vaddr len st.iova_alloc_list with
  | none => exact hinv
  | some r =>
    obtain ⟨pre, a, post⟩ := r
    obtain ⟨e1, _, _, _⟩ := find_alloc_some vaddr len _ pre a post hf
    obtain ⟨hcnt, hwin⟩ := hinv
    have ha : in_window base wlen a := hwin a (List.mem_append_right _ (by rw [e1]; simp))
    have hfree : ∀ d ∈ st.iova_free_list, in_window base wlen d :=
      fun d hd => hwin d (List.mem_append_left _ hd)
    have hrest : ∀ d ∈ pre ++ post, in_window base wlen d := by
      intro d hd
      refine hwin d (List.mem_append_right _ ?_)
      rw [e1]
      rcases List.mem_append.mp hd with hd | hd
      · simp [hd]
      · simp [hd]
    have key : ∀ l : List iova_mem_desc, (∀ d ∈ l, in_window base wlen d) →
        (∀ x, cover_count l x = cover_count st.iova_free_list x + (if covers a x then 1 else 0)) →
        partition_inv base wlen { iova_alloc_list := pre ++ post, iova_free_list := iova_compress l } := by
      intro l hl hc
      obtain ⟨c1, c2⟩ := iova_compress_spec base wlen hw l hl
      constructor
      · intro x
        have h0 := hcnt x
        rw [e1] at h0
        have h1 := hc x
        have h2 := c1 x
        simp only [cover_count_append, cover_count_cons] at h0 h1 h2 ⊢
        omega
      · intro d hd
        rcases List.mem_append.mp hd with hd | hd
        · exact c2 d hd
        · exact hrest d hd
    dsimp only
    cases hm : free_merge a st.iova_free_list with
    | some free' =>
      obtain ⟨m1, m2⟩ := free_merge_spec base wlen hw a ha _ free' hfree hm
      exact key free' m2 m1
    | none =>
      cases ok with
      | false => exact ⟨hcnt, hwin⟩
      | true =>
        dsimp only
        refine key _ ?_ ?_
        · intro d hd
          rcases List.mem_append.mp hd with hd | hd
          · exact hfree d hd
          · simp only [List.mem_singleton] at hd
            subst hd
            exact ha
        · intro x
          simp only [cover_count_append, cover_count_cons, cover_count_nil, covers]
          omega

theorem partition_inv_run (base wlen : Nat) (hw : base + wlen < U64) (ops : List Op) :
    ∀ st, partition_inv base wlen st → run_no_overflow st ops →
      partition_inv base wlen (run st ops) := by
  induction ops with
  | nil => intro st h _; exact h
  | cons op ops ih =>
    intro st h hno
    obtain ⟨h1, h2⟩ := hno
    refine ih _ ?_ h2
    cases op with
    | alloc v l ok => exact partition_inv_alloc base wlen hw st v l ok h h1
    | free v l ok => exact partition_inv_free base wlen hw st v l ok h

theorem cover_count_pos_iff (l : List iova_mem_desc) (x : Nat) :
    0 < cover_count l x ↔ ∃ d ∈ l, covers d x := by
  simp [cover_count, List.countP_pos_iff]

theorem pairwise_of_cover_count_le_one (l : List iova_mem_desc)
    (h : ∀ x, cover_count l x ≤ 1) : l.Pairwise disjoint_ranges := by
  induction l with
  | nil => exact List.Pairwise.nil
  | cons d l ih =>
    refine List.Pairwise.cons ?_ (ih ?_)
    · intro e he x hx
      have h1 := h x
      have h2 : 0 < cover_count l x := (cover_count_pos_iff l x).mpr ⟨e, he, hx.2⟩
      rw [cover_count_cons, if_pos hx.1] at h1
      omega
    · intro x
      have h1 := h x
      rw [cover_count_cons] at h1
      omega

/-- Claim C3.  In every state reached from `iova_init(base, len)` by a sequence
of `iova_alloc` and `iova_free` calls in which no address computation wraps
around, the ranges `[taddr, taddr + len)` of the free and allocated descriptors
are pairwise disjoint and their union is exactly `[base, base + len)`. -/
theorem iova_lists_partition_window (base wlen : Nat) (ops : List Op)
    (hw : base + wlen < U64) (hno : run_no_overflow (init_state base wlen) ops) :
    ((run (init_state base wlen) ops).iova_free_list ++
        (run (init_state base wlen) ops).iova_alloc_list).Pairwise disjoint_ranges ∧
    ∀ x, (∃ d ∈ (run (init_state base wlen) ops).iova_free_list ++
        (run (init_state base wlen) ops).iova_alloc_list, covers d x) ↔
      (base ≤ x ∧ x < base + wlen) := by
  obtain ⟨hcnt, _⟩ := partition_inv_run base wlen hw ops _ (partition_inv_init base wlen) hno
  constructor
  · apply pairwise_of_cover_count_le_one
    intro x
    rw [hcnt x]
    split_ifs <;> omega
  · intro x
    rw [← cover_count_pos_iff, hcnt x]
    split_ifs with h
    · simp [h]
    · simp only [lt_self_iff_false, false_iff]
      exact h

theorem iova_lists_partition_window_witness :
    (0x10000000 + 0x1000 < U64 ∧
      run_no_overflow (init_state 0x10000000 0x1000)
        [.alloc 0xA000 0x400 true, .alloc 0xB000 0x400 true, .alloc 0xC000 0x400 true,
         .free 0xB000 0x400 true, .alloc 0xD000 0x400 true]) ∧
    (((run (init_state 0x10000000 0x1000)
        [.alloc 0xA000 0x400 true, .alloc 0xB000 0x400 true, .alloc 0xC000 0x400 true,
         .free 0xB000 0x400 true, .alloc 0xD000 0x400 true]).iova_free_list ++
      (run (init_state 0x10000000 0x1000)
        [.alloc 0xA000 0x400 true, .alloc 0xB000 0x400 true, .alloc 0xC000 0x400 true,
         .free 0xB000 0x400 true, .alloc 0xD000 0x400 true]).iova_alloc_list).Pairwise
        disjoint_ranges ∧
     ∀ x, (∃ d ∈ (run (init_state 0x10000000 0x1000)
        [.alloc 0xA000 0x400 true, .alloc 0xB000 0x400 true, .alloc 0xC000 0x400 true,
         .free 0xB000 0x400 true, .alloc 0xD000 0x400 true]).iova_free_list ++
      (run (init_state 0x10000000 0x1000)
        [.alloc 0xA000 0x400 true, .alloc 0xB000 0x400 true, .alloc 0xC000 0x400 true,
         .free 0xB000 0x400 true, .alloc 0xD000 0x400 true]).iova_alloc_list, covers d x) ↔
      (0x10000000 ≤ x ∧ x < 0x10000000 + 0x1000)) :=
  ⟨⟨by decide, by decide⟩,
    iova_lists_partition_window 0x10000000 0x1000
      [.alloc 0xA000 0x400 true, .alloc 0xB000 0x400 true, .alloc 0xC000 0x400 true,
       .free 0xB000 0x400 true, .alloc 0xD000 0x400 true] (by decide) (by decide)⟩

/-! ## `iova_alloc`: result and effect -/

/-- Claim C4 as stated fails on the code.  Right after `iova_init` with base
`0x10000000` and length `0x1000`, `iova_alloc(0, 0xFFFFFFFFFFFFFFFF)` succeeds
and returns `0x10000000` although no free descriptor is that long: the test
`(f->taddr + len) > (f->taddr + f->len)` compares wrapped sums.  The free
descriptor becomes `(0x0FFFFFFF, 0x1001)`. -/
theorem iova_alloc_wrapped_fit :
    iova_alloc true (init_state 0x10000000 0x1000) 0 0xFFFFFFFFFFFFFFFF =
      (some 0x10000000,
        { iova_alloc_list := [{ vaddr := 0, taddr := 0x10000000, len := 0xFFFFFFFFFFFFFFFF }],
          iova_free_list := [{ vaddr := 0, taddr := 0x0FFFFFFF, len := 0x1001 }] }) ∧
    ¬ ∃ f ∈ (init_state 0x10000000 0x1000).iova_free_list, 0xFFFFFFFFFFFFFFFF ≤ f.len := by
  refine ⟨by decide, by decide⟩

theorem first_fit_split (ok : Bool) (st st' : State) (vaddr len t : Nat)
    (hno : scan_no_overflow len st.iova_free_list)
    (h : iova_alloc ok st vaddr len = (some t, st')) :
    ∃ pre f post, st.iova_free_list = pre ++ f :: post ∧ (∀ g ∈ pre, g.len < len) ∧
      len ≤ f.len ∧ t = f.taddr ∧
      st'.iova_alloc_list = st.iova_alloc_list ++ [{ vaddr := vaddr, taddr := f.taddr, len := len }] ∧
      st'.iova_free_list = pre ++ shrink_front f len ++ post := by
  unfold iova_alloc at h
  split at h
  · cases h
  split at h
  · cases h
  cases hs : alloc_scan len st.iova_free_list with
  | none => rw [hs] at h; cases h
  | some r =>
    obtain ⟨t0, free'⟩ := r
    rw [hs] at h
    cases ok with
    | false => cases h
    | true =>
      simp only [if_true, Prod.mk.injEq, Option.some.injEq] at h
      obtain ⟨h1, h2⟩ := h
      subst h1 h2
      obtain ⟨pre, f, post, e1, e2, e3, e4, e5⟩ := alloc_scan_some len _ t0 free' hno hs
      exact ⟨pre, f, post, e1, e2, e3, e4, by simp [e4], e5⟩

/-- Claim C4, amended.  When no address computation of the first-fit loop wraps
around and `iova_alloc(vaddr, len)` succeeds with `t`, the free list splits as
`pre ++ f :: post` where no descriptor of `pre` is long enough, `f.len >= len`
and `t = f.taddr`; the allocated list gains `{vaddr, t, len}` at its tail; and
in the free list `f` is replaced by `f` shrunk from its front by `len`, or by
nothing when `f.len = len`, all other descriptors staying as they were. -/
theorem iova_alloc_first_fit (ok : Bool) (st st' : State) (vaddr len t : Nat)
    (hno : scan_no_overflow len st.iova_free_list)
    (h : iova_alloc ok st vaddr len = (some t, st')) :
    ∃ pre f post, st.iova_free_list = pre ++ f :: post ∧ (∀ g ∈ pre, g.len < len) ∧
      len ≤ f.len ∧ t = f.taddr ∧
      st'.iova_alloc_list = st.iova_alloc_list ++ [{ vaddr := vaddr, taddr := f.taddr, len := len }] ∧
      st'.iova_free_list = pre ++ shrink_front f len ++ post :=
  first_fit_split ok st st' vaddr len t hno h

theorem iova_alloc_first_fit_witness :
    (scan_no_overflow 0x400 (init_state 0x10000000 0x1000).iova_free_list ∧
      iova_alloc true (init_state 0x10000000 0x1000) 0xA000 0x400 =
        (some 0x10000000,
          { iova_alloc_list := [{ vaddr := 0xA000, taddr := 0x10000000, len := 0x400 }],
            iova_free_list := [{ vaddr := 0, taddr := 0x10000400, len := 0xC00 }] })) ∧
    ∃ pre f post, (init_state 0x10000000 0x1000).iova_free_list = pre ++ f :: post ∧
      (∀ g ∈ pre, g.len < 0x400) ∧ 0x400 ≤ f.len ∧ 0x10000000 = f.taddr ∧
      ({ iova_alloc_list := [{ vaddr := 0xA000, taddr := 0x10000000, len := 0x400 }],
         iova_free_list := [{ vaddr := 0, taddr := 0x10000400, len := 0xC00 }] } : State).iova_alloc_list
        = (init_state 0x10000000 0x1000).iova_alloc_list ++
          [{ vaddr := 0xA000, taddr := f.taddr, len := 0x400 }] ∧
      ({ iova_alloc_list := [{ vaddr := 0xA000, taddr := 0x10000000, len := 0x400 }],
         iova_free_list := [{ vaddr := 0, taddr := 0x10000400, len := 0xC00 }] } : State).iova_free_list
        = pre ++ shrink_front f 0x400 ++ post :=
  ⟨⟨by decide, by decide⟩,
    iova_alloc_first_fit true (init_state 0x10000000 0x1000) _ 0xA000 0x400 0x10000000
      (by decide) (by decide)⟩

theorem iova_overlap_iff (a : iova_mem_desc) (vaddr len : Nat) (hv : vrange_ok vaddr len)
    (ha : vrange_ok a.vaddr a.len) :
    iova_overlap a vaddr len = true ↔ vranges_overlap a vaddr len := by
  obtain ⟨hv1, hv2⟩ := hv
  obtain ⟨ha1, ha2⟩ := ha
  unfold iova_overlap vranges_overlap in_vrange
  simp only [uadd_eq hv2, uadd_eq ha2, usub_eq (show 1 ≤ vaddr + len by omega) hv2,
    usub_eq (show 1 ≤ a.vaddr + a.len by omega) ha2, decide_eq_true_eq, le_min_iff, max_le_iff]
  constructor
  · rintro ⟨⟨h1, h2⟩, h3, h4⟩
    by_cases hc : vaddr ≤ a.vaddr
    · exact ⟨a.vaddr, ⟨hc, by omega⟩, le_refl _, by omega⟩
    · exact ⟨vaddr, ⟨le_refl _, by omega⟩, by omega, by omega⟩
  · rintro ⟨x, ⟨h1, h2⟩, h3, h4⟩
    omega

theorem any_overlap_iff (l : List iova_mem_desc) (vaddr len : Nat) (hv : vrange_ok vaddr len)
    (ha : ∀ a ∈ l, vrange_ok a.vaddr a.len) :
    l.any (fun a => iova_overlap a vaddr len) = true ↔ ∃ a ∈ l, vranges_overlap a vaddr len := by
  rw [List.any_eq_true]
  constructor
  · rintro ⟨a, h1, h2⟩
    exact ⟨a, h1, (iova_overlap_iff a vaddr len hv (ha a h1)).mp h2⟩
  · rintro ⟨a, h1, h2⟩
    exact ⟨a, h1, (iova_overlap_iff a vaddr len hv (ha a h1)).mpr h2⟩

theorem alloc_none_iff (st : State) (vaddr len : Nat) (hv : vrange_ok vaddr len)
    (ha : ∀ a ∈ st.iova_alloc_list, vrange_ok a.vaddr a.len)
    (hf : scan_no_overflow len st.iova_free_list) :
    (iova_alloc true st vaddr len).1 = none ↔
      (st.iova_free_list = [] ∨ (∃ a ∈ st.iova_alloc_list, vranges_overlap a vaddr len) ∨
        ∀ f ∈ st.iova_free_list, f.len < len) := by
  have hov := any_overlap_iff st.iova_alloc_list vaddr len hv ha
  have hsc := alloc_scan_none len st.iova_free_list hf
  unfold iova_alloc
  by_cases h1 : st.iova_free_list = []
  · simp [h1]
  rw [if_neg h1]
  by_cases h2 : st.iova_alloc_list.any (fun a => iova_overlap a vaddr len) = true
  · rw [if_pos h2]
    simp only [true_iff]
    exact Or.inr (Or.inl (hov.mp h2))
  rw [if_neg h2]
  have h2' : ¬ ∃ a ∈ st.iova_alloc_list, vranges_overlap a vaddr len := fun h => h2 (hov.mpr h)
  cases hs : alloc_scan len st.iova_free_list with
  | none =>
    simp only [true_iff]
    exact Or.inr (Or.inr (hsc.mp hs))
  | some r =>
    have h3 : ¬ ∀ f ∈ st.iova_free_list, f.len < len := fun h => by
      rw [hsc.mpr h] at hs; cases hs
    simp only [if_true]
    constructor
    · intro h; cases h
    · rintro (h | h | h)
      · exact absurd h h1
      · exact absurd h h2'
      · exact absurd h h3

theorem iova_alloc_ret_none (ok : Bool) (st : State) (vaddr len : Nat)
    (h : (iova_alloc ok st vaddr len).1 = none) :
    iova_alloc_ret ok st vaddr len = RTE_BAD_IOVA := by
  unfold iova_alloc_ret
  rw [h]

theorem iova_alloc_ret_some (ok : Bool) (st : State) (vaddr len t : Nat)
    (h : (iova_alloc ok st vaddr len).1 = some t) :
    iova_alloc_ret ok st vaddr len = t := by
  unfold iova_alloc_ret
  rw [h]

/-- An address handed out with no wrap-around in the first-fit loop is
`RTE_BAD_IOVA` only for a request of length `0` served by the head of the free
list. -/
theorem alloc_some_bad (st st' : State) (vaddr len : Nat)
    (hf : scan_no_overflow len st.iova_free_list)
    (h : iova_alloc true st vaddr len = (some RTE_BAD_IOVA, st')) :
    len = 0 ∧ ∃ f rest, st.iova_free_list = f :: rest ∧ f.taddr = RTE_BAD_IOVA := by
  obtain ⟨pre, f, post, e1, e2, _, e4, _, _⟩ :=
    first_fit_split true st st' vaddr len RTE_BAD_IOVA hf h
  have hmem : f ∈ st.iova_free_list := by rw [e1]; simp
  have hlt := (hf f hmem).1
  have hlen : len = 0 := by
    rw [← e4] at hlt
    unfold RTE_BAD_IOVA at hlt
    have hpos : 0 < U64 := by unfold U64; positivity
    omega
  refine ⟨hlen, ?_⟩
  cases pre with
  | nil => exact ⟨f, post, e1, e4.symm⟩
  | cons g pre' =>
    have := e2 g (List.mem_cons_self _ _)
    omega

/-- Claim C5 fails as stated.  After `iova_init` with base `0xFFFFFFFFFFFFFFFF`
and length `0`, the call `iova_alloc(0xA000, 0)` wraps nowhere, finds the free
list not empty, no allocated descriptor to overlap and a free descriptor of
length `>= 0`; it reaches `return a->taddr` with `a->taddr = 0xFFFFFFFFFFFFFFFF`,
which is the value `RTE_BAD_IOVA`. -/
theorem iova_alloc_returns_last_address :
    vrange_ok 0xA000 0 ∧
    scan_no_overflow 0 (init_state 0xFFFFFFFFFFFFFFFF 0).iova_free_list ∧
    iova_alloc true (init_state 0xFFFFFFFFFFFFFFFF 0) 0xA000 0 =
      (some 0xFFFFFFFFFFFFFFFF,
        { iova_alloc_list := [{ vaddr := 0xA000, taddr := 0xFFFFFFFFFFFFFFFF, len := 0 }],
          iova_free_list := [] }) ∧
    iova_alloc_ret true (init_state 0xFFFFFFFFFFFFFFFF 0) 0xA000 0 = RTE_BAD_IOVA ∧
    (init_state 0xFFFFFFFFFFFFFFFF 0).iova_free_list ≠ [] ∧
    (¬ ∃ a ∈ (init_state 0xFFFFFFFFFFFFFFFF 0).iova_alloc_list, vranges_overlap a 0xA000 0) ∧
    ¬ ∀ f ∈ (init_state 0xFFFFFFFFFFFFFFFF 0).iova_free_list, f.len < 0 := by
  refine ⟨by decide, by decide, by decide, by decide, by decide, ?_, by decide⟩
  rintro ⟨a, ha, _⟩
  have hnil : (init_state 0xFFFFFFFFFFFFFFFF 0).iova_alloc_list = [] := by decide
  rw [hnil] at ha
  exact List.not_mem_nil a ha

/-- Claim C5 (amended).  With `malloc` succeeding and no address computation
wrapping around (the virtual ranges of the request and of the allocated
descriptors, and the sums of the first-fit loop), the value `iova_alloc(vaddr,
len)` returns is `RTE_BAD_IOVA` exactly when the free list is empty, or
`[vaddr, vaddr + len)` shares an address with the virtual range of an allocated
descriptor, or no free descriptor has length `>= len`, or `len` is `0` and the
first free descriptor starts at the address `0xFFFFFFFFFFFFFFFF`, which is then
handed out.  For `len > 0` the last case does not arise. -/
theorem iova_alloc_bad_iff (st : State) (vaddr len : Nat) (hv : vrange_ok vaddr len)
    (ha : ∀ a ∈ st.iova_alloc_list, vrange_ok a.vaddr a.len)
    (hf : scan_no_overflow len st.iova_free_list) :
    (iova_alloc_ret true st vaddr len = RTE_BAD_IOVA ↔
      (st.iova_free_list = [] ∨ (∃ a ∈ st.iova_alloc_list, vranges_overlap a vaddr len) ∨
        (∀ f ∈ st.iova_free_list, f.len < len) ∨
        (len = 0 ∧ ∃ f rest, st.iova_free_list = f :: rest ∧ f.taddr = RTE_BAD_IOVA))) ∧
    (0 < len →
      (iova_alloc_ret true st vaddr len = RTE_BAD_IOVA ↔
        (st.iova_free_list = [] ∨ (∃ a ∈ st.iova_alloc_list, vranges_overlap a vaddr len) ∨
          ∀ f ∈ st.iova_free_list, f.len < len))) := by
  have hnone := alloc_none_iff st vaddr len hv ha hf
  have key : iova_alloc_ret true st vaddr len = RTE_BAD_IOVA ↔
      (st.iova_free_list = [] ∨ (∃ a ∈ st.iova_alloc_list, vranges_overlap a vaddr len) ∨
        (∀ f ∈ st.iova_free_list, f.len < len) ∨
        (len = 0 ∧ ∃ f rest, st.iova_free_list = f :: rest ∧ f.taddr = RTE_BAD_IOVA)) := by
    cases hr : (iova_alloc true st vaddr len).1 with
    | none =>
      rw [iova_alloc_ret_none true st vaddr len hr]
      simp only [true_iff]
      rcases hnone.mp hr with h | h | h
      · exact Or.inl h
      · exact Or.inr (Or.inl h)
      · exact Or.inr (Or.inr (Or.inl h))
    | some t =>
      rw [iova_alloc_ret_some true st vaddr len t hr]
      have hpair : iova_alloc true st vaddr len = (some t, (iova_alloc true st vaddr len).2) := by
        rw [← hr]
      have hnot : ¬ (st.iova_free_list = [] ∨
          (∃ a ∈ st.iova_alloc_list, vranges_overlap a vaddr len) ∨
          ∀ f ∈ st.iova_free_list, f.len < len) := by
        intro hc
        rw [hnone.mpr hc] at hr
        exact Option.noConfusion hr
      constructor
      · intro ht
        rw [ht] at hpair
        exact Or.inr (Or.inr (Or.inr (alloc_some_bad st _ vaddr len hf hpair)))
      · rintro (h | h | h | ⟨hlen, f, rest, hfree, htaddr⟩)
        · exact absurd (Or.inl h) hnot
        · exact absurd (Or.inr (Or.inl h)) hnot
        · exact absurd (Or.inr (Or.inr h)) hnot
        · obtain ⟨pre, g, post, e1, e2, _, e4, _, _⟩ :=
            first_fit_split true st _ vaddr len t hf hpair
          cases pre with
          | nil =>
            rw [hfree, List.nil_append] at e1
            rw [e4, ← (List.cons.inj e1).1, htaddr]
          | cons g' pre' =>
            have := e2 g' (List.mem_cons_self _ _)
            omega
  refine ⟨key, fun hpos => ?_⟩
  rw [key]
  constructor
  · rintro (h | h | h | ⟨hlen, _⟩)
    · exact Or.inl h
    · exact Or.inr (Or.inl h)
    · exact Or.inr (Or.inr h)
    · omega
  · rintro (h | h | h)
    · exact Or.inl h
    · exact Or.inr (Or.inl h)
    · exact Or.inr (Or.inr (Or.inl h))

/-- Scenario S2: after `iova_alloc(0x2000, 0x100)` on the window of base
`0x10000000` and length `0x1000`, the call `iova_alloc(0x20FF, 0x10)` returns
`RTE_BAD_IOVA`, and the theorem gives the overlap as the reason. -/
theorem iova_alloc_bad_iff_witness :
    (vrange_ok 0x20FF 0x10 ∧
      (∀ a ∈ (iova_alloc true (init_state 0x10000000 0x1000) 0x2000 0x100).2.iova_alloc_list,
        vrange_ok a.vaddr a.len) ∧
      scan_no_overflow 0x10
        (iova_alloc true (init_state 0x10000000 0x1000) 0x2000 0x100).2.iova_free_list) ∧
    iova_alloc_ret true (iova_alloc true (init_state 0x10000000 0x1000) 0x2000 0x100).2
        0x20FF 0x10 = RTE_BAD_IOVA ∧
    (iova_alloc_ret true (iova_alloc true (init_state 0x10000000 0x1000) 0x2000 0x100).2
        0x20FF 0x10 = RTE_BAD_IOVA ↔
      ((iova_alloc true (init_state 0x10000000 0x1000) 0x2000 0x100).2.iova_free_list = [] ∨
        (∃ a ∈ (iova_alloc true (init_state 0x10000000 0x1000) 0x2000 0x100).2.iova_alloc_list,
          vranges_overlap a 0x20FF 0x10) ∨
        ∀ f ∈ (iova_alloc true (init_state 0x10000000 0x1000) 0x2000 0x100).2.iova_free_list,
          f.len < 0x10)) :=
  ⟨⟨by decide, by decide, by decide⟩, by decide,
    (iova_alloc_bad_iff (iova_alloc true (init_state 0x10000000 0x1000) 0x2000 0x100).2
      0x20FF 0x10 (by decide) (by decide) (by decide)).2 (by decide)⟩

theorem alloc_bad_keeps_state (ok : Bool) (st : State) (vaddr len : Nat)
    (h : (iova_alloc ok st vaddr len).1 = none) : (iova_alloc ok st vaddr len).2 = st := by
  unfold iova_alloc at h ⊢
  by_cases h1 : st.iova_free_list = []
  · rw [if_pos h1]
  rw [if_neg h1] at h ⊢
  by_cases h2 : st.iova_alloc_list.any (fun a => iova_overlap a vaddr len) = true
  · rw [if_pos h2]
  rw [if_neg h2] at h ⊢
  cases hs : alloc_scan len st.iova_free_list with
  | none => rfl
  | some r =>
    rw [hs] at h
    cases ok with
    | false => rfl
    | true => simp at h

theorem alloc_scan_mem (len : Nat) (l : List iova_mem_desc) :
    ∀ t l', alloc_scan len l = some (t, l') → ∃ f ∈ l, f.taddr = t := by
  induction l with
  | nil => intro t l' h; simp [alloc_scan] at h
  | cons f rest ih =>
    intro t l' h
    unfold alloc_scan at h
    by_cases hbig : uadd f.taddr len > uadd f.taddr f.len
    · rw [if_pos hbig] at h
      cases hm : alloc_scan len rest with
      | none => simp [hm] at h
      | some r =>
        obtain ⟨t0, rest'⟩ := r
        simp only [hm, Option.some.injEq, Prod.mk.injEq] at h
        obtain ⟨g, hg, hgt⟩ := ih t0 rest' hm
        exact ⟨g, List.mem_cons_of_mem _ hg, by rw [hgt, h.1]⟩
    · rw [if_neg hbig] at h
      simp only [Option.some.injEq, Prod.mk.injEq] at h
      exact ⟨f, List.mem_cons_self _ _, h.1⟩

/-- The address that `return a->taddr` hands out is the start of a free
descriptor. -/
theorem alloc_some_mem (ok : Bool) (st : State) (vaddr len t : Nat)
    (h : (iova_alloc ok st vaddr len).1 = some t) : ∃ f ∈ st.iova_free_list, f.taddr = t := by
  unfold iova_alloc at h
  split at h
  · cases h
  split at h
  · cases h
  cases hs : alloc_scan len st.iova_free_list with
  | none => rw [hs] at h; cases h
  | some r =>
    obtain ⟨t0, free'⟩ := r
    rw [hs] at h
    cases ok with
    | false => cases h
    | true =>
      simp only [if_true, Option.some.injEq] at h
      obtain ⟨f, hf, hft⟩ := alloc_scan_mem len st.iova_free_list t0 free' hs
      exact ⟨f, hf, by rw [hft, h]⟩

/-- Claim C6 fails as stated.  After `iova_init` with base `0xFFFFFFFFFFFFFFFF`
and length `1`, the call `iova_alloc(0xA000, 1)` finds a fit (both sums of the
test wrap to `0`), moves the descriptor to the allocated list, empties the free
list, and returns `a->taddr = 0xFFFFFFFFFFFFFFFF`, the value `RTE_BAD_IOVA`: the
caller sees `RTE_BAD_IOVA` and both lists have changed. -/
theorem iova_alloc_sentinel_with_change :
    iova_alloc_ret true (init_state 0xFFFFFFFFFFFFFFFF 1) 0xA000 1 = RTE_BAD_IOVA ∧
    init_state 0xFFFFFFFFFFFFFFFF 1 =
      { iova_alloc_list := [],
        iova_free_list := [{ vaddr := 0, taddr := 0xFFFFFFFFFFFFFFFF, len := 1 }] } ∧
    (iova_alloc true (init_state 0xFFFFFFFFFFFFFFFF 1) 0xA000 1).2 =
      { iova_alloc_list := [{ vaddr := 0xA000, taddr := 0xFFFFFFFFFFFFFFFF, len := 1 }],
        iova_free_list := [] } ∧
    (iova_alloc true (init_state 0xFFFFFFFFFFFFFFFF 1) 0xA000 1).2 ≠
      init_state 0xFFFFFFFFFFFFFFFF 1 := by
  refine ⟨by decide, by decide, by decide, by decide⟩

theorem ret_bad_keeps_state (ok : Bool) (st : State) (vaddr len : Nat)
    (hfree : ∀ f ∈ st.iova_free_list, f.taddr ≠ RTE_BAD_IOVA)
    (hret : iova_alloc_ret ok st vaddr len = RTE_BAD_IOVA) :
    (iova_alloc ok st vaddr len).2 = st := by
  cases hr : (iova_alloc ok st vaddr len).1 with
  | none => exact alloc_bad_keeps_state ok st vaddr len hr
  | some t =>
    rw [iova_alloc_ret_some ok st vaddr len t hr] at hret
    obtain ⟨f, hf, hft⟩ := alloc_some_mem ok st vaddr len t hr
    exact absurd (hft.trans hret) (hfree f hf)

/-- Claim C6 (amended).  Whenever `iova_alloc` returns the value `RTE_BAD_IOVA`
(whatever the outcome of `malloc`) and no free descriptor starts at the address
`0xFFFFFFFFFFFFFFFF`, both lists are as before the call.  This is the case in
every state reached from `iova_init(base, len)` with
`base + len < 0xFFFFFFFFFFFFFFFF` by calls in which no address computation wraps
around.  And once `iova_alloc(0x2000, 0x100)` has handed out an address,
`iova_alloc(0x20FF, 0x10)` returns `RTE_BAD_IOVA` and leaves both lists as they
were. -/
theorem iova_alloc_bad_unchanged :
    (∀ (ok : Bool) (st : State) (vaddr len : Nat),
      (∀ f ∈ st.iova_free_list, f.taddr ≠ RTE_BAD_IOVA) →
      iova_alloc_ret ok st vaddr len = RTE_BAD_IOVA → (iova_alloc ok st vaddr len).2 = st) ∧
    (∀ (base wlen : Nat) (ops : List Op) (ok : Bool) (vaddr len : Nat),
      base + wlen < RTE_BAD_IOVA → run_no_overflow (init_state base wlen) ops →
      iova_alloc_ret ok (run (init_state base wlen) ops) vaddr len = RTE_BAD_IOVA →
      (iova_alloc ok (run (init_state base wlen) ops) vaddr len).2 =
        run (init_state base wlen) ops) ∧
    (∀ (ok ok' : Bool) (st st₁ : State) (t : Nat),
      iova_alloc ok st 0x2000 0x100 = (some t, st₁) →
        iova_alloc_ret ok' st₁ 0x20FF 0x10 = RTE_BAD_IOVA ∧
        (iova_alloc ok' st₁ 0x20FF 0x10).2 = st₁) := by
  refine ⟨ret_bad_keeps_state, ?_, ?_⟩
  · intro base wlen ops ok vaddr len hw hno hret
    have hw' : base + wlen < U64 := by
      unfold RTE_BAD_IOVA at hw
      omega
    obtain ⟨_, hwin⟩ := partition_inv_run base wlen hw' ops _ (partition_inv_init base wlen) hno
    refine ret_bad_keeps_state ok _ vaddr len ?_ hret
    intro f hf hbad
    have := hwin f (List.mem_append_left _ hf)
    unfold in_window at this
    rw [hbad] at this
    omega
  · intro ok ok' st st₁ t h
    have hmem : ({ vaddr := 0x2000, taddr := t, len := 0x100 } : iova_mem_desc)
        ∈ st₁.iova_alloc_list := by
      unfold iova_alloc at h
      split at h
      · cases h
      split at h
      · cases h
      cases hs : alloc_scan 0x100 st.iova_free_list with
      | none => rw [hs] at h; cases h
      | some r =>
        rw [hs] at h
        cases ok with
        | false => cases h
        | true =>
          simp only [if_true, Prod.mk.injEq, Option.some.injEq] at h
          obtain ⟨h1, h2⟩ := h
          subst h1 h2
          simp
    have hany : st₁.iova_alloc_list.any (fun a => iova_overlap a 0x20FF 0x10) = true := by
      rw [List.any_eq_true]
      have hov : iova_overlap { vaddr := 0x2000, taddr := t, len := 0x100 } 0x20FF 0x10 = true := by
        have : decide (max 0x20FF 0x2000 ≤ min (usub (uadd 0x20FF 0x10) 1)
            (usub (uadd 0x2000 0x100) 1)) = true := by decide
        exact this
      exact ⟨_, hmem, hov⟩
    have hres : iova_alloc ok' st₁ 0x20FF 0x10 = (none, st₁) := by
      unfold iova_alloc
      by_cases h1 : st₁.iova_free_list = []
      · rw [if_pos h1]
      · rw [if_neg h1, if_pos hany]
    exact ⟨iova_alloc_ret_none ok' st₁ 0x20FF 0x10 (by rw [hres]), by rw [hres]⟩

/-- On the empty free list the call returns `RTE_BAD_IOVA` and changes nothing;
after two allocations on the window of base `0x10000000` and length `0x1000`, a
request that overlaps the first one returns `RTE_BAD_IOVA` and changes nothing;
scenario S2 on the same window. -/
theorem iova_alloc_bad_unchanged_witness :
    ((∀ f ∈ ({ iova_alloc_list := [], iova_free_list := [] } : State).iova_free_list,
        f.taddr ≠ RTE_BAD_IOVA) ∧
      iova_alloc_ret true { iova_alloc_list := [], iova_free_list := [] } 0xA000 0x400 =
        RTE_BAD_IOVA ∧
      (iova_alloc true { iova_alloc_list := [], iova_free_list := [] } 0xA000 0x400).2 =
        { iova_alloc_list := [], iova_free_list := [] }) ∧
    (0x10000000 + 0x1000 < RTE_BAD_IOVA ∧
      run_no_overflow (init_state 0x10000000 0x1000)
        [.alloc 0xA000 0x400 true, .alloc 0xB000 0x400 true] ∧
      iova_alloc_ret true (run (init_state 0x10000000 0x1000)
        [.alloc 0xA000 0x400 true, .alloc 0xB000 0x400 true]) 0xA100 0x10 = RTE_BAD_IOVA ∧
      (iova_alloc true (run (init_state 0x10000000 0x1000)
        [.alloc 0xA000 0x400 true, .alloc 0xB000 0x400 true]) 0xA100 0x10).2 =
        run (init_state 0x10000000 0x1000)
          [.alloc 0xA000 0x400 true, .alloc 0xB000 0x400 true]) ∧
    (iova_alloc true (init_state 0x10000000 0x1000) 0x2000 0x100 =
      (some 0x10000000,
        { iova_alloc_list := [{ vaddr := 0x2000, taddr := 0x10000000, len := 0x100 }],
          iova_free_list := [{ vaddr := 0, taddr := 0x10000100, len := 0xF00 }] })) ∧
    (iova_alloc_ret true
        { iova_alloc_list := [{ vaddr := 0x2000, taddr := 0x10000000, len := 0x100 }],
          iova_free_list := [{ vaddr := 0, taddr := 0x10000100, len := 0xF00 }] } 0x20FF 0x10 =
      RTE_BAD_IOVA ∧
     (iova_alloc true
        { iova_alloc_list := [{ vaddr := 0x2000, taddr := 0x10000000, len := 0x100 }],
          iova_free_list := [{ vaddr := 0, taddr := 0x10000100, len := 0xF00 }] } 0x20FF 0x10).2 =
      { iova_alloc_list := [{ vaddr := 0x2000, taddr := 0x10000000, len := 0x100 }],
        iova_free_list := [{ vaddr := 0, taddr := 0x10000100, len := 0xF00 }] }) :=
  ⟨⟨by decide, by decide,
      iova_alloc_bad_unchanged.1 true { iova_alloc_list := [], iova_free_list := [] } 0xA000 0x400
        (by decide) (by decide)⟩,
    ⟨by decide, by decide, by decide,
      iova_alloc_bad_unchanged.2.1 0x10000000 0x1000
        [.alloc 0xA000 0x400 true, .alloc 0xB000 0x400 true] true 0xA100 0x10
        (by decide) (by decide) (by decide)⟩,
    by decide,
    iova_alloc_bad_unchanged.2.2 true true (init_state 0x10000000 0x1000) _ 0x10000000
      (by decide)⟩

/-! ## `iova_free`: result and effect on the allocated list -/

theorem find_alloc_eraseP (vaddr len : Nat) (l pre post : List iova_mem_desc) (a : iova_mem_desc)
    (h : find_alloc vaddr len l = some (pre, a, post)) :
    l.eraseP (fun e => decide (e.vaddr = vaddr) && decide (e.len = len)) = pre ++ post := by
  obtain ⟨e1, e2, e3, e4⟩ := find_alloc_some vaddr len l pre a post h
  rw [e1, List.eraseP_append_right, List.eraseP_cons_of_pos]
  · simp [e2, e3]
  · intro b hb
    have := e4 b hb
    simpa using this

/-- Claim C7.  With `malloc` succeeding, `iova_free(vaddr, len)` returns `-1`
exactly when no allocated descriptor has that `vaddr` and that `len`, and then
both lists are unchanged; otherwise it returns `0` and the allocated list loses
its first descriptor with that `vaddr` and `len`, and nothing else. -/
theorem iova_free_exact_match (st : State) (vaddr len : Nat) :
    ((iova_free true st vaddr len).1 = -1 ↔
      ¬ ∃ a ∈ st.iova_alloc_list, a.vaddr = vaddr ∧ a.len = len) ∧
    ((iova_free true st vaddr len).1 = -1 → (iova_free true st vaddr len).2 = st) ∧
    ((∃ a ∈ st.iova_alloc_list, a.vaddr = vaddr ∧ a.len = len) →
      (iova_free true st vaddr len).1 = 0 ∧
      (iova_free true st vaddr len).2.iova_alloc_list =
        st.iova_alloc_list.eraseP (fun e => decide (e.vaddr = vaddr) && decide (e.len = len))) := by
  cases hf : find_alloc vaddr len st.iova_alloc_list with
  | none =>
    have hnone := (find_alloc_none vaddr len _).mp hf
    have hno : ¬ ∃ a ∈ st.iova_alloc_list, a.vaddr = vaddr ∧ a.len = len := by
      rintro ⟨a, h1, h2⟩; exact hnone a h1 h2
    have hval : iova_free true st vaddr len = (-1, st) := by
      unfold iova_free
      split
      · rfl
      · rw [hf]
    rw [hval]
    exact ⟨⟨fun _ => hno, fun _ => rfl⟩, fun _ => rfl, fun h => absurd h hno⟩
  | some r =>
    obtain ⟨pre, a, post⟩ := r
    obtain ⟨e1, e2, e3, _⟩ := find_alloc_some vaddr len _ pre a post hf
    have hex : ∃ a ∈ st.iova_alloc_list, a.vaddr = vaddr ∧ a.len = len :=
      ⟨a, by rw [e1]; simp, e2, e3⟩
    have hne : st.iova_alloc_list ≠ [] := by rw [e1]; simp
    have her := find_alloc_eraseP vaddr len _ pre post a hf
    have hval : (iova_free true st vaddr len).1 = 0 ∧
        (iova_free true st vaddr len).2.iova_alloc_list = pre ++ post := by
      unfold iova_free
      rw [if_neg hne, hf]
      dsimp only
      cases free_merge a st.iova_free_list with
      | none => exact ⟨rfl, rfl⟩
      | some free' => exact ⟨rfl, rfl⟩
    refine ⟨⟨fun h => ?_, fun h => absurd hex h⟩, fun h => ?_, fun _ => ⟨hval.1, ?_⟩⟩
    · rw [hval.1] at h; cases h
    · rw [hval.1] at h; cases h
    · rw [hval.2, her]

theorem iova_free_exact_match_witness :
    ((∃ a ∈ (iova_alloc true (init_state 0x10000000 0x1000) 0xA000 0x400).2.iova_alloc_list,
        a.vaddr = 0xA000 ∧ a.len = 0x400) ∧
      (iova_free true (iova_alloc true (init_state 0x10000000 0x1000) 0xA000 0x400).2
          0xA000 0x400).1 = 0 ∧
      (iova_free true (iova_alloc true (init_state 0x10000000 0x1000) 0xA000 0x400).2
          0xA000 0x400).2.iova_alloc_list =
        (iova_alloc true (init_state 0x10000000 0x1000) 0xA000 0x400).2.iova_alloc_list.eraseP
          (fun e => decide (e.vaddr = 0xA000) && decide (e.len = 0x400))) ∧
    ((iova_free true (iova_alloc true (init_state 0x10000000 0x1000) 0xA000 0x400).2
          0xA000 0x200).1 = -1 ∧
      (iova_free true (iova_alloc true (init_state 0x10000000 0x1000) 0xA000 0x400).2
          0xA000 0x200).2 = (iova_alloc true (init_state 0x10000000 0x1000) 0xA000 0x400).2) :=
  ⟨⟨by decide,
      (iova_free_exact_match (iova_alloc true (init_state 0x10000000 0x1000) 0xA000 0x400).2
        0xA000 0x400).2.2 (by decide)⟩,
    by decide,
    (iova_free_exact_match (iova_alloc true (init_state 0x10000000 0x1000) 0xA000 0x400).2
      0xA000 0x200).2.1 (by decide)⟩

/-! ## `iova_search` after `iova_alloc` -/

theorem iova_free_fail_unchanged (ok : Bool) (st : State) (vaddr len : Nat)
    (h : (iova_free ok st vaddr len).1 = -1) : (iova_free ok st vaddr len).2 = st := by
  unfold iova_free at h ⊢
  by_cases h1 : st.iova_alloc_list = []
  · rw [if_pos h1]
  rw [if_neg h1] at h ⊢
  cases hf : find_alloc vaddr len st.iova_alloc_list with
  | none => rfl
  | some r =>
    obtain ⟨pre, a, post⟩ := r
    rw [hf] at h
    dsimp only at h ⊢
    cases hm : free_merge a st.iova_free_list with
    | some free' => rw [hm] at h; simp at h
    | none =>
      rw [hm] at h
      cases ok with
      | false => rfl
      | true => simp at h

theorem iova_alloc_some_lists (ok : Bool) (st st' : State) (vaddr len t : Nat)
    (h : iova_alloc ok st vaddr len = (some t, st')) :
    st'.iova_alloc_list = st.iova_alloc_list ++ [{ vaddr := vaddr, taddr := t, len := len }] ∧
    ∀ e ∈ st.iova_alloc_list, iova_overlap e vaddr len = false := by
  unfold iova_alloc at h
  by_cases h1 : st.iova_free_list = []
  · rw [if_pos h1] at h; cases h
  rw [if_neg h1] at h
  by_cases h2 : st.iova_alloc_list.any (fun a => iova_overlap a vaddr len) = true
  · rw [if_pos h2] at h; cases h
  rw [if_neg h2] at h
  cases hs : alloc_scan len st.iova_free_list with
  | none => rw [hs] at h; cases h
  | some r =>
    rw [hs] at h
    cases ok with
    | false => cases h
    | true =>
      simp only [if_true, Prod.mk.injEq, Option.some.injEq] at h
      obtain ⟨h3, h4⟩ := h
      subst h3 h4
      refine ⟨rfl, fun e he => ?_⟩
      cases hov : iova_overlap e vaddr len with
      | false => rfl
      | true => exact absurd (List.any_eq_true.mpr ⟨e, he, hov⟩) h2

theorem iova_alloc_lists (ok : Bool) (st : State) (vaddr len : Nat) :
    (iova_alloc ok st vaddr len).2.iova_alloc_list = st.iova_alloc_list ∨
    ∃ b, (iova_alloc ok st vaddr len).2.iova_alloc_list = st.iova_alloc_list ++ [b] := by
  cases hr : iova_alloc ok st vaddr len with
  | mk r st' =>
    cases r with
    | none =>
      left
      have := alloc_bad_keeps_state ok st vaddr len (by rw [hr])
      rw [hr] at this
      exact congrArg State.iova_alloc_list this
    | some t => exact Or.inr ⟨_, (iova_alloc_some_lists ok st st' vaddr len t hr).1⟩

theorem iova_free_lists (ok : Bool) (st : State) (vaddr len : Nat) :
    (iova_free ok st vaddr len).2.iova_alloc_list = st.iova_alloc_list ∨
    ∃ pre a post, find_alloc vaddr len st.iova_alloc_list = some (pre, a, post) ∧
      (iova_free ok st vaddr len).2.iova_alloc_list = pre ++ post := by
  unfold iova_free
  by_cases h1 : st.iova_alloc_list = []
  · rw [if_pos h1]; exact Or.inl rfl
  rw [if_neg h1]
  cases hf : find_alloc vaddr len st.iova_alloc_list with
  | none => exact Or.inl rfl
  | some r =>
    obtain ⟨pre, a, post⟩ := r
    dsimp only
    cases free_merge a st.iova_free_list with
    | some free' => exact Or.inr ⟨pre, a, post, rfl, rfl⟩
    | none =>
      cases ok with
      | false => exact Or.inl rfl
      | true => exact Or.inr ⟨pre, a, post, rfl, rfl⟩

theorem overlap_false_no_hit (e : iova_mem_desc) (vaddr len k : Nat) (hv : vaddr + len < U64)
    (hk : k < len) (h : iova_overlap e vaddr len = false) : search_hit (vaddr + k) e = false := by
  cases hc : search_hit (vaddr + k) e with
  | false => rfl
  | true =>
    exfalso
    unfold search_hit at hc
    unfold iova_overlap at h
    have hu : uadd e.vaddr e.len < U64 := Nat.mod_lt _ (by unfold U64; norm_num)
    simp only [Bool.and_eq_true, decide_eq_true_eq] at hc
    obtain ⟨hc1, hc2⟩ := hc
    dsimp only at h
    rw [uadd_eq hv, usub_eq (show 1 ≤ vaddr + len by omega) hv,
      usub_eq (show 1 ≤ uadd e.vaddr e.len by omega) hu] at h
    simp only [decide_eq_false_iff_not, le_min_iff, max_le_iff] at h
    apply h
    refine ⟨⟨?_, ?_⟩, ?_, ?_⟩ <;> omega

theorem find_erase_other (p : iova_mem_desc → Bool) (pre post : List iova_mem_desc)
    (a b : iova_mem_desc) (hne : b ≠ a) (h : (pre ++ b :: post).find? p = some a) :
    (pre ++ post).find? p = some a := by
  rw [List.find?_append] at h ⊢
  cases hp : pre.find? p with
  | some x => rw [hp] at h; exact h
  | none =>
    rw [hp] at h
    simp only [Option.none_or] at h ⊢
    rw [List.find?_cons] at h
    cases hb : p b with
    | true => rw [hb] at h; simp only [Option.some.injEq] at h; exact absurd h hne
    | false => rw [hb] at h; exact h

theorem step_keeps_find (vaddr len : Nat) (a : iova_mem_desc) (ha : a.vaddr = vaddr ∧ a.len = len)
    (p : iova_mem_desc → Bool) (st : State) (op : Op)
    (hop : match op with
      | .free v l ok => v = vaddr ∧ l = len → (iova_free ok st v l).1 = -1
      | .alloc _ _ _ => True)
    (h : st.iova_alloc_list.find? p = some a) :
    (step st op).iova_alloc_list.find? p = some a := by
  cases op with
  | alloc v l ok =>
    unfold step
    rcases iova_alloc_lists ok st v l with e | ⟨b, e⟩
    · rw [e]; exact h
    · rw [e, List.find?_append, h]; rfl
  | free v l ok =>
    unfold step
    dsimp only at hop ⊢
    by_cases hvl : v = vaddr ∧ l = len
    · rw [iova_free_fail_unchanged ok st v l (hop hvl)]; exact h
    · rcases iova_free_lists ok st v l with e | ⟨pre, b, post, e1, e2⟩
      · rw [e]; exact h
      · obtain ⟨f1, f2, f3, _⟩ := find_alloc_some v l _ pre b post e1
        rw [e2]
        rw [f1] at h
        refine find_erase_other p pre post a b ?_ h
        intro hba
        apply hvl
        rw [← f2, ← f3, hba]
        exact ha

theorem run_keeps_find (vaddr len : Nat) (a : iova_mem_desc) (ha : a.vaddr = vaddr ∧ a.len = len)
    (p : iova_mem_desc → Bool) (ops : List Op) :
    ∀ st, never_freed vaddr len st ops → st.iova_alloc_list.find? p = some a →
      (run st ops).iova_alloc_list.find? p = some a := by
  induction ops with
  | nil => intro st _ h; exact h
  | cons op ops ih =>
    intro st hn h
    obtain ⟨h1, h2⟩ := hn
    exact ih _ h2 (step_keeps_find vaddr len a ha p st op h1 h)

/-- Claim C8 as stated fails on the code.  Right after `iova_init` with base
`0x10000000` and length `0x1000`, `iova_alloc(0xFFFFFFFFFFFFFF00, 0x100)` returns
`0x10000000`, yet `iova_search(0xFFFFFFFFFFFFFF00)` returns `RTE_BAD_IOVA`: the
upper bound `a->vaddr + a->len` of the test wraps to `0`. -/
theorem iova_search_misses_wrapped_end :
    iova_alloc true (init_state 0x10000000 0x1000) 0xFFFFFFFFFFFFFF00 0x100 =
      (some 0x10000000,
        { iova_alloc_list :=
            [{ vaddr := 0xFFFFFFFFFFFFFF00, taddr := 0x10000000, len := 0x100 }],
          iova_free_list := [{ vaddr := 0, taddr := 0x10000100, len := 0xF00 }] }) ∧
    iova_search
        { iova_alloc_list :=
            [{ vaddr := 0xFFFFFFFFFFFFFF00, taddr := 0x10000000, len := 0x100 }],
          iova_free_list := [{ vaddr := 0, taddr := 0x10000100, len := 0xF00 }] }
        (0xFFFFFFFFFFFFFF00 + 0) = none := by
  refine ⟨by decide, by decide⟩

/-- Claim C8, amended.  In any state, if `vaddr + len` does not wrap around and
`iova_alloc(vaddr, len)` returns `t`, then after any further calls among which
no `iova_free(vaddr, len)` succeeds, `iova_search(vaddr + k)` returns `t + k`
(as a 64-bit sum) for every `k < len`; and in any state `iova_search(x)` returns
`RTE_BAD_IOVA` for every `x` that lies in no allocated descriptor's
`[vaddr, vaddr + len)`. -/
theorem iova_search_after_alloc (ok : Bool) (st st' : State) (vaddr len t : Nat) (ops : List Op)
    (hv : vaddr + len < U64) (h : iova_alloc ok st vaddr len = (some t, st'))
    (hops : never_freed vaddr len st' ops) :
    (∀ k, k < len → iova_search (run st' ops) (vaddr + k) = some (uadd t k)) ∧
    (∀ (s : State) (x : Nat), (∀ a ∈ s.iova_alloc_list, ¬ in_vrange a.vaddr a.len x) →
      iova_search s x = none) := by
  constructor
  · intro k hk
    obtain ⟨e1, e2⟩ := iova_alloc_some_lists ok st st' vaddr len t h
    have hinit : st'.iova_alloc_list.find? (search_hit (vaddr + k))
        = some { vaddr := vaddr, taddr := t, len := len } := by
      rw [e1, List.find?_append]
      have hnone : st.iova_alloc_list.find? (search_hit (vaddr + k)) = none := by
        rw [List.find?_eq_none]
        intro e he
        rw [overlap_false_no_hit e vaddr len k hv hk (e2 e he)]
        simp
      rw [hnone]
      have hhit : search_hit (vaddr + k) { vaddr := vaddr, taddr := t, len := len } = true := by
        unfold search_hit
        simp only [uadd_eq hv, Bool.and_eq_true, decide_eq_true_eq]
        omega
      simp [List.find?_cons, hhit]
    have := run_keeps_find vaddr len _ ⟨rfl, rfl⟩ (search_hit (vaddr + k)) ops st' hops hinit
    unfold iova_search
    rw [this]
    simp only [Option.some.injEq]
    rw [usub_eq (by omega) (by omega)]
    congr 1
    omega
  · intro s x hx
    unfold iova_search
    have hnone : s.iova_alloc_list.find? (search_hit x) = none := by
      rw [List.find?_eq_none]
      intro a ha hhit
      unfold search_hit at hhit
      simp only [Bool.and_eq_true, decide_eq_true_eq] at hhit
      apply hx a ha
      unfold in_vrange
      have : uadd a.vaddr a.len ≤ a.vaddr + a.len := Nat.mod_le _ _
      omega
    rw [hnone]

theorem iova_search_after_alloc_witness :
    (0xA000 + 0x400 < U64 ∧
      iova_alloc true (init_state 0x10000000 0x1000) 0xA000 0x400 =
        (some 0x10000000,
          { iova_alloc_list := [{ vaddr := 0xA000, taddr := 0x10000000, len := 0x400 }],
            iova_free_list := [{ vaddr := 0, taddr := 0x10000400, len := 0xC00 }] }) ∧
      never_freed 0xA000 0x400
        { iova_alloc_list := [{ vaddr := 0xA000, taddr := 0x10000000, len := 0x400 }],
          iova_free_list := [{ vaddr := 0, taddr := 0x10000400, len := 0xC00 }] }
        [.alloc 0xB000 0x400 true, .free 0xA000 0x200 true, .free 0xB000 0x400 true]) ∧
    iova_search
        (run
          { iova_alloc_list := [{ vaddr := 0xA000, taddr := 0x10000000, len := 0x400 }],
            iova_free_list := [{ vaddr := 0, taddr := 0x10000400, len := 0xC00 }] }
          [.alloc 0xB000 0x400 true, .free 0xA000 0x200 true, .free 0xB000 0x400 true])
        (0xA000 + 0x3FF) = some (uadd 0x10000000 0x3FF) :=
  ⟨⟨by decide, by decide, by decide⟩,
    (iova_search_after_alloc true (init_state 0x10000000 0x1000) _ 0xA000 0x400 0x10000000
      [.alloc 0xB000 0x400 true, .free 0xA000 0x200 true, .free 0xB000 0x400 true]
      (by decide) (by decide) (by decide)).1 0x3FF (by decide)⟩

/-! ## Freeing everything -/

/-- Claim C9 fails on the code.  From `iova_init` with base `0x10000000` and
length `0x1800`, the sixteen calls below (allocations and frees of `0x400`, none
of whose address computations wraps) end with every allocation freed, yet the
free list is `(0x10000000, 0xC00), (0x10000C00, 0xC00)`, two descriptors and not
the single `(0x10000000, 0x1800)`.  Before the last call the free list is
`(0x10000C00, 0xC00), (0x10000000, 0x400), (0x10000800, 0x400)`; the last
`iova_free` extends the second descriptor, the single pass of `iova_sort` puts
it in front, and the merge loop of `iova_compress` walks past `(0x10000C00, 0xC00)`
before the head has grown to reach it. -/
theorem iova_free_all_leaves_two :
    run_no_overflow (init_state 0x10000000 0x1800)
      [.alloc 0xA000 0x400 true, .alloc 0xB000 0x400 true, .alloc 0xC000 0x400 true,
       .alloc 0xD000 0x400 true, .alloc 0xE000 0x400 true, .free 0xA000 0x400 true,
       .free 0xD000 0x400 true, .free 0xE000 0x400 true, .alloc 0xA000 0x400 true,
       .alloc 0xD000 0x400 true, .free 0xC000 0x400 true, .free 0xA000 0x400 true,
       .free 0xD000 0x400 true, .alloc 0xA000 0x400 true, .free 0xA000 0x400 true,
       .free 0xB000 0x400 true] ∧
    run (init_state 0x10000000 0x1800)
      [.alloc 0xA000 0x400 true, .alloc 0xB000 0x400 true, .alloc 0xC000 0x400 true,
       .alloc 0xD000 0x400 true, .alloc 0xE000 0x400 true, .free 0xA000 0x400 true,
       .free 0xD000 0x400 true, .free 0xE000 0x400 true, .alloc 0xA000 0x400 true,
       .alloc 0xD000 0x400 true, .free 0xC000 0x400 true, .free 0xA000 0x400 true,
       .free 0xD000 0x400 true, .alloc 0xA000 0x400 true, .free 0xA000 0x400 true,
       .free 0xB000 0x400 true] =
      { iova_alloc_list := [],
        iova_free_list := [{ vaddr := 0, taddr := 0x10000000, len := 0xC00 },
                           { vaddr := 0, taddr := 0x10000C00, len := 0xC00 }] } ∧
    run (init_state 0x10000000 0x1800)
      [.alloc 0xA000 0x400 true, .alloc 0xB000 0x400 true, .alloc 0xC000 0x400 true,
       .alloc 0xD000 0x400 true, .alloc 0xE000 0x400 true, .free 0xA000 0x400 true,
       .free 0xD000 0x400 true, .free 0xE000 0x400 true, .alloc 0xA000 0x400 true,
       .alloc 0xD000 0x400 true, .free 0xC000 0x400 true, .free 0xA000 0x400 true,
       .free 0xD000 0x400 true, .alloc 0xA000 0x400 true, .free 0xA000 0x400 true] =
      { iova_alloc_list := [{ vaddr := 0xB000, taddr := 0x10000400, len := 0x400 }],
        iova_free_list := [{ vaddr := 0, taddr := 0x10000C00, len := 0xC00 },
                           { vaddr := 0, taddr := 0x10000000, len := 0x400 },
                           { vaddr := 0, taddr := 0x10000800, len := 0x400 }] } := by
  refine ⟨by decide, by decide, by decide⟩

/-- The scenario of claim C9's own example does collapse: after the three
allocations, the free of the second and the fourth allocation, freeing the
three live allocations in any of the six orders leaves the single free
descriptor `(0x10000000, 0x1000)`. -/
theorem iova_free_all_example_collapses :
    ∀ order ∈ [[0xA000, 0xC000, 0xD000], [0xA000, 0xD000, 0xC000], [0xC000, 0xA000, 0xD000],
        [0xC000, 0xD000, 0xA000], [0xD000, 0xA000, 0xC000], [0xD000, 0xC000, 0xA000]],
      run (init_state 0x10000000 0x1000)
        ([.alloc 0xA000 0x400 true, .alloc 0xB000 0x400 true, .alloc 0xC000 0x400 true,
          .free 0xB000 0x400 true, .alloc 0xD000 0x400 true] ++
          order.map (fun v => Op.free v 0x400 true)) =
        { iova_alloc_list := [],
          iova_free_list := [{ vaddr := 0, taddr := 0x10000000, len := 0x1000 }] } := by
  decide

/-- With a zero-length allocation four calls are enough for the free list not to
collapse: the freed zero-length descriptor finds no free descriptor that starts
or ends at its address and is appended as a descriptor of its own. -/
theorem iova_free_all_zero_length :
    run (init_state 0x10000000 0x1000)
      [.alloc 0xA000 0x400 true, .alloc 0xB000 0 true, .free 0xA000 0x400 true,
       .free 0xB000 0 true] =
      { iova_alloc_list := [],
        iova_free_list := [{ vaddr := 0, taddr := 0x10000000, len := 0x1000 },
                           { vaddr := 0, taddr := 0x10000400, len := 0 }] } := by
  decide

/-! ## Successive allocations from a fresh allocator -/

theorem prefix_addrs_ge (ls : List Nat) : ∀ b, ∀ x ∈ prefix_addrs b ls, b ≤ x := by
  induction ls with
  | nil => intro b x hx; simp [prefix_addrs] at hx
  | cons l ls ih =>
    intro b x hx
    simp only [prefix_addrs, List.mem_cons] at hx
    rcases hx with hx | hx
    · omega
    · have := ih (b + l) x hx
      omega

theorem prefix_addrs_ascending (ls : List Nat) :
    ∀ b, (prefix_addrs b ls).Pairwise (fun x y => x ≤ y) := by
  induction ls with
  | nil => intro b; simp [prefix_addrs]
  | cons l ls ih =>
    intro b
    simp only [prefix_addrs, List.pairwise_cons]
    refine ⟨fun x hx => ?_, ih (b + l)⟩
    have := prefix_addrs_ge ls (b + l) x hx
    omega

theorem alloc_all_prefix (reqs : List (Nat × Nat)) :
    ∀ (b : Nat) (st st' : State) (ts : List Nat),
      (∀ f ∈ st.iova_free_list, st.iova_free_list = [f] ∧ f.taddr = b ∧ f.taddr + f.len < U64) →
      run_no_overflow st (alloc_ops reqs) → alloc_all st reqs = some (ts, st') →
      ts = prefix_addrs b (reqs.map Prod.snd) := by
  induction reqs with
  | nil =>
    intro b st st' ts _ _ h
    simp only [alloc_all, Option.some.injEq, Prod.mk.injEq] at h
    simp [prefix_addrs, ← h.1]
  | cons r rs ih =>
    intro b st st' ts hfree hno h
    obtain ⟨hno1, hno2⟩ := hno
    unfold alloc_all at h
    cases hr : iova_alloc true st r.1 r.2 with
    | mk res st₁ =>
      rw [hr] at h
      cases res with
      | none => cases h
      | some t =>
        dsimp only at h
        have hscan : scan_no_overflow r.2 st.iova_free_list :=
          fun f hf => ⟨hno1.2 f hf, (hfree f hf).2.2⟩
        obtain ⟨pre, g, post, e1, _, e3, e4, _, e6⟩ :=
          first_fit_split true st st₁ r.1 r.2 t hscan hr
        have hg := hfree g (by rw [e1]; simp)
        have hpp : pre = [] ∧ post = [] := by
          have hlen := congrArg List.length (e1.symm.trans hg.1)
          simp only [List.length_append, List.length_cons, List.length_nil] at hlen
          constructor
          · apply List.eq_nil_of_length_eq_zero; omega
          · apply List.eq_nil_of_length_eq_zero; omega
        rw [hpp.1, hpp.2, List.nil_append, List.append_nil] at e6
        have hstep : step st (Op.alloc r.1 r.2 true) = st₁ := by
          simp only [step, hr]
        rw [hstep] at hno2
        have hfree₁ : ∀ f ∈ st₁.iova_free_list,
            st₁.iova_free_list = [f] ∧ f.taddr = b + r.2 ∧ f.taddr + f.len < U64 := by
          intro f hf
          rw [e6] at hf ⊢
          unfold shrink_front at hf ⊢
          by_cases hz : g.len = r.2
          · simp [hz] at hf
          · simp only [if_neg hz, List.mem_singleton] at hf ⊢
            subst hf
            refine ⟨rfl, ?_, ?_⟩
            · simp only; omega
            · simp only; omega
        cases hrest : alloc_all st₁ rs with
        | none => rw [hrest] at h; cases h
        | some q =>
          obtain ⟨ts', st''⟩ := q
          rw [hrest] at h
          simp only [Option.some.injEq, Prod.mk.injEq] at h
          have := ih (b + r.2) st₁ st'' ts' hfree₁ hno2 hrest
          rw [← h.1, this, e4, hg.2.1]
          simp [prefix_addrs]

/-- Claim C10 as stated fails on the code.  Right after `iova_init` with base
`0x10000000` and length `0x1000`, `iova_alloc(0, 0xFFFFFFFFFFFFFFFF)` returns
`0x10000000` and then `iova_alloc(0xFFFFFFFFFFFFFFFF, 1)`, whose virtual range
shares no address with the first one, returns `0x0FFFFFFF`: the second address
is below the first, not the first plus the first length. -/
theorem iova_alloc_wrapped_descends :
    alloc_all (init_state 0x10000000 0x1000) [(0, 0xFFFFFFFFFFFFFFFF), (0xFFFFFFFFFFFFFFFF, 1)] =
      some ([0x10000000, 0x0FFFFFFF],
        { iova_alloc_list := [{ vaddr := 0, taddr := 0x10000000, len := 0xFFFFFFFFFFFFFFFF },
                              { vaddr := 0xFFFFFFFFFFFFFFFF, taddr := 0x0FFFFFFF, len := 1 }],
          iova_free_list := [{ vaddr := 0, taddr := 0x10000000, len := 0x1000 }] }) ∧
    (∀ x, ¬ (in_vrange 0 0xFFFFFFFFFFFFFFFF x ∧ in_vrange 0xFFFFFFFFFFFFFFFF 1 x)) ∧
    ¬ [0x10000000, 0x0FFFFFFF] = prefix_addrs 0x10000000 [0xFFFFFFFFFFFFFFFF, 1] ∧
    ¬ ([0x10000000, 0x0FFFFFFF] : List Nat).Pairwise (fun x y => x ≤ y) := by
  refine ⟨by decide, ?_, by decide, by decide⟩
  intro x
  unfold in_vrange
  omega

/-- Claim C10, amended.  Provided no address computation wraps around: from a
freshly initialised allocator, successive allocations that all succeed return
`base`, `base + l₀`, `base + l₀ + l₁`, ..., in ascending order; after an
`iova_free` and any further calls, an allocation that succeeds returns the
address of the first free descriptor that is long enough, so the freed hole's
address when the hole is that descriptor; and with base `0x10000000` (length `0x1000`) three
allocations of `0x400` return `0x10000000`, `0x10000400`, `0x10000800`, and
after `iova_free(0xB000, 0x400)`, `iova_alloc(0xD000, 0x400)` returns
`0x10000400`. -/
theorem iova_alloc_contiguous_then_hole :
    (∀ (base wlen : Nat) (reqs : List (Nat × Nat)) (ts : List Nat) (st' : State),
      base + wlen < U64 →
      run_no_overflow (init_state base wlen) (alloc_ops reqs) →
      alloc_all (init_state base wlen) reqs = some (ts, st') →
      ts = prefix_addrs base (reqs.map Prod.snd) ∧ ts.Pairwise (fun x y => x ≤ y)) ∧
    (∀ (ok ok' : Bool) (st s' : State) (vaddr len vaddr' t : Nat) (ops : List Op)
        (pre post : List iova_mem_desc) (hole : iova_mem_desc),
      scan_no_overflow len (run (iova_free ok st vaddr len).2 ops).iova_free_list →
      (run (iova_free ok st vaddr len).2 ops).iova_free_list = pre ++ hole :: post →
      (∀ g ∈ pre, g.len < len) → len ≤ hole.len →
      iova_alloc ok' (run (iova_free ok st vaddr len).2 ops) vaddr' len = (some t, s') →
      t = hole.taddr) ∧
    (alloc_all (init_state 0x10000000 0x1000) [(0xA000, 0x400), (0xB000, 0x400), (0xC000, 0x400)]
        = some ([0x10000000, 0x10000400, 0x10000800],
            run (init_state 0x10000000 0x1000)
              [.alloc 0xA000 0x400 true, .alloc 0xB000 0x400 true, .alloc 0xC000 0x400 true]) ∧
      (iova_alloc true
        (run (init_state 0x10000000 0x1000)
          [.alloc 0xA000 0x400 true, .alloc 0xB000 0x400 true, .alloc 0xC000 0x400 true,
           .free 0xB000 0x400 true]) 0xD000 0x400).1 = some 0x10000400) := by
  refine ⟨?_, ?_, by decide, by decide⟩
  · intro base wlen reqs ts st' hw hno h
    have hfree : ∀ f ∈ (init_state base wlen).iova_free_list,
        (init_state base wlen).iova_free_list = [f] ∧ f.taddr = base ∧ f.taddr + f.len < U64 := by
      intro f hf
      simp only [init_state, iova_init, if_true, List.mem_singleton] at hf ⊢
      subst hf
      exact ⟨rfl, rfl, hw⟩
    have := alloc_all_prefix reqs base _ st' ts hfree hno h
    rw [this]
    exact ⟨rfl, prefix_addrs_ascending _ base⟩
  · intro ok ok' st s' vaddr len vaddr' t ops pre post hole hno hsplit hpre hfit h
    obtain ⟨pre', f, post', e1, e2, e3, e4, _, _⟩ :=
      first_fit_split ok' _ s' vaddr' len t hno h
    rw [hsplit] at e1
    have key : ∀ (p p' : List iova_mem_desc) (q q' : List iova_mem_desc) (x y : iova_mem_desc),
        p ++ x :: q = p' ++ y :: q' → (∀ g ∈ p, g.len < len) → (∀ g ∈ p', g.len < len) →
        len ≤ x.len → len ≤ y.len → x = y := by
      intro p
      induction p with
      | nil =>
        intro p' q q' x y he _ hp' hx _
        cases p' with
        | nil => simp only [List.nil_append, List.cons.injEq] at he; exact he.1
        | cons z p' =>
          simp only [List.nil_append, List.cons_append, List.cons.injEq] at he
          have := hp' z (List.mem_cons_self _ _)
          rw [← he.1] at this
          omega
      | cons z p ih =>
        intro p' q q' x y he hp hp' hx hy
        cases p' with
        | nil =>
          simp only [List.nil_append, List.cons_append, List.cons.injEq] at he
          have := hp z (List.mem_cons_self _ _)
          rw [he.1] at this
          omega
        | cons z' p' =>
          simp only [List.cons_append, List.cons.injEq] at he
          exact ih p' q q' x y he.2 (fun g hg => hp g (List.mem_cons_of_mem _ hg))
            (fun g hg => hp' g (List.mem_cons_of_mem _ hg)) hx hy
    rw [e4, key pre pre' post post' hole f e1 hpre e2 hfit e3]

theorem iova_alloc_contiguous_then_hole_witness :
    ((0x10000000 + 0x1000 < U64 ∧
        run_no_overflow (init_state 0x10000000 0x1000)
          (alloc_ops [(0xA000, 0x400), (0xB000, 0x400), (0xC000, 0x400)]) ∧
        alloc_all (init_state 0x10000000 0x1000)
            [(0xA000, 0x400), (0xB000, 0x400), (0xC000, 0x400)]
          = some ([0x10000000, 0x10000400, 0x10000800],
              run (init_state 0x10000000 0x1000)
                [.alloc 0xA000 0x400 true, .alloc 0xB000 0x400 true, .alloc 0xC000 0x400 true])) ∧
      ([0x10000000, 0x10000400, 0x10000800] =
          prefix_addrs 0x10000000
            ([(0xA000, 0x400), (0xB000, 0x400), (0xC000, 0x400)].map Prod.snd) ∧
        ([0x10000000, 0x10000400, 0x10000800] : List Nat).Pairwise (fun x y => x ≤ y))) ∧
    ((scan_no_overflow 0x400
          (run (iova_free true
            (run (init_state 0x10000000 0x1000)
              [.alloc 0xA000 0x400 true, .alloc 0xB000 0x400 true, .alloc 0xC000 0x400 true])
            0xB000 0x400).2 []).iova_free_list ∧
        (run (iova_free true
            (run (init_state 0x10000000 0x1000)
              [.alloc 0xA000 0x400 true, .alloc 0xB000 0x400 true, .alloc 0xC000 0x400 true])
            0xB000 0x400).2 []).iova_free_list =
          [] ++ { vaddr := 0, taddr := 0x10000400, len := 0x400 } ::
            [{ vaddr := 0, taddr := 0x10000C00, len := 0x400 }] ∧
        iova_alloc true
            (run (iova_free true
              (run (init_state 0x10000000 0x1000)
                [.alloc 0xA000 0x400 true, .alloc 0xB000 0x400 true, .alloc 0xC000 0x400 true])
              0xB000 0x400).2 []) 0xD000 0x400 =
          (some 0x10000400,
            { iova_alloc_list := [{ vaddr := 0xA000, taddr := 0x10000000, len := 0x400 },
                                  { vaddr := 0xC000, taddr := 0x10000800, len := 0x400 },
                                  { vaddr := 0xD000, taddr := 0x10000400, len := 0x400 }],
              iova_free_list := [{ vaddr := 0, taddr := 0x10000C00, len := 0x400 }] })) ∧
      0x10000400 = ({ vaddr := 0, taddr := 0x10000400, len := 0x400 } : iova_mem_desc).taddr) :=
  ⟨⟨⟨by decide, by decide, by decide⟩,
      iova_alloc_contiguous_then_hole.1 0x10000000 0x1000
        [(0xA000, 0x400), (0xB000, 0x400), (0xC000, 0x400)]
        [0x10000000, 0x10000400, 0x10000800]
        (run (init_state 0x10000000 0x1000)
          [.alloc 0xA000 0x400 true, .alloc 0xB000 0x400 true, .alloc 0xC000 0x400 true])
        (by decide) (by decide) (by decide)⟩,
    ⟨by decide, by decide, by decide⟩,
    iova_alloc_contiguous_then_hole.2.1 true true
      (run (init_state 0x10000000 0x1000)
        [.alloc 0xA000 0x400 true, .alloc 0xB000 0x400 true, .alloc 0xC000 0x400 true])
      { iova_alloc_list := [{ vaddr := 0xA000, taddr := 0x10000000, len := 0x400 },
                            { vaddr := 0xC000, taddr := 0x10000800, len := 0x400 },
                            { vaddr := 0xD000, taddr := 0x10000400, len := 0x400 }],
        iova_free_list := [{ vaddr := 0, taddr := 0x10000C00, len := 0x400 }] }
      0xB000 0x400 0xD000 0x10000400 [] []
      [{ vaddr := 0, taddr := 0x10000C00, len := 0x400 }]
      { vaddr := 0, taddr := 0x10000400, len := 0x400 }
      (by decide) (by decide) (by decide) (by decide) (by decide)⟩

/-! ## `iova_overlap` -/

theorem last_address_eq {vaddr len : Nat} (hlen : 0 < len) (hv : vaddr + len ≤ U64) :
    usub (uadd vaddr len) 1 = vaddr + len - 1 := by
  rcases Nat.lt_or_ge (vaddr + len) U64 with h | h
  · rw [uadd_eq h, usub_eq (by omega) h]
  · have he : vaddr + len = U64 := by omega
    unfold uadd usub
    rw [he, Nat.mod_self]
    unfold U64
    decide

/-- Claim C40.  For `len > 0` and `id->len > 0`, when neither `vaddr + len` nor
`id->vaddr + id->len` exceeds `2 ^ 64` (no wrap-around), `iova_overlap` returns
`true` exactly when `[vaddr, vaddr + len)` and `[id->vaddr, id->vaddr + id->len)`
share an address; two ranges of which one ends where the other starts do not
overlap; and the result is the same when the two ranges are exchanged. -/
theorem iova_overlap_shares_address (d : iova_mem_desc) (vaddr len : Nat)
    (hlen : 0 < len) (hdlen : 0 < d.len) (hv : vaddr + len ≤ U64)
    (hd : d.vaddr + d.len ≤ U64) :
    (iova_overlap d vaddr len = true ↔
      ∃ x, in_vrange vaddr len x ∧ in_vrange d.vaddr d.len x) ∧
    (vaddr + len = d.vaddr ∨ d.vaddr + d.len = vaddr → iova_overlap d vaddr len = false) ∧
    iova_overlap d vaddr len =
      iova_overlap { vaddr := vaddr, taddr := d.taddr, len := len } d.vaddr d.len := by
  have key : ∀ (v l dv dl : Nat) (t : Nat), 0 < l → 0 < dl → v + l ≤ U64 → dv + dl ≤ U64 →
      (iova_overlap { vaddr := dv, taddr := t, len := dl } v l = true ↔
        (dv < v + l ∧ v < dv + dl)) := by
    intro v l dv dl t h1 h2 h3 h4
    unfold iova_overlap
    simp only [last_address_eq h1 h3, last_address_eq h2 h4, decide_eq_true_eq, le_min_iff,
      max_le_iff]
    omega
  have hk := key vaddr len d.vaddr d.len d.taddr hlen hdlen hv hd
  have hk' := key d.vaddr d.len vaddr len d.taddr hdlen hlen hd hv
  refine ⟨?_, ?_, ?_⟩
  · rw [hk]
    unfold in_vrange
    constructor
    · rintro ⟨h1, h2⟩
      by_cases hc : vaddr ≤ d.vaddr
      · exact ⟨d.vaddr, ⟨hc, h1⟩, le_refl _, by omega⟩
      · exact ⟨vaddr, ⟨le_refl _, by omega⟩, by omega, h2⟩
    · rintro ⟨x, ⟨h1, h2⟩, h3, h4⟩
      omega
  · intro h
    cases hb : iova_overlap d vaddr len with
    | false => rfl
    | true =>
      have := hk.mp hb
      omega
  · cases hb : iova_overlap d vaddr len with
    | false =>
      symm
      rw [Bool.eq_false_iff, Ne, hk']
      intro hc
      have hn : ¬ iova_overlap d vaddr len = true := by rw [hb]; decide
      exact hn (hk.mpr ⟨hc.2, hc.1⟩)
    | true =>
      symm
      rw [hk']
      have := hk.mp hb
      exact ⟨this.2, this.1⟩

/-- The ranges `[0x1000, 0x1800)` and `[0x1400, 0x2400)` share the address
`0x1400`; `[0x1000, 0x1400)` and `[0x1400, 0x2400)` only touch. -/
theorem iova_overlap_shares_address_witness :
    iova_overlap { vaddr := 0x1400, taddr := 0, len := 0x1000 } 0x1000 0x800 = true ∧
    iova_overlap { vaddr := 0x1400, taddr := 0, len := 0x1000 } 0x1000 0x400 = false ∧
    ((iova_overlap { vaddr := 0x1400, taddr := 0, len := 0x1000 } 0x1000 0x400 = true ↔
      ∃ x, in_vrange 0x1000 0x400 x ∧ in_vrange 0x1400 0x1000 x) ∧
    (0x1000 + 0x400 = 0x1400 ∨ 0x1400 + 0x1000 = 0x1000 →
      iova_overlap { vaddr := 0x1400, taddr := 0, len := 0x1000 } 0x1000 0x400 = false) ∧
    iova_overlap { vaddr := 0x1400, taddr := 0, len := 0x1000 } 0x1000 0x400 =
      iova_overlap { vaddr := 0x1000, taddr := 0, len := 0x400 } 0x1400 0x1000) :=
  ⟨by decide, by decide,
    iova_overlap_shares_address { vaddr := 0x1400, taddr := 0, len := 0x1000 } 0x1000 0x400
      (by decide) (by decide) (by unfold U64; decide) (by unfold U64; decide)⟩

end Tiova

/-! # Pipeline controller: properties -/

namespace SwxCtl

/-! ## Key comparison -/

theorem keycmp_byte_iff (params : rte_swx_table_params) (e0 e1 : rte_swx_table_entry) (i : Nat) :
    keycmp_byte params e0 e1 i = true ↔
      (byte_at e0.key_mask i 0xFF &&& byte_at params.key_mask0 i 0xFF)
          = (byte_at e1.key_mask i 0xFF &&& byte_at params.key_mask0 i 0xFF) ∧
      (byte_at e0.key i 0 &&& byte_at e0.key_mask i 0xFF &&& byte_at params.key_mask0 i 0xFF)
          = (byte_at e1.key i 0 &&& byte_at e1.key_mask i 0xFF &&& byte_at params.key_mask0 i 0xFF) := by
  unfold keycmp_byte
  dsimp only
  by_cases h1 : (byte_at e0.key_mask i 0xFF &&& byte_at params.key_mask0 i 0xFF)
      = (byte_at e1.key_mask i 0xFF &&& byte_at params.key_mask0 i 0xFF)
  · by_cases h2 : (byte_at e0.key i 0 &&& byte_at e0.key_mask i 0xFF &&& byte_at params.key_mask0 i 0xFF)
        = (byte_at e1.key i 0 &&& byte_at e1.key_mask i 0xFF &&& byte_at params.key_mask0 i 0xFF)
    · simp [h1, h2]
    · simp [h1, h2]
  · simp [h1]

theorem keycmp_zero_iff_bytes (params : rte_swx_table_params) (e0 e1 : rte_swx_table_entry) :
    table_entry_keycmp params e0 e1 = 0 ↔
      ∀ i, i < params.key_size → keycmp_byte params e0 e1 i = true := by
  unfold table_entry_keycmp
  by_cases h : (List.range params.key_size).all (fun i => keycmp_byte params e0 e1 i) = true
  · rw [if_pos h]
    simp only [List.all_eq_true, List.mem_range] at h
    simpa using h
  · rw [if_neg h]
    simp only [List.all_eq_true, List.mem_range] at h
    constructor
    · intro h1; exact absurd h1 (by decide)
    · intro h1; exact absurd h1 h

theorem key_equal_iff (params : rte_swx_table_params) (a b : rte_swx_table_entry) :
    key_equal params a b = true ↔ key_class params a = key_class params b := by
  unfold key_equal key_class
  rw [decide_eq_true_eq, keycmp_zero_iff_bytes, List.map_inj_left]
  constructor
  · intro h i hi
    have := (keycmp_byte_iff params a b i).mp (h i (List.mem_range.mp hi))
    rw [Prod.mk.injEq]
    exact this
  · intro h i hi
    have := h i (List.mem_range.mpr hi)
    rw [Prod.mk.injEq] at this
    exact (keycmp_byte_iff params a b i).mpr this

theorem key_equal_false_iff (params : rte_swx_table_params) (a b : rte_swx_table_entry) :
    key_equal params a b = false ↔ key_class params a ≠ key_class params b := by
  have h := key_equal_iff params a b
  cases hk : key_equal params a b with
  | false =>
    rw [hk] at h
    simp only [true_iff]
    exact fun hc => Bool.noConfusion (h.mpr hc)
  | true =>
    rw [hk] at h
    simp only [false_iff, not_not, Bool.true_eq_false]
    exact h.mp rfl

/-- Claim C11.  `table_entry_keycmp` returns `0` exactly when, for every byte
`i < key_size`, the two entry masks agree under the table mask and the two key
bytes agree under their entry mask and the table mask, an absent mask counting
as `0xFF`; otherwise it returns `1`; and the result is the same whatever the
`key_signature`, `key_priority`, `action_id` and `action_data` of either entry. -/
theorem table_entry_keycmp_spec (params : rte_swx_table_params) (e0 e1 : rte_swx_table_entry) :
    (table_entry_keycmp params e0 e1 = 0 ↔
      ∀ i, i < params.key_size →
        (byte_at e0.key_mask i 0xFF &&& byte_at params.key_mask0 i 0xFF)
            = (byte_at e1.key_mask i 0xFF &&& byte_at params.key_mask0 i 0xFF) ∧
        (byte_at e0.key i 0 &&& byte_at e0.key_mask i 0xFF &&& byte_at params.key_mask0 i 0xFF)
            = (byte_at e1.key i 0 &&& byte_at e1.key_mask i 0xFF
                &&& byte_at params.key_mask0 i 0xFF)) ∧
    (table_entry_keycmp params e0 e1 = 0 ∨ table_entry_keycmp params e0 e1 = 1) ∧
    (∀ (s0 p0 a0 s1 p1 a1 : Nat) (d0 d1 : Option (List Nat)),
      table_entry_keycmp params
          { e0 with key_signature := s0, key_priority := p0, action_id := a0, action_data := d0 }
          { e1 with key_signature := s1, key_priority := p1, action_id := a1, action_data := d1 }
        = table_entry_keycmp params e0 e1) := by
  refine ⟨?_, ?_, ?_⟩
  · rw [keycmp_zero_iff_bytes]
    constructor
    · intro h i hi; exact (keycmp_byte_iff params e0 e1 i).mp (h i hi)
    · intro h i hi; exact (keycmp_byte_iff params e0 e1 i).mpr (h i hi)
  · unfold table_entry_keycmp
    split
    · exact Or.inl rfl
    · exact Or.inr rfl
  · intro s0 p0 a0 s1 p1 a1 d0 d1
    rfl

/-! ## Table parameters -/

theorem length_memset_ff (buf : List Nat) (start size : Nat) :
    (memset_ff buf start size).length = buf.length := by
  simp [memset_ff]

theorem getElem?_memset_ff (buf : List Nat) (start size j : Nat) (hj : j < buf.length) :
    (memset_ff buf start size)[j]? =
      some (if start ≤ j ∧ j < start + size then 0xFF else buf.getD j 0) := by
  unfold memset_ff
  rw [List.getElem?_map, List.getElem?_range hj]
  rfl

theorem key_mask_fill_spec (first : match_field_info) (fs : List match_field_info) :
    ∀ buf : List Nat, (key_mask_fill first buf fs).length = buf.length ∧
      ∀ j, j < buf.length → (key_mask_fill first buf fs)[j]? =
        some (if ∃ f ∈ fs, field_covers first f j then 0xFF else buf.getD j 0) := by
  induction fs with
  | nil =>
    intro buf
    refine ⟨rfl, fun j hj => ?_⟩
    simp [key_mask_fill, List.getElem?_eq_getElem hj]
  | cons f rest ih =>
    intro buf
    obtain ⟨h1, h2⟩ := ih (memset_ff buf (usub32 f.offset first.offset / 8) (f.n_bits / 8))
    rw [length_memset_ff] at h1 h2
    refine ⟨h1, fun j hj => ?_⟩
    unfold key_mask_fill
    rw [h2 j hj]
    have hm := getElem?_memset_ff buf (usub32 f.offset first.offset / 8) (f.n_bits / 8) j hj
    rw [List.getD_eq_getElem?_getD, hm, Option.getD_some]
    by_cases hc : field_covers first f j
    · have hc' : usub32 f.offset first.offset / 8 ≤ j ∧
          j < usub32 f.offset first.offset / 8 + f.n_bits / 8 := hc
      have hex : ∃ g ∈ f :: rest, field_covers first g j := ⟨f, List.mem_cons_self _ _, hc⟩
      rw [if_pos hc', if_pos hex]
      split <;> rfl
    · have hc' : ¬ (usub32 f.offset first.offset / 8 ≤ j ∧
          j < usub32 f.offset first.offset / 8 + f.n_bits / 8) := hc
      rw [if_neg hc']
      by_cases hr : ∃ g ∈ rest, field_covers first g j
      · obtain ⟨g, hg, hgc⟩ := hr
        rw [if_pos ⟨g, hg, hgc⟩, if_pos ⟨g, List.mem_cons_of_mem _ hg, hgc⟩]
      · have hex : ¬ ∃ g ∈ f :: rest, field_covers first g j := by
          rintro ⟨g, hg, hgc⟩
          rcases List.mem_cons.mp hg with hg | hg
          · subst hg; exact hc hgc
          · exact hr ⟨g, hg, hgc⟩
        rw [if_neg hr, if_neg hex]

theorem first_not_exact_append_all (init rest : List match_field_info)
    (h : ∀ f ∈ init, f.mtype = match_type.EXACT) :
    first_not_exact (init ++ rest) = init.length + first_not_exact rest := by
  induction init with
  | nil => simp
  | cons f init ih =>
    have hf := h f (List.mem_cons_self _ _)
    have key : first_not_exact (f :: (init ++ rest)) = 1 + first_not_exact (init ++ rest) := by
      show (if f.mtype ≠ match_type.EXACT then 0 else 1 + first_not_exact (init ++ rest)) = _
      rw [if_neg (by simp [hf])]
    rw [List.cons_append, key, ih (fun g hg => h g (List.mem_cons_of_mem _ hg)), List.length_cons]
    omega

theorem first_not_exact_append_lt (init rest : List match_field_info)
    (h : ¬ ∀ f ∈ init, f.mtype = match_type.EXACT) :
    first_not_exact (init ++ rest) < init.length := by
  induction init with
  | nil => simp at h
  | cons f init ih =>
    by_cases hf : f.mtype = match_type.EXACT
    · have key : first_not_exact (f :: (init ++ rest)) = 1 + first_not_exact (init ++ rest) := by
        show (if f.mtype ≠ match_type.EXACT then 0 else 1 + first_not_exact (init ++ rest)) = _
        rw [if_neg (by simp [hf])]
      rw [List.cons_append, key, List.length_cons]
      have : ¬ ∀ g ∈ init, g.mtype = match_type.EXACT := by
        intro hall
        apply h
        intro g hg
        rcases List.mem_cons.mp hg with hg | hg
        · subst hg; exact hf
        · exact hall g hg
      have := ih this
      omega
    · simp [first_not_exact, hf]

theorem first_not_exact_eq_length_iff (l : List match_field_info) :
    first_not_exact l = l.length ↔ ∀ f ∈ l, f.mtype = match_type.EXACT := by
  constructor
  · intro h
    by_contra hc
    have := first_not_exact_append_lt l [] hc
    rw [List.append_nil] at this
    omega
  · intro h
    have := first_not_exact_append_all l [] h
    rw [List.append_nil] at this
    rw [this]
    simp [first_not_exact]

theorem uadd32_eq {a b : Nat} (h : a + b < U32) : uadd32 a b = a + b :=
  Nat.mod_eq_of_lt h

theorem usub32_eq {a b : Nat} (hb : b ≤ a) (ha : a < U32) : usub32 a b = a - b := by
  unfold usub32
  have hb' : b % U32 = b := Nat.mod_eq_of_lt (by omega)
  rw [hb']
  have : a + (U32 - b) = (a - b) + U32 := by omega
  rw [this, Nat.add_mod_right]
  exact Nat.mod_eq_of_lt (by omega)

theorem match_type_choice (l : List match_field_info) (last : match_field_info)
    (hlast : l.getLast? = some last) :
    (if first_not_exact l = l.length then match_type.EXACT
      else if first_not_exact l = l.length - 1 ∧ last.mtype = match_type.LPM then match_type.LPM
      else match_type.WILDCARD) =
    (if ∀ f ∈ l, f.mtype = match_type.EXACT then match_type.EXACT
      else if (∀ f ∈ l.dropLast, f.mtype = match_type.EXACT) ∧ last.mtype = match_type.LPM
        then match_type.LPM
      else match_type.WILDCARD) := by
  have hsplit : l.dropLast ++ [last] = l := List.dropLast_append_getLast? last hlast
  have hlen : l.length - 1 = l.dropLast.length := by simp
  by_cases hall : ∀ f ∈ l, f.mtype = match_type.EXACT
  · rw [if_pos ((first_not_exact_eq_length_iff l).mpr hall), if_pos hall]
  · have hne : first_not_exact l ≠ l.length := fun h => hall ((first_not_exact_eq_length_iff l).mp h)
    rw [if_neg hne, if_neg hall, hlen]
    by_cases hinit : ∀ f ∈ l.dropLast, f.mtype = match_type.EXACT
    · have hval := first_not_exact_append_all l.dropLast [last] hinit
      rw [hsplit] at hval
      by_cases hlpm : last.mtype = match_type.LPM
      · have h0 : first_not_exact [last] = 0 := by simp [first_not_exact, hlpm]
        rw [if_pos ⟨by omega, hlpm⟩, if_pos ⟨hinit, hlpm⟩]
      · rw [if_neg (fun h => hlpm h.2), if_neg (fun h => hlpm h.2)]
    · have hlt := first_not_exact_append_lt l.dropLast [last] hinit
      rw [hsplit] at hlt
      rw [if_neg (fun h => by omega), if_neg (fun h => hinit h.1)]

theorem field_covers_aligned (first f : match_field_info) (j : Nat)
    (hle : first.offset ≤ f.offset) (hlt : f.offset < U32)
    (hoff : 8 ∣ f.offset - first.offset) (hbits : 8 ∣ f.n_bits) :
    field_covers first f j ↔
      (f.offset ≤ first.offset + 8 * j ∧ first.offset + 8 * j + 8 ≤ f.offset + f.n_bits) := by
  unfold field_covers
  rw [usub32_eq hle hlt]
  obtain ⟨a, ha⟩ := hoff
  obtain ⟨b, hb⟩ := hbits
  rw [ha, hb, Nat.mul_div_cancel_left _ (by decide : 0 < 8),
    Nat.mul_div_cancel_left _ (by decide : 0 < 8)]
  omega

/-- Claim C12.  For a table with at least one match field (`first`, `last` the
first and last of them) and a successful `calloc`, `table_params_get` returns `0`
and sets `match_type` to `EXACT` when every field is exact, to `LPM` when every
field but the last is exact and the last is `LPM`, to `WILDCARD` otherwise;
`key_offset` to `first.offset / 8`; `key_size` to
`(last.offset + last.n_bits - first.offset) / 8` (32-bit arithmetic, the plain
value when `first.offset <= last.offset + last.n_bits < 2 ^ 32`); and `key_mask0`
to `key_size` bytes, `0xFF` at the positions within the bytes of some match
field and `0` elsewhere.  The bytes of a field `f` are the `f.n_bits / 8` bytes
from byte `(f.offset - first.offset) / 8`; for a field that does not start before
`first` and whose bit offset from `first` and width are multiples of 8, these
are the key bytes `j` whose bits `first.offset + 8 j .. first.offset + 8 j + 7`
lie within the bits `f.offset .. f.offset + f.n_bits - 1` of the field. -/
theorem table_params_get_spec (ctl_actions : List action) (t : table)
    (first last : match_field_info)
    (hfirst : t.mf.head? = some first) (hlast : t.mf.getLast? = some last) :
    (table_params_get ctl_actions t true).1 = 0 ∧
    (table_params_get ctl_actions t true).2.params.mtype =
      (if ∀ f ∈ t.mf, f.mtype = match_type.EXACT then match_type.EXACT
        else if (∀ f ∈ t.mf.dropLast, f.mtype = match_type.EXACT) ∧ last.mtype = match_type.LPM
          then match_type.LPM
        else match_type.WILDCARD) ∧
    (table_params_get ctl_actions t true).2.params.key_offset = first.offset / 8 ∧
    (table_params_get ctl_actions t true).2.params.key_size =
      usub32 (uadd32 last.offset last.n_bits) first.offset / 8 ∧
    (first.offset ≤ last.offset + last.n_bits → last.offset + last.n_bits < U32 →
      (table_params_get ctl_actions t true).2.params.key_size =
        (last.offset + last.n_bits - first.offset) / 8) ∧
    (∃ m, (table_params_get ctl_actions t true).2.params.key_mask0 = some m ∧
      m.length = (table_params_get ctl_actions t true).2.params.key_size ∧
      ∀ j, j < (table_params_get ctl_actions t true).2.params.key_size →
        m[j]? = some (if ∃ f ∈ t.mf, field_covers first f j then 0xFF else 0)) ∧
    (∀ f ∈ t.mf, ∀ j, first.offset ≤ f.offset → f.offset < U32 →
      8 ∣ f.offset - first.offset → 8 ∣ f.n_bits →
      (field_covers first f j ↔
        (f.offset ≤ first.offset + 8 * j ∧
          first.offset + 8 * j + 8 ≤ f.offset + f.n_bits))) := by
  have hval : table_params_get ctl_actions t true =
      (0, { t with params :=
        { mtype :=
            (if first_not_exact t.mf = t.mf.length then match_type.EXACT
              else if first_not_exact t.mf = t.mf.length - 1 ∧ last.mtype = match_type.LPM
                then match_type.LPM
              else match_type.WILDCARD),
          key_size := usub32 (uadd32 last.offset last.n_bits) first.offset / 8,
          key_offset := first.offset / 8,
          key_mask0 := some (key_mask_fill first
            (List.replicate (usub32 (uadd32 last.offset last.n_bits) first.offset / 8) 0) t.mf),
          action_data_size := action_data_size_max ctl_actions 0 t.actions,
          n_keys_max := t.info_size } }) := by
    unfold table_params_get
    rw [hfirst, hlast]
    rfl
  rw [hval]
  obtain ⟨h1, h2⟩ := key_mask_fill_spec first t.mf
    (List.replicate (usub32 (uadd32 last.offset last.n_bits) first.offset / 8) 0)
  rw [List.length_replicate] at h1 h2
  refine ⟨rfl, match_type_choice t.mf last hlast, rfl, rfl, ?_, ⟨_, rfl, h1, ?_⟩,
    fun f _ j hle hlt hoff hbits => field_covers_aligned first f j hle hlt hoff hbits⟩
  · intro hle hlt
    show usub32 (uadd32 last.offset last.n_bits) first.offset / 8 = _
    rw [uadd32_eq hlt, usub32_eq hle hlt]
  · intro j hj
    rw [h2 j hj]
    have : (List.replicate (usub32 (uadd32 last.offset last.n_bits) first.offset / 8) 0).getD j 0
        = 0 := by
      rw [List.getD_eq_getElem?_getD, List.getElem?_replicate]
      split <;> rfl
    rw [this]

/-! ## Searching and unlinking in a list -/

theorem replace_first_split (p : rte_swx_table_entry → Bool) (n x : rte_swx_table_entry)
    (pre post : List rte_swx_table_entry) (hx : p x = true) (hpre : ∀ y ∈ pre, p y = false) :
    replace_first p n (pre ++ x :: post) = pre ++ n :: post := by
  induction pre with
  | nil => simp [replace_first, hx]
  | cons y pre ih =>
    have hy := hpre y (List.mem_cons_self _ _)
    have key : replace_first p n (y :: (pre ++ x :: post)) =
        y :: replace_first p n (pre ++ x :: post) := by
      show (if p y = true then n :: (pre ++ x :: post)
        else y :: replace_first p n (pre ++ x :: post)) = _
      rw [if_neg (by simp [hy])]
    rw [List.cons_append, key, ih (fun z hz => hpre z (List.mem_cons_of_mem _ hz))]
    rfl

theorem find_split {p : rte_swx_table_entry → Bool} {l : List rte_swx_table_entry}
    {x : rte_swx_table_entry} (h : l.find? p = some x) :
    ∃ pre post, l = pre ++ x :: post ∧ p x = true ∧ (∀ y ∈ pre, p y = false) ∧
      l.eraseP p = pre ++ post ∧ ∀ n, replace_first p n l = pre ++ n :: post := by
  obtain ⟨hx, pre, post, hl, hpre⟩ := List.find?_eq_some.mp h
  have hpre' : ∀ y ∈ pre, p y = false := fun y hy => by
    have := hpre y hy
    simpa using this
  refine ⟨pre, post, hl, hx, hpre', ?_, fun n => ?_⟩
  · rw [hl, List.eraseP_append_right, List.eraseP_cons_of_pos hx]
    intro y hy
    rw [hpre' y hy]
    simp
  · rw [hl]
    exact replace_first_split p n x pre post hx hpre'

theorem find_none_iff {p : rte_swx_table_entry → Bool} {l : List rte_swx_table_entry} :
    l.find? p = none ↔ ∀ y ∈ l, p y = false := by
  rw [List.find?_eq_none]
  constructor
  · intro h y hy
    have := h y hy
    simpa using this
  · intro h y hy
    rw [h y hy]
    simp

/-! ## A duplicate has the key of the entry it copies -/

theorem neg_EINVAL_ne_zero : (-EINVAL : Int) ≠ 0 := by
  unfold EINVAL; decide

theorem EINVAL_ne_zero : (EINVAL : Int) ≠ 0 := by
  unfold EINVAL; decide

theorem getD_copy_bytes (n i : Nat) (src : List Nat) (hi : i < n) :
    (copy_bytes n src).getD i 0 = src.getD i 0 := by
  unfold copy_bytes
  rw [List.getD_eq_getElem?_getD, List.getElem?_map, List.getElem?_range hi]
  rfl

theorem check_key_facts (ctl_actions : List action) (t : table) (e : rte_swx_table_entry)
    (dc : Bool) (h : table_entry_check ctl_actions t (some e) true dc = 0) :
    (t.is_stub = true → e.key = none ∧ e.key_mask = none) ∧
    (t.is_stub = false → e.key.isSome = true) := by
  have hks : (if t.is_stub then
        (if e.key.isSome then -EINVAL else if e.key_mask.isSome then -EINVAL else (0 : Int))
      else
        if e.key.isNone then -EINVAL
        else
          match t.params.mtype with
          | match_type.WILDCARD => 0
          | match_type.LPM => 0
          | match_type.EXACT => table_entry_key_check_em t e) = 0 := by
    by_contra hne
    unfold table_entry_check at h
    simp only [↓reduceIte] at h
    rw [if_pos hne] at h
    exact hne h
  constructor
  · intro hs
    rw [hs] at hks
    simp only [↓reduceIte] at hks
    cases hk : e.key with
    | some k => rw [hk] at hks; simp [EINVAL_ne_zero] at hks
    | none =>
      cases hm : e.key_mask with
      | some m => rw [hk, hm] at hks; simp [EINVAL_ne_zero] at hks
      | none => exact ⟨rfl, rfl⟩
  · intro hs
    rw [hs] at hks
    cases hk : e.key with
    | some k => rfl
    | none => rw [hk] at hks; simp [EINVAL_ne_zero] at hks

theorem duplicate_key_class (ctl_actions : List action) (t : table)
    (e e' : rte_swx_table_entry) (dc ok : Bool)
    (hcheck : table_entry_check ctl_actions t (some e) true dc = 0)
    (hdup : table_entry_duplicate ctl_actions t (some e) true true ok = some e') :
    key_class t.params e' = key_class t.params e := by
  obtain ⟨hstub, hnon⟩ := check_key_facts ctl_actions t e dc hcheck
  have hkeys : (∀ i, i < t.params.key_size → byte_at e'.key i 0 = byte_at e.key i 0) ∧
      (∀ i, i < t.params.key_size → byte_at e'.key_mask i 0xFF = byte_at e.key_mask i 0xFF) := by
    unfold table_entry_duplicate at hdup
    cases ok with
    | false => simp at hdup
    | true =>
      cases hs : t.is_stub with
      | true =>
        obtain ⟨hk, hm⟩ := hstub hs
        simp only [hs, hk, hm] at hdup ⊢
        simp only [Bool.not_eq_true, not_true_eq_false, if_false, and_false, if_true] at hdup
        split at hdup
        · cases hdup
        · split at hdup
          · cases hdup
          · simp only [Option.some.injEq] at hdup
            subst hdup
            exact ⟨fun _ _ => rfl, fun _ _ => rfl⟩
      | false =>
        have hsome := hnon hs
        cases hk : e.key with
        | none => rw [hk] at hsome; cases hsome
        | some key =>
          simp only [hs, hk] at hdup ⊢
          simp only [Bool.not_eq_true, not_true_eq_false, if_false, Bool.false_eq_true,
            not_false_eq_true, and_self, if_true] at hdup
          split at hdup
          · cases hdup
          · split at hdup
            · cases hdup
            · simp only [Option.some.injEq] at hdup
              subst hdup
              constructor
              · intro i hi
                exact getD_copy_bytes _ i key hi
              · intro i hi
                cases hm : e.key_mask with
                | none => rfl
                | some m => exact getD_copy_bytes _ i m hi
  unfold key_class
  rw [List.map_inj_left]
  intro i hi
  rw [hkeys.1 i (List.mem_range.mp hi), hkeys.2 i (List.mem_range.mp hi)]

/-! ## Searching a list by key -/

theorem find_of_split {p : rte_swx_table_entry → Bool} {x : rte_swx_table_entry}
    (pre post : List rte_swx_table_entry) (hx : p x = true) (hpre : ∀ y ∈ pre, p y = false) :
    (pre ++ x :: post).find? p = some x ∧ (pre ++ x :: post).eraseP p = pre ++ post := by
  constructor
  · rw [List.find?_eq_some]
    refine ⟨hx, pre, post, rfl, fun y hy => ?_⟩
    rw [hpre y hy]
    rfl
  · rw [List.eraseP_append_right, List.eraseP_cons_of_pos hx]
    intro y hy
    rw [hpre y hy]
    simp

theorem find_key_split {params : rte_swx_table_params} {e x : rte_swx_table_entry}
    {l : List rte_swx_table_entry} (h : l.find? (key_equal params e) = some x) :
    ∃ pre post, l = pre ++ x :: post ∧ key_class params x = key_class params e ∧
      key_class params e ∉ pre.map (key_class params) ∧
      l.eraseP (key_equal params e) = pre ++ post ∧
      ∀ n, replace_first (key_equal params e) n l = pre ++ n :: post := by
  obtain ⟨pre, post, hl, hx, hpre, her, hrep⟩ := find_split h
  refine ⟨pre, post, hl, ((key_equal_iff params e x).mp hx).symm, ?_, her, hrep⟩
  intro hmem
  obtain ⟨y, hy, hky⟩ := List.mem_map.mp hmem
  have := (key_equal_false_iff params e y).mp (hpre y hy)
  exact this hky.symm

theorem find_key_none {params : rte_swx_table_params} {e : rte_swx_table_entry}
    {l : List rte_swx_table_entry} :
    l.find? (key_equal params e) = none ↔ key_class params e ∉ l.map (key_class params) := by
  rw [find_none_iff]
  constructor
  · intro h hmem
    obtain ⟨y, hy, hky⟩ := List.mem_map.mp hmem
    exact (key_equal_false_iff params e y).mp (h y hy) hky.symm
  · intro h y hy
    rw [key_equal_false_iff]
    intro hk
    exact h (List.mem_map.mpr ⟨y, hy, hk.symm⟩)

theorem find_key_of_mem {params : rte_swx_table_params} {e x : rte_swx_table_entry}
    {l : List rte_swx_table_entry} (hnd : (l.map (key_class params)).Nodup) (hx : x ∈ l)
    (hk : key_class params x = key_class params e) :
    l.find? (key_equal params e) = some x := by
  cases hf : l.find? (key_equal params e) with
  | none =>
    exact absurd (List.mem_map.mpr ⟨x, hx, hk⟩) (find_key_none.mp hf)
  | some y =>
    have hy : y ∈ l := List.mem_of_find?_eq_some hf
    have hky : key_class params e = key_class params y :=
      (key_equal_iff params e y).mp (List.find?_some hf)
    have : y = x := List.inj_on_of_nodup_map hnd hy hx (hky.symm.trans hk.symm)
    rw [this]

theorem find_key_some_of_mem {params : rte_swx_table_params} {e : rte_swx_table_entry}
    {l : List rte_swx_table_entry} (h : key_class params e ∈ l.map (key_class params)) :
    ∃ x, l.find? (key_equal params e) = some x := by
  cases hf : l.find? (key_equal params e) with
  | none => exact absurd h (find_key_none.mp hf)
  | some y => exact ⟨y, rfl⟩

/-! ## The staging lists after an add -/

theorem entry_add_lists_in_entries (t : table) (e n x : rte_swx_table_entry)
    (h : table_entries_find t e = some x) :
    entry_add_lists t e n =
      { t with
        pending_modify1 := t.pending_modify1 ++ [n],
        entries := t.entries.eraseP (key_equal t.params e),
        pending_modify0 := t.pending_modify0 ++ [x] } := by
  unfold entry_add_lists
  rw [h]

theorem entry_add_lists_in_pending_add (t : table) (e n x : rte_swx_table_entry)
    (h0 : table_entries_find t e = none) (h : table_pending_add_find t e = some x) :
    entry_add_lists t e n =
      { t with pending_add := replace_first (key_equal t.params e) n t.pending_add } := by
  unfold entry_add_lists
  rw [h0, h]

theorem entry_add_lists_in_pending_modify1 (t : table) (e n x : rte_swx_table_entry)
    (h0 : table_entries_find t e = none) (h1 : table_pending_add_find t e = none)
    (h : table_pending_modify1_find t e = some x) :
    entry_add_lists t e n =
      { t with
        pending_modify1 := replace_first (key_equal t.params e) n t.pending_modify1 } := by
  unfold entry_add_lists
  rw [h0, h1, h]

theorem entry_add_lists_in_pending_delete (t : table) (e n x : rte_swx_table_entry)
    (h0 : table_entries_find t e = none) (h1 : table_pending_add_find t e = none)
    (h2 : table_pending_modify1_find t e = none)
    (h : table_pending_delete_find t e = some x) :
    entry_add_lists t e n =
      { t with
        pending_modify1 := t.pending_modify1 ++ [n],
        pending_delete := t.pending_delete.eraseP (key_equal t.params e),
        pending_modify0 := t.pending_modify0 ++ [x] } := by
  unfold entry_add_lists
  rw [h0, h1, h2, h]

theorem entry_add_lists_absent (t : table) (e n : rte_swx_table_entry)
    (h0 : table_entries_find t e = none) (h1 : table_pending_add_find t e = none)
    (h2 : table_pending_modify1_find t e = none)
    (h3 : table_pending_delete_find t e = none) :
    entry_add_lists t e n = { t with pending_add := t.pending_add ++ [n] } := by
  unfold entry_add_lists
  rw [h0, h1, h2, h3]

theorem entry_add_lists_params (t : table) (e n : rte_swx_table_entry) :
    (entry_add_lists t e n).params = t.params := by
  unfold entry_add_lists
  split
  · rfl
  · split
    · rfl
    · split
      · rfl
      · split <;> rfl

/-- The keys of the four lists that hold at most one entry per key. -/
theorem staging_keys_split (t : table) :
    (t.entries ++ t.pending_add ++ t.pending_modify1 ++ t.pending_delete).map
        (key_class t.params) =
      t.entries.map (key_class t.params) ++ t.pending_add.map (key_class t.params) ++
        t.pending_modify1.map (key_class t.params) ++
        t.pending_delete.map (key_class t.params) := by
  simp only [List.map_append]

theorem staging_inv_entry_add_lists (t : table) (e n : rte_swx_table_entry)
    (hinv : staging_inv t) (hn : key_class t.params n = key_class t.params e) :
    staging_inv (entry_add_lists t e n) := by
  obtain ⟨hnd, hpair⟩ := hinv
  cases h0 : table_entries_find t e with
  | some x =>
    rw [entry_add_lists_in_entries t e n x h0]
    obtain ⟨pre, post, hl, hkx, -, her, -⟩ := find_key_split h0
    unfold staging_inv
    dsimp only
    rw [her]
    rw [hl] at hnd
    constructor
    · refine (List.Perm.nodup_iff ?_).mp hnd
      rw [List.perm_iff_count]
      intro a
      simp only [List.map_append, List.map_cons, List.map_nil, List.count_append,
        List.count_cons, List.count_nil, hn, hkx]
      omega
    · simp only [List.map_append, List.map_cons, List.map_nil, hpair, hn, hkx]
  | none =>
    cases h1 : table_pending_add_find t e with
    | some x =>
      rw [entry_add_lists_in_pending_add t e n x h0 h1]
      obtain ⟨pre, post, hl, hkx, -, -, hrep⟩ := find_key_split h1
      unfold staging_inv
      dsimp only
      rw [hrep n]
      rw [hl] at hnd
      constructor
      · refine (List.Perm.nodup_iff ?_).mp hnd
        rw [List.perm_iff_count]
        intro a
        simp only [List.map_append, List.map_cons, List.map_nil, List.count_append,
          List.count_cons, List.count_nil, hn, hkx]
      · exact hpair
    | none =>
      cases h2 : table_pending_modify1_find t e with
      | some x =>
        rw [entry_add_lists_in_pending_modify1 t e n x h0 h1 h2]
        obtain ⟨pre, post, hl, hkx, -, -, hrep⟩ := find_key_split h2
        unfold staging_inv
        dsimp only
        rw [hrep n]
        rw [hl] at hnd hpair
        constructor
        · refine (List.Perm.nodup_iff ?_).mp hnd
          rw [List.perm_iff_count]
          intro a
          simp only [List.map_append, List.map_cons, List.map_nil, List.count_append,
            List.count_cons, List.count_nil, hn, hkx]
        · rw [hpair]
          simp only [List.map_append, List.map_cons, hn, hkx]
      | none =>
        cases h3 : table_pending_delete_find t e with
        | some x =>
          rw [entry_add_lists_in_pending_delete t e n x h0 h1 h2 h3]
          obtain ⟨pre, post, hl, hkx, -, her, -⟩ := find_key_split h3
          unfold staging_inv
          dsimp only
          rw [her]
          rw [hl] at hnd
          constructor
          · refine (List.Perm.nodup_iff ?_).mp hnd
            rw [List.perm_iff_count]
            intro a
            simp only [List.map_append, List.map_cons, List.map_nil, List.count_append,
              List.count_cons, List.count_nil, hn, hkx]
            omega
          · simp only [List.map_append, List.map_cons, List.map_nil, hpair, hn, hkx]
        | none =>
          rw [entry_add_lists_absent t e n h0 h1 h2 h3]
          unfold staging_inv
          dsimp only
          have hnot : key_class t.params e ∉
              (t.entries ++ t.pending_add ++ t.pending_modify1 ++ t.pending_delete).map
                (key_class t.params) := by
            rw [staging_keys_split]
            simp only [List.mem_append, not_or]
            exact ⟨⟨⟨find_key_none.mp h0, find_key_none.mp h1⟩, find_key_none.mp h2⟩,
              find_key_none.mp h3⟩
          constructor
          · have hcons : (key_class t.params e ::
                (t.entries ++ t.pending_add ++ t.pending_modify1 ++ t.pending_delete).map
                  (key_class t.params)).Nodup := List.nodup_cons.mpr ⟨hnot, hnd⟩
            refine (List.Perm.nodup_iff ?_).mp hcons
            rw [List.perm_iff_count]
            intro a
            simp only [List.map_append, List.map_cons, List.map_nil, List.count_append,
              List.count_cons, List.count_nil, hn]
            omega
          · exact hpair

/-! ## The staging lists after a delete -/

theorem entry_delete_lists_in_entries (t : table) (e x : rte_swx_table_entry)
    (h : table_entries_find t e = some x) :
    entry_delete_lists t e =
      (0, { t with
        entries := t.entries.eraseP (key_equal t.params e),
        pending_delete := t.pending_delete ++ [x] }) := by
  unfold entry_delete_lists
  rw [h]

theorem entry_delete_lists_absent (t : table) (e : rte_swx_table_entry)
    (h0 : table_entries_find t e = none) (h1 : table_pending_add_find t e = none)
    (h2 : table_pending_modify1_find t e = none) :
    entry_delete_lists t e = (0, t) := by
  unfold entry_delete_lists
  rw [h0]
  simp only [h1, h2]

theorem entry_delete_lists_in_pending_add (t : table) (e x : rte_swx_table_entry)
    (h0 : table_entries_find t e = none) (h1 : table_pending_add_find t e = some x)
    (h2 : table_pending_modify1_find t e = none) :
    entry_delete_lists t e =
      (0, { t with pending_add := t.pending_add.eraseP (key_equal t.params e) }) := by
  unfold table_pending_modify1_find at h2
  unfold entry_delete_lists
  rw [h0]
  simp only [h1, table_pending_modify1_find, h2]

theorem entry_delete_lists_in_pending_modify1 (t : table) (e y x : rte_swx_table_entry)
    (h0 : table_entries_find t e = none) (h1 : table_pending_add_find t e = none)
    (h2 : table_pending_modify1_find t e = some y)
    (h3 : table_pending_modify0_find t e = some x) :
    entry_delete_lists t e =
      (0, { t with
        pending_modify1 := t.pending_modify1.eraseP (key_equal t.params e),
        pending_modify0 := t.pending_modify0.eraseP (key_equal t.params e),
        pending_delete := t.pending_delete ++ [x] }) := by
  unfold table_pending_modify0_find at h3
  unfold entry_delete_lists
  rw [h0]
  simp only [h1, h2, table_pending_modify0_find, h3]

/-- The partner in `pending_modify0` of an element of `pending_modify1`: when the
two lists hold the same keys position by position and `y` is the first element
of `pending_modify1` with the key of `e`, the first element of `pending_modify0`
with that key stands at the same position. -/
theorem pending_modify0_partner {params : rte_swx_table_params} {e y : rte_swx_table_entry}
    {pm0 pm1 : List rte_swx_table_entry}
    (hpair : pm0.map (key_class params) = pm1.map (key_class params))
    (h : pm1.find? (key_equal params e) = some y) :
    ∃ pre post pre0 post0 x,
      pm1 = pre ++ y :: post ∧ pm0 = pre0 ++ x :: post0 ∧
      pre0.map (key_class params) = pre.map (key_class params) ∧
      post0.map (key_class params) = post.map (key_class params) ∧
      key_class params x = key_class params e ∧
      pm1.eraseP (key_equal params e) = pre ++ post ∧
      pm0.find? (key_equal params e) = some x ∧
      pm0.eraseP (key_equal params e) = pre0 ++ post0 := by
  obtain ⟨pre, post, hl, hky, hpre, her, -⟩ := find_key_split h
  rw [hl, List.map_append, List.map_cons] at hpair
  obtain ⟨pre0, rest0, hpm0, hpre0, hrest0⟩ := List.map_eq_append_iff.mp hpair
  obtain ⟨x, post0, hrest, hkx, hpost0⟩ := List.map_eq_cons_iff.mp hrest0
  have hx : key_equal params e x = true :=
    (key_equal_iff params e x).mpr (hky.symm.trans hkx.symm)
  have hpre0' : ∀ z ∈ pre0, key_equal params e z = false := by
    intro z hz
    rw [key_equal_false_iff]
    intro hk
    apply hpre
    rw [← hpre0]
    exact List.mem_map.mpr ⟨z, hz, hk.symm⟩
  have hfs := find_of_split pre0 post0 hx hpre0'
  refine ⟨pre, post, pre0, post0, x, hl, ?_, hpre0, hpost0, hkx.trans hky, her, ?_, ?_⟩
  · rw [hpm0, hrest]
  · rw [hpm0, hrest]; exact hfs.1
  · rw [hpm0, hrest]; exact hfs.2

theorem pending_add_find_none_of_modify1 (t : table) (e y : rte_swx_table_entry)
    (hinv : staging_inv t) (h2 : table_pending_modify1_find t e = some y) :
    table_pending_add_find t e = none := by
  obtain ⟨hnd, -⟩ := hinv
  rw [staging_keys_split] at hnd
  have hdis := (List.nodup_append.mp (List.nodup_append.mp hnd).1).2.2
  have hy : key_class t.params e ∈ t.pending_modify1.map (key_class t.params) := by
    by_contra hne
    have := find_key_none.mpr hne
    unfold table_pending_modify1_find at h2
    rw [this] at h2
    cases h2
  unfold table_pending_add_find
  rw [find_key_none]
  intro hmem
  exact hdis (List.mem_append_right _ hmem) hy

theorem entry_delete_lists_inv (t : table) (e : rte_swx_table_entry) (hinv : staging_inv t) :
    (entry_delete_lists t e).1 = 0 ∧ staging_inv (entry_delete_lists t e).2 := by
  have hinv' := hinv
  obtain ⟨hnd, hpair⟩ := hinv
  rw [List.nodup_iff_count_le_one] at hnd
  cases h0 : table_entries_find t e with
  | some x =>
    rw [entry_delete_lists_in_entries t e x h0]
    obtain ⟨pre, post, hl, hkx, -, her, -⟩ := find_key_split h0
    refine ⟨rfl, ?_⟩
    unfold staging_inv
    dsimp only
    rw [her]
    rw [hl] at hnd
    refine ⟨?_, hpair⟩
    rw [List.nodup_iff_count_le_one]
    intro a
    have := hnd a
    simp only [List.map_append, List.map_cons, List.map_nil, List.count_append,
      List.count_cons, List.count_nil] at this ⊢
    omega
  | none =>
    cases h2 : table_pending_modify1_find t e with
    | some y =>
      have h1 := pending_add_find_none_of_modify1 t e y hinv' h2
      obtain ⟨pre, post, pre0, post0, x, hl1, hl0, hpre0, hpost0, hkx, her1, hf0, her0⟩ :=
        pending_modify0_partner hpair h2
      have hky : key_class t.params y = key_class t.params e := (find_key_split h2).choose_spec.choose_spec.2.1
      rw [entry_delete_lists_in_pending_modify1 t e y x h0 h1 h2 hf0]
      refine ⟨rfl, ?_⟩
      unfold staging_inv
      dsimp only
      rw [her1, her0]
      rw [hl1] at hnd
      constructor
      · rw [List.nodup_iff_count_le_one]
        intro a
        have := hnd a
        simp only [List.map_append, List.map_cons, List.map_nil, List.count_append,
          List.count_cons, List.count_nil, hkx, hky] at this ⊢
        omega
      · simp only [List.map_append, hpre0, hpost0]
    | none =>
      cases h1 : table_pending_add_find t e with
      | some x =>
        rw [entry_delete_lists_in_pending_add t e x h0 h1 h2]
        obtain ⟨pre, post, hl, hkx, -, her, -⟩ := find_key_split h1
        refine ⟨rfl, ?_⟩
        unfold staging_inv
        dsimp only
        rw [her]
        rw [hl] at hnd
        refine ⟨?_, hpair⟩
        rw [List.nodup_iff_count_le_one]
        intro a
        have := hnd a
        simp only [List.map_append, List.map_cons, List.map_nil, List.count_append,
          List.count_cons, List.count_nil] at this ⊢
        omega
      | none =>
        rw [entry_delete_lists_absent t e h0 h1 h2]
        exact ⟨rfl, hinv'⟩

/-! ## The staging lists across a commit or an abort -/

theorem staging_inv_table_rollfwd2 (t : table) (hinv : staging_inv t) :
    staging_inv (table_rollfwd2 t) := by
  obtain ⟨hnd, -⟩ := hinv
  rw [List.nodup_iff_count_le_one] at hnd
  unfold staging_inv table_rollfwd2
  dsimp only
  refine ⟨?_, rfl⟩
  rw [List.nodup_iff_count_le_one]
  intro a
  have := hnd a
  simp only [List.map_append, List.map_nil, List.count_append, List.count_nil,
    List.append_nil] at this ⊢
  omega

theorem staging_inv_table_abort (t : table) (hinv : staging_inv t) :
    staging_inv (table_abort t) := by
  obtain ⟨hnd, hpair⟩ := hinv
  rw [List.nodup_iff_count_le_one] at hnd
  unfold staging_inv table_abort
  dsimp only
  refine ⟨?_, rfl⟩
  rw [List.nodup_iff_count_le_one]
  intro a
  have := hnd a
  simp only [List.map_append, List.map_nil, List.count_append, List.count_nil,
    List.append_nil, hpair] at this ⊢
  omega

/-- Two tables with the same parameters and the same five lists have the staging
invariants together. -/
theorem staging_inv_of_lists_eq (t u : table) (hp : u.params = t.params)
    (he : u.entries = t.entries) (ha : u.pending_add = t.pending_add)
    (h0 : u.pending_modify0 = t.pending_modify0) (h1 : u.pending_modify1 = t.pending_modify1)
    (hd : u.pending_delete = t.pending_delete) (hinv : staging_inv t) : staging_inv u := by
  unfold staging_inv at hinv ⊢
  rw [hp, he, ha, h0, h1, hd]
  exact hinv

theorem table_rollfwd0_lists (b : backend) (ctl_actions : List action) (table_id : Nat)
    (t : table) (ts ts_next : rte_swx_table_state) (after_swap : Bool) (log : List event) :
    (table_rollfwd0 b ctl_actions table_id t ts ts_next after_swap log).2.1.params = t.params ∧
    (table_rollfwd0 b ctl_actions table_id t ts ts_next after_swap log).2.1.entries
      = t.entries ∧
    (table_rollfwd0 b ctl_actions table_id t ts ts_next after_swap log).2.1.pending_add
      = t.pending_add ∧
    (table_rollfwd0 b ctl_actions table_id t ts ts_next after_swap log).2.1.pending_modify0
      = t.pending_modify0 ∧
    (table_rollfwd0 b ctl_actions table_id t ts ts_next after_swap log).2.1.pending_modify1
      = t.pending_modify1 ∧
    (table_rollfwd0 b ctl_actions table_id t ts ts_next after_swap log).2.1.pending_delete
      = t.pending_delete ∧
    (table_rollfwd0 b ctl_actions table_id t ts ts_next after_swap log).2.1.pending_default
      = t.pending_default := by
  unfold table_rollfwd0
  dsimp only
  split_ifs
  all_goals first
    | exact ⟨rfl, rfl, rfl, rfl, rfl, rfl, rfl⟩
    | (split <;> exact ⟨rfl, rfl, rfl, rfl, rfl, rfl, rfl⟩)

theorem table_rollback_lists (b : backend) (table_id : Nat)
    (t : table) (ts ts_next : rte_swx_table_state) (log : List event) :
    (table_rollback b table_id t ts ts_next log).1.params = t.params ∧
    (table_rollback b table_id t ts ts_next log).1.entries = t.entries ∧
    (table_rollback b table_id t ts ts_next log).1.pending_add = t.pending_add ∧
    (table_rollback b table_id t ts ts_next log).1.pending_modify0 = t.pending_modify0 ∧
    (table_rollback b table_id t ts ts_next log).1.pending_modify1 = t.pending_modify1 ∧
    (table_rollback b table_id t ts ts_next log).1.pending_delete = t.pending_delete ∧
    (table_rollback b table_id t ts ts_next log).1.pending_default = t.pending_default := by
  unfold table_rollback
  dsimp only
  split_ifs
  all_goals exact ⟨rfl, rfl, rfl, rfl, rfl, rfl, rfl⟩

theorem staging_inv_table_rollfwd0 (b : backend) (ctl_actions : List action) (table_id : Nat)
    (t : table) (ts ts_next : rte_swx_table_state) (after_swap : Bool) (log : List event)
    (hinv : staging_inv t) :
    staging_inv (table_rollfwd0 b ctl_actions table_id t ts ts_next after_swap log).2.1 := by
  obtain ⟨hp, he, ha, h0, h1, hd, -⟩ :=
    table_rollfwd0_lists b ctl_actions table_id t ts ts_next after_swap log
  exact staging_inv_of_lists_eq t _ hp he ha h0 h1 hd hinv

theorem staging_inv_table_rollback (b : backend) (table_id : Nat)
    (t : table) (ts ts_next : rte_swx_table_state) (log : List event) (hinv : staging_inv t) :
    staging_inv (table_rollback b table_id t ts ts_next log).1 := by
  obtain ⟨hp, he, ha, h0, h1, hd, -⟩ := table_rollback_lists b table_id t ts ts_next log
  exact staging_inv_of_lists_eq t _ hp he ha h0 h1 hd hinv

/-! ## Finding a table by name -/

theorem table_find_from_spec (k : Nat) (l : List table) (name : String) (i : Nat) (t : table)
    (h : table_find_from k l name = some (i, t)) :
    k ≤ i ∧ l[i - k]? = some t ∧ name = t.info_name := by
  induction l generalizing k with
  | nil => simp [table_find_from] at h
  | cons u rest ih =>
    unfold table_find_from at h
    split_ifs at h with hn
    · simp only [Option.some.injEq, Prod.mk.injEq] at h
      obtain ⟨rfl, rfl⟩ := h
      simp [hn]
    · obtain ⟨hk, hget, hname⟩ := ih (k + 1) h
      refine ⟨by omega, ?_, hname⟩
      have : i - k = (i - (k + 1)) + 1 := by omega
      rw [this, List.getElem?_cons_succ]
      exact hget

theorem table_find_spec (ctl : rte_swx_ctl_pipeline) (name : String) (i : Nat) (t : table)
    (h : table_find ctl name = some (i, t)) :
    ctl.tables[i]? = some t ∧ name = t.info_name := by
  have := table_find_from_spec 0 ctl.tables name i t h
  simpa using this.2

theorem table_find_mem (ctl : rte_swx_ctl_pipeline) (name : String) (i : Nat) (t : table)
    (h : table_find ctl name = some (i, t)) : t ∈ ctl.tables := by
  obtain ⟨hlt, hget⟩ := List.getElem?_eq_some_iff.mp (table_find_spec ctl name i t h).1
  rw [← hget]
  exact List.getElem_mem hlt

theorem set_same_of_getElem? {l : List table} {i : Nat} {t : table} (h : l[i]? = some t) :
    l.set i t = l := by
  apply List.ext_getElem?
  intro j
  rw [List.getElem?_set]
  split_ifs with hij hlt
  · rw [← hij, h]
  · rw [← hij]
    rw [List.getElem?_eq_none (by omega)]
  · rfl

theorem forall_mem_set {P : table → Prop} {l : List table} {i : Nat} {t : table}
    (hl : ∀ u ∈ l, P u) (ht : P t) : ∀ u ∈ l.set i t, P u := by
  intro u hu
  rcases List.mem_or_eq_of_mem_set hu with h | h
  · exact hl u h
  · rw [h]; exact ht

theorem mem_of_getElem?_some {l : List table} {i : Nat} {t : table} (h : l[i]? = some t) :
    t ∈ l := by
  obtain ⟨hlt, hget⟩ := List.getElem?_eq_some_iff.mp h
  rw [← hget]
  exact List.getElem_mem hlt

/-! ## A property of every table across the calls of the interface -/

theorem foldl_preserves (Q : commit_state → Prop) (f : commit_state → Nat → commit_state)
    (hf : ∀ s i, Q s → Q (f s i)) (l : List Nat) (s : commit_state) (hs : Q s) :
    Q (l.foldl f s) := by
  induction l generalizing s with
  | nil => exact hs
  | cons i rest ih => exact ih (f s i) (hf s i hs)

theorem rollfwd0_at_forall (P : table → Prop)
    (hr0 : ∀ b ctl_actions table_id t ts ts_next after_swap log, P t →
      P (table_rollfwd0 b ctl_actions table_id t ts ts_next after_swap log).2.1)
    (b : backend) (after_swap : Bool) (s : commit_state) (i : Nat)
    (h : ∀ t ∈ s.ctl.tables, P t) :
    ∀ t ∈ (rollfwd0_at b after_swap s i).2.ctl.tables, P t := by
  unfold rollfwd0_at
  split
  · rename_i t ts ts_next ht _ _
    exact forall_mem_set h (hr0 _ _ _ _ _ _ _ _ (h t (mem_of_getElem?_some ht)))
  · exact h

theorem rollfwd1_at_tables (s : commit_state) (i : Nat) :
    (rollfwd1_at s i).ctl.tables = s.ctl.tables ∧ (rollfwd1_at s i).log = s.log := by
  unfold rollfwd1_at
  split <;> exact ⟨rfl, rfl⟩

theorem rollfwd2_at_forall (P : table → Prop) (hr2 : ∀ t, P t → P (table_rollfwd2 t))
    (s : commit_state) (i : Nat) (h : ∀ t ∈ s.ctl.tables, P t) :
    ∀ t ∈ (rollfwd2_at s i).ctl.tables, P t := by
  unfold rollfwd2_at
  split
  · rename_i t ht
    exact forall_mem_set h (hr2 t (h t (mem_of_getElem?_some ht)))
  · exact h

theorem rollback_at_forall (P : table → Prop)
    (hrb : ∀ b table_id t ts ts_next log, P t →
      P (table_rollback b table_id t ts ts_next log).1)
    (b : backend) (s : commit_state) (i : Nat) (h : ∀ t ∈ s.ctl.tables, P t) :
    ∀ t ∈ (rollback_at b s i).ctl.tables, P t := by
  unfold rollback_at
  split
  · rename_i t ts ts_next ht _ _
    exact forall_mem_set h (hrb _ _ _ _ _ _ (h t (mem_of_getElem?_some ht)))
  · exact h

theorem abort_at_forall (P : table → Prop) (hab : ∀ t, P t → P (table_abort t))
    (s : commit_state) (i : Nat) (h : ∀ t ∈ s.ctl.tables, P t) :
    ∀ t ∈ (abort_at s i).ctl.tables, P t := by
  unfold abort_at
  split
  · rename_i t ht
    exact forall_mem_set h (hab t (h t (mem_of_getElem?_some ht)))
  · exact h

theorem commit_stage0_forall (P : table → Prop)
    (hr0 : ∀ b ctl_actions table_id t ts ts_next after_swap log, P t →
      P (table_rollfwd0 b ctl_actions table_id t ts ts_next after_swap log).2.1)
    (b : backend) (l : List Nat) (s : commit_state) (h : ∀ t ∈ s.ctl.tables, P t) :
    ∀ t ∈ (commit_stage0 b l s).2.ctl.tables, P t := by
  induction l generalizing s with
  | nil => exact h
  | cons i rest ih =>
    unfold commit_stage0
    dsimp only
    split_ifs
    · exact rollfwd0_at_forall P hr0 b false s i h
    · exact ih _ (rollfwd0_at_forall P hr0 b false s i h)

theorem commit_forall (P : table → Prop)
    (hr0 : ∀ b ctl_actions table_id t ts ts_next after_swap log, P t →
      P (table_rollfwd0 b ctl_actions table_id t ts ts_next after_swap log).2.1)
    (hr2 : ∀ t, P t → P (table_rollfwd2 t))
    (hrb : ∀ b table_id t ts ts_next log, P t →
      P (table_rollback b table_id t ts ts_next log).1)
    (hab : ∀ t, P t → P (table_abort t))
    (b : backend) (ctl : rte_swx_ctl_pipeline) (abort_on_fail : Bool)
    (h : ∀ t ∈ ctl.tables, P t) :
    ∀ t ∈ (rte_swx_ctl_pipeline_commit b ctl abort_on_fail).2.1.tables, P t := by
  have h0 := commit_stage0_forall P hr0 b (List.range ctl.tables.length)
    { ctl := ctl, log := [] } h
  unfold rte_swx_ctl_pipeline_commit
  dsimp only
  split_ifs
  · refine foldl_preserves (fun s => ∀ t ∈ s.ctl.tables, P t) _ ?_ _ _ h0
    intro s i hs
    unfold commit_rollback
    split_ifs
    · exact abort_at_forall P hab _ i (rollback_at_forall P hrb b s i hs)
    · exact rollback_at_forall P hrb b s i hs
  · refine foldl_preserves (fun s => ∀ t ∈ s.ctl.tables, P t) _ ?_ _ _ ?_
    · intro s i hs
      unfold commit_after_swap
      apply rollfwd2_at_forall P hr2
      rw [(rollfwd1_at_tables _ i).1]
      exact rollfwd0_at_forall P hr0 b true s i hs
    · dsimp only
      refine foldl_preserves (fun s => ∀ t ∈ s.ctl.tables, P t) _ ?_ _ _ h0
      intro s i hs
      rw [(rollfwd1_at_tables _ i).1]
      exact hs

theorem abort_forall (P : table → Prop) (hab : ∀ t, P t → P (table_abort t))
    (ctl : rte_swx_ctl_pipeline) (h : ∀ t ∈ ctl.tables, P t) :
    ∀ t ∈ (rte_swx_ctl_pipeline_abort ctl).tables, P t := by
  unfold rte_swx_ctl_pipeline_abort
  exact foldl_preserves (fun s => ∀ t ∈ s.ctl.tables, P t) _
    (fun s i hs => abort_at_forall P hab s i hs) _ _ h

/-! ## The staging invariants hold in every reachable state -/

theorem entry_add_staging_inv (ctl : rte_swx_ctl_pipeline) (table_name : Option String)
    (entry : Option rte_swx_table_entry) (ok : Bool)
    (h : ∀ t ∈ ctl.tables, staging_inv t) :
    ∀ t ∈ (rte_swx_ctl_pipeline_table_entry_add ctl table_name entry ok).2.tables,
      staging_inv t := by
  unfold rte_swx_ctl_pipeline_table_entry_add
  cases table_name with
  | none => exact h
  | some name =>
    dsimp only
    split_ifs with hname
    · exact h
    · cases hf : table_find ctl name with
      | none => exact h
      | some r =>
        obtain ⟨i, t⟩ := r
        cases entry with
        | none => exact h
        | some e =>
          dsimp only
          split_ifs with hc
          · exact h
          · cases hd : table_entry_duplicate ctl.actions t (some e) true true ok with
            | none => exact h
            | some n =>
              dsimp only
              exact forall_mem_set h (staging_inv_entry_add_lists t e n
                (h t (table_find_mem ctl name i t hf))
                (duplicate_key_class ctl.actions t e n true ok (not_not.mp hc) hd))

theorem entry_delete_staging_inv (ctl : rte_swx_ctl_pipeline) (table_name : Option String)
    (entry : Option rte_swx_table_entry) (h : ∀ t ∈ ctl.tables, staging_inv t) :
    ∀ t ∈ (rte_swx_ctl_pipeline_table_entry_delete ctl table_name entry).2.tables,
      staging_inv t := by
  unfold rte_swx_ctl_pipeline_table_entry_delete
  cases table_name with
  | none => exact h
  | some name =>
    dsimp only
    split_ifs with hname
    · exact h
    · cases hf : table_find ctl name with
      | none => exact h
      | some r =>
        obtain ⟨i, t⟩ := r
        cases entry with
        | none => exact h
        | some e =>
          dsimp only
          split_ifs with hc
          · exact h
          · exact forall_mem_set h
              (entry_delete_lists_inv t e (h t (table_find_mem ctl name i t hf))).2

theorem default_entry_add_staging_inv (ctl : rte_swx_ctl_pipeline)
    (table_name : Option String) (entry : Option rte_swx_table_entry) (ok : Bool)
    (h : ∀ t ∈ ctl.tables, staging_inv t) :
    ∀ t ∈ (rte_swx_ctl_pipeline_table_default_entry_add ctl table_name entry ok).2.tables,
      staging_inv t := by
  unfold rte_swx_ctl_pipeline_table_default_entry_add
  cases table_name with
  | none => exact h
  | some name =>
    dsimp only
    split_ifs with hname
    · exact h
    · cases hf : table_find ctl name with
      | none => exact h
      | some r =>
        obtain ⟨i, t⟩ := r
        dsimp only
        split_ifs with hconst
        · exact h
        · cases entry with
          | none => exact h
          | some e =>
            dsimp only
            split_ifs with hc
            · exact h
            · cases hd : table_entry_duplicate ctl.actions t (some e) false true ok with
              | none => exact h
              | some n =>
                dsimp only
                exact forall_mem_set h (staging_inv_of_lists_eq t _ rfl rfl rfl rfl rfl rfl
                  (h t (table_find_mem ctl name i t hf)))

theorem ctl_step_staging_inv (ctl : rte_swx_ctl_pipeline) (op : ctl_op)
    (h : ∀ t ∈ ctl.tables, staging_inv t) : ∀ t ∈ (ctl_step ctl op).tables, staging_inv t := by
  cases op with
  | entry_add table_name entry ok => exact entry_add_staging_inv ctl table_name entry ok h
  | entry_delete table_name entry => exact entry_delete_staging_inv ctl table_name entry h
  | default_entry_add table_name entry ok =>
    exact default_entry_add_staging_inv ctl table_name entry ok h
  | commit b abort_on_fail =>
    exact commit_forall staging_inv
      (fun b a i t ts tsn as log ht => staging_inv_table_rollfwd0 b a i t ts tsn as log ht)
      staging_inv_table_rollfwd2
      (fun b i t ts tsn log ht => staging_inv_table_rollback b i t ts tsn log ht)
      staging_inv_table_abort b ctl abort_on_fail h
  | abort => exact abort_forall staging_inv staging_inv_table_abort ctl h

theorem ctl_run_staging_inv (ops : List ctl_op) (ctl : rte_swx_ctl_pipeline)
    (h : ∀ t ∈ ctl.tables, staging_inv t) : ∀ t ∈ (ctl_run ctl ops).tables, staging_inv t := by
  induction ops generalizing ctl with
  | nil => exact h
  | cons op ops ih => exact ih (ctl_step ctl op) (ctl_step_staging_inv ctl op h)

theorem tables_empty_staging_inv (ctl : rte_swx_ctl_pipeline) (h : tables_empty ctl) :
    ∀ t ∈ ctl.tables, staging_inv t := by
  intro t ht
  obtain ⟨he, ha, h0, h1, hd, -⟩ := h t ht
  unfold staging_inv
  rw [he, ha, h0, h1, hd]
  exact ⟨List.nodup_nil, rfl⟩

theorem reachable_staging_inv (ctl0 : rte_swx_ctl_pipeline) (ops : List ctl_op)
    (h : tables_empty ctl0) : ∀ t ∈ (ctl_run ctl0 ops).tables, staging_inv t :=
  ctl_run_staging_inv ops ctl0 (tables_empty_staging_inv ctl0 h)

theorem keycmp_eq_zero_iff (params : rte_swx_table_params) (a b : rte_swx_table_entry) :
    table_entry_keycmp params a b = 0 ↔ key_class params a = key_class params b := by
  rw [← key_equal_iff]
  unfold key_equal
  rw [decide_eq_true_eq]

/-- Claim C18.  In every state reached from a controller whose tables are empty
by any sequence of entry adds, entry deletes, default-entry adds, commits (with
any backend, with or without `abort_on_fail`) and aborts, the lists
`pending_modify0` and `pending_modify1` of every table have the same length, and
every element of either list has an element of the other list that
`table_entry_keycmp` finds equal to it. -/
theorem pending_modify_lists_paired (ctl0 : rte_swx_ctl_pipeline) (ops : List ctl_op)
    (h : tables_empty ctl0) :
    ∀ t ∈ (ctl_run ctl0 ops).tables,
      t.pending_modify0.length = t.pending_modify1.length ∧
      (∀ x ∈ t.pending_modify0, ∃ y ∈ t.pending_modify1,
        table_entry_keycmp t.params x y = 0) ∧
      (∀ y ∈ t.pending_modify1, ∃ x ∈ t.pending_modify0,
        table_entry_keycmp t.params x y = 0) := by
  intro t ht
  obtain ⟨-, hpair⟩ := reachable_staging_inv ctl0 ops h t ht
  refine ⟨?_, ?_, ?_⟩
  · have := congrArg List.length hpair
    simpa using this
  · intro x hx
    have hmem : key_class t.params x ∈ t.pending_modify1.map (key_class t.params) := by
      rw [← hpair]
      exact List.mem_map_of_mem _ hx
    obtain ⟨y, hy, hk⟩ := List.mem_map.mp hmem
    exact ⟨y, hy, (keycmp_eq_zero_iff _ _ _).mpr hk.symm⟩
  · intro y hy
    have hmem : key_class t.params y ∈ t.pending_modify0.map (key_class t.params) := by
      rw [hpair]
      exact List.mem_map_of_mem _ hy
    obtain ⟨x, hx, hk⟩ := List.mem_map.mp hmem
    exact ⟨x, hx, (keycmp_eq_zero_iff _ _ _).mpr hk⟩

/-- Starting from the concrete controller, an entry is added and committed, then
added again with other action data, which stages a modify: the lists
`pending_modify0` and `pending_modify1` of the state reached are paired. -/
theorem pending_modify_lists_paired_witness :
    tables_empty example_ctl ∧
    (ctl_run example_ctl
      [.entry_add (some "t0") (some (example_entry 1 1)) true,
       .commit example_backend false,
       .entry_add (some "t0") (some (example_entry 1 2)) true]).tables.map
        (fun t => (t.pending_modify0.length, t.pending_modify1.length)) = [(1, 1)] ∧
    ∀ t ∈ (ctl_run example_ctl
      [.entry_add (some "t0") (some (example_entry 1 1)) true,
       .commit example_backend false,
       .entry_add (some "t0") (some (example_entry 1 2)) true]).tables,
      t.pending_modify0.length = t.pending_modify1.length ∧
      (∀ x ∈ t.pending_modify0, ∃ y ∈ t.pending_modify1,
        table_entry_keycmp t.params x y = 0) ∧
      (∀ y ∈ t.pending_modify1, ∃ x ∈ t.pending_modify0,
        table_entry_keycmp t.params x y = 0) :=
  ⟨by unfold tables_empty; decide, by decide,
    pending_modify_lists_paired example_ctl _ (by unfold tables_empty; decide)⟩

/-- Claim C19.  In every state reached from a controller whose tables are empty
by any sequence of entry adds, entry deletes, default-entry adds, commits and
aborts, no two elements at different places of the concatenation of `entries`,
`pending_add`, `pending_modify1` and `pending_delete` of a table are equal under
`table_entry_keycmp`; in particular no element of `pending_add` is equal under
`table_entry_keycmp` to an element of `entries`. -/
theorem staged_keys_unique (ctl0 : rte_swx_ctl_pipeline) (ops : List ctl_op)
    (h : tables_empty ctl0) :
    ∀ t ∈ (ctl_run ctl0 ops).tables,
      (t.entries ++ t.pending_add ++ t.pending_modify1 ++ t.pending_delete).Pairwise
        (fun x y => table_entry_keycmp t.params x y ≠ 0) ∧
      ∀ x ∈ t.pending_add, ∀ y ∈ t.entries, table_entry_keycmp t.params x y ≠ 0 := by
  intro t ht
  obtain ⟨hnd, -⟩ := reachable_staging_inv ctl0 ops h t ht
  have hpw : (t.entries ++ t.pending_add ++ t.pending_modify1 ++ t.pending_delete).Pairwise
      (fun x y => table_entry_keycmp t.params x y ≠ 0) := by
    unfold List.Nodup at hnd
    rw [List.pairwise_map] at hnd
    exact hnd.imp (fun hne hz => hne ((keycmp_eq_zero_iff _ _ _).mp hz))
  refine ⟨hpw, ?_⟩
  intro x hx y hy hz
  have h2 := (List.pairwise_append.mp (List.pairwise_append.mp
    (List.pairwise_append.mp hpw).1).1).2.2 y hy x hx
  rw [keycmp_eq_zero_iff] at hz
  exact h2 ((keycmp_eq_zero_iff _ _ _).mpr hz.symm)

/-- Starting from the concrete controller, one entry is committed, a second is
staged for add, and a third key is added, committed and then deleted: `entries`,
`pending_add` and `pending_delete` are all non-empty and hold three different
keys. -/
theorem staged_keys_unique_witness :
    tables_empty example_ctl ∧
    (ctl_run example_ctl
      [.entry_add (some "t0") (some (example_entry 1 1)) true,
       .entry_add (some "t0") (some (example_entry 3 1)) true,
       .commit example_backend false,
       .entry_add (some "t0") (some (example_entry 2 1)) true,
       .entry_delete (some "t0") (some (example_entry 3 0))]).tables.map
        (fun t => (t.entries.length, t.pending_add.length, t.pending_delete.length))
      = [(1, 1, 1)] ∧
    ∀ t ∈ (ctl_run example_ctl
      [.entry_add (some "t0") (some (example_entry 1 1)) true,
       .entry_add (some "t0") (some (example_entry 3 1)) true,
       .commit example_backend false,
       .entry_add (some "t0") (some (example_entry 2 1)) true,
       .entry_delete (some "t0") (some (example_entry 3 0))]).tables,
      (t.entries ++ t.pending_add ++ t.pending_modify1 ++ t.pending_delete).Pairwise
        (fun x y => table_entry_keycmp t.params x y ≠ 0) ∧
      ∀ x ∈ t.pending_add, ∀ y ∈ t.entries, table_entry_keycmp t.params x y ≠ 0 :=
  ⟨by unfold tables_empty; decide, by decide,
    staged_keys_unique example_ctl _ (by unfold tables_empty; decide)⟩

/-- Claim C20 fails as stated.  From the concrete controller with its table
empty, an entry with key `10, 0, 0, 1` is added and committed (every backend call
succeeds) and then deleted: the entry is now the one element of
`pending_delete`, and `entries` is empty, so no element of `entries` has its
key. -/
theorem pending_delete_key_not_in_entries :
    tables_empty example_ctl ∧
    (ctl_run example_ctl
      [.entry_add (some "t0") (some (example_entry 1 1)) true,
       .commit example_backend false,
       .entry_delete (some "t0") (some (example_entry 1 0))]).tables.map
        (fun t => (t.entries, t.pending_delete.map (fun e => e.key))) =
      [([], [some [10, 0, 0, 1]])] ∧
    ∃ t ∈ (ctl_run example_ctl
      [.entry_add (some "t0") (some (example_entry 1 1)) true,
       .commit example_backend false,
       .entry_delete (some "t0") (some (example_entry 1 0))]).tables,
      ∃ x ∈ t.pending_delete, ¬ ∃ y ∈ t.entries, table_entry_keycmp t.params x y = 0 := by
  refine ⟨by unfold tables_empty; decide, by decide, ?_⟩
  decide

/-- Claim C20, amended.  In every state reached from a controller whose tables
are empty, an element of `pending_delete` is equal under `table_entry_keycmp` to
no element of `entries`, of `pending_add` or of `pending_modify1` of its table:
the delete (or the modify it follows) moved the entry out of `entries`.  It is
`table_abort` that puts every element of `pending_delete` back into
`entries`. -/
theorem pending_delete_disjoint_from_entries (ctl0 : rte_swx_ctl_pipeline)
    (ops : List ctl_op) (h : tables_empty ctl0) :
    ∀ t ∈ (ctl_run ctl0 ops).tables, ∀ x ∈ t.pending_delete,
      (∀ y ∈ t.entries, table_entry_keycmp t.params x y ≠ 0) ∧
      (∀ y ∈ t.pending_add, table_entry_keycmp t.params x y ≠ 0) ∧
      (∀ y ∈ t.pending_modify1, table_entry_keycmp t.params x y ≠ 0) ∧
      x ∈ (table_abort t).entries := by
  intro t ht x hx
  obtain ⟨hnd, -⟩ := reachable_staging_inv ctl0 ops h t ht
  unfold List.Nodup at hnd
  rw [List.pairwise_map] at hnd
  have hsep := (List.pairwise_append.mp hnd).2.2
  have key : ∀ y ∈ t.entries ++ t.pending_add ++ t.pending_modify1,
      table_entry_keycmp t.params x y ≠ 0 := by
    intro y hy hz
    exact hsep y hy x hx ((keycmp_eq_zero_iff _ _ _).mp hz).symm
  refine ⟨fun y hy => key y ?_, fun y hy => key y ?_, fun y hy => key y ?_, ?_⟩
  · simp [hy]
  · simp [hy]
  · simp [hy]
  · unfold table_abort
    simp [hx]

/-- Starting from the concrete controller, an entry is added, committed and then
deleted, so that `pending_delete` is not empty in the state reached. -/
theorem pending_delete_disjoint_from_entries_witness :
    tables_empty example_ctl ∧
    (ctl_run example_ctl
      [.entry_add (some "t0") (some (example_entry 1 1)) true,
       .commit example_backend false,
       .entry_add (some "t0") (some (example_entry 2 1)) true,
       .entry_delete (some "t0") (some (example_entry 1 0))]).tables.map
        (fun t => (t.pending_add.length, t.pending_delete.length)) = [(1, 1)] ∧
    ∀ t ∈ (ctl_run example_ctl
      [.entry_add (some "t0") (some (example_entry 1 1)) true,
       .commit example_backend false,
       .entry_add (some "t0") (some (example_entry 2 1)) true,
       .entry_delete (some "t0") (some (example_entry 1 0))]).tables,
      ∀ x ∈ t.pending_delete,
        (∀ y ∈ t.entries, table_entry_keycmp t.params x y ≠ 0) ∧
        (∀ y ∈ t.pending_add, table_entry_keycmp t.params x y ≠ 0) ∧
        (∀ y ∈ t.pending_modify1, table_entry_keycmp t.params x y ≠ 0) ∧
        x ∈ (table_abort t).entries :=
  ⟨by unfold tables_empty; decide, by decide,
    pending_delete_disjoint_from_entries example_ctl _ (by unfold tables_empty; decide)⟩

theorem check_data_facts (ctl_actions : List action) (t : table) (e : rte_swx_table_entry)
    (h : table_entry_check ctl_actions t (some e) true true = 0) :
    e.action_id ∈ t.actions ∧
    (((action_at ctl_actions e.action_id).data_size ≠ 0 ∧ e.action_data.isSome) ∨
      ((action_at ctl_actions e.action_id).data_size = 0 ∧ e.action_data.isNone)) := by
  have hks : (if t.is_stub then
        (if e.key.isSome then -EINVAL else if e.key_mask.isSome then -EINVAL else (0 : Int))
      else
        if e.key.isNone then -EINVAL
        else
          match t.params.mtype with
          | match_type.WILDCARD => 0
          | match_type.LPM => 0
          | match_type.EXACT => table_entry_key_check_em t e) = 0 := by
    by_contra hne
    unfold table_entry_check at h
    simp only [↓reduceIte] at h
    rw [if_pos hne] at h
    exact hne h
  unfold table_entry_check at h
  simp only [↓reduceIte] at h
  rw [if_neg (not_not.mpr hks)] at h
  split_ifs at h with h1 h2
  · exact ⟨h1, h2⟩
  · exact absurd h neg_EINVAL_ne_zero
  · exact absurd h neg_EINVAL_ne_zero

theorem check_key_only (ctl_actions : List action) (t : table) (e : rte_swx_table_entry)
    (h : table_entry_check ctl_actions t (some e) true true = 0) :
    table_entry_check ctl_actions t (some e) true false = 0 := by
  have hks : (if t.is_stub then
        (if e.key.isSome then -EINVAL else if e.key_mask.isSome then -EINVAL else (0 : Int))
      else
        if e.key.isNone then -EINVAL
        else
          match t.params.mtype with
          | match_type.WILDCARD => 0
          | match_type.LPM => 0
          | match_type.EXACT => table_entry_key_check_em t e) = 0 := by
    by_contra hne
    unfold table_entry_check at h
    simp only [↓reduceIte] at h
    rw [if_pos hne] at h
    exact hne h
  unfold table_entry_check
  simp only [↓reduceIte]
  rw [if_neg (not_not.mpr hks)]
  rfl

theorem duplicate_succeeds (ctl_actions : List action) (t : table) (e : rte_swx_table_entry)
    (h : table_entry_check ctl_actions t (some e) true true = 0) :
    ∃ n, table_entry_duplicate ctl_actions t (some e) true true true = some n := by
  obtain ⟨hact, hdata⟩ := check_data_facts ctl_actions t e h
  obtain ⟨hstub, hnon⟩ := check_key_facts ctl_actions t e true h
  have hd : ¬ ((action_at ctl_actions e.action_id).data_size ≠ 0 ∧ e.action_data.isNone) := by
    rintro ⟨h1, h2⟩
    rcases hdata with ⟨-, h3⟩ | ⟨h3, -⟩
    · cases hx : e.action_data with
      | none => rw [hx] at h3; cases h3
      | some d => rw [hx] at h2; cases h2
    · exact h1 h3
  unfold table_entry_duplicate
  cases hs : t.is_stub with
  | true =>
    simp only [Bool.not_eq_true, Bool.true_eq_false, if_false, not_true_eq_false, and_false,
      hact, not_true_eq_false, if_neg hd]
    exact ⟨_, rfl⟩
  | false =>
    have hsome := hnon hs
    cases hk : e.key with
    | none => rw [hk] at hsome; cases hsome
    | some key =>
      simp only [Bool.not_eq_true, Bool.true_eq_false, if_false, not_true_eq_false,
        Bool.false_eq_true, not_false_eq_true, and_self, if_true,
        hact, if_neg hd, hk]
      exact ⟨_, rfl⟩

theorem staging_inv_nodup (t : table) (hinv : staging_inv t) :
    (t.entries.map (key_class t.params)).Nodup ∧
    (t.pending_add.map (key_class t.params)).Nodup ∧
    (t.pending_modify1.map (key_class t.params)).Nodup ∧
    (t.pending_delete.map (key_class t.params)).Nodup := by
  obtain ⟨hnd, -⟩ := hinv
  rw [staging_keys_split] at hnd
  have n1 := List.nodup_append.mp hnd
  have n2 := List.nodup_append.mp n1.1
  have n3 := List.nodup_append.mp n2.1
  exact ⟨n3.1, n3.2.1, n2.2.1, n1.2.1⟩

theorem staging_inv_disjoint (t : table) (hinv : staging_inv t) (a : List (Nat × Nat)) :
    (a ∈ t.entries.map (key_class t.params) →
      a ∉ t.pending_add.map (key_class t.params) ∧
      a ∉ t.pending_modify1.map (key_class t.params) ∧
      a ∉ t.pending_delete.map (key_class t.params)) ∧
    (a ∈ t.pending_add.map (key_class t.params) →
      a ∉ t.pending_modify1.map (key_class t.params) ∧
      a ∉ t.pending_delete.map (key_class t.params)) ∧
    (a ∈ t.pending_modify1.map (key_class t.params) →
      a ∉ t.pending_delete.map (key_class t.params)) := by
  obtain ⟨hnd, -⟩ := hinv
  rw [staging_keys_split] at hnd
  have n1 := List.nodup_append.mp hnd
  have n2 := List.nodup_append.mp n1.1
  have n3 := List.nodup_append.mp n2.1
  refine ⟨fun ha => ⟨fun hb => n3.2.2 ha hb, fun hb => n2.2.2 (List.mem_append_left _ ha) hb,
      fun hb => n1.2.2 (List.mem_append_left _ (List.mem_append_left _ ha)) hb⟩,
    fun ha => ⟨fun hb => n2.2.2 (List.mem_append_right _ ha) hb,
      fun hb => n1.2.2 (List.mem_append_left _ (List.mem_append_right _ ha)) hb⟩,
    fun ha hb => n1.2.2 (List.mem_append_right _ ha) hb⟩

theorem entry_add_eq (ctl : rte_swx_ctl_pipeline) (name : String) (i : Nat) (t : table)
    (e n : rte_swx_table_entry) (ok : Bool) (hname : name ≠ "")
    (hfind : table_find ctl name = some (i, t))
    (hcheck : table_entry_check ctl.actions t (some e) true true = 0)
    (hdup : table_entry_duplicate ctl.actions t (some e) true true ok = some n) :
    rte_swx_ctl_pipeline_table_entry_add ctl (some name) (some e) ok =
      (0, { ctl with tables := ctl.tables.set i (entry_add_lists t e n) }) := by
  unfold rte_swx_ctl_pipeline_table_entry_add
  simp only [hname, if_false, hfind, hcheck, ne_eq, not_true_eq_false, hdup]

theorem entry_delete_eq (ctl : rte_swx_ctl_pipeline) (name : String) (i : Nat) (t : table)
    (e : rte_swx_table_entry) (hname : name ≠ "")
    (hfind : table_find ctl name = some (i, t))
    (hcheck : table_entry_check ctl.actions t (some e) true false = 0) :
    rte_swx_ctl_pipeline_table_entry_delete ctl (some name) (some e) =
      ((entry_delete_lists t e).1,
        { ctl with tables := ctl.tables.set i (entry_delete_lists t e).2 }) := by
  unfold rte_swx_ctl_pipeline_table_entry_delete
  simp only [hname, if_false, hfind, hcheck, ne_eq, not_true_eq_false]

theorem find_none_of_keycmp {params : rte_swx_table_params} {e : rte_swx_table_entry}
    {l : List rte_swx_table_entry} (h : ∀ z ∈ l, table_entry_keycmp params e z ≠ 0) :
    l.find? (key_equal params e) = none := by
  rw [find_key_none]
  intro hmem
  obtain ⟨z, hz, hk⟩ := List.mem_map.mp hmem
  exact h z hz ((keycmp_eq_zero_iff _ _ _).mpr hk.symm)

/-- Claim C13.  Let `t` be the table that `table_find` returns for a non-empty
name, in a state where `t` has the staging invariants (as in every reachable
state), and let `e` pass `table_entry_check` with the key and data checks.  If
`e` is equal under `table_entry_keycmp` to an element `x` of `entries`, or of
`pending_delete`, then with its allocations succeeding
`rte_swx_ctl_pipeline_table_entry_add` returns `0`, and the new state differs
from the old one only in table `t`: `x` is unlinked from its list, `x` is
appended to `pending_modify0`, and the duplicate of `e` is appended to
`pending_modify1`; `pending_add`, the other list of the two, and the order of
the remaining elements are as before. -/
theorem entry_add_existing_key (ctl : rte_swx_ctl_pipeline) (name : String) (i : Nat)
    (t : table) (e x : rte_swx_table_entry) (hname : name ≠ "")
    (hfind : table_find ctl name = some (i, t)) (hinv : staging_inv t)
    (hcheck : table_entry_check ctl.actions t (some e) true true = 0)
    (hk : table_entry_keycmp t.params e x = 0) :
    ∃ n, table_entry_duplicate ctl.actions t (some e) true true true = some n ∧
      (x ∈ t.entries → ∃ pre post, t.entries = pre ++ x :: post ∧
        rte_swx_ctl_pipeline_table_entry_add ctl (some name) (some e) true =
          (0, { ctl with tables := ctl.tables.set i { t with
              entries := pre ++ post,
              pending_modify0 := t.pending_modify0 ++ [x],
              pending_modify1 := t.pending_modify1 ++ [n] } })) ∧
      (x ∈ t.pending_delete → ∃ pre post, t.pending_delete = pre ++ x :: post ∧
        rte_swx_ctl_pipeline_table_entry_add ctl (some name) (some e) true =
          (0, { ctl with tables := ctl.tables.set i { t with
              pending_delete := pre ++ post,
              pending_modify0 := t.pending_modify0 ++ [x],
              pending_modify1 := t.pending_modify1 ++ [n] } })) := by
  obtain ⟨n, hn⟩ := duplicate_succeeds ctl.actions t e hcheck
  have hadd := entry_add_eq ctl name i t e n true hname hfind hcheck hn
  have hkc : key_class t.params x = key_class t.params e :=
    ((keycmp_eq_zero_iff _ _ _).mp hk).symm
  obtain ⟨ndE, -, -, ndD⟩ := staging_inv_nodup t hinv
  have hdis := staging_inv_disjoint t hinv (key_class t.params e)
  refine ⟨n, hn, ?_, ?_⟩
  · intro hx
    have h0 : table_entries_find t e = some x := find_key_of_mem ndE hx hkc
    obtain ⟨pre, post, hl, -, -, her, -⟩ := find_key_split h0
    refine ⟨pre, post, hl, ?_⟩
    rw [hadd, entry_add_lists_in_entries t e n x h0, her]
  · intro hx
    have hmem : key_class t.params e ∈ t.pending_delete.map (key_class t.params) :=
      List.mem_map.mpr ⟨x, hx, hkc⟩
    have h0 : table_entries_find t e = none :=
      find_key_none.mpr (fun hE => (hdis.1 hE).2.2 hmem)
    have h1 : table_pending_add_find t e = none :=
      find_key_none.mpr (fun hA => (hdis.2.1 hA).2 hmem)
    have h2 : table_pending_modify1_find t e = none :=
      find_key_none.mpr (fun hM => hdis.2.2 hM hmem)
    have h3 : table_pending_delete_find t e = some x := find_key_of_mem ndD hx hkc
    obtain ⟨pre, post, hl, -, -, her, -⟩ := find_key_split h3
    refine ⟨pre, post, hl, ?_⟩
    rw [hadd, entry_add_lists_in_pending_delete t e n x h0 h1 h2 h3, her]

/-- On the controller with the keys `10, 0, 0, 1` and `10, 0, 0, 2` installed, an
add of key `10, 0, 0, 1` with other action data finds the installed entry. -/
theorem entry_add_existing_key_witness :
    example_entry 1 1 ∈ (table0 example_installed).entries ∧
    ∃ n, table_entry_duplicate example_installed.actions (table0 example_installed)
        (some (example_entry 1 7)) true true true = some n ∧
      (example_entry 1 1 ∈ (table0 example_installed).entries →
        ∃ pre post, (table0 example_installed).entries = pre ++ example_entry 1 1 :: post ∧
        rte_swx_ctl_pipeline_table_entry_add example_installed (some "t0")
            (some (example_entry 1 7)) true =
          (0, { example_installed with tables := example_installed.tables.set 0 { table0 example_installed with
              entries := pre ++ post,
              pending_modify0 := (table0 example_installed).pending_modify0
                ++ [example_entry 1 1],
              pending_modify1 := (table0 example_installed).pending_modify1 ++ [n] } })) ∧
      (example_entry 1 1 ∈ (table0 example_installed).pending_delete →
        ∃ pre post,
          (table0 example_installed).pending_delete = pre ++ example_entry 1 1 :: post ∧
        rte_swx_ctl_pipeline_table_entry_add example_installed (some "t0")
            (some (example_entry 1 7)) true =
          (0, { example_installed with tables := example_installed.tables.set 0 { table0 example_installed with
              pending_delete := pre ++ post,
              pending_modify0 := (table0 example_installed).pending_modify0
                ++ [example_entry 1 1],
              pending_modify1 := (table0 example_installed).pending_modify1 ++ [n] } })) :=
  ⟨by decide,
    entry_add_existing_key example_installed "t0" 0 (table0 example_installed)
      (example_entry 1 7) (example_entry 1 1) (by decide) (by decide)
      (by unfold staging_inv; decide) (by decide) (by decide)⟩

/-- Claim C14.  Let `t` be the table that `table_find` returns for a non-empty
name, in a state where `t` has the staging invariants (as in every reachable
state), and let `e` pass `table_entry_check` with the key and data checks and be
equal under `table_entry_keycmp` to no element of `entries`.  If `e` is equal
under `table_entry_keycmp` to an element `x` of `pending_add` (respectively of
`pending_modify1`), then with its allocations succeeding
`rte_swx_ctl_pipeline_table_entry_add` returns `0`, and the new state differs
from the old one only in that list of table `t`, where the duplicate of `e`
stands at the place of `x`: the elements before and after it, hence the length
of the list, and `entries`, `pending_modify0`, `pending_delete` and the other
list of the two are as before; the duplicate is equal to `e` under
`table_entry_keycmp`. -/
theorem entry_add_staged_key (ctl : rte_swx_ctl_pipeline) (name : String) (i : Nat)
    (t : table) (e x : rte_swx_table_entry) (hname : name ≠ "")
    (hfind : table_find ctl name = some (i, t)) (hinv : staging_inv t)
    (hcheck : table_entry_check ctl.actions t (some e) true true = 0)
    (hnot : ∀ z ∈ t.entries, table_entry_keycmp t.params e z ≠ 0)
    (hk : table_entry_keycmp t.params e x = 0) :
    ∃ n, table_entry_duplicate ctl.actions t (some e) true true true = some n ∧
      table_entry_keycmp t.params e n = 0 ∧
      (x ∈ t.pending_add → ∃ pre post, t.pending_add = pre ++ x :: post ∧
        rte_swx_ctl_pipeline_table_entry_add ctl (some name) (some e) true =
          (0, { ctl with tables := ctl.tables.set i { t with pending_add := pre ++ n :: post } })) ∧
      (x ∈ t.pending_modify1 → ∃ pre post, t.pending_modify1 = pre ++ x :: post ∧
        rte_swx_ctl_pipeline_table_entry_add ctl (some name) (some e) true =
          (0, { ctl with tables := ctl.tables.set i { t with pending_modify1 := pre ++ n :: post } })) := by
  obtain ⟨n, hn⟩ := duplicate_succeeds ctl.actions t e hcheck
  have hadd := entry_add_eq ctl name i t e n true hname hfind hcheck hn
  have hkc : key_class t.params x = key_class t.params e :=
    ((keycmp_eq_zero_iff _ _ _).mp hk).symm
  have hkn : key_class t.params n = key_class t.params e :=
    duplicate_key_class ctl.actions t e n true true hcheck hn
  obtain ⟨-, ndA, ndM, -⟩ := staging_inv_nodup t hinv
  have hdis := staging_inv_disjoint t hinv (key_class t.params e)
  have h0 : table_entries_find t e = none := find_none_of_keycmp hnot
  refine ⟨n, hn, (keycmp_eq_zero_iff _ _ _).mpr hkn.symm, ?_, ?_⟩
  · intro hx
    have h1 : table_pending_add_find t e = some x := find_key_of_mem ndA hx hkc
    obtain ⟨pre, post, hl, -, -, -, hrep⟩ := find_key_split h1
    refine ⟨pre, post, hl, ?_⟩
    rw [hadd, entry_add_lists_in_pending_add t e n x h0 h1, hrep n]
  · intro hx
    have hmem : key_class t.params e ∈ t.pending_modify1.map (key_class t.params) :=
      List.mem_map.mpr ⟨x, hx, hkc⟩
    have h1 : table_pending_add_find t e = none :=
      find_key_none.mpr (fun hA => (hdis.2.1 hA).1 hmem)
    have h2 : table_pending_modify1_find t e = some x := find_key_of_mem ndM hx hkc
    obtain ⟨pre, post, hl, -, -, -, hrep⟩ := find_key_split h2
    refine ⟨pre, post, hl, ?_⟩
    rw [hadd, entry_add_lists_in_pending_modify1 t e n x h0 h1 h2, hrep n]

/-- On the controller with a modify of key `10, 0, 0, 1`, an add of key
`10, 0, 0, 3` and a delete staged, a second add of key `10, 0, 0, 3` finds the
element of `pending_add`. -/
theorem entry_add_staged_key_witness :
    example_entry 3 1 ∈ (table0 example_staged).pending_add ∧
    ∃ n, table_entry_duplicate example_staged.actions (table0 example_staged)
        (some (example_entry 3 9)) true true true = some n ∧
      table_entry_keycmp (table0 example_staged).params (example_entry 3 9) n = 0 ∧
      (example_entry 3 1 ∈ (table0 example_staged).pending_add →
        ∃ pre post, (table0 example_staged).pending_add = pre ++ example_entry 3 1 :: post ∧
        rte_swx_ctl_pipeline_table_entry_add example_staged (some "t0")
            (some (example_entry 3 9)) true =
          (0, { example_staged with tables := example_staged.tables.set 0 { table0 example_staged with pending_add := pre ++ n :: post } })) ∧
      (example_entry 3 1 ∈ (table0 example_staged).pending_modify1 →
        ∃ pre post,
          (table0 example_staged).pending_modify1 = pre ++ example_entry 3 1 :: post ∧
        rte_swx_ctl_pipeline_table_entry_add example_staged (some "t0")
            (some (example_entry 3 9)) true =
          (0, { example_staged with tables := example_staged.tables.set 0 { table0 example_staged with pending_modify1 := pre ++ n :: post } })) :=
  ⟨by decide,
    entry_add_staged_key example_staged "t0" 0 (table0 example_staged)
      (example_entry 3 9) (example_entry 3 1) (by decide) (by decide)
      (by unfold staging_inv; decide) (by decide) (by decide) (by decide)⟩

/-- Claim C15.  Let `t` be the table that `table_find` returns for a non-empty
name, in a state where `t` has the staging invariants (as in every reachable
state), and let `e` pass `table_entry_check` with the key check.  Then
`rte_swx_ctl_pipeline_table_entry_delete` returns `0`; if `e` is equal under
`table_entry_keycmp` to an element `x` of `entries`, the new state differs from
the old one only in that `x` is unlinked from `entries` and appended at the tail
of `pending_delete`; and if `e` is equal under `table_entry_keycmp` to no
element of `entries`, `pending_add` and `pending_modify1` (whether or not it is
equal to one of `pending_delete`), the new state is the old one. -/
theorem entry_delete_spec (ctl : rte_swx_ctl_pipeline) (name : String) (i : Nat)
    (t : table) (e : rte_swx_table_entry) (hname : name ≠ "")
    (hfind : table_find ctl name = some (i, t)) (hinv : staging_inv t)
    (hcheck : table_entry_check ctl.actions t (some e) true false = 0) :
    (rte_swx_ctl_pipeline_table_entry_delete ctl (some name) (some e)).1 = 0 ∧
    (∀ x ∈ t.entries, table_entry_keycmp t.params e x = 0 →
      ∃ pre post, t.entries = pre ++ x :: post ∧
        rte_swx_ctl_pipeline_table_entry_delete ctl (some name) (some e) =
          (0, { ctl with tables := ctl.tables.set i { t with entries := pre ++ post, pending_delete := t.pending_delete ++ [x] } })) ∧
    ((∀ z ∈ t.entries, table_entry_keycmp t.params e z ≠ 0) →
      (∀ z ∈ t.pending_add, table_entry_keycmp t.params e z ≠ 0) →
      (∀ z ∈ t.pending_modify1, table_entry_keycmp t.params e z ≠ 0) →
      rte_swx_ctl_pipeline_table_entry_delete ctl (some name) (some e) = (0, ctl)) := by
  have hdel := entry_delete_eq ctl name i t e hname hfind hcheck
  obtain ⟨ndE, -, -, -⟩ := staging_inv_nodup t hinv
  refine ⟨?_, ?_, ?_⟩
  · rw [hdel]
    exact (entry_delete_lists_inv t e hinv).1
  · intro x hx hk
    have hkc : key_class t.params x = key_class t.params e :=
      ((keycmp_eq_zero_iff _ _ _).mp hk).symm
    have h0 : table_entries_find t e = some x := find_key_of_mem ndE hx hkc
    obtain ⟨pre, post, hl, -, -, her, -⟩ := find_key_split h0
    refine ⟨pre, post, hl, ?_⟩
    rw [hdel, entry_delete_lists_in_entries t e x h0, her]
  · intro hE hA hM
    rw [hdel, entry_delete_lists_absent t e (find_none_of_keycmp hE) (find_none_of_keycmp hA)
      (find_none_of_keycmp hM)]
    dsimp only
    rw [set_same_of_getElem? (table_find_spec ctl name i t hfind).1]

/-- On the controller with the keys `10, 0, 0, 1` and `10, 0, 0, 2` installed, a
delete of key `10, 0, 0, 2` finds the installed entry. -/
theorem entry_delete_spec_witness :
    example_entry 2 1 ∈ (table0 example_installed).entries ∧
    (rte_swx_ctl_pipeline_table_entry_delete example_installed (some "t0")
      (some (example_entry 2 0))).1 = 0 ∧
    (∀ x ∈ (table0 example_installed).entries,
      table_entry_keycmp (table0 example_installed).params (example_entry 2 0) x = 0 →
      ∃ pre post, (table0 example_installed).entries = pre ++ x :: post ∧
        rte_swx_ctl_pipeline_table_entry_delete example_installed (some "t0")
            (some (example_entry 2 0)) =
          (0, { example_installed with tables := example_installed.tables.set 0 { table0 example_installed with
              entries := pre ++ post,
              pending_delete := (table0 example_installed).pending_delete ++ [x] } })) ∧
    ((∀ z ∈ (table0 example_installed).entries,
        table_entry_keycmp (table0 example_installed).params (example_entry 2 0) z ≠ 0) →
      (∀ z ∈ (table0 example_installed).pending_add,
        table_entry_keycmp (table0 example_installed).params (example_entry 2 0) z ≠ 0) →
      (∀ z ∈ (table0 example_installed).pending_modify1,
        table_entry_keycmp (table0 example_installed).params (example_entry 2 0) z ≠ 0) →
      rte_swx_ctl_pipeline_table_entry_delete example_installed (some "t0")
        (some (example_entry 2 0)) = (0, example_installed)) :=
  ⟨by decide,
    entry_delete_spec example_installed "t0" 0 (table0 example_installed)
      (example_entry 2 0) (by decide) (by decide) (by unfold staging_inv; decide)
      (by decide)⟩

/-- Claim C17.  In every state reached from a controller whose tables are empty
by any sequence of entry adds, entry deletes, default-entry adds, commits and
aborts, let `t` be the table that `table_find` returns for a non-empty name and
let `e` pass `table_entry_check` with the key check and be equal under
`table_entry_keycmp` to an element `y` of `pending_modify1`.  Then
`pending_modify0` has, at the position of `y` in `pending_modify1`, an element
`x` that is equal to `e` under `table_entry_keycmp`, and
`rte_swx_ctl_pipeline_table_entry_delete` returns `0` (not `-EINVAL`), unlinks
`y` from `pending_modify1`, unlinks `x` from `pending_modify0` and appends `x`
to `pending_delete`; nothing else changes. -/
theorem entry_delete_modified_key (ctl0 : rte_swx_ctl_pipeline) (ops : List ctl_op)
    (hempty : tables_empty ctl0) (name : String) (i : Nat) (t : table)
    (e y : rte_swx_table_entry) (hname : name ≠ "")
    (hfind : table_find (ctl_run ctl0 ops) name = some (i, t))
    (hcheck : table_entry_check (ctl_run ctl0 ops).actions t (some e) true false = 0)
    (hy : y ∈ t.pending_modify1) (hk : table_entry_keycmp t.params e y = 0) :
    ∃ pre post pre0 post0 x,
      t.pending_modify1 = pre ++ y :: post ∧ t.pending_modify0 = pre0 ++ x :: post0 ∧
      pre0.length = pre.length ∧ table_entry_keycmp t.params e x = 0 ∧
      rte_swx_ctl_pipeline_table_entry_delete (ctl_run ctl0 ops) (some name) (some e) =
        (0, { ctl_run ctl0 ops with tables := (ctl_run ctl0 ops).tables.set i { t with
            pending_modify1 := pre ++ post,
            pending_modify0 := pre0 ++ post0,
            pending_delete := t.pending_delete ++ [x] } }) := by
  have hinv : staging_inv t :=
    reachable_staging_inv ctl0 ops hempty t (table_find_mem _ name i t hfind)
  have hdel := entry_delete_eq (ctl_run ctl0 ops) name i t e hname hfind hcheck
  have hkc : key_class t.params y = key_class t.params e :=
    ((keycmp_eq_zero_iff _ _ _).mp hk).symm
  obtain ⟨-, -, ndM, -⟩ := staging_inv_nodup t hinv
  have hdis := staging_inv_disjoint t hinv (key_class t.params e)
  have hmem : key_class t.params e ∈ t.pending_modify1.map (key_class t.params) :=
    List.mem_map.mpr ⟨y, hy, hkc⟩
  have h0 : table_entries_find t e = none :=
    find_key_none.mpr (fun hE => (hdis.1 hE).2.1 hmem)
  have h1 : table_pending_add_find t e = none :=
    find_key_none.mpr (fun hA => (hdis.2.1 hA).1 hmem)
  have h2 : table_pending_modify1_find t e = some y := find_key_of_mem ndM hy hkc
  obtain ⟨pre, post, pre0, post0, x, hl1, hl0, hpre0, -, hkx, her1, hf0, her0⟩ :=
    pending_modify0_partner hinv.2 h2
  refine ⟨pre, post, pre0, post0, x, hl1, hl0, ?_, (keycmp_eq_zero_iff _ _ _).mpr hkx.symm, ?_⟩
  · have := congrArg List.length hpre0
    simpa using this
  · rw [hdel, entry_delete_lists_in_pending_modify1 t e y x h0 h1 h2 hf0, her1, her0]

/-- On the controller reached by installing two keys and then staging a modify of
key `10, 0, 0, 1`, a delete of key `10, 0, 0, 1` finds the element of
`pending_modify1`. -/
theorem entry_delete_modified_key_witness :
    example_entry 1 5 ∈ (table0 (ctl_run example_ctl
      (example_install_ops ++ example_stage_ops))).pending_modify1 ∧
    ∃ pre post pre0 post0 x,
      (table0 (ctl_run example_ctl (example_install_ops ++ example_stage_ops))).pending_modify1
        = pre ++ example_entry 1 5 :: post ∧
      (table0 (ctl_run example_ctl (example_install_ops ++ example_stage_ops))).pending_modify0
        = pre0 ++ x :: post0 ∧
      pre0.length = pre.length ∧
      table_entry_keycmp
        (table0 (ctl_run example_ctl (example_install_ops ++ example_stage_ops))).params
        (example_entry 1 0) x = 0 ∧
      rte_swx_ctl_pipeline_table_entry_delete
          (ctl_run example_ctl (example_install_ops ++ example_stage_ops)) (some "t0")
          (some (example_entry 1 0)) =
        (0, { ctl_run example_ctl (example_install_ops ++ example_stage_ops) with
          tables := (ctl_run example_ctl (example_install_ops ++ example_stage_ops)).tables.set 0 { table0 (ctl_run example_ctl (example_install_ops ++ example_stage_ops)) with
              pending_modify1 := pre ++ post,
              pending_modify0 := pre0 ++ post0,
              pending_delete :=
                (table0 (ctl_run example_ctl
                  (example_install_ops ++ example_stage_ops))).pending_delete ++ [x] } }) :=
  ⟨by decide,
    entry_delete_modified_key example_ctl (example_install_ops ++ example_stage_ops)
      (by unfold tables_empty; decide) "t0" 0
      (table0 (ctl_run example_ctl (example_install_ops ++ example_stage_ops)))
      (example_entry 1 0) (example_entry 1 5) (by decide) (by decide) (by decide) (by decide)
      (by decide)⟩

/-! ## The calls a commit makes for a table -/

theorem log_extends_refl (table_id : Nat) (log : List event) : log_extends table_id log log :=
  fun _ hev => Or.inl hev

theorem log_extends_trans {table_id : Nat} {l₁ l₂ l₃ : List event}
    (h₁ : log_extends table_id l₁ l₂) (h₂ : log_extends table_id l₂ l₃) :
    log_extends table_id l₁ l₃ := by
  intro ev hev
  rcases h₂ ev hev with h | h
  · exact h₁ ev h
  · exact Or.inr h

theorem log_extends_snoc (table_id : Nat) (log : List event) (ev : event)
    (h : event_table_id ev = some table_id) : log_extends table_id log (log ++ [ev]) := by
  intro ev' hev'
  rcases List.mem_append.mp hev' with h' | h'
  · exact Or.inl h'
  · rw [List.mem_singleton] at h'
    rw [h']
    exact Or.inr h

theorem apply_calls_log (b : backend) (is_add : Bool) (table_id : Nat) (obj : Option Nat)
    (l : List rte_swx_table_entry) (log : List event) (n : Nat) :
    log_extends table_id log (apply_calls b is_add table_id obj l log n).2.1 := by
  induction l generalizing log n with
  | nil => exact log_extends_refl _ _
  | cons entry rest ih =>
    unfold apply_calls
    dsimp only
    split_ifs
    all_goals first
      | exact log_extends_snoc _ _ _ rfl
      | (refine log_extends_trans ?_ (ih _ _); exact log_extends_snoc _ _ _ rfl)

theorem undo_calls_log (b : backend) (is_add : Bool) (table_id : Nat) (obj : Option Nat)
    (l : List rte_swx_table_entry) (log : List event) (n : Nat) :
    log_extends table_id log (undo_calls b is_add table_id obj l log n).1 := by
  induction l generalizing log n with
  | nil => exact log_extends_refl _ _
  | cons entry rest ih =>
    unfold undo_calls
    dsimp only
    split_ifs
    all_goals first
      | exact log_extends_refl _ _
      | (refine log_extends_trans ?_ (ih _ _); exact log_extends_snoc _ _ _ rfl)

theorem table_rollfwd0_log (b : backend) (ctl_actions : List action) (table_id : Nat)
    (t : table) (ts ts_next : rte_swx_table_state) (after_swap : Bool) (log : List event) :
    log_extends table_id log
      (table_rollfwd0 b ctl_actions table_id t ts ts_next after_swap log).2.2.2 := by
  unfold table_rollfwd0
  dsimp only
  split_ifs
  · exact log_extends_refl _ _
  · exact apply_calls_log _ _ _ _ _ _ _
  · exact log_extends_trans (apply_calls_log _ _ _ _ _ _ _) (apply_calls_log _ _ _ _ _ _ _)
  · exact log_extends_trans (log_extends_trans (apply_calls_log _ _ _ _ _ _ _)
      (apply_calls_log _ _ _ _ _ _ _)) (apply_calls_log _ _ _ _ _ _ _)
  all_goals first
    | exact log_extends_refl _ _
    | exact log_extends_snoc _ _ _ rfl
    | (split <;> exact log_extends_snoc _ _ _ rfl)

theorem table_rollback_log (b : backend) (table_id : Nat)
    (t : table) (ts ts_next : rte_swx_table_state) (log : List event) :
    log_extends table_id log (table_rollback b table_id t ts ts_next log).2.2 := by
  unfold table_rollback
  dsimp only
  split_ifs
  · exact log_extends_refl _ _
  · exact log_extends_trans (log_extends_trans (undo_calls_log _ _ _ _ _ _ _)
      (undo_calls_log _ _ _ _ _ _ _)) (undo_calls_log _ _ _ _ _ _ _)
  all_goals first
    | exact log_extends_refl _ _
    | exact log_extends_snoc _ _ _ rfl

theorem table_is_update_pending_nothing_staged (t : table) (h : nothing_staged t) :
    table_is_update_pending t false = 0 := by
  obtain ⟨ha, -, h1, hd⟩ := h
  unfold table_is_update_pending
  rw [ha, h1, hd]
  simp

theorem table_rollfwd0_nothing_staged (b : backend) (ctl_actions : List action)
    (table_id : Nat) (t : table) (ts ts_next : rte_swx_table_state) (after_swap : Bool)
    (log : List event) (h : nothing_staged t) :
    table_rollfwd0 b ctl_actions table_id t ts ts_next after_swap log = (0, t, ts_next, log) := by
  unfold table_rollfwd0
  rw [if_pos (Or.inr (table_is_update_pending_nothing_staged t h))]

theorem table_rollback_nothing_staged (b : backend) (table_id : Nat) (t : table)
    (ts ts_next : rte_swx_table_state) (log : List event) (h : nothing_staged t) :
    table_rollback b table_id t ts ts_next log = (t, ts_next, log) := by
  unfold table_rollback
  rw [if_pos (Or.inr (table_is_update_pending_nothing_staged t h))]

theorem table_rollfwd2_nothing_staged (t : table) (h : nothing_staged t) :
    nothing_staged (table_rollfwd2 t) ∧ (table_rollfwd2 t).entries = t.entries := by
  obtain ⟨ha, -, h1, -⟩ := h
  unfold table_rollfwd2 nothing_staged
  dsimp only
  rw [ha, h1]
  simp

theorem table_abort_nothing_staged (t : table) (h : nothing_staged t) :
    nothing_staged (table_abort t) ∧ (table_abort t).entries = t.entries := by
  obtain ⟨-, h0, -, hd⟩ := h
  unfold table_abort nothing_staged
  dsimp only
  rw [h0, hd]
  simp

theorem log_extends_ne {i j : Nat} {log log' : List event} (hij : j ≠ i)
    (hext : log_extends j log log') (h : ∀ ev ∈ log, event_table_id ev ≠ some i) :
    ∀ ev ∈ log', event_table_id ev ≠ some i := by
  intro ev hev
  rcases hext ev hev with h' | h'
  · exact h ev h'
  · rw [h']
    intro hc
    exact hij (Option.some.inj hc)

theorem rollfwd0_at_idle (b : backend) (after_swap : Bool) (i : Nat)
    (E : List rte_swx_table_entry) (s : commit_state) (j : Nat) (h : table_idle i E s) :
    table_idle i E (rollfwd0_at b after_swap s j).2 := by
  obtain ⟨⟨t, ht, hns, hE⟩, hlog⟩ := h
  unfold rollfwd0_at
  split
  · rename_i u ts ts_next hu _ _
    by_cases hij : j = i
    · subst hij
      rw [ht] at hu
      cases hu
      rw [table_rollfwd0_nothing_staged b _ _ _ _ _ _ _ hns]
      dsimp only
      rw [set_same_of_getElem? ht]
      exact ⟨⟨t, ht, hns, hE⟩, hlog⟩
    · dsimp only
      refine ⟨⟨t, ?_, hns, hE⟩, log_extends_ne hij (table_rollfwd0_log _ _ _ _ _ _ _ _) hlog⟩
      rw [List.getElem?_set_ne hij]
      exact ht
  · exact ⟨⟨t, ht, hns, hE⟩, hlog⟩

theorem rollfwd1_at_idle (i : Nat) (E : List rte_swx_table_entry) (s : commit_state) (j : Nat)
    (h : table_idle i E s) : table_idle i E (rollfwd1_at s j) := by
  unfold table_idle
  rw [(rollfwd1_at_tables s j).1, (rollfwd1_at_tables s j).2]
  exact h

theorem rollfwd2_at_idle (i : Nat) (E : List rte_swx_table_entry) (s : commit_state) (j : Nat)
    (h : table_idle i E s) : table_idle i E (rollfwd2_at s j) := by
  obtain ⟨⟨t, ht, hns, hE⟩, hlog⟩ := h
  unfold rollfwd2_at
  split
  · rename_i u hu
    by_cases hij : j = i
    · subst hij
      rw [ht] at hu
      cases hu
      obtain ⟨hns', hE'⟩ := table_rollfwd2_nothing_staged t hns
      refine ⟨⟨table_rollfwd2 t, ?_, hns', hE'.trans hE⟩, hlog⟩
      dsimp only
      rw [List.getElem?_set_self (List.getElem?_eq_some_iff.mp ht).1]
    · refine ⟨⟨t, ?_, hns, hE⟩, hlog⟩
      dsimp only
      rw [List.getElem?_set_ne hij]
      exact ht
  · exact ⟨⟨t, ht, hns, hE⟩, hlog⟩

theorem rollback_at_idle (b : backend) (i : Nat) (E : List rte_swx_table_entry)
    (s : commit_state) (j : Nat) (h : table_idle i E s) :
    table_idle i E (rollback_at b s j) := by
  obtain ⟨⟨t, ht, hns, hE⟩, hlog⟩ := h
  unfold rollback_at
  split
  · rename_i u ts ts_next hu _ _
    by_cases hij : j = i
    · subst hij
      rw [ht] at hu
      cases hu
      rw [table_rollback_nothing_staged b _ _ _ _ _ hns]
      dsimp only
      rw [set_same_of_getElem? ht]
      exact ⟨⟨t, ht, hns, hE⟩, hlog⟩
    · dsimp only
      refine ⟨⟨t, ?_, hns, hE⟩, log_extends_ne hij (table_rollback_log _ _ _ _ _ _) hlog⟩
      rw [List.getElem?_set_ne hij]
      exact ht
  · exact ⟨⟨t, ht, hns, hE⟩, hlog⟩

theorem abort_at_idle (i : Nat) (E : List rte_swx_table_entry) (s : commit_state) (j : Nat)
    (h : table_idle i E s) : table_idle i E (abort_at s j) := by
  obtain ⟨⟨t, ht, hns, hE⟩, hlog⟩ := h
  unfold abort_at
  split
  · rename_i u hu
    by_cases hij : j = i
    · subst hij
      rw [ht] at hu
      cases hu
      obtain ⟨hns', hE'⟩ := table_abort_nothing_staged t hns
      refine ⟨⟨table_abort t, ?_, hns', hE'.trans hE⟩, hlog⟩
      dsimp only
      rw [List.getElem?_set_self (List.getElem?_eq_some_iff.mp ht).1]
    · refine ⟨⟨t, ?_, hns, hE⟩, hlog⟩
      dsimp only
      rw [List.getElem?_set_ne hij]
      exact ht
  · exact ⟨⟨t, ht, hns, hE⟩, hlog⟩

theorem commit_stage0_idle (b : backend) (i : Nat) (E : List rte_swx_table_entry)
    (l : List Nat) (s : commit_state) (h : table_idle i E s) :
    table_idle i E (commit_stage0 b l s).2 := by
  induction l generalizing s with
  | nil => exact h
  | cons j rest ih =>
    unfold commit_stage0
    dsimp only
    split_ifs
    · exact rollfwd0_at_idle b false i E s j h
    · exact ih _ (rollfwd0_at_idle b false i E s j h)

theorem commit_idle (b : backend) (ctl : rte_swx_ctl_pipeline) (abort_on_fail : Bool)
    (i : Nat) (t : table) (ht : ctl.tables[i]? = some t) (hns : nothing_staged t) :
    (∀ ev ∈ (rte_swx_ctl_pipeline_commit b ctl abort_on_fail).2.2,
      event_table_id ev ≠ some i) ∧
    ∃ u, (rte_swx_ctl_pipeline_commit b ctl abort_on_fail).2.1.tables[i]? = some u ∧
      nothing_staged u ∧ u.entries = t.entries := by
  have hs : table_idle i t.entries { ctl := ctl, log := [] } :=
    ⟨⟨t, ht, hns, rfl⟩, fun ev hev => absurd hev (List.not_mem_nil ev)⟩
  have h0 := commit_stage0_idle b i t.entries (List.range ctl.tables.length) _ hs
  have key : table_idle i t.entries
      { ctl := (rte_swx_ctl_pipeline_commit b ctl abort_on_fail).2.1,
        log := (rte_swx_ctl_pipeline_commit b ctl abort_on_fail).2.2 } := by
    unfold rte_swx_ctl_pipeline_commit
    dsimp only
    split_ifs
    · refine foldl_preserves (table_idle i t.entries) _ ?_ _ _ h0
      intro s j hs
      unfold commit_rollback
      split_ifs
      · exact abort_at_idle i _ _ j (rollback_at_idle b i _ s j hs)
      · exact rollback_at_idle b i _ s j hs
    · refine foldl_preserves (table_idle i t.entries) _ ?_ _ _ ?_
      · intro s j hs
        unfold commit_after_swap
        exact rollfwd2_at_idle i _ _ j (rollfwd1_at_idle i _ _ j (rollfwd0_at_idle b true i _ s j hs))
      · have h1 := foldl_preserves (table_idle i t.entries) rollfwd1_at
          (fun s j hs => rollfwd1_at_idle i _ s j hs) (List.range ctl.tables.length) _ h0
        obtain ⟨htab, hlog⟩ := h1
        refine ⟨htab, ?_⟩
        intro ev hev
        dsimp only at hev
        rcases List.mem_append.mp hev with h' | h'
        · exact hlog ev h'
        · rw [List.mem_singleton] at h'
          rw [h']
          intro hc
          cases hc
  obtain ⟨⟨u, hu, hnsu, hEu⟩, hlog⟩ := key
  exact ⟨hlog, u, hu, hnsu, hEu⟩

theorem table_find_from_set (k : Nat) (l : List table) (name : String) (i : Nat) (t u : table)
    (h : table_find_from k l name = some (i, t)) (hu : u.info_name = t.info_name) :
    table_find_from k (l.set (i - k) u) name = some (i, u) := by
  induction l generalizing k with
  | nil => simp [table_find_from] at h
  | cons v rest ih =>
    have hspec := table_find_from_spec k (v :: rest) name i t h
    unfold table_find_from at h
    split_ifs at h with hn
    · simp only [Option.some.injEq, Prod.mk.injEq] at h
      obtain ⟨rfl, rfl⟩ := h
      rw [Nat.sub_self, List.set_cons_zero]
      unfold table_find_from
      rw [if_pos (hn.trans hu.symm)]
    · have hk := (table_find_from_spec (k + 1) rest name i t h).1
      have hik : i - k = (i - (k + 1)) + 1 := by omega
      rw [hik, List.set_cons_succ]
      unfold table_find_from
      rw [if_neg hn]
      exact ih (k + 1) h

theorem table_find_set (ctl : rte_swx_ctl_pipeline) (name : String) (i : Nat) (t u : table)
    (h : table_find ctl name = some (i, t)) (hu : u.info_name = t.info_name) :
    table_find { ctl with tables := ctl.tables.set i u } name = some (i, u) := by
  have := table_find_from_set 0 ctl.tables name i t u h hu
  simpa [table_find] using this

/-- Claim C16 fails as stated.  The concrete controller with key `10, 0, 0, 2`
staged for add has the staging invariants and key `10, 0, 0, 1` in none of its
lists; an add followed by a delete of key `10, 0, 0, 1` yields that state again,
but the commit that follows calls the backend `add` for the table (for key
`10, 0, 0, 2`) and changes `entries` from empty to one entry. -/
theorem add_delete_commit_with_other_staged :
    tables_empty example_ctl ∧
    (∀ t ∈ (ctl_run example_ctl
        [.entry_add (some "t0") (some (example_entry 2 1)) true]).tables,
      staging_inv t ∧
      ∀ z ∈ t.entries ++ t.pending_add ++ t.pending_modify0 ++ t.pending_modify1
          ++ t.pending_delete,
        table_entry_keycmp t.params (example_entry 1 1) z ≠ 0) ∧
    ctl_run (ctl_run example_ctl [.entry_add (some "t0") (some (example_entry 2 1)) true])
        [.entry_add (some "t0") (some (example_entry 1 1)) true,
         .entry_delete (some "t0") (some (example_entry 1 1))] =
      ctl_run example_ctl [.entry_add (some "t0") (some (example_entry 2 1)) true] ∧
    (rte_swx_ctl_pipeline_commit example_backend
      (ctl_run example_ctl
        [.entry_add (some "t0") (some (example_entry 2 1)) true,
         .entry_add (some "t0") (some (example_entry 1 1)) true,
         .entry_delete (some "t0") (some (example_entry 1 1))]) false).2.2 =
      [event.add 0 (some 2) (example_entry 2 1) 0,
       event.table_state_set
         [{ obj := some 2, default_action_data := [0, 0], default_action_id := 0 }],
       event.add 0 (some 1) (example_entry 2 1) 0] ∧
    (table0 (ctl_run example_ctl
        [.entry_add (some "t0") (some (example_entry 2 1)) true,
         .entry_add (some "t0") (some (example_entry 1 1)) true,
         .entry_delete (some "t0") (some (example_entry 1 1))])).entries = [] ∧
    (table0 (rte_swx_ctl_pipeline_commit example_backend
      (ctl_run example_ctl
        [.entry_add (some "t0") (some (example_entry 2 1)) true,
         .entry_add (some "t0") (some (example_entry 1 1)) true,
         .entry_delete (some "t0") (some (example_entry 1 1))]) false).2.1).entries =
      [example_entry 2 1] := by
  refine ⟨by unfold tables_empty; decide, ?_, by decide, by decide, by decide, by decide⟩
  unfold staging_inv
  decide

/-- Claim C16, amended.  Let `t` be the table that `table_find` returns for a
non-empty name, and let `e` pass `table_entry_check` with the key and data
checks and be equal under `table_entry_keycmp` to no element of `entries`,
`pending_add`, `pending_modify1` and `pending_delete` of `t`.  Then, with its
allocations succeeding, `rte_swx_ctl_pipeline_table_entry_add` returns `0` and
appends the duplicate of `e` to `pending_add`, and
`rte_swx_ctl_pipeline_table_entry_delete` with `e` on the state so reached
returns `0` and yields the original state.  If moreover `t` has nothing staged,
a commit from that state, with any backend and either value of `abort_on_fail`,
makes no backend call for table `t` and leaves its `entries` unchanged. -/
theorem entry_add_then_delete_cancels (ctl : rte_swx_ctl_pipeline) (name : String) (i : Nat)
    (t : table) (e : rte_swx_table_entry) (hname : name ≠ "")
    (hfind : table_find ctl name = some (i, t))
    (hcheck : table_entry_check ctl.actions t (some e) true true = 0)
    (hE : ∀ z ∈ t.entries, table_entry_keycmp t.params e z ≠ 0)
    (hA : ∀ z ∈ t.pending_add, table_entry_keycmp t.params e z ≠ 0)
    (hM : ∀ z ∈ t.pending_modify1, table_entry_keycmp t.params e z ≠ 0)
    (hD : ∀ z ∈ t.pending_delete, table_entry_keycmp t.params e z ≠ 0) :
    ∃ n, table_entry_duplicate ctl.actions t (some e) true true true = some n ∧
      rte_swx_ctl_pipeline_table_entry_add ctl (some name) (some e) true =
        (0, { ctl with tables := ctl.tables.set i { t with pending_add := t.pending_add ++ [n] } }) ∧
      rte_swx_ctl_pipeline_table_entry_delete
        (rte_swx_ctl_pipeline_table_entry_add ctl (some name) (some e) true).2
        (some name) (some e) = (0, ctl) ∧
      (nothing_staged t → ∀ (b : backend) (abort_on_fail : Bool),
        (∀ ev ∈ (rte_swx_ctl_pipeline_commit b ctl abort_on_fail).2.2,
          event_table_id ev ≠ some i) ∧
        ∃ u, (rte_swx_ctl_pipeline_commit b ctl abort_on_fail).2.1.tables[i]? = some u ∧
          u.entries = t.entries) := by
  obtain ⟨n, hn⟩ := duplicate_succeeds ctl.actions t e hcheck
  have hadd := entry_add_eq ctl name i t e n true hname hfind hcheck hn
  rw [entry_add_lists_absent t e n (find_none_of_keycmp hE) (find_none_of_keycmp hA)
    (find_none_of_keycmp hM) (find_none_of_keycmp hD)] at hadd
  have hget := (table_find_spec ctl name i t hfind).1
  have hkn : key_equal t.params e n = true :=
    (key_equal_iff _ _ _).mpr (duplicate_key_class ctl.actions t e n true true hcheck hn).symm
  have hpre : ∀ y ∈ t.pending_add, key_equal t.params e y = false := by
    intro y hy
    rw [key_equal_false_iff]
    intro hk
    exact hA y hy ((keycmp_eq_zero_iff _ _ _).mpr hk)
  have hfs := find_of_split t.pending_add [] hkn hpre
  have hfind1 := table_find_set ctl name i t { t with pending_add := t.pending_add ++ [n] }
    hfind rfl
  have hcheck1 : table_entry_check ctl.actions { t with pending_add := t.pending_add ++ [n] }
      (some e) true false = 0 := check_key_only ctl.actions t e hcheck
  have hdel := entry_delete_eq { ctl with tables := ctl.tables.set i { t with pending_add := t.pending_add ++ [n] } } name i
    { t with pending_add := t.pending_add ++ [n] } e hname hfind1 hcheck1
  have hlists := entry_delete_lists_in_pending_add
    { t with pending_add := t.pending_add ++ [n] } e n
    (find_none_of_keycmp hE) hfs.1 (find_none_of_keycmp hM)
  refine ⟨n, hn, hadd, ?_, ?_⟩
  · rw [hadd]
    dsimp only
    rw [hdel, hlists]
    dsimp only
    have her : (t.pending_add ++ [n]).eraseP (key_equal t.params e) = t.pending_add := by
      rw [hfs.2, List.append_nil]
    rw [her, List.set_set, set_same_of_getElem? hget]
  · intro hns b abort_on_fail
    obtain ⟨hlog, u, hu, -, hEu⟩ := commit_idle b ctl abort_on_fail i t hget hns
    exact ⟨hlog, u, hu, hEu⟩

/-- On the concrete controller with its table empty, an add of key `10, 0, 0, 1`
followed by its delete. -/
theorem entry_add_then_delete_cancels_witness :
    nothing_staged (table0 example_ctl) ∧
    ∃ n, table_entry_duplicate example_ctl.actions (table0 example_ctl)
        (some (example_entry 1 1)) true true true = some n ∧
      rte_swx_ctl_pipeline_table_entry_add example_ctl (some "t0")
          (some (example_entry 1 1)) true =
        (0, { example_ctl with tables := example_ctl.tables.set 0 { table0 example_ctl with
            pending_add := (table0 example_ctl).pending_add ++ [n] } }) ∧
      rte_swx_ctl_pipeline_table_entry_delete
        (rte_swx_ctl_pipeline_table_entry_add example_ctl (some "t0")
          (some (example_entry 1 1)) true).2
        (some "t0") (some (example_entry 1 1)) = (0, example_ctl) ∧
      (nothing_staged (table0 example_ctl) → ∀ (b : backend) (abort_on_fail : Bool),
        (∀ ev ∈ (rte_swx_ctl_pipeline_commit b example_ctl abort_on_fail).2.2,
          event_table_id ev ≠ some 0) ∧
        ∃ u, (rte_swx_ctl_pipeline_commit b example_ctl abort_on_fail).2.1.tables[0]? = some u ∧
          u.entries = (table0 example_ctl).entries) :=
  ⟨by unfold nothing_staged; decide,
    entry_add_then_delete_cancels example_ctl "t0" 0 (table0 example_ctl) (example_entry 1 1)
      (by decide) (by decide) (by decide) (by decide) (by decide) (by decide) (by decide)⟩

/-- The table with an exact-match field of 32 bits at bit 64 and a longest-prefix
field of 16 bits at bit 96: the type is `LPM`, the key starts at byte 8, has 6
bytes, and its mask is six bytes `0xFF`. -/
theorem table_params_get_spec_witness :
    (table_params_get example_ctl.actions example_lpm_table true).2.params =
      { mtype := match_type.LPM, key_size := 6, key_offset := 8,
        key_mask0 := some [255, 255, 255, 255, 255, 255],
        action_data_size := 2, n_keys_max := 1024 } ∧
    (table_params_get example_ctl.actions example_lpm_table true).1 = 0 ∧
    (table_params_get example_ctl.actions example_lpm_table true).2.params.mtype =
      (if ∀ f ∈ example_lpm_table.mf, f.mtype = match_type.EXACT then match_type.EXACT
        else if (∀ f ∈ example_lpm_table.mf.dropLast, f.mtype = match_type.EXACT) ∧
            match_type.LPM = match_type.LPM
          then match_type.LPM
        else match_type.WILDCARD) ∧
    (table_params_get example_ctl.actions example_lpm_table true).2.params.key_offset = 64 / 8 ∧
    (table_params_get example_ctl.actions example_lpm_table true).2.params.key_size =
      usub32 (uadd32 96 16) 64 / 8 ∧
    (64 ≤ 96 + 16 → 96 + 16 < U32 →
      (table_params_get example_ctl.actions example_lpm_table true).2.params.key_size =
        (96 + 16 - 64) / 8) ∧
    (∃ m, (table_params_get example_ctl.actions example_lpm_table true).2.params.key_mask0
        = some m ∧
      m.length = (table_params_get example_ctl.actions example_lpm_table true).2.params.key_size ∧
      ∀ j, j < (table_params_get example_ctl.actions example_lpm_table true).2.params.key_size →
        m[j]? = some (if ∃ f ∈ example_lpm_table.mf,
          field_covers { mtype := match_type.EXACT, is_header := true, n_bits := 32, offset := 64 } f j
          then 0xFF else 0)) ∧
    (∀ f ∈ example_lpm_table.mf, ∀ j, 64 ≤ f.offset → f.offset < U32 →
      8 ∣ f.offset - 64 → 8 ∣ f.n_bits →
      (field_covers { mtype := match_type.EXACT, is_header := true, n_bits := 32, offset := 64 } f j ↔
        (f.offset ≤ 64 + 8 * j ∧ 64 + 8 * j + 8 ≤ f.offset + f.n_bits))) :=
  ⟨by decide,
    table_params_get_spec example_ctl.actions example_lpm_table
      { mtype := match_type.EXACT, is_header := true, n_bits := 32, offset := 64 }
      { mtype := match_type.LPM, is_header := true, n_bits := 16, offset := 96 } (by decide) (by decide)⟩

/-! ## Validation of entries -/

theorem table_find_none_iff (ctl : rte_swx_ctl_pipeline) (name : String) :
    table_find ctl name = none ↔ ∀ t ∈ ctl.tables, t.info_name ≠ name := by
  unfold table_find
  generalize (0 : Nat) = k
  induction ctl.tables generalizing k with
  | nil => simp [table_find_from]
  | cons u rest ih =>
    unfold table_find_from
    split_ifs with hn
    · simp [hn]
    · rw [ih (k + 1)]
      simp only [List.mem_cons, forall_eq_or_imp]
      exact ⟨fun h => ⟨fun hc => hn hc.symm, h⟩, fun h => h.2⟩

/-- Claim C21.  Let `t` be the table that `table_find` returns for a non-empty
name.  If `default_action_is_const` is set for `t`,
`rte_swx_ctl_pipeline_table_default_entry_add` returns `-EINVAL` and the
controller is unchanged, whatever the entry.  Otherwise, for an entry whose
`action_id` is one of the table's actions and whose `action_data` is present
exactly when the action's `data_size` is not zero, with its allocations
succeeding it returns `0`, and the new state is the old one with
`pending_default` of `t` replaced (whatever it was) by a duplicate of the entry
that has no key and no key mask, the `action_id` of the entry and
`action_data_size` bytes of action data that start with the `data_size` bytes of
the entry; the five lists are unchanged. -/
theorem default_entry_add_spec (ctl : rte_swx_ctl_pipeline) (name : String) (i : Nat)
    (t : table) (hname : name ≠ "") (hfind : table_find ctl name = some (i, t)) :
    (t.info_default_action_is_const = true →
      ∀ entry ok, rte_swx_ctl_pipeline_table_default_entry_add ctl (some name) entry ok
        = (-EINVAL, ctl)) ∧
    (t.info_default_action_is_const = false →
      ∀ e : rte_swx_table_entry, e.action_id ∈ t.actions →
        (((action_at ctl.actions e.action_id).data_size ≠ 0 ∧ e.action_data.isSome) ∨
          ((action_at ctl.actions e.action_id).data_size = 0 ∧ e.action_data.isNone)) →
        rte_swx_ctl_pipeline_table_default_entry_add ctl (some name) (some e) true =
          (0, { ctl with tables := ctl.tables.set i { t with
            pending_default := some
              { key := none, key_mask := none, key_signature := 0, key_priority := 0,
                action_id := e.action_id,
                action_data := some (calloc_copy t.params.action_data_size
                  (action_at ctl.actions e.action_id).data_size
                  (e.action_data.getD [])) } } })) := by
  constructor
  · intro hconst entry ok
    unfold rte_swx_ctl_pipeline_table_default_entry_add
    simp only [hname, if_false, hfind, hconst, if_true]
  · intro hconst e hact hdata
    have hd : ¬ ((action_at ctl.actions e.action_id).data_size ≠ 0
        ∧ e.action_data.isNone) := by
      rintro ⟨h1, h2⟩
      rcases hdata with ⟨-, h3⟩ | ⟨h3, -⟩
      · cases hx : e.action_data with
        | none => rw [hx] at h3; cases h3
        | some d => rw [hx] at h2; cases h2
      · exact h1 h3
    have hcheck : table_entry_check ctl.actions t (some e) false true = 0 := by
      unfold table_entry_check
      simp only [Bool.false_eq_true, if_false, ne_eq, not_true_eq_false, if_true, hact,
        not_true_eq_false, hdata]
    have hdup : table_entry_duplicate ctl.actions t (some e) false true true =
        some { key := none, key_mask := none, key_signature := 0, key_priority := 0,
               action_id := e.action_id,
               action_data := some (calloc_copy t.params.action_data_size
                 (action_at ctl.actions e.action_id).data_size
                 (e.action_data.getD [])) } := by
      unfold table_entry_duplicate
      simp only [Bool.not_eq_true, Bool.true_eq_false, if_false, Bool.false_eq_true,
        false_and, if_true, hact, not_true_eq_false, if_neg hd]
    unfold rte_swx_ctl_pipeline_table_default_entry_add
    simp only [hname, if_false, hfind, hconst, Bool.false_eq_true, hcheck, ne_eq,
      not_true_eq_false, hdup]

/-- On the concrete controller, whose table `t0` has no constant default action,
a default entry with action 0 and two bytes of action data. -/
theorem default_entry_add_spec_witness :
    (rte_swx_ctl_pipeline_table_default_entry_add example_ctl (some "t0")
      (some (example_entry 1 7)) true).1 = 0 ∧
    (table0 example_ctl).info_default_action_is_const = false ∧
    ((table0 example_ctl).info_default_action_is_const = true →
      ∀ entry ok, rte_swx_ctl_pipeline_table_default_entry_add example_ctl (some "t0") entry ok
        = (-EINVAL, example_ctl)) ∧
    ((table0 example_ctl).info_default_action_is_const = false →
      ∀ e : rte_swx_table_entry, e.action_id ∈ (table0 example_ctl).actions →
        (((action_at example_ctl.actions e.action_id).data_size ≠ 0 ∧ e.action_data.isSome) ∨
          ((action_at example_ctl.actions e.action_id).data_size = 0 ∧ e.action_data.isNone)) →
        rte_swx_ctl_pipeline_table_default_entry_add example_ctl (some "t0") (some e) true =
          (0, { example_ctl with tables := example_ctl.tables.set 0 { table0 example_ctl with
            pending_default := some
              { key := none, key_mask := none, key_signature := 0, key_priority := 0,
                action_id := e.action_id,
                action_data := some (calloc_copy (table0 example_ctl).params.action_data_size
                  (action_at example_ctl.actions e.action_id).data_size
                  (e.action_data.getD [])) } } })) :=
  ⟨by decide, by decide,
    default_entry_add_spec example_ctl "t0" 0 (table0 example_ctl) (by decide) (by decide)⟩

theorem key_check_em_iff (t : table) (e : rte_swx_table_entry) :
    (table_entry_key_check_em t e = 0 ↔
      ∀ km, e.key_mask = some km → ∀ i, i < t.params.key_size →
        (km.getD i 0 &&& byte_at t.params.key_mask0 i 0) = byte_at t.params.key_mask0 i 0) ∧
    (table_entry_key_check_em t e = 0 ∨ table_entry_key_check_em t e = -EINVAL) := by
  unfold table_entry_key_check_em
  cases hm : e.key_mask with
  | none =>
    refine ⟨⟨fun _ km hkm => Option.noConfusion hkm, fun _ => rfl⟩, Or.inl rfl⟩
  | some km =>
    dsimp only
    split_ifs with h
    · simp only [List.all_eq_true, List.mem_range, decide_eq_true_eq] at h
      refine ⟨⟨fun _ km' hkm' i hi => ?_, fun _ => rfl⟩, Or.inl rfl⟩
      cases hkm'
      exact h i hi
    · simp only [List.all_eq_true, List.mem_range, decide_eq_true_eq] at h
      refine ⟨⟨fun hc => absurd hc neg_EINVAL_ne_zero, fun hall => ?_⟩, Or.inr rfl⟩
      exact absurd (fun i hi => hall km rfl i hi) h

/-- The key part of `table_entry_check`. -/
theorem key_status_spec (t : table) (e : rte_swx_table_entry) :
    ((if t.is_stub then
        (if e.key.isSome then -EINVAL else if e.key_mask.isSome then -EINVAL else (0 : Int))
      else
        if e.key.isNone then -EINVAL
        else
          match t.params.mtype with
          | match_type.WILDCARD => 0
          | match_type.LPM => 0
          | match_type.EXACT => table_entry_key_check_em t e) = 0 ↔
      (if t.is_stub then e.key = none ∧ e.key_mask = none
        else e.key.isSome ∧
          (t.params.mtype = match_type.EXACT →
            ∀ km, e.key_mask = some km → ∀ i, i < t.params.key_size →
              (km.getD i 0 &&& byte_at t.params.key_mask0 i 0)
                = byte_at t.params.key_mask0 i 0))) ∧
    ((if t.is_stub then
        (if e.key.isSome then -EINVAL else if e.key_mask.isSome then -EINVAL else (0 : Int))
      else
        if e.key.isNone then -EINVAL
        else
          match t.params.mtype with
          | match_type.WILDCARD => 0
          | match_type.LPM => 0
          | match_type.EXACT => table_entry_key_check_em t e) = 0 ∨
     (if t.is_stub then
        (if e.key.isSome then -EINVAL else if e.key_mask.isSome then -EINVAL else (0 : Int))
      else
        if e.key.isNone then -EINVAL
        else
          match t.params.mtype with
          | match_type.WILDCARD => 0
          | match_type.LPM => 0
          | match_type.EXACT => table_entry_key_check_em t e) = -EINVAL) := by
  obtain ⟨hem, hem01⟩ := key_check_em_iff t e
  cases hs : t.is_stub with
  | true =>
    simp only [↓reduceIte]
    cases hk : e.key with
    | some k =>
      exact ⟨⟨fun hc => absurd hc neg_EINVAL_ne_zero, fun h => Option.noConfusion h.1⟩,
        Or.inr rfl⟩
    | none =>
      cases hm : e.key_mask with
      | some m =>
        exact ⟨⟨fun hc => absurd hc neg_EINVAL_ne_zero, fun h => Option.noConfusion h.2⟩,
          Or.inr rfl⟩
      | none => exact ⟨⟨fun _ => ⟨rfl, rfl⟩, fun _ => rfl⟩, Or.inl rfl⟩
  | false =>
    simp only [Bool.false_eq_true, ↓reduceIte]
    cases hk : e.key with
    | none =>
      exact ⟨⟨fun hc => absurd hc neg_EINVAL_ne_zero, fun h => Bool.noConfusion h.1⟩,
        Or.inr rfl⟩
    | some k =>
      cases hmt : t.params.mtype with
      | WILDCARD =>
        exact ⟨⟨fun _ => ⟨rfl, fun hc => match_type.noConfusion hc⟩, fun _ => rfl⟩, Or.inl rfl⟩
      | LPM =>
        exact ⟨⟨fun _ => ⟨rfl, fun hc => match_type.noConfusion hc⟩, fun _ => rfl⟩, Or.inl rfl⟩
      | EXACT =>
        exact ⟨⟨fun h => ⟨rfl, fun _ => hem.mp h⟩, fun h => hem.mpr (h.2 rfl)⟩, hem01⟩

/-- The data part of `table_entry_check`. -/
theorem data_status_spec (ctl_actions : List action) (t : table) (e : rte_swx_table_entry) :
    ((if e.action_id ∉ t.actions then -EINVAL
      else if ((action_at ctl_actions e.action_id).data_size ≠ 0 ∧ e.action_data.isSome) ∨
          ((action_at ctl_actions e.action_id).data_size = 0 ∧ e.action_data.isNone)
        then (0 : Int) else -EINVAL) = 0 ↔
      e.action_id ∈ t.actions ∧
      (((action_at ctl_actions e.action_id).data_size ≠ 0 ∧ e.action_data.isSome) ∨
        ((action_at ctl_actions e.action_id).data_size = 0 ∧ e.action_data.isNone))) ∧
    ((if e.action_id ∉ t.actions then -EINVAL
      else if ((action_at ctl_actions e.action_id).data_size ≠ 0 ∧ e.action_data.isSome) ∨
          ((action_at ctl_actions e.action_id).data_size = 0 ∧ e.action_data.isNone)
        then (0 : Int) else -EINVAL) = 0 ∨
     (if e.action_id ∉ t.actions then -EINVAL
      else if ((action_at ctl_actions e.action_id).data_size ≠ 0 ∧ e.action_data.isSome) ∨
          ((action_at ctl_actions e.action_id).data_size = 0 ∧ e.action_data.isNone)
        then (0 : Int) else -EINVAL) = -EINVAL) := by
  by_cases h1 : e.action_id ∉ t.actions
  · rw [if_pos h1]
    exact ⟨⟨fun hc => absurd hc neg_EINVAL_ne_zero, fun h => absurd h.1 h1⟩, Or.inr rfl⟩
  · rw [if_neg h1]
    by_cases h2 : ((action_at ctl_actions e.action_id).data_size ≠ 0 ∧ e.action_data.isSome) ∨
          ((action_at ctl_actions e.action_id).data_size = 0 ∧ e.action_data.isNone)
    · rw [if_pos h2]
      exact ⟨⟨fun _ => ⟨not_not.mp h1, h2⟩, fun _ => rfl⟩, Or.inl rfl⟩
    · rw [if_neg h2]
      exact ⟨⟨fun hc => absurd hc neg_EINVAL_ne_zero, fun h => absurd h.2 h2⟩, Or.inr rfl⟩

theorem table_entry_check_eq (ctl_actions : List action) (t : table)
    (e : rte_swx_table_entry) (key_check data_check : Bool) :
    table_entry_check ctl_actions t (some e) key_check data_check =
      (if (if key_check then
            (if t.is_stub then
              (if e.key.isSome then -EINVAL else if e.key_mask.isSome then -EINVAL
                else (0 : Int))
            else
              if e.key.isNone then -EINVAL
              else
                match t.params.mtype with
                | match_type.WILDCARD => 0
                | match_type.LPM => 0
                | match_type.EXACT => table_entry_key_check_em t e)
          else 0) ≠ 0
        then
          (if key_check then
            (if t.is_stub then
              (if e.key.isSome then -EINVAL else if e.key_mask.isSome then -EINVAL
                else (0 : Int))
            else
              if e.key.isNone then -EINVAL
              else
                match t.params.mtype with
                | match_type.WILDCARD => 0
                | match_type.LPM => 0
                | match_type.EXACT => table_entry_key_check_em t e)
          else 0)
        else if data_check then
          (if e.action_id ∉ t.actions then -EINVAL
            else if ((action_at ctl_actions e.action_id).data_size ≠ 0
                  ∧ e.action_data.isSome) ∨
                ((action_at ctl_actions e.action_id).data_size = 0 ∧ e.action_data.isNone)
              then (0 : Int) else -EINVAL)
        else 0) := by
  unfold table_entry_check
  rfl

/-- Claim C22.  `table_entry_check` with `key_check` set returns `0` or
`-EINVAL`, and it returns `0` exactly when the key part and the data part both
pass.  The key part: for a stub table, `key` and `key_mask` are both absent; for
a table that is not a stub, `key` is present and, when the match type is `EXACT`
and a `key_mask` is present, every byte `i < key_size` has
`(key_mask[i] & key_mask0[i]) == key_mask0[i]`; for `LPM` and `WILDCARD` any
mask passes.  The data part is asked only with `data_check` set: the `action_id`
is one of the table's actions and `action_data` is present exactly when the
action has a nonzero `data_size`. -/
theorem table_entry_check_key_spec (ctl_actions : List action) (t : table)
    (e : rte_swx_table_entry) (data_check : Bool) :
    (table_entry_check ctl_actions t (some e) true data_check = 0 ↔
      (if t.is_stub then e.key = none ∧ e.key_mask = none
        else e.key.isSome ∧
          (t.params.mtype = match_type.EXACT →
            ∀ km, e.key_mask = some km → ∀ i, i < t.params.key_size →
              (km.getD i 0 &&& byte_at t.params.key_mask0 i 0)
                = byte_at t.params.key_mask0 i 0)) ∧
      (data_check = true →
        e.action_id ∈ t.actions ∧
        (((action_at ctl_actions e.action_id).data_size ≠ 0 ∧ e.action_data.isSome) ∨
          ((action_at ctl_actions e.action_id).data_size = 0 ∧ e.action_data.isNone)))) ∧
    (table_entry_check ctl_actions t (some e) true data_check = 0 ∨
      table_entry_check ctl_actions t (some e) true data_check = -EINVAL) := by
  obtain ⟨hk, hk01⟩ := key_status_spec t e
  obtain ⟨hd, hd01⟩ := data_status_spec ctl_actions t e
  rw [table_entry_check_eq]
  simp only [↓reduceIte]
  rcases hk01 with hk0 | hk1
  · rw [if_neg (not_not.mpr hk0)]
    have hkc := hk.mp hk0
    cases data_check with
    | false =>
      rw [if_neg (by decide : ¬ (false = true))]
      exact ⟨⟨fun _ => ⟨hkc, fun hc => Bool.noConfusion hc⟩, fun _ => rfl⟩, Or.inl rfl⟩
    | true =>
      simp only [↓reduceIte, forall_const]
      exact ⟨⟨fun h => ⟨hkc, hd.mp h⟩, fun h => hd.mpr h.2⟩, hd01⟩
  · have hne : ¬ (if t.is_stub then e.key = none ∧ e.key_mask = none
        else e.key.isSome ∧
          (t.params.mtype = match_type.EXACT →
            ∀ km, e.key_mask = some km → ∀ i, i < t.params.key_size →
              (km.getD i 0 &&& byte_at t.params.key_mask0 i 0)
                = byte_at t.params.key_mask0 i 0)) := by
      intro hc
      have := hk.mpr hc
      rw [hk1] at this
      exact neg_EINVAL_ne_zero this
    rw [if_pos (by rw [hk1]; exact neg_EINVAL_ne_zero), hk1]
    exact ⟨⟨fun hc => absurd hc neg_EINVAL_ne_zero, fun h => absurd h.1 hne⟩, Or.inr rfl⟩

theorem check_fails_of_key_or_data (ctl_actions : List action) (t : table)
    (e : rte_swx_table_entry)
    (h : table_entry_check ctl_actions t (some e) true false ≠ 0 ∨ e.action_id ∉ t.actions ∨
      (e.action_data.isSome ∧ (action_at ctl_actions e.action_id).data_size = 0) ∨
      (e.action_data.isNone ∧ (action_at ctl_actions e.action_id).data_size ≠ 0)) :
    table_entry_check ctl_actions t (some e) true true ≠ 0 := by
  obtain ⟨hd, -⟩ := data_status_spec ctl_actions t e
  rw [table_entry_check_eq] at h ⊢
  simp only [↓reduceIte] at h ⊢
  rw [if_neg (by decide : ¬ (false = true))] at h
  generalize (if t.is_stub then
        (if e.key.isSome then -EINVAL else if e.key_mask.isSome then -EINVAL else (0 : Int))
      else
        if e.key.isNone then -EINVAL
        else
          match t.params.mtype with
          | match_type.WILDCARD => 0
          | match_type.LPM => 0
          | match_type.EXACT => table_entry_key_check_em t e) = ks at h ⊢
  by_cases hks : ks ≠ 0
  · rw [if_pos hks]
    exact hks
  · rw [if_neg hks] at h ⊢
    intro hz
    obtain ⟨hact, hdata⟩ := hd.mp hz
    rcases h with h | h | ⟨h1, h2⟩ | ⟨h1, h2⟩
    · exact h rfl
    · exact h hact
    · rcases hdata with ⟨h3, -⟩ | ⟨-, h4⟩
      · exact h3 h2
      · cases hx : e.action_data with
        | none => rw [hx] at h1; cases h1
        | some d => rw [hx] at h4; cases h4
    · rcases hdata with ⟨-, h4⟩ | ⟨h3, -⟩
      · cases hx : e.action_data with
        | none => rw [hx] at h4; cases h4
        | some d => rw [hx] at h1; cases h1
      · exact h2 h3

/-- Claim C23.  `rte_swx_ctl_pipeline_table_entry_add` returns `-EINVAL` and
leaves the controller (every list and the pending default of every table)
unchanged when the table name is `NULL` or empty, or is the name of no table, or
when for the table found the entry is `NULL`, or fails `table_entry_check` with
the key check, or has an `action_id` that is not one of the table's actions, or
has `action_data` present while the action's `data_size` is `0`, or absent
while it is not `0`. -/
theorem entry_add_rejects (ctl : rte_swx_ctl_pipeline) (table_name : Option String)
    (entry : Option rte_swx_table_entry) (ok : Bool)
    (h : table_name = none ∨ table_name = some "" ∨
      (∃ name, table_name = some name ∧ ∀ t ∈ ctl.tables, t.info_name ≠ name) ∨
      (∃ name i t, table_name = some name ∧ table_find ctl name = some (i, t) ∧
        (entry = none ∨ ∃ e, entry = some e ∧
          (table_entry_check ctl.actions t (some e) true false ≠ 0 ∨
            e.action_id ∉ t.actions ∨
            (e.action_data.isSome ∧ (action_at ctl.actions e.action_id).data_size = 0) ∨
            (e.action_data.isNone ∧ (action_at ctl.actions e.action_id).data_size ≠ 0))))) :
    rte_swx_ctl_pipeline_table_entry_add ctl table_name entry ok = (-EINVAL, ctl) := by
  unfold rte_swx_ctl_pipeline_table_entry_add
  rcases h with h | h | ⟨name, hn, hnone⟩ | ⟨name, i, t, hn, hfind, hentry⟩
  · rw [h]
  · rw [h]
    simp only [if_true]
  · rw [hn]
    dsimp only
    split_ifs
    · rfl
    · rw [(table_find_none_iff ctl name).mpr hnone]
  · rw [hn]
    dsimp only
    split_ifs
    · rfl
    · rw [hfind]
      dsimp only
      rcases hentry with he | ⟨e, he, hbad⟩
      · rw [he]
      · rw [he]
        dsimp only
        rw [if_pos (check_fails_of_key_or_data ctl.actions t e hbad)]

/-- On the concrete controller, an add to a table name that no table has, and an
add to table `t0` of an entry without a key. -/
theorem entry_add_rejects_witness :
    rte_swx_ctl_pipeline_table_entry_add example_ctl (some "t9")
      (some (example_entry 1 1)) true = (-EINVAL, example_ctl) ∧
    rte_swx_ctl_pipeline_table_entry_add example_ctl (some "t0")
      (some { example_entry 1 1 with key := none }) true = (-EINVAL, example_ctl) :=
  ⟨entry_add_rejects example_ctl (some "t9") (some (example_entry 1 1)) true
      (Or.inr (Or.inr (Or.inl ⟨"t9", rfl, by decide⟩))),
    by decide⟩

/-! ## Following one table through the loops of a commit -/

theorem log_appends_refl (table_id : Nat) (log : List event) :
    log_appends table_id log log :=
  ⟨[], (List.append_nil log).symm, fun _ h => absurd h (List.not_mem_nil _)⟩

theorem log_appends_trans {table_id : Nat} {l₁ l₂ l₃ : List event}
    (h₁ : log_appends table_id l₁ l₂) (h₂ : log_appends table_id l₂ l₃) :
    log_appends table_id l₁ l₃ := by
  obtain ⟨e₁, rfl, he₁⟩ := h₁
  obtain ⟨e₂, rfl, he₂⟩ := h₂
  refine ⟨e₁ ++ e₂, List.append_assoc _ _ _, fun ev hev => ?_⟩
  rcases List.mem_append.mp hev with h | h
  · exact he₁ ev h
  · exact he₂ ev h

theorem log_appends_snoc (table_id : Nat) (log : List event) (ev : event)
    (h : event_table_id ev = some table_id) : log_appends table_id log (log ++ [ev]) :=
  ⟨[ev], rfl, fun ev' hev' => by rw [List.mem_singleton.mp hev']; exact h⟩

theorem apply_calls_appends (b : backend) (is_add : Bool) (table_id : Nat) (obj : Option Nat)
    (l : List rte_swx_table_entry) (log : List event) (n : Nat) :
    log_appends table_id log (apply_calls b is_add table_id obj l log n).2.1 := by
  induction l generalizing log n with
  | nil => exact log_appends_refl _ _
  | cons entry rest ih =>
    unfold apply_calls
    dsimp only
    split_ifs
    all_goals first
      | exact log_appends_snoc _ _ _ rfl
      | (refine log_appends_trans ?_ (ih _ _); exact log_appends_snoc _ _ _ rfl)

theorem undo_calls_appends (b : backend) (is_add : Bool) (table_id : Nat) (obj : Option Nat)
    (l : List rte_swx_table_entry) (log : List event) (n : Nat) :
    log_appends table_id log (undo_calls b is_add table_id obj l log n).1 := by
  induction l generalizing log n with
  | nil => exact log_appends_refl _ _
  | cons entry rest ih =>
    unfold undo_calls
    dsimp only
    split_ifs
    all_goals first
      | exact log_appends_refl _ _
      | (refine log_appends_trans ?_ (ih _ _); exact log_appends_snoc _ _ _ rfl)

theorem table_rollfwd0_appends (b : backend) (ctl_actions : List action) (table_id : Nat)
    (t : table) (ts ts_next : rte_swx_table_state) (after_swap : Bool) (log : List event) :
    log_appends table_id log
      (table_rollfwd0 b ctl_actions table_id t ts ts_next after_swap log).2.2.2 := by
  unfold table_rollfwd0
  dsimp only
  split_ifs
  · exact log_appends_refl _ _
  · exact apply_calls_appends _ _ _ _ _ _ _
  · exact log_appends_trans (apply_calls_appends _ _ _ _ _ _ _)
      (apply_calls_appends _ _ _ _ _ _ _)
  · exact log_appends_trans (log_appends_trans (apply_calls_appends _ _ _ _ _ _ _)
      (apply_calls_appends _ _ _ _ _ _ _)) (apply_calls_appends _ _ _ _ _ _ _)
  all_goals first
    | exact log_appends_refl _ _
    | exact log_appends_snoc _ _ _ rfl
    | (split <;> exact log_appends_snoc _ _ _ rfl)

theorem table_rollback_appends (b : backend) (table_id : Nat)
    (t : table) (ts ts_next : rte_swx_table_state) (log : List event) :
    log_appends table_id log (table_rollback b table_id t ts ts_next log).2.2 := by
  unfold table_rollback
  dsimp only
  split_ifs
  · exact log_appends_refl _ _
  · exact log_appends_trans (log_appends_trans (undo_calls_appends _ _ _ _ _ _ _)
      (undo_calls_appends _ _ _ _ _ _ _)) (undo_calls_appends _ _ _ _ _ _ _)
  all_goals first
    | exact log_appends_refl _ _
    | exact log_appends_snoc _ _ _ rfl

theorem step_local_refl (j : Nat) (s : commit_state) : step_local j s s :=
  ⟨rfl, rfl, rfl, rfl, fun _ _ => ⟨rfl, rfl⟩, log_appends_refl _ _⟩

theorem step_local_trans {j : Nat} {s₁ s₂ s₃ : commit_state}
    (h₁ : step_local j s₁ s₂) (h₂ : step_local j s₂ s₃) : step_local j s₁ s₃ := by
  obtain ⟨a₁, b₁, c₁, d₁, e₁, f₁⟩ := h₁
  obtain ⟨a₂, b₂, c₂, d₂, e₂, f₂⟩ := h₂
  refine ⟨a₂.trans a₁, b₂.trans b₁, c₂.trans c₁, d₂.trans d₁, fun i hi => ?_,
    log_appends_trans f₁ f₂⟩
  exact ⟨(e₂ i hi).1.trans (e₁ i hi).1, (e₂ i hi).2.trans (e₁ i hi).2⟩

theorem rollfwd0_at_local (b : backend) (after_swap : Bool) (s : commit_state) (j : Nat) :
    step_local j s (rollfwd0_at b after_swap s j).2 := by
  unfold rollfwd0_at
  split
  · refine ⟨rfl, rfl, ?_, ?_, fun i hi => ⟨?_, ?_⟩, table_rollfwd0_appends _ _ _ _ _ _ _ _⟩
    · simp
    · simp
    · dsimp only
      rw [List.getElem?_set_ne (Ne.symm hi)]
    · dsimp only
      rw [List.getElem?_set_ne (Ne.symm hi)]
  · exact step_local_refl j s

theorem rollfwd1_at_local (s : commit_state) (j : Nat) : step_local j s (rollfwd1_at s j) := by
  unfold rollfwd1_at
  split
  · refine ⟨rfl, rfl, rfl, ?_, fun i hi => ⟨rfl, ?_⟩, log_appends_refl _ _⟩
    · simp
    · dsimp only
      rw [List.getElem?_set_ne (Ne.symm hi)]
  · exact step_local_refl j s

theorem rollfwd2_at_local (s : commit_state) (j : Nat) : step_local j s (rollfwd2_at s j) := by
  unfold rollfwd2_at
  split
  · refine ⟨rfl, rfl, ?_, rfl, fun i hi => ⟨?_, rfl⟩, log_appends_refl _ _⟩
    · simp
    · dsimp only
      rw [List.getElem?_set_ne (Ne.symm hi)]
  · exact step_local_refl j s

theorem rollback_at_local (b : backend) (s : commit_state) (j : Nat) :
    step_local j s (rollback_at b s j) := by
  unfold rollback_at
  split
  · refine ⟨rfl, rfl, ?_, ?_, fun i hi => ⟨?_, ?_⟩, table_rollback_appends _ _ _ _ _ _⟩
    · simp
    · simp
    · dsimp only
      rw [List.getElem?_set_ne (Ne.symm hi)]
    · dsimp only
      rw [List.getElem?_set_ne (Ne.symm hi)]
  · exact step_local_refl j s

theorem abort_at_local (s : commit_state) (j : Nat) : step_local j s (abort_at s j) := by
  unfold abort_at
  split
  · refine ⟨rfl, rfl, ?_, rfl, fun i hi => ⟨?_, rfl⟩, log_appends_refl _ _⟩
    · simp
    · dsimp only
      rw [List.getElem?_set_ne (Ne.symm hi)]
  · exact step_local_refl j s

theorem commit_after_swap_local (b : backend) (s : commit_state) (j : Nat) :
    step_local j s (commit_after_swap b s j) :=
  step_local_trans (step_local_trans (rollfwd0_at_local b true s j) (rollfwd1_at_local _ j))
    (rollfwd2_at_local _ j)

theorem commit_rollback_local (b : backend) (abort_on_fail : Bool) (s : commit_state)
    (j : Nat) : step_local j s (commit_rollback b abort_on_fail s j) := by
  unfold commit_rollback
  split_ifs
  · exact step_local_trans (rollback_at_local b s j) (abort_at_local _ j)
  · exact rollback_at_local b s j

theorem log_of_append (i : Nat) (l₁ l₂ : List event) :
    log_of i (l₁ ++ l₂) = log_of i l₁ ++ log_of i l₂ := by
  unfold log_of
  rw [List.filter_append]

theorem log_of_other {i j : Nat} (hij : j ≠ i) (extra : List event)
    (h : ∀ ev ∈ extra, event_table_id ev = some j) : log_of i extra = [] := by
  unfold log_of
  rw [List.filter_eq_nil_iff]
  intro ev hev
  rw [h ev hev]
  simp [hij]

theorem log_of_same (i : Nat) (extra : List event)
    (h : ∀ ev ∈ extra, event_table_id ev = some i) : log_of i extra = extra := by
  unfold log_of
  rw [List.filter_eq_self]
  intro ev hev
  rw [h ev hev]
  simp

theorem local_view_of_step {i j : Nat} (hij : j ≠ i) {s s' : commit_state}
    (h : step_local j s s') :
    local_view i s' = local_view i s ∧ s'.ctl.actions = s.ctl.actions := by
  obtain ⟨ha, hts, -, -, hother, extra, hlog, hextra⟩ := h
  refine ⟨?_, ha⟩
  unfold local_view
  rw [(hother i (Ne.symm hij)).1, (hother i (Ne.symm hij)).2, hts, hlog, log_of_append,
    log_of_other hij extra hextra, List.append_nil]

theorem foldl_local_skip (g : commit_state → Nat → commit_state)
    (hg : ∀ s j, step_local j s (g s j)) (i : Nat) (l : List Nat) (hl : ∀ j ∈ l, j ≠ i)
    (s : commit_state) :
    local_view i (l.foldl g s) = local_view i s ∧ (l.foldl g s).ctl.actions = s.ctl.actions := by
  induction l generalizing s with
  | nil => exact ⟨rfl, rfl⟩
  | cons j rest ih =>
    obtain ⟨h1, h2⟩ := ih (fun k hk => hl k (List.mem_cons_of_mem _ hk)) (g s j)
    obtain ⟨h3, h4⟩ := local_view_of_step (hl j (List.mem_cons_self _ _)) (hg s j)
    exact ⟨h1.trans h3, h2.trans h4⟩

theorem range_split (i n : Nat) (hi : i < n) :
    List.range n = List.range i ++ i :: List.range' (i + 1) (n - (i + 1)) := by
  have h := List.range'_append_1 0 i (n - i)
  rw [Nat.zero_add] at h
  have h1 : n - i + i = n := by omega
  have h2 : n - i = (n - (i + 1)) + 1 := by omega
  rw [h1] at h
  rw [List.range_eq_range', List.range_eq_range', ← h, h2, List.range'_succ]

/-- In a loop over the tables `0 .. n - 1` whose step `j` touches table `j`
only, what the loop leaves for table `i` is what step `i` leaves for it, run on
a state that agrees with the initial one on table `i`. -/
theorem foldl_range_view (g : commit_state → Nat → commit_state)
    (hg : ∀ s j, step_local j s (g s j)) (i n : Nat) (hi : i < n) (s : commit_state) :
    ∃ s', local_view i s' = local_view i s ∧ s'.ctl.actions = s.ctl.actions ∧
      local_view i ((List.range n).foldl g s) = local_view i (g s' i) ∧
      ((List.range n).foldl g s).ctl.actions = s.ctl.actions := by
  rw [range_split i n hi, List.foldl_append, List.foldl_cons]
  have h1 := foldl_local_skip g hg i (List.range i)
    (fun j hj => by rw [List.mem_range] at hj; omega) s
  have h2 := foldl_local_skip g hg i (List.range' (i + 1) (n - (i + 1)))
    (fun j hj => by rw [List.mem_range'_1] at hj; omega) (g ((List.range i).foldl g s) i)
  refine ⟨(List.range i).foldl g s, h1.1, h1.2, h2.1, ?_⟩
  rw [h2.2, (hg _ i).1, h1.2]

theorem foldl_range_view_out (g : commit_state → Nat → commit_state)
    (hg : ∀ s j, step_local j s (g s j)) (i n : Nat) (hi : n ≤ i) (s : commit_state) :
    local_view i ((List.range n).foldl g s) = local_view i s :=
  (foldl_local_skip g hg i (List.range n)
    (fun j hj => by rw [List.mem_range] at hj; omega) s).1

theorem calls_only_refl (log : List event) : calls_only log log :=
  ⟨[], (List.append_nil log).symm, fun _ h => absurd h (List.not_mem_nil _)⟩

theorem calls_only_trans {l₁ l₂ l₃ : List event}
    (h₁ : calls_only l₁ l₂) (h₂ : calls_only l₂ l₃) : calls_only l₁ l₃ := by
  obtain ⟨e₁, rfl, he₁⟩ := h₁
  obtain ⟨e₂, rfl, he₂⟩ := h₂
  refine ⟨e₁ ++ e₂, List.append_assoc _ _ _, fun ev hev => ?_⟩
  rcases List.mem_append.mp hev with h | h
  · exact he₁ ev h
  · exact he₂ ev h

theorem step_frame_refl (s : commit_state) : step_frame s s :=
  ⟨rfl, rfl, rfl, rfl, calls_only_refl _⟩

theorem step_frame_trans {s₁ s₂ s₃ : commit_state}
    (h₁ : step_frame s₁ s₂) (h₂ : step_frame s₂ s₃) : step_frame s₁ s₃ := by
  obtain ⟨a₁, b₁, c₁, d₁, f₁⟩ := h₁
  obtain ⟨a₂, b₂, c₂, d₂, f₂⟩ := h₂
  exact ⟨a₂.trans a₁, b₂.trans b₁, c₂.trans c₁, d₂.trans d₁, calls_only_trans f₁ f₂⟩

theorem step_frame_of_local {j : Nat} {s s' : commit_state} (h : step_local j s s') :
    step_frame s s' := by
  obtain ⟨a, b, c, d, -, extra, hlog, hextra⟩ := h
  refine ⟨a, b, c, d, extra, hlog, fun ev hev => ?_⟩
  rw [hextra ev hev]
  exact Option.some_ne_none j

theorem foldl_frame (g : commit_state → Nat → commit_state)
    (hg : ∀ s j, step_local j s (g s j)) (l : List Nat) (s : commit_state) :
    step_frame s (l.foldl g s) := by
  induction l generalizing s with
  | nil => exact step_frame_refl s
  | cons j rest ih => exact step_frame_trans (step_frame_of_local (hg s j)) (ih (g s j))

theorem commit_stage0_frame (b : backend) (l : List Nat) (s : commit_state) :
    step_frame s (commit_stage0 b l s).2 := by
  induction l generalizing s with
  | nil => exact step_frame_refl s
  | cons j rest ih =>
    unfold commit_stage0
    dsimp only
    split_ifs
    · exact step_frame_of_local (rollfwd0_at_local b false s j)
    · exact step_frame_trans (step_frame_of_local (rollfwd0_at_local b false s j)) (ih _)

theorem commit_stage0_cons (b : backend) (j : Nat) (l : List Nat) (s : commit_state) :
    commit_stage0 b (j :: l) s =
      if (rollfwd0_at b false s j).1 ≠ 0 then rollfwd0_at b false s j
      else commit_stage0 b l (rollfwd0_at b false s j).2 := rfl

theorem commit_stage0_append (b : backend) (l₁ l₂ : List Nat) (s : commit_state) :
    commit_stage0 b (l₁ ++ l₂) s =
      if (commit_stage0 b l₁ s).1 ≠ 0 then commit_stage0 b l₁ s
      else commit_stage0 b l₂ (commit_stage0 b l₁ s).2 := by
  induction l₁ generalizing s with
  | nil =>
    have h : (commit_stage0 b [] s).1 = 0 := rfl
    rw [List.nil_append, if_neg (not_not.mpr h)]
    rfl
  | cons j rest ih =>
    rw [List.cons_append, commit_stage0_cons, commit_stage0_cons]
    by_cases h1 : (rollfwd0_at b false s j).1 ≠ 0
    · simp only [if_pos h1]
    · simp only [if_neg h1, ih]

theorem commit_stage0_skip (b : backend) (i : Nat) (l : List Nat) (hl : ∀ j ∈ l, j ≠ i)
    (s : commit_state) :
    local_view i (commit_stage0 b l s).2 = local_view i s ∧
      (commit_stage0 b l s).2.ctl.actions = s.ctl.actions := by
  induction l generalizing s with
  | nil => exact ⟨rfl, rfl⟩
  | cons j rest ih =>
    obtain ⟨h3, h4⟩ := local_view_of_step (hl j (List.mem_cons_self _ _))
      (rollfwd0_at_local b false s j)
    rw [commit_stage0_cons]
    split_ifs
    · exact ⟨h3, h4⟩
    · obtain ⟨h1, h2⟩ := ih (fun k hk => hl k (List.mem_cons_of_mem _ hk))
        (rollfwd0_at b false s j).2
      exact ⟨h1.trans h3, h2.trans h4⟩

/-- In the first loop of a commit, table `i` is either not reached, and then the
loop failed before it, or what the loop leaves for table `i` is what
`table_rollfwd0` on table `i` leaves for it, run on a state that agrees with the
initial one on table `i`; when the loop succeeds that call returned `0`. -/
theorem commit_stage0_view (b : backend) (i n : Nat) (hi : i < n) (s : commit_state) :
    (local_view i (commit_stage0 b (List.range n) s).2 = local_view i s ∧
      (commit_stage0 b (List.range n) s).1 ≠ 0) ∨
    ∃ s', local_view i s' = local_view i s ∧ s'.ctl.actions = s.ctl.actions ∧
      local_view i (commit_stage0 b (List.range n) s).2
        = local_view i (rollfwd0_at b false s' i).2 ∧
      ((commit_stage0 b (List.range n) s).1 = 0 → (rollfwd0_at b false s' i).1 = 0) := by
  have h1 := commit_stage0_skip b i (List.range i)
    (fun j hj => by rw [List.mem_range] at hj; omega) s
  rw [range_split i n hi, commit_stage0_append]
  by_cases hf : (commit_stage0 b (List.range i) s).1 ≠ 0
  · rw [if_pos hf]
    exact Or.inl ⟨h1.1, hf⟩
  · rw [if_neg hf, commit_stage0_cons]
    refine Or.inr ⟨(commit_stage0 b (List.range i) s).2, h1.1, h1.2, ?_, ?_⟩
    · split_ifs
      · rfl
      · exact (commit_stage0_skip b i (List.range' (i + 1) (n - (i + 1)))
          (fun j hj => by rw [List.mem_range'_1] at hj; omega) _).1
    · split_ifs with h2
      · intro h0
        exact absurd h0 h2
      · intro _
        exact not_not.mp h2

theorem commit_stage0_view_out (b : backend) (i n : Nat) (hi : n ≤ i) (s : commit_state) :
    local_view i (commit_stage0 b (List.range n) s).2 = local_view i s :=
  (commit_stage0_skip b i (List.range n)
    (fun j hj => by rw [List.mem_range] at hj; omega) s).1

/-! ## The table of one index through the loops of a commit -/

theorem same_up_to_counters_refl (t : table) : same_up_to_counters t t := rfl

theorem same_up_to_counters_trans {t u v : table} (h₁ : same_up_to_counters t u)
    (h₂ : same_up_to_counters u v) : same_up_to_counters t v := by
  unfold same_up_to_counters at *
  exact h₂.trans h₁

theorem same_up_to_counters_fields {t u : table} (h : same_up_to_counters t u) :
    u.params = t.params ∧ u.entries = t.entries ∧ u.pending_add = t.pending_add ∧
    u.pending_modify0 = t.pending_modify0 ∧ u.pending_modify1 = t.pending_modify1 ∧
    u.pending_delete = t.pending_delete ∧ u.pending_default = t.pending_default ∧
    u.is_stub = t.is_stub ∧ u.ops_add = t.ops_add ∧ u.ops_free = t.ops_free := by
  unfold same_up_to_counters at h
  have hp := congrArg table.params h
  have he := congrArg table.entries h
  have ha := congrArg table.pending_add h
  have h0 := congrArg table.pending_modify0 h
  have h1 := congrArg table.pending_modify1 h
  have hd := congrArg table.pending_delete h
  have hf := congrArg table.pending_default h
  have hs := congrArg table.is_stub h
  have ho := congrArg table.ops_add h
  have hr := congrArg table.ops_free h
  exact ⟨hp, he, ha, h0, h1, hd, hf, hs, ho, hr⟩

theorem table_rollfwd0_same (b : backend) (ctl_actions : List action) (table_id : Nat)
    (t : table) (ts ts_next : rte_swx_table_state) (after_swap : Bool) (log : List event) :
    same_up_to_counters t
      (table_rollfwd0 b ctl_actions table_id t ts ts_next after_swap log).2.1 := by
  unfold table_rollfwd0 same_up_to_counters
  dsimp only
  split_ifs
  all_goals first
    | rfl
    | (split <;> rfl)

theorem table_rollback_same (b : backend) (table_id : Nat) (t : table)
    (ts ts_next : rte_swx_table_state) (log : List event) :
    same_up_to_counters t (table_rollback b table_id t ts ts_next log).1 := by
  unfold table_rollback same_up_to_counters
  dsimp only
  split_ifs
  all_goals rfl

theorem getElem?_set_self_of_some {l : List table} {i : Nat} {t u : table}
    (h : l[i]? = some t) : (l.set i u)[i]? = some u := by
  rw [List.getElem?_set_self (List.getElem?_eq_some_iff.mp h).1]

theorem rollfwd0_at_table (b : backend) (after_swap : Bool) (s : commit_state) (i : Nat)
    (t : table) (h : s.ctl.tables[i]? = some t) :
    ∃ r, (rollfwd0_at b after_swap s i).2.ctl.tables[i]? = some r ∧
      same_up_to_counters t r := by
  unfold rollfwd0_at
  split
  · rename_i u ts ts_next hu _ _
    rw [h] at hu
    cases hu
    exact ⟨_, getElem?_set_self_of_some h, table_rollfwd0_same _ _ _ _ _ _ _ _⟩
  · exact ⟨t, h, same_up_to_counters_refl t⟩

theorem rollback_at_table (b : backend) (s : commit_state) (i : Nat)
    (t : table) (h : s.ctl.tables[i]? = some t) :
    ∃ r, (rollback_at b s i).ctl.tables[i]? = some r ∧ same_up_to_counters t r := by
  unfold rollback_at
  split
  · rename_i u ts ts_next hu _ _
    rw [h] at hu
    cases hu
    exact ⟨_, getElem?_set_self_of_some h, table_rollback_same _ _ _ _ _ _⟩
  · exact ⟨t, h, same_up_to_counters_refl t⟩

theorem rollfwd2_at_table (s : commit_state) (i : Nat) (t : table)
    (h : s.ctl.tables[i]? = some t) :
    (rollfwd2_at s i).ctl.tables[i]? = some (table_rollfwd2 t) := by
  unfold rollfwd2_at
  rw [h]
  exact getElem?_set_self_of_some h

theorem abort_at_table (s : commit_state) (i : Nat) (t : table)
    (h : s.ctl.tables[i]? = some t) :
    (abort_at s i).ctl.tables[i]? = some (table_abort t) := by
  unfold abort_at
  rw [h]
  exact getElem?_set_self_of_some h

theorem local_view_table {i : Nat} {s s' : commit_state}
    (h : local_view i s' = local_view i s) : s'.ctl.tables[i]? = s.ctl.tables[i]? :=
  congrArg Prod.fst h

theorem commit_stage0_table (b : backend) (n : Nat) (s : commit_state) (i : Nat) (t : table)
    (h : s.ctl.tables[i]? = some t) :
    ∃ r, (commit_stage0 b (List.range n) s).2.ctl.tables[i]? = some r ∧
      same_up_to_counters t r := by
  by_cases hi : i < n
  · rcases commit_stage0_view b i n hi s with ⟨hv, -⟩ | ⟨s', hv', -, hv, -⟩
    · exact ⟨t, (local_view_table hv).trans h, same_up_to_counters_refl t⟩
    · obtain ⟨r, hr, hsame⟩ := rollfwd0_at_table b false s' i t ((local_view_table hv').trans h)
      exact ⟨r, (local_view_table hv).trans hr, hsame⟩
  · exact ⟨t, (local_view_table (commit_stage0_view_out b i n (by omega) s)).trans h,
      same_up_to_counters_refl t⟩

theorem foldl_rollfwd1_tables (l : List Nat) (s : commit_state) :
    (l.foldl rollfwd1_at s).ctl.tables = s.ctl.tables ∧ (l.foldl rollfwd1_at s).log = s.log := by
  induction l generalizing s with
  | nil => exact ⟨rfl, rfl⟩
  | cons j rest ih =>
    obtain ⟨h1, h2⟩ := ih (rollfwd1_at s j)
    exact ⟨h1.trans (rollfwd1_at_tables s j).1, h2.trans (rollfwd1_at_tables s j).2⟩

/-! ## A successful commit -/

theorem commit_ok_eq (b : backend) (ctl : rte_swx_ctl_pipeline) (abort_on_fail : Bool)
    (h : (rte_swx_ctl_pipeline_commit b ctl abort_on_fail).1 = 0) :
    (commit_stage0 b (List.range ctl.tables.length) { ctl := ctl, log := [] }).1 = 0 ∧
    (rte_swx_ctl_pipeline_commit b ctl abort_on_fail).2 =
      (((List.range ctl.tables.length).foldl (commit_after_swap b)
        (commit_swap (commit_stage1 b ctl))).ctl,
       ((List.range ctl.tables.length).foldl (commit_after_swap b)
        (commit_swap (commit_stage1 b ctl))).log) := by
  unfold rte_swx_ctl_pipeline_commit at h ⊢
  dsimp only at h ⊢
  by_cases h0 : (commit_stage0 b (List.range ctl.tables.length) { ctl := ctl, log := [] }).1 ≠ 0
  · rw [if_pos h0] at h
    exact absurd h h0
  · rw [if_neg h0]
    exact ⟨not_not.mp h0, rfl⟩

theorem commit_fail_eq (b : backend) (ctl : rte_swx_ctl_pipeline) (abort_on_fail : Bool)
    (h : (rte_swx_ctl_pipeline_commit b ctl abort_on_fail).1 ≠ 0) :
    (commit_stage0 b (List.range ctl.tables.length) { ctl := ctl, log := [] }).1 ≠ 0 ∧
    rte_swx_ctl_pipeline_commit b ctl abort_on_fail =
      ((commit_stage0 b (List.range ctl.tables.length) { ctl := ctl, log := [] }).1,
       ((List.range ctl.tables.length).foldl (commit_rollback b abort_on_fail)
        (commit_stage0 b (List.range ctl.tables.length) { ctl := ctl, log := [] }).2).ctl,
       ((List.range ctl.tables.length).foldl (commit_rollback b abort_on_fail)
        (commit_stage0 b (List.range ctl.tables.length) { ctl := ctl, log := [] }).2).log) := by
  unfold rte_swx_ctl_pipeline_commit at h ⊢
  dsimp only at h ⊢
  by_cases h0 : (commit_stage0 b (List.range ctl.tables.length) { ctl := ctl, log := [] }).1 ≠ 0
  · rw [if_pos h0]
    exact ⟨h0, rfl⟩
  · rw [if_neg h0] at h
    exact absurd rfl h

theorem commit_after_swap_table (b : backend) (s : commit_state) (i : Nat) (t : table)
    (h : s.ctl.tables[i]? = some t) :
    ∃ r, same_up_to_counters t r ∧
      (commit_after_swap b s i).ctl.tables[i]? = some (table_rollfwd2 r) := by
  obtain ⟨r, hr, hsame⟩ := rollfwd0_at_table b true s i t h
  refine ⟨r, hsame, ?_⟩
  unfold commit_after_swap
  apply rollfwd2_at_table
  rw [(rollfwd1_at_tables _ i).1]
  exact hr

theorem commit_ok_table (b : backend) (ctl : rte_swx_ctl_pipeline) (abort_on_fail : Bool)
    (h : (rte_swx_ctl_pipeline_commit b ctl abort_on_fail).1 = 0) (i : Nat) (t : table)
    (ht : ctl.tables[i]? = some t) :
    ∃ r, same_up_to_counters t r ∧
      (rte_swx_ctl_pipeline_commit b ctl abort_on_fail).2.1.tables[i]?
        = some (table_rollfwd2 r) := by
  obtain ⟨-, heq⟩ := commit_ok_eq b ctl abort_on_fail h
  rw [heq]
  dsimp only
  have hi : i < ctl.tables.length := (List.getElem?_eq_some_iff.mp ht).1
  obtain ⟨r1, hr1, hsame1⟩ := commit_stage0_table b ctl.tables.length
    { ctl := ctl, log := [] } i t ht
  obtain ⟨s', hv', -, hv, -⟩ := foldl_range_view (commit_after_swap b)
    (commit_after_swap_local b) i ctl.tables.length hi
    (commit_swap (commit_stage1 b ctl))
  have hs' : s'.ctl.tables[i]? = some r1 := by
    rw [local_view_table hv']
    unfold commit_swap commit_stage1
    dsimp only
    rw [(foldl_rollfwd1_tables _ _).1]
    exact hr1
  obtain ⟨r, hsame, hr⟩ := commit_after_swap_table b s' i r1 hs'
  exact ⟨r, same_up_to_counters_trans hsame1 hsame, (local_view_table hv).trans hr⟩

theorem commit_tables_length (b : backend) (ctl : rte_swx_ctl_pipeline) (abort_on_fail : Bool) :
    (rte_swx_ctl_pipeline_commit b ctl abort_on_fail).2.1.tables.length = ctl.tables.length ∧
    (rte_swx_ctl_pipeline_commit b ctl abort_on_fail).2.1.actions = ctl.actions := by
  have h0 := commit_stage0_frame b (List.range ctl.tables.length) { ctl := ctl, log := [] }
  unfold rte_swx_ctl_pipeline_commit
  dsimp only
  split_ifs
  · have h1 := foldl_frame (commit_rollback b abort_on_fail) (commit_rollback_local b abort_on_fail)
      (List.range ctl.tables.length)
      (commit_stage0 b (List.range ctl.tables.length) { ctl := ctl, log := [] }).2
    exact ⟨h1.2.2.1.trans h0.2.2.1, h1.1.trans h0.1⟩
  · have h1 := foldl_frame rollfwd1_at rollfwd1_at_local (List.range ctl.tables.length)
      (commit_stage0 b (List.range ctl.tables.length) { ctl := ctl, log := [] }).2
    have h2 := foldl_frame (commit_after_swap b) (commit_after_swap_local b)
      (List.range ctl.tables.length)
      (commit_swap (commit_stage1 b ctl))
    exact ⟨h2.2.2.1.trans (h1.2.2.1.trans h0.2.2.1), h2.1.trans (h1.1.trans h0.1)⟩

theorem exists_keycmp_iff (params : rte_swx_table_params) (x : rte_swx_table_entry)
    (l : List rte_swx_table_entry) :
    (∃ y ∈ l, table_entry_keycmp params x y = 0) ↔
      key_class params x ∈ l.map (key_class params) := by
  rw [List.mem_map]
  constructor
  · rintro ⟨y, hy, hk⟩
    exact ⟨y, hy, ((keycmp_eq_zero_iff _ _ _).mp hk).symm⟩
  · rintro ⟨y, hy, hk⟩
    exact ⟨y, hy, (keycmp_eq_zero_iff _ _ _).mpr hk.symm⟩

theorem committed_key_set (t : table) (hinv : staging_inv t) (x : rte_swx_table_entry) :
    (∃ y ∈ t.entries ++ t.pending_add ++ t.pending_modify1,
        table_entry_keycmp t.params x y = 0) ↔
      (((∃ y ∈ t.entries ++ t.pending_modify0 ++ t.pending_delete,
            table_entry_keycmp t.params x y = 0) ∨
          ∃ y ∈ t.pending_add, table_entry_keycmp t.params x y = 0) ∧
        ¬ ∃ y ∈ t.pending_delete, table_entry_keycmp t.params x y = 0) := by
  have hdis := staging_inv_disjoint t hinv (key_class t.params x)
  rw [exists_keycmp_iff, exists_keycmp_iff, exists_keycmp_iff, exists_keycmp_iff]
  simp only [List.map_append, List.mem_append, hinv.2]
  obtain ⟨h1, h2, h3⟩ := hdis
  tauto

/-- Claim C24.  When `rte_swx_ctl_pipeline_commit` returns `0`, the controller
has as many tables as before and, for every table, the new `entries` list is
the old `entries` list followed by the old `pending_add` list followed by the
old `pending_modify1` list (whose elements carry the new action data);
`pending_add`, `pending_modify0`, `pending_modify1` and `pending_delete` are
empty and `pending_default` is cleared; the parameters are kept.  When the
table had the staging invariants, the keys of the new `entries` are therefore
the keys of the old `entries`, `pending_modify0` and `pending_delete` (the
entries committed before) together with the keys of `pending_add`, less the
keys of `pending_delete`. -/
theorem commit_success_lists (b : backend) (ctl : rte_swx_ctl_pipeline) (abort_on_fail : Bool)
    (h : (rte_swx_ctl_pipeline_commit b ctl abort_on_fail).1 = 0) :
    (rte_swx_ctl_pipeline_commit b ctl abort_on_fail).2.1.tables.length = ctl.tables.length ∧
    ∀ (i : Nat) (t : table), ctl.tables[i]? = some t →
      ∃ u : table, (rte_swx_ctl_pipeline_commit b ctl abort_on_fail).2.1.tables[i]? = some u ∧
        u.params = t.params ∧
        u.entries = t.entries ++ t.pending_add ++ t.pending_modify1 ∧
        u.pending_add = [] ∧ u.pending_modify0 = [] ∧ u.pending_modify1 = [] ∧
        u.pending_delete = [] ∧ u.pending_default = none ∧
        (staging_inv t → ∀ x,
          (∃ y ∈ u.entries, table_entry_keycmp t.params x y = 0) ↔
            (((∃ y ∈ t.entries ++ t.pending_modify0 ++ t.pending_delete,
                  table_entry_keycmp t.params x y = 0) ∨
                ∃ y ∈ t.pending_add, table_entry_keycmp t.params x y = 0) ∧
              ¬ ∃ y ∈ t.pending_delete, table_entry_keycmp t.params x y = 0)) := by
  refine ⟨(commit_tables_length b ctl abort_on_fail).1, fun i t ht => ?_⟩
  obtain ⟨r, hsame, hr⟩ := commit_ok_table b ctl abort_on_fail h i t ht
  obtain ⟨hp, he, ha, -, h1, -, -, -, -, -⟩ := same_up_to_counters_fields hsame
  have hent : (table_rollfwd2 r).entries = t.entries ++ t.pending_add ++ t.pending_modify1 := by
    show r.entries ++ r.pending_add ++ r.pending_modify1 = _
    rw [he, ha, h1]
  refine ⟨table_rollfwd2 r, hr, hp, hent, rfl, rfl, rfl, rfl, rfl, fun hinv x => ?_⟩
  rw [hent]
  exact committed_key_set t hinv x

/-- On the concrete controller with two installed keys, a staged modify, a staged
add and a staged delete, a commit whose backend calls all succeed. -/
theorem commit_success_lists_witness :
    (rte_swx_ctl_pipeline_commit example_backend example_staged false).1 = 0 ∧
    (table0 (rte_swx_ctl_pipeline_commit example_backend example_staged false).2.1).entries
      = [example_entry 3 1, example_entry 1 5] ∧
    (rte_swx_ctl_pipeline_commit example_backend example_staged false).2.1.tables.length
      = example_staged.tables.length ∧
    ∀ (i : Nat) (t : table), example_staged.tables[i]? = some t →
      ∃ u : table, (rte_swx_ctl_pipeline_commit example_backend example_staged false).2.1.tables[i]?
          = some u ∧
        u.params = t.params ∧
        u.entries = t.entries ++ t.pending_add ++ t.pending_modify1 ∧
        u.pending_add = [] ∧ u.pending_modify0 = [] ∧ u.pending_modify1 = [] ∧
        u.pending_delete = [] ∧ u.pending_default = none ∧
        (staging_inv t → ∀ x,
          (∃ y ∈ u.entries, table_entry_keycmp t.params x y = 0) ↔
            (((∃ y ∈ t.entries ++ t.pending_modify0 ++ t.pending_delete,
                  table_entry_keycmp t.params x y = 0) ∨
                ∃ y ∈ t.pending_add, table_entry_keycmp t.params x y = 0) ∧
              ¬ ∃ y ∈ t.pending_delete, table_entry_keycmp t.params x y = 0)) :=
  ⟨by decide, by decide,
    commit_success_lists example_backend example_staged false (by decide)⟩

/-! ## A failed commit -/

theorem commit_rollback_table (b : backend) (abort_on_fail : Bool) (s : commit_state) (i : Nat)
    (t : table) (h : s.ctl.tables[i]? = some t) :
    ∃ r, same_up_to_counters t r ∧
      (commit_rollback b abort_on_fail s i).ctl.tables[i]?
        = some (if abort_on_fail then table_abort r else r) := by
  obtain ⟨r, hr, hsame⟩ := rollback_at_table b s i t h
  refine ⟨r, hsame, ?_⟩
  unfold commit_rollback
  cases abort_on_fail with
  | false => exact hr
  | true => exact abort_at_table _ i r hr

theorem commit_fail_table (b : backend) (ctl : rte_swx_ctl_pipeline) (abort_on_fail : Bool)
    (h : (rte_swx_ctl_pipeline_commit b ctl abort_on_fail).1 ≠ 0) (i : Nat) (t : table)
    (ht : ctl.tables[i]? = some t) :
    ∃ r, same_up_to_counters t r ∧
      (rte_swx_ctl_pipeline_commit b ctl abort_on_fail).2.1.tables[i]?
        = some (if abort_on_fail then table_abort r else r) := by
  obtain ⟨-, heq⟩ := commit_fail_eq b ctl abort_on_fail h
  rw [heq]
  dsimp only
  have hi : i < ctl.tables.length := (List.getElem?_eq_some_iff.mp ht).1
  obtain ⟨r1, hr1, hsame1⟩ := commit_stage0_table b ctl.tables.length
    { ctl := ctl, log := [] } i t ht
  obtain ⟨s', hv', -, hv, -⟩ := foldl_range_view (commit_rollback b abort_on_fail)
    (commit_rollback_local b abort_on_fail) i ctl.tables.length hi
    (commit_stage0 b (List.range ctl.tables.length) { ctl := ctl, log := [] }).2
  obtain ⟨r, hsame, hr⟩ := commit_rollback_table b abort_on_fail s' i r1
    ((local_view_table hv').trans hr1)
  exact ⟨r, same_up_to_counters_trans hsame1 hsame, (local_view_table hv).trans hr⟩

/-- Claim C25.  When `rte_swx_ctl_pipeline_commit` with `abort_on_fail = 0`
fails, that is when `table_rollfwd0` returns a nonzero status for some table in
the loop before the swap, it returns that status and the controller has the
same tables as before, each with `entries`, `pending_add`, `pending_modify0`,
`pending_modify1`, `pending_delete` and `pending_default` exactly as they were
before the call. -/
theorem commit_failure_keeps_lists (b : backend) (ctl : rte_swx_ctl_pipeline)
    (h : (rte_swx_ctl_pipeline_commit b ctl false).1 ≠ 0) :
    (rte_swx_ctl_pipeline_commit b ctl false).1 =
      (commit_stage0 b (List.range ctl.tables.length) { ctl := ctl, log := [] }).1 ∧
    (rte_swx_ctl_pipeline_commit b ctl false).2.1.tables.length = ctl.tables.length ∧
    ∀ (i : Nat) (t : table), ctl.tables[i]? = some t →
      ∃ u : table, (rte_swx_ctl_pipeline_commit b ctl false).2.1.tables[i]? = some u ∧
        u.entries = t.entries ∧ u.pending_add = t.pending_add ∧
        u.pending_modify0 = t.pending_modify0 ∧ u.pending_modify1 = t.pending_modify1 ∧
        u.pending_delete = t.pending_delete ∧ u.pending_default = t.pending_default ∧
        same_up_to_counters t u := by
  refine ⟨?_, (commit_tables_length b ctl false).1, fun i t ht => ?_⟩
  · rw [(commit_fail_eq b ctl false h).2]
  · obtain ⟨r, hsame, hr⟩ := commit_fail_table b ctl false h i t ht
    obtain ⟨-, he, ha, h0, h1, hd, hf, -, -, -⟩ := same_up_to_counters_fields hsame
    exact ⟨r, hr, he, ha, h0, h1, hd, hf, hsame⟩

/-- On the concrete controller with two keys staged for add and a backend whose
second `add` fails: `add` of the first key, failed `add` of the second, and the
`del` of the first key issued by the rollback. -/
theorem commit_failure_keeps_lists_witness :
    (rte_swx_ctl_pipeline_commit example_backend_one_add example_two_adds false).1 = -ENOMEM ∧
    (rte_swx_ctl_pipeline_commit example_backend_one_add example_two_adds false).2.2 =
      [event.add 0 (some 2) (example_entry 1 1) 0,
       event.add 0 (some 2) (example_entry 2 1) (-ENOMEM),
       event.del 0 (some 2) (example_entry 1 1) 0] ∧
    (rte_swx_ctl_pipeline_commit example_backend_one_add example_two_adds false).1 =
      (commit_stage0 example_backend_one_add (List.range example_two_adds.tables.length)
        { ctl := example_two_adds, log := [] }).1 ∧
    (rte_swx_ctl_pipeline_commit example_backend_one_add example_two_adds false).2.1.tables.length
      = example_two_adds.tables.length ∧
    ∀ (i : Nat) (t : table), example_two_adds.tables[i]? = some t →
      ∃ u : table,
        (rte_swx_ctl_pipeline_commit example_backend_one_add example_two_adds false).2.1.tables[i]?
          = some u ∧
        u.entries = t.entries ∧ u.pending_add = t.pending_add ∧
        u.pending_modify0 = t.pending_modify0 ∧ u.pending_modify1 = t.pending_modify1 ∧
        u.pending_delete = t.pending_delete ∧ u.pending_default = t.pending_default ∧
        same_up_to_counters t u :=
  ⟨by decide, by decide,
    commit_failure_keeps_lists example_backend_one_add example_two_adds (by decide)⟩

/-! ## Abort -/

theorem foldl_abort_at_fields (l : List Nat) (s : commit_state) :
    (l.foldl abort_at s).ctl.actions = s.ctl.actions ∧
    (l.foldl abort_at s).ctl.ts = s.ctl.ts ∧
    (l.foldl abort_at s).ctl.ts_next = s.ctl.ts_next ∧
    (l.foldl abort_at s).ctl.tables.length = s.ctl.tables.length := by
  induction l generalizing s with
  | nil => exact ⟨rfl, rfl, rfl, rfl⟩
  | cons j rest ih =>
    obtain ⟨h1, h2, h3, h4⟩ := ih (abort_at s j)
    have hj : (abort_at s j).ctl.actions = s.ctl.actions ∧ (abort_at s j).ctl.ts = s.ctl.ts ∧
        (abort_at s j).ctl.ts_next = s.ctl.ts_next ∧
        (abort_at s j).ctl.tables.length = s.ctl.tables.length := by
      unfold abort_at
      split
      · exact ⟨rfl, rfl, rfl, by simp⟩
      · exact ⟨rfl, rfl, rfl, rfl⟩
    exact ⟨h1.trans hj.1, h2.trans hj.2.1, h3.trans hj.2.2.1, h4.trans hj.2.2.2⟩

/-- Function `rte_swx_ctl_pipeline_abort` applies `table_abort` to every table and
changes nothing else. -/
theorem abort_eq_map (ctl : rte_swx_ctl_pipeline) :
    rte_swx_ctl_pipeline_abort ctl = { ctl with tables := ctl.tables.map table_abort } := by
  obtain ⟨h1, h2, h3, h4⟩ := foldl_abort_at_fields (List.range ctl.tables.length)
    { ctl := ctl, log := [] }
  have htab : ((List.range ctl.tables.length).foldl abort_at { ctl := ctl, log := [] }).ctl.tables
      = ctl.tables.map table_abort := by
    apply List.ext_getElem?
    intro i
    rw [List.getElem?_map]
    by_cases hi : i < ctl.tables.length
    · obtain ⟨s', hv', -, hv, -⟩ := foldl_range_view abort_at abort_at_local i
        ctl.tables.length hi { ctl := ctl, log := [] }
      have ht : ctl.tables[i]? = some ctl.tables[i] := List.getElem?_eq_getElem hi
      rw [local_view_table hv, abort_at_table s' i ctl.tables[i]
        ((local_view_table hv').trans ht), ht]
      rfl
    · have h4' : ((List.range ctl.tables.length).foldl abort_at
          { ctl := ctl, log := [] }).ctl.tables.length = ctl.tables.length := h4
      rw [List.getElem?_eq_none (by omega), List.getElem?_eq_none (by omega)]
      rfl
  unfold rte_swx_ctl_pipeline_abort
  cases hres : ((List.range ctl.tables.length).foldl abort_at { ctl := ctl, log := [] }).ctl with
  | mk a t s n =>
    rw [hres] at h1 h2 h3 htab
    dsimp only at h1 h2 h3 htab
    rw [h1, h2, h3, htab]

theorem table_abort_idem (t : table) : table_abort (table_abort t) = table_abort t := by
  unfold table_abort
  simp

theorem table_abort_of_nothing_staged (t : table) (h : nothing_staged t)
    (hd : t.pending_default = none) : table_abort t = t := by
  obtain ⟨ha, h0, h1, hdel⟩ := h
  unfold table_abort
  cases t
  simp only at ha h0 h1 hdel hd
  subst ha h0 h1 hdel hd
  simp

/-- Claim C27.  `rte_swx_ctl_pipeline_abort` is idempotent: for every controller
state, aborting twice gives the same state as aborting once; and when no table
has staged work (the four pending lists are empty and there is no pending
default), abort leaves the state unchanged.  Abort applies `table_abort` to each
table and changes nothing else. -/
theorem abort_idempotent (ctl : rte_swx_ctl_pipeline) :
    rte_swx_ctl_pipeline_abort (rte_swx_ctl_pipeline_abort ctl)
      = rte_swx_ctl_pipeline_abort ctl ∧
    rte_swx_ctl_pipeline_abort ctl = { ctl with tables := ctl.tables.map table_abort } ∧
    ((∀ t ∈ ctl.tables, nothing_staged t ∧ t.pending_default = none) →
      rte_swx_ctl_pipeline_abort ctl = ctl) := by
  refine ⟨?_, abort_eq_map ctl, fun h => ?_⟩
  · rw [abort_eq_map (rte_swx_ctl_pipeline_abort ctl), abort_eq_map ctl]
    dsimp only
    rw [List.map_map]
    congr 1
    apply List.map_congr_left
    intro t _
    exact table_abort_idem t
  · rw [abort_eq_map ctl]
    have : ctl.tables.map table_abort = ctl.tables := by
      conv_rhs => rw [← List.map_id ctl.tables]
      apply List.map_congr_left
      intro t ht
      exact table_abort_of_nothing_staged t (h t ht).1 (h t ht).2
    rw [this]

/-- On the concrete controller with staged work, aborting twice is aborting once;
on the concrete controller with two installed keys and nothing staged, abort
changes nothing. -/
theorem abort_idempotent_witness :
    (∀ t ∈ example_installed.tables, nothing_staged t ∧ t.pending_default = none) ∧
    rte_swx_ctl_pipeline_abort example_installed = example_installed ∧
    rte_swx_ctl_pipeline_abort (rte_swx_ctl_pipeline_abort example_staged)
      = rte_swx_ctl_pipeline_abort example_staged :=
  ⟨by unfold nothing_staged; decide,
    (abort_idempotent example_installed).2.2 (by unfold nothing_staged; decide),
    by decide⟩

/-! ## The swap of a commit -/

theorem not_state_set_of_table_id {ev : event} (h : event_table_id ev ≠ none)
    (ts : List rte_swx_table_state) : ev ≠ event.table_state_set ts := by
  intro hc
  rw [hc] at h
  exact h rfl

theorem calls_only_from_nil {log : List event} (h : calls_only [] log) :
    ∀ ts, event.table_state_set ts ∉ log := by
  obtain ⟨extra, hlog, hextra⟩ := h
  rw [List.nil_append] at hlog
  rw [hlog]
  intro ts hmem
  exact not_state_set_of_table_id (hextra _ hmem) ts rfl

/-- Claim C28.  `rte_swx_ctl_pipeline_commit` publishes through one swap, made
only after the loop of `table_rollfwd0` before the swap has succeeded for every
table.  When the commit fails, `rte_swx_pipeline_table_state_set` is not among
the calls made and `ctl->ts` is as before.  When it succeeds, the calls made
are the backend calls of the loop before the swap, then one
`rte_swx_pipeline_table_state_set` with the `ts_next` array as that loop and
the loop of `table_rollfwd1` left it, then backend calls only; the `ts` array of
the result is the array that was published, and the loop after the swap started
with the old `ts` array as `ts_next`. -/
theorem commit_swap_once (b : backend) (ctl : rte_swx_ctl_pipeline) (abort_on_fail : Bool) :
    ((rte_swx_ctl_pipeline_commit b ctl abort_on_fail).1 ≠ 0 →
      (∀ ts, event.table_state_set ts ∉ (rte_swx_ctl_pipeline_commit b ctl abort_on_fail).2.2) ∧
      (rte_swx_ctl_pipeline_commit b ctl abort_on_fail).2.1.ts = ctl.ts ∧
      (rte_swx_ctl_pipeline_commit b ctl abort_on_fail).2.1.ts_next.length
        = ctl.ts_next.length) ∧
    ((rte_swx_ctl_pipeline_commit b ctl abort_on_fail).1 = 0 →
      ∃ post,
        (rte_swx_ctl_pipeline_commit b ctl abort_on_fail).2.2 =
          (commit_stage0 b (List.range ctl.tables.length) { ctl := ctl, log := [] }).2.log ++
            event.table_state_set (commit_stage1 b ctl).ctl.ts_next :: post ∧
        (∀ ts, event.table_state_set ts ∉
          (commit_stage0 b (List.range ctl.tables.length) { ctl := ctl, log := [] }).2.log) ∧
        (∀ ts, event.table_state_set ts ∉ post) ∧
        (rte_swx_ctl_pipeline_commit b ctl abort_on_fail).2.1.ts
          = (commit_stage1 b ctl).ctl.ts_next ∧
        (commit_swap (commit_stage1 b ctl)).ctl.ts_next = ctl.ts ∧
        (rte_swx_ctl_pipeline_commit b ctl abort_on_fail).2.1 =
          ((List.range ctl.tables.length).foldl (commit_after_swap b)
            (commit_swap (commit_stage1 b ctl))).ctl ∧
        (rte_swx_ctl_pipeline_commit b ctl abort_on_fail).2.1.ts_next.length
          = ctl.ts.length) := by
  have h0 := commit_stage0_frame b (List.range ctl.tables.length) { ctl := ctl, log := [] }
  have h1 := foldl_frame rollfwd1_at rollfwd1_at_local (List.range ctl.tables.length)
    (commit_stage0 b (List.range ctl.tables.length) { ctl := ctl, log := [] }).2
  have hlog1 : (commit_stage1 b ctl).log =
      (commit_stage0 b (List.range ctl.tables.length) { ctl := ctl, log := [] }).2.log :=
    (foldl_rollfwd1_tables _ _).2
  have hts1 : (commit_stage1 b ctl).ctl.ts = ctl.ts := h1.2.1.trans h0.2.1
  constructor
  · intro h
    obtain ⟨-, heq⟩ := commit_fail_eq b ctl abort_on_fail h
    have h2 := foldl_frame (commit_rollback b abort_on_fail)
      (commit_rollback_local b abort_on_fail) (List.range ctl.tables.length)
      (commit_stage0 b (List.range ctl.tables.length) { ctl := ctl, log := [] }).2
    rw [heq]
    dsimp only
    exact ⟨calls_only_from_nil (calls_only_trans h0.2.2.2.2 h2.2.2.2.2),
      h2.2.1.trans h0.2.1, h2.2.2.2.1.trans h0.2.2.2.1⟩
  · intro h
    obtain ⟨-, heq⟩ := commit_ok_eq b ctl abort_on_fail h
    have h2 := foldl_frame (commit_after_swap b) (commit_after_swap_local b)
      (List.range ctl.tables.length) (commit_swap (commit_stage1 b ctl))
    obtain ⟨post, hpost, hcalls⟩ := h2.2.2.2.2
    refine ⟨post, ?_, calls_only_from_nil h0.2.2.2.2, ?_, ?_, hts1, ?_, ?_⟩
    · rw [heq]
      dsimp only
      rw [hpost]
      show ((commit_stage1 b ctl).log ++
        [event.table_state_set (commit_stage1 b ctl).ctl.ts_next]) ++ post = _
      rw [hlog1, List.append_assoc]
      rfl
    · intro ts hmem
      exact not_state_set_of_table_id (hcalls _ hmem) ts rfl
    · rw [heq]
      dsimp only
      rw [h2.2.1]
      rfl
    · rw [heq]
    · rw [heq]
      dsimp only
      rw [h2.2.2.2.1]
      show (commit_stage1 b ctl).ctl.ts.length = _
      rw [hts1]

/-- On the concrete controller with a modify, an add and a delete staged and a
backend whose calls all succeed: three backend calls, the swap, and the same
three calls on the other object. -/
theorem commit_swap_once_witness :
    (rte_swx_ctl_pipeline_commit example_backend example_staged false).1 = 0 ∧
    (rte_swx_ctl_pipeline_commit example_backend example_staged false).2.2 =
      [event.add 0 (some 1) (example_entry 3 1) 0,
       event.add 0 (some 1) (example_entry 1 5) 0,
       event.del 0 (some 1) (example_entry 2 1) 0,
       event.table_state_set
         [{ obj := some 1, default_action_data := [0, 0], default_action_id := 0 }],
       event.add 0 (some 2) (example_entry 3 1) 0,
       event.add 0 (some 2) (example_entry 1 5) 0,
       event.del 0 (some 2) (example_entry 2 1) 0] ∧
    ∃ post,
      (rte_swx_ctl_pipeline_commit example_backend example_staged false).2.2 =
        (commit_stage0 example_backend (List.range example_staged.tables.length)
          { ctl := example_staged, log := [] }).2.log ++
          event.table_state_set (commit_stage1 example_backend example_staged).ctl.ts_next
            :: post ∧
      (∀ ts, event.table_state_set ts ∉
        (commit_stage0 example_backend (List.range example_staged.tables.length)
          { ctl := example_staged, log := [] }).2.log) ∧
      (∀ ts, event.table_state_set ts ∉ post) ∧
      (rte_swx_ctl_pipeline_commit example_backend example_staged false).2.1.ts
        = (commit_stage1 example_backend example_staged).ctl.ts_next ∧
      (commit_swap (commit_stage1 example_backend example_staged)).ctl.ts_next
        = example_staged.ts ∧
      (rte_swx_ctl_pipeline_commit example_backend example_staged false).2.1 =
        ((List.range example_staged.tables.length).foldl (commit_after_swap example_backend)
          (commit_swap (commit_stage1 example_backend example_staged))).ctl ∧
      (rte_swx_ctl_pipeline_commit example_backend example_staged false).2.1.ts_next.length
        = example_staged.ts.length :=
  ⟨by decide, by decide,
    (commit_swap_once example_backend example_staged false).2 (by decide)⟩

/-! ## What an entry call does to the tables -/

theorem entry_add_shape (ctl : rte_swx_ctl_pipeline) (table_name : Option String)
    (entry : Option rte_swx_table_entry) (ok : Bool) :
    (rte_swx_ctl_pipeline_table_entry_add ctl table_name entry ok).2 = ctl ∨
    ∃ name i t e n, table_find ctl name = some (i, t) ∧
      table_entry_check ctl.actions t (some e) true true = 0 ∧
      table_entry_duplicate ctl.actions t (some e) true true ok = some n ∧
      (rte_swx_ctl_pipeline_table_entry_add ctl table_name entry ok).2 =
        { ctl with tables := ctl.tables.set i (entry_add_lists t e n) } := by
  unfold rte_swx_ctl_pipeline_table_entry_add
  cases table_name with
  | none => exact Or.inl rfl
  | some name =>
    dsimp only
    split_ifs with hname
    · exact Or.inl rfl
    · cases hf : table_find ctl name with
      | none => exact Or.inl rfl
      | some r =>
        obtain ⟨i, t⟩ := r
        cases entry with
        | none => exact Or.inl rfl
        | some e =>
          dsimp only
          split_ifs with hc
          · exact Or.inl rfl
          · cases hd : table_entry_duplicate ctl.actions t (some e) true true ok with
            | none => exact Or.inl rfl
            | some n => exact Or.inr ⟨name, i, t, e, n, hf, not_not.mp hc, hd, rfl⟩

theorem entry_delete_shape (ctl : rte_swx_ctl_pipeline) (table_name : Option String)
    (entry : Option rte_swx_table_entry) :
    (rte_swx_ctl_pipeline_table_entry_delete ctl table_name entry).2 = ctl ∨
    ∃ name i t e, table_find ctl name = some (i, t) ∧
      table_entry_check ctl.actions t (some e) true false = 0 ∧
      (rte_swx_ctl_pipeline_table_entry_delete ctl table_name entry).2 =
        { ctl with tables := ctl.tables.set i (entry_delete_lists t e).2 } := by
  unfold rte_swx_ctl_pipeline_table_entry_delete
  cases table_name with
  | none => exact Or.inl rfl
  | some name =>
    dsimp only
    split_ifs with hname
    · exact Or.inl rfl
    · cases hf : table_find ctl name with
      | none => exact Or.inl rfl
      | some r =>
        obtain ⟨i, t⟩ := r
        cases entry with
        | none => exact Or.inl rfl
        | some e =>
          dsimp only
          split_ifs with hc
          · exact Or.inl rfl
          · exact Or.inr ⟨name, i, t, e, hf, not_not.mp hc, rfl⟩

theorem default_entry_add_shape (ctl : rte_swx_ctl_pipeline) (table_name : Option String)
    (entry : Option rte_swx_table_entry) (ok : Bool) :
    (rte_swx_ctl_pipeline_table_default_entry_add ctl table_name entry ok).2 = ctl ∨
    ∃ name i t n, table_find ctl name = some (i, t) ∧
      (rte_swx_ctl_pipeline_table_default_entry_add ctl table_name entry ok).2 =
        { ctl with tables := ctl.tables.set i { t with pending_default := some n } } := by
  unfold rte_swx_ctl_pipeline_table_default_entry_add
  cases table_name with
  | none => exact Or.inl rfl
  | some name =>
    dsimp only
    split_ifs with hname
    · exact Or.inl rfl
    · cases hf : table_find ctl name with
      | none => exact Or.inl rfl
      | some r =>
        obtain ⟨i, t⟩ := r
        dsimp only
        split_ifs with hconst
        · exact Or.inl rfl
        · cases entry with
          | none => exact Or.inl rfl
          | some e =>
            dsimp only
            split_ifs with hc
            · exact Or.inl rfl
            · cases hd : table_entry_duplicate ctl.actions t (some e) false true ok with
              | none => exact Or.inl rfl
              | some n => exact Or.inr ⟨name, i, t, n, hf, rfl⟩

/-! ## The committed entries across the calls -/

theorem committed_entry_add_lists (t : table) (e n : rte_swx_table_entry) :
    (committed_entries (entry_add_lists t e n)).Perm (committed_entries t) := by
  unfold committed_entries
  cases h0 : table_entries_find t e with
  | some x =>
    rw [entry_add_lists_in_entries t e n x h0]
    obtain ⟨pre, post, hl, -, -, her, -⟩ := find_key_split h0
    dsimp only
    rw [her, hl, List.perm_iff_count]
    intro a
    simp only [List.count_append, List.count_cons, List.count_nil]
    omega
  | none =>
    cases h1 : table_pending_add_find t e with
    | some x =>
      rw [entry_add_lists_in_pending_add t e n x h0 h1]
    | none =>
      cases h2 : table_pending_modify1_find t e with
      | some x =>
        rw [entry_add_lists_in_pending_modify1 t e n x h0 h1 h2]
      | none =>
        cases h3 : table_pending_delete_find t e with
        | some x =>
          rw [entry_add_lists_in_pending_delete t e n x h0 h1 h2 h3]
          obtain ⟨pre, post, hl, -, -, her, -⟩ := find_key_split h3
          dsimp only
          rw [her, hl, List.perm_iff_count]
          intro a
          simp only [List.count_append, List.count_cons, List.count_nil]
          omega
        | none =>
          rw [entry_add_lists_absent t e n h0 h1 h2 h3]

theorem committed_entry_delete_lists (t : table) (e : rte_swx_table_entry) :
    (committed_entries (entry_delete_lists t e).2).Perm (committed_entries t) := by
  unfold committed_entries
  cases h0 : table_entries_find t e with
  | some x =>
    rw [entry_delete_lists_in_entries t e x h0]
    obtain ⟨pre, post, hl, -, -, her, -⟩ := find_key_split h0
    dsimp only
    rw [her, hl, List.perm_iff_count]
    intro a
    simp only [List.count_append, List.count_cons, List.count_nil]
    omega
  | none =>
    unfold entry_delete_lists
    rw [h0]
    dsimp only
    cases h1 : table_pending_add_find t e <;> dsimp only <;>
      cases h2 : t.pending_modify1.find? (key_equal t.params e) <;>
      simp only [table_pending_modify1_find, h2] <;>
      try exact List.Perm.refl _
    all_goals
      cases h3 : t.pending_modify0.find? (key_equal t.params e) <;>
        simp only [table_pending_modify0_find, h3] <;>
        try exact List.Perm.refl _
    all_goals
      obtain ⟨pre, post, hl, -, -, her, -⟩ := find_key_split h3
      rw [her, hl, List.perm_iff_count]
      intro a
      simp only [List.count_append, List.count_cons, List.count_nil]
      omega

theorem committed_inv_set (ctl : rte_swx_ctl_pipeline) (snap : List (List rte_swx_table_entry))
    (i : Nat) (t u : table) (h : committed_inv ctl snap) (ht : ctl.tables[i]? = some t)
    (hu : (committed_entries u).Perm (committed_entries t)) :
    committed_inv { ctl with tables := ctl.tables.set i u } snap := by
  obtain ⟨hlen, hall⟩ := h
  refine ⟨by simpa using hlen, fun k v hv => ?_⟩
  dsimp only at hv
  by_cases hk : i = k
  · subst hk
    rw [getElem?_set_self_of_some ht] at hv
    cases hv
    obtain ⟨l, hl, hp⟩ := hall i t ht
    exact ⟨l, hl, hu.trans hp⟩
  · rw [List.getElem?_set_ne hk] at hv
    exact hall k v hv

theorem committed_inv_of_tables (ctl ctl' : rte_swx_ctl_pipeline)
    (snap : List (List rte_swx_table_entry)) (h : committed_inv ctl snap)
    (hlen : ctl'.tables.length = ctl.tables.length)
    (hall : ∀ (i : Nat) (t : table), ctl.tables[i]? = some t →
      ∃ u, ctl'.tables[i]? = some u ∧ (committed_entries u).Perm (committed_entries t)) :
    committed_inv ctl' snap := by
  obtain ⟨hl, hsnap⟩ := h
  refine ⟨hl.trans hlen.symm, fun i u hu => ?_⟩
  have hi : i < ctl.tables.length := by
    rw [← hlen]
    exact (List.getElem?_eq_some_iff.mp hu).1
  obtain ⟨u', hu', hp⟩ := hall i ctl.tables[i] (List.getElem?_eq_getElem hi)
  rw [hu] at hu'
  cases hu'
  obtain ⟨l, hl', hp'⟩ := hsnap i ctl.tables[i] (List.getElem?_eq_getElem hi)
  exact ⟨l, hl', hp.trans hp'⟩

theorem committed_table_abort (t r : table) (h : same_up_to_counters t r) :
    committed_entries (table_abort r) = committed_entries t ∧
    nothing_staged (table_abort r) ∧ (table_abort r).pending_default = none ∧
    (table_abort r).entries = committed_entries t := by
  obtain ⟨-, he, -, h0, -, hd, -, -, -, -⟩ := same_up_to_counters_fields h
  unfold committed_entries table_abort nothing_staged
  dsimp only
  rw [he, h0, hd]
  simp

theorem committed_inv_commit (b : backend) (ctl : rte_swx_ctl_pipeline) (abort_on_fail : Bool)
    (snap : List (List rte_swx_table_entry)) (h : committed_inv ctl snap) :
    committed_inv (rte_swx_ctl_pipeline_commit b ctl abort_on_fail).2.1
      (if (rte_swx_ctl_pipeline_commit b ctl abort_on_fail).1 = 0
        then (rte_swx_ctl_pipeline_commit b ctl abort_on_fail).2.1.tables.map (fun t => t.entries)
        else snap) := by
  by_cases hst : (rte_swx_ctl_pipeline_commit b ctl abort_on_fail).1 = 0
  · rw [if_pos hst]
    refine ⟨by simp, fun i u hu => ?_⟩
    have hi : i < ctl.tables.length := by
      rw [← (commit_tables_length b ctl abort_on_fail).1]
      exact (List.getElem?_eq_some_iff.mp hu).1
    obtain ⟨r, -, hr⟩ := commit_ok_table b ctl abort_on_fail hst i ctl.tables[i]
      (List.getElem?_eq_getElem hi)
    rw [hu] at hr
    cases hr
    refine ⟨(table_rollfwd2 r).entries, ?_, ?_⟩
    · rw [List.getElem?_map, hu]
      rfl
    · unfold committed_entries table_rollfwd2
      simp
  · rw [if_neg hst]
    refine committed_inv_of_tables ctl _ snap h (commit_tables_length b ctl abort_on_fail).1
      (fun i t ht => ?_)
    obtain ⟨r, hsame, hr⟩ := commit_fail_table b ctl abort_on_fail hst i t ht
    refine ⟨_, hr, ?_⟩
    cases abort_on_fail with
    | true =>
      rw [if_pos rfl, (committed_table_abort t r hsame).1]
    | false =>
      rw [if_neg (by decide)]
      obtain ⟨-, he, -, h0, -, hd, -, -, -, -⟩ := same_up_to_counters_fields hsame
      unfold committed_entries
      rw [he, h0, hd]

theorem committed_inv_abort (ctl : rte_swx_ctl_pipeline)
    (snap : List (List rte_swx_table_entry)) (h : committed_inv ctl snap) :
    committed_inv (rte_swx_ctl_pipeline_abort ctl) snap := by
  rw [abort_eq_map]
  refine committed_inv_of_tables ctl _ snap h (by simp) (fun i t ht => ?_)
  refine ⟨table_abort t, ?_, ?_⟩
  · dsimp only
    rw [List.getElem?_map, ht]
    rfl
  · rw [(committed_table_abort t t (same_up_to_counters_refl t)).1]

theorem committed_inv_step (ctl : rte_swx_ctl_pipeline) (op : ctl_op)
    (snap : List (List rte_swx_table_entry)) (h : committed_inv ctl snap) :
    committed_inv (ctl_step ctl op) (ctl_run_committed ctl snap [op]) := by
  cases op with
  | entry_add table_name entry ok =>
    show committed_inv (rte_swx_ctl_pipeline_table_entry_add ctl table_name entry ok).2 snap
    rcases entry_add_shape ctl table_name entry ok with heq | ⟨name, i, t, e, n, hf, -, -, heq⟩
    · rw [heq]; exact h
    · rw [heq]
      exact committed_inv_set ctl snap i t _ h (table_find_spec ctl name i t hf).1
        (committed_entry_add_lists t e n)
  | entry_delete table_name entry =>
    show committed_inv (rte_swx_ctl_pipeline_table_entry_delete ctl table_name entry).2 snap
    rcases entry_delete_shape ctl table_name entry with heq | ⟨name, i, t, e, hf, -, heq⟩
    · rw [heq]; exact h
    · rw [heq]
      exact committed_inv_set ctl snap i t _ h (table_find_spec ctl name i t hf).1
        (committed_entry_delete_lists t e)
  | default_entry_add table_name entry ok =>
    show committed_inv
      (rte_swx_ctl_pipeline_table_default_entry_add ctl table_name entry ok).2 snap
    rcases default_entry_add_shape ctl table_name entry ok with heq | ⟨name, i, t, n, hf, heq⟩
    · rw [heq]; exact h
    · rw [heq]
      exact committed_inv_set ctl snap i t _ h (table_find_spec ctl name i t hf).1
        (List.Perm.refl _)
  | commit b abort_on_fail => exact committed_inv_commit b ctl abort_on_fail snap h
  | abort => exact committed_inv_abort ctl snap h

theorem ctl_run_committed_cons (ctl : rte_swx_ctl_pipeline) (op : ctl_op) (ops : List ctl_op)
    (snap : List (List rte_swx_table_entry)) :
    ctl_run_committed ctl snap (op :: ops) =
      ctl_run_committed (ctl_step ctl op) (ctl_run_committed ctl snap [op]) ops := by
  cases op <;> rfl

theorem committed_inv_run (ops : List ctl_op) (ctl : rte_swx_ctl_pipeline)
    (snap : List (List rte_swx_table_entry)) (h : committed_inv ctl snap) :
    committed_inv (ctl_run ctl ops) (ctl_run_committed ctl snap ops) := by
  induction ops generalizing ctl snap with
  | nil => exact h
  | cons op ops ih =>
    rw [ctl_run_committed_cons]
    exact ih (ctl_step ctl op) _ (committed_inv_step ctl op snap h)

theorem committed_inv_init (ctl : rte_swx_ctl_pipeline) (h : tables_empty ctl) :
    committed_inv ctl (ctl.tables.map (fun t => t.entries)) := by
  refine ⟨by simp, fun i t ht => ⟨t.entries, ?_, ?_⟩⟩
  · rw [List.getElem?_map, ht]
    rfl
  · obtain ⟨-, -, h0, -, hd, -⟩ := h t (mem_of_getElem?_some ht)
    unfold committed_entries
    rw [h0, hd]
    simp

/-- Claim C26.  Let a controller whose tables are empty go through any sequence
of entry adds, entry deletes, default-entry adds, commits and aborts.  After
`rte_swx_ctl_pipeline_abort`, and after a `rte_swx_ctl_pipeline_commit` with
`abort_on_fail = 1` that fails, every table has `pending_add`,
`pending_modify0`, `pending_modify1` and `pending_delete` empty and no pending
default, and its `entries` list is a permutation of the `entries` list as it was
right after the last successful commit of the sequence (as it was at the start,
when there is none): the same entries, with the action data they had then. -/
theorem abort_restores_committed (ctl0 : rte_swx_ctl_pipeline) (ops : List ctl_op)
    (h : tables_empty ctl0) :
    (∀ (i : Nat) (u : table),
      (rte_swx_ctl_pipeline_abort (ctl_run ctl0 ops)).tables[i]? = some u →
      nothing_staged u ∧ u.pending_default = none ∧
      ∃ l, (ctl_run_committed ctl0 (ctl0.tables.map (fun t => t.entries)) ops)[i]? = some l ∧
        u.entries.Perm l) ∧
    (∀ b : backend, (rte_swx_ctl_pipeline_commit b (ctl_run ctl0 ops) true).1 ≠ 0 →
      ∀ (i : Nat) (u : table),
        (rte_swx_ctl_pipeline_commit b (ctl_run ctl0 ops) true).2.1.tables[i]? = some u →
        nothing_staged u ∧ u.pending_default = none ∧
        ∃ l, (ctl_run_committed ctl0 (ctl0.tables.map (fun t => t.entries)) ops)[i]? = some l ∧
          u.entries.Perm l) := by
  obtain ⟨-, hinv⟩ := committed_inv_run ops ctl0 _ (committed_inv_init ctl0 h)
  constructor
  · intro i u hu
    rw [abort_eq_map] at hu
    dsimp only at hu
    rw [List.getElem?_map] at hu
    cases ht : (ctl_run ctl0 ops).tables[i]? with
    | none => rw [ht] at hu; cases hu
    | some t =>
      rw [ht] at hu
      cases hu
      obtain ⟨-, hns, hpd, hent⟩ := committed_table_abort t t (same_up_to_counters_refl t)
      obtain ⟨l, hl, hp⟩ := hinv i t ht
      exact ⟨hns, hpd, l, hl, hent ▸ hp⟩
  · intro b hfail i u hu
    have hi : i < (ctl_run ctl0 ops).tables.length := by
      rw [← (commit_tables_length b (ctl_run ctl0 ops) true).1]
      exact (List.getElem?_eq_some_iff.mp hu).1
    have ht := List.getElem?_eq_getElem hi
    obtain ⟨r, hsame, hr⟩ := commit_fail_table b (ctl_run ctl0 ops) true hfail i _ ht
    rw [hu, if_pos rfl] at hr
    cases hr
    obtain ⟨-, hns, hpd, hent⟩ := committed_table_abort _ r hsame
    obtain ⟨l, hl, hp⟩ := hinv i _ ht
    exact ⟨hns, hpd, l, hl, hent ▸ hp⟩

/-- Starting from the concrete controller, two keys are installed, then a modify,
an add and a delete are staged: after an abort the two installed entries are
back in `entries`. -/
theorem abort_restores_committed_witness :
    tables_empty example_ctl ∧
    ctl_run_committed example_ctl (example_ctl.tables.map (fun t => t.entries))
        (example_install_ops ++ example_stage_ops) =
      [[example_entry 1 1, example_entry 2 1]] ∧
    (table0 (rte_swx_ctl_pipeline_abort
      (ctl_run example_ctl (example_install_ops ++ example_stage_ops)))).entries =
      [example_entry 1 1, example_entry 2 1] ∧
    (∀ (i : Nat) (u : table),
      (rte_swx_ctl_pipeline_abort
        (ctl_run example_ctl (example_install_ops ++ example_stage_ops))).tables[i]? = some u →
      nothing_staged u ∧ u.pending_default = none ∧
      ∃ l, (ctl_run_committed example_ctl (example_ctl.tables.map (fun t => t.entries))
          (example_install_ops ++ example_stage_ops))[i]? = some l ∧
        u.entries.Perm l) ∧
    (∀ b : backend, (rte_swx_ctl_pipeline_commit b
        (ctl_run example_ctl (example_install_ops ++ example_stage_ops)) true).1 ≠ 0 →
      ∀ (i : Nat) (u : table),
        (rte_swx_ctl_pipeline_commit b
          (ctl_run example_ctl (example_install_ops ++ example_stage_ops)) true).2.1.tables[i]?
          = some u →
        nothing_staged u ∧ u.pending_default = none ∧
        ∃ l, (ctl_run_committed example_ctl (example_ctl.tables.map (fun t => t.entries))
            (example_install_ops ++ example_stage_ops))[i]? = some l ∧
          u.entries.Perm l) :=
  ⟨by unfold tables_empty; decide, by decide, by decide,
    abort_restores_committed example_ctl (example_install_ops ++ example_stage_ops)
      (by unfold tables_empty; decide)⟩

/-! ## The calls of a rollback -/

/-- Claim C30 fails on the code.  With two keys staged for add in one
incremental table and the second `add` failing, the rollback issues one `del`,
of the first key, as the claim says.  But on a controller with two incremental
tables, after a successful commit that added one key to table 1 (which leaves
`n_add = 1` in table 1), let one key be staged for add in table 0 and one in
table 1, and let the `add` for table 0 fail: the loop before the swap makes
that one call and never reaches table 1, yet the rollback calls `del` for the
key staged in table 1, because `table_rollback` reads the counter `n_add` that
the earlier commit left. -/
theorem rollback_calls_unreached_table :
    (rte_swx_ctl_pipeline_commit example_backend_one_add example_two_adds false).2.2 =
      [event.add 0 (some 2) (example_entry 1 1) 0,
       event.add 0 (some 2) (example_entry 2 1) (-ENOMEM),
       event.del 0 (some 2) (example_entry 1 1) 0] ∧
    tables_empty example_ctl2 ∧
    (ctl_run example_ctl2 example_stale_ops).tables.map
        (fun t => (t.pending_add, t.n_add, t.ops_add, t.is_stub)) =
      [([example_entry 2 1], 0, true, false), ([example_entry 3 1], 1, true, false)] ∧
    (commit_stage0 example_backend_table0_fails
        (List.range (ctl_run example_ctl2 example_stale_ops).tables.length)
        { ctl := ctl_run example_ctl2 example_stale_ops, log := [] }).1 = -ENOMEM ∧
    (commit_stage0 example_backend_table0_fails
        (List.range (ctl_run example_ctl2 example_stale_ops).tables.length)
        { ctl := ctl_run example_ctl2 example_stale_ops, log := [] }).2.log =
      [event.add 0 (some 1) (example_entry 2 1) (-ENOMEM)] ∧
    (rte_swx_ctl_pipeline_commit example_backend_table0_fails
        (ctl_run example_ctl2 example_stale_ops) false).1 = -ENOMEM ∧
    (rte_swx_ctl_pipeline_commit example_backend_table0_fails
        (ctl_run example_ctl2 example_stale_ops) false).2.2 =
      [event.add 0 (some 1) (example_entry 2 1) (-ENOMEM),
       event.del 1 (some 3) (example_entry 3 1) 0] := by
  refine ⟨by decide, by unfold tables_empty; decide, by decide, by decide, by decide,
    by decide, by decide⟩

/-! ## The `ts_next` element through the functions of a commit -/

theorem table_is_update_pending_same {t u : table} (h : same_up_to_counters t u)
    (f : Bool) : table_is_update_pending u f = table_is_update_pending t f := by
  obtain ⟨-, -, ha, -, h1, hd, hf, -, -, -⟩ := same_up_to_counters_fields h
  unfold table_is_update_pending
  rw [ha, h1, hd, hf]

theorem local_view_parts {i : Nat} {s : commit_state} {t : table}
    {ts ts_next : rte_swx_table_state} {L : List event}
    (hv : local_view i s = (some t, some ts, some ts_next, L)) :
    s.ctl.tables[i]? = some t ∧ s.ctl.ts[i]? = some ts ∧ s.ctl.ts_next[i]? = some ts_next ∧
      log_of i s.log = L := by
  unfold local_view at hv
  simp only [Prod.mk.injEq] at hv
  exact hv

theorem getElem?_set_self_state {l : List rte_swx_table_state} {i : Nat}
    {x y : rte_swx_table_state} (h : l[i]? = some x) : (l.set i y)[i]? = some y := by
  rw [List.getElem?_set_self (List.getElem?_eq_some_iff.mp h).1]

theorem log_of_appends {i : Nat} {log log' : List event} (h : log_appends i log log') :
    log_of i log' = log_of i log ++ log'.drop log.length := by
  obtain ⟨extra, hlog, hextra⟩ := h
  rw [hlog, log_of_append, log_of_same i extra hextra, List.drop_left]

theorem rollfwd0_at_view (b : backend) (after_swap : Bool) (s : commit_state) (i : Nat)
    (t : table) (ts ts_next : rte_swx_table_state) (L : List event)
    (hv : local_view i s = (some t, some ts, some ts_next, L)) :
    (rollfwd0_at b after_swap s i).1 =
      (table_rollfwd0 b s.ctl.actions i t ts ts_next after_swap s.log).1 ∧
    local_view i (rollfwd0_at b after_swap s i).2 =
      (some (table_rollfwd0 b s.ctl.actions i t ts ts_next after_swap s.log).2.1, some ts,
        some (table_rollfwd0 b s.ctl.actions i t ts ts_next after_swap s.log).2.2.1,
        L ++ (table_rollfwd0 b s.ctl.actions i t ts ts_next after_swap s.log).2.2.2.drop
          s.log.length) := by
  obtain ⟨h1, h2, h3, h4⟩ := local_view_parts hv
  have happ := table_rollfwd0_appends b s.ctl.actions i t ts ts_next after_swap s.log
  unfold rollfwd0_at
  rw [h1, h2, h3]
  dsimp only
  refine ⟨rfl, ?_⟩
  unfold local_view
  dsimp only
  rw [getElem?_set_self_of_some h1, getElem?_set_self_state h3, h2, log_of_appends happ, h4]

theorem rollfwd1_at_view (s : commit_state) (i : Nat)
    (t : table) (ts ts_next : rte_swx_table_state) (L : List event)
    (hv : local_view i s = (some t, some ts, some ts_next, L)) :
    local_view i (rollfwd1_at s i) =
      (some t, some ts, some (table_rollfwd1 s.ctl.actions t ts_next), L) := by
  obtain ⟨h1, h2, h3, h4⟩ := local_view_parts hv
  unfold rollfwd1_at
  rw [h1, h3]
  dsimp only
  unfold local_view
  dsimp only
  rw [getElem?_set_self_state h3, h1, h2, h4]

theorem rollfwd2_at_view (s : commit_state) (i : Nat)
    (t : table) (ts ts_next : rte_swx_table_state) (L : List event)
    (hv : local_view i s = (some t, some ts, some ts_next, L)) :
    local_view i (rollfwd2_at s i) = (some (table_rollfwd2 t), some ts, some ts_next, L) := by
  obtain ⟨h1, h2, h3, h4⟩ := local_view_parts hv
  unfold rollfwd2_at
  rw [h1]
  dsimp only
  unfold local_view
  dsimp only
  rw [getElem?_set_self_of_some h1, h2, h3, h4]

theorem commit_swap_view (s : commit_state) (i : Nat)
    (t : table) (ts ts_next : rte_swx_table_state) (L : List event)
    (hv : local_view i s = (some t, some ts, some ts_next, L)) :
    local_view i (commit_swap s) = (some t, some ts_next, some ts, L) := by
  obtain ⟨h1, h2, h3, h4⟩ := local_view_parts hv
  unfold commit_swap local_view
  dsimp only
  rw [h1, h2, h3, log_of_append, h4]
  have : log_of i [event.table_state_set s.ctl.ts_next] = [] := by
    unfold log_of
    rfl
  rw [this, List.append_nil]

/-! ## One table through a successful commit -/

theorem local_view_init (ctl : rte_swx_ctl_pipeline) (i : Nat) (t : table)
    (ts ts_next : rte_swx_table_state) (ht : ctl.tables[i]? = some t)
    (hts : ctl.ts[i]? = some ts) (htsn : ctl.ts_next[i]? = some ts_next) :
    local_view i { ctl := ctl, log := [] } = (some t, some ts, some ts_next, []) := by
  unfold local_view
  dsimp only
  rw [ht, hts, htsn]
  rfl

/-- What a successful commit leaves for table `i`: the table, its `ts` and
`ts_next` elements and the backend calls made for it, in terms of the two calls
of `table_rollfwd0` (before the swap, with the calls `log₁` made so far, and
after it, with `log₂`). -/
theorem commit_ok_view (b : backend) (ctl : rte_swx_ctl_pipeline) (abort_on_fail : Bool)
    (hok : (rte_swx_ctl_pipeline_commit b ctl abort_on_fail).1 = 0) (i : Nat) (t : table)
    (ts ts_next : rte_swx_table_state) (ht : ctl.tables[i]? = some t)
    (hts : ctl.ts[i]? = some ts) (htsn : ctl.ts_next[i]? = some ts_next) :
    ∃ (log₁ log₂ : List event) (r₁ r₂ : Int × table × rte_swx_table_state × List event)
      (ts_next₂ : rte_swx_table_state),
      r₁ = table_rollfwd0 b ctl.actions i t ts ts_next false log₁ ∧ r₁.1 = 0 ∧
      ts_next₂ = table_rollfwd1 ctl.actions r₁.2.1 r₁.2.2.1 ∧
      r₂ = table_rollfwd0 b ctl.actions i r₁.2.1 ts_next₂ ts true log₂ ∧
      log_of i (commit_stage0 b (List.range ctl.tables.length)
        { ctl := ctl, log := [] }).2.log = r₁.2.2.2.drop log₁.length ∧
      local_view i ((List.range ctl.tables.length).foldl (commit_after_swap b)
          (commit_swap (commit_stage1 b ctl))) =
        (some (table_rollfwd2 r₂.2.1), some ts_next₂,
          some (table_rollfwd1 ctl.actions r₂.2.1 r₂.2.2.1),
          r₁.2.2.2.drop log₁.length ++ r₂.2.2.2.drop log₂.length) := by
  obtain ⟨h0, -⟩ := commit_ok_eq b ctl abort_on_fail hok
  have hi : i < ctl.tables.length := (List.getElem?_eq_some_iff.mp ht).1
  have hinit := local_view_init ctl i t ts ts_next ht hts htsn
  have hframe0 := commit_stage0_frame b (List.range ctl.tables.length) { ctl := ctl, log := [] }
  -- the loop before the swap
  rcases commit_stage0_view b i ctl.tables.length hi { ctl := ctl, log := [] } with
    ⟨-, hne⟩ | ⟨s₁, hv₁, ha₁, hview₁, hst₁⟩
  · exact absurd h0 hne
  have hA := rollfwd0_at_view b false s₁ i t ts ts_next [] (hv₁.trans hinit)
  rw [ha₁] at hA
  dsimp only at hA
  have hstage0 : local_view i (commit_stage0 b (List.range ctl.tables.length)
      { ctl := ctl, log := [] }).2 =
      (some (table_rollfwd0 b ctl.actions i t ts ts_next false s₁.log).2.1, some ts,
        some (table_rollfwd0 b ctl.actions i t ts ts_next false s₁.log).2.2.1,
        (table_rollfwd0 b ctl.actions i t ts ts_next false s₁.log).2.2.2.drop s₁.log.length) := by
    rw [hview₁, hA.2, List.nil_append]
  -- the loop of `table_rollfwd1`
  obtain ⟨s₂, hv₂, ha₂, hview₂, -⟩ := foldl_range_view rollfwd1_at rollfwd1_at_local i
    ctl.tables.length hi
    (commit_stage0 b (List.range ctl.tables.length) { ctl := ctl, log := [] }).2
  have hB := rollfwd1_at_view s₂ i _ _ _ _ (hv₂.trans hstage0)
  rw [ha₂, hframe0.1] at hB
  dsimp only at hB
  have hstage1 : local_view i (commit_stage1 b ctl) = _ := hview₂.trans hB
  -- the swap
  have hswap := commit_swap_view (commit_stage1 b ctl) i _ _ _ _ hstage1
  have hact1 : (commit_swap (commit_stage1 b ctl)).ctl.actions = ctl.actions := by
    show (commit_stage1 b ctl).ctl.actions = _
    exact (foldl_frame rollfwd1_at rollfwd1_at_local _ _).1.trans hframe0.1
  -- the loop after the swap
  obtain ⟨s₃, hv₃, ha₃, hview₃, -⟩ := foldl_range_view (commit_after_swap b)
    (commit_after_swap_local b) i ctl.tables.length hi (commit_swap (commit_stage1 b ctl))
  have hC0 := rollfwd0_at_view b true s₃ i _ _ _ _ (hv₃.trans hswap)
  rw [ha₃, hact1] at hC0
  have hC1 := rollfwd1_at_view (rollfwd0_at b true s₃ i).2 i _ _ _ _ hC0.2
  rw [(rollfwd0_at_local b true s₃ i).1, ha₃, hact1] at hC1
  have hC2 := rollfwd2_at_view (rollfwd1_at (rollfwd0_at b true s₃ i).2 i) i _ _ _ _ hC1
  refine ⟨s₁.log, s₃.log, _, _, _, rfl, ?_, rfl, rfl, ?_, ?_⟩
  · rw [← hA.1]
    exact hst₁ h0
  · have := congrArg (fun v => v.2.2.2) hstage0
    exact this
  · rw [hview₃]
    exact hC2

/-! ## The backend calls of `table_rollfwd0` for an incremental table -/

theorem calls_spec_nil (obj : Option Nat) : calls_spec obj [] 0 [] :=
  ⟨fun _ h => absurd h (List.not_mem_nil _), List.prefix_refl _,
    fun _ => ⟨rfl, fun _ h => absurd h (List.not_mem_nil _)⟩, fun h => absurd rfl h⟩

theorem calls_spec_all_zero {obj : Option Nat} {calls : List (Bool × rte_swx_table_entry)}
    {status : Int} {extra : List event} (h : calls_spec obj calls status extra)
    (hz : ∀ ev ∈ extra, event_status ev = 0) : extra.filterMap call_of = calls := by
  by_cases hs : status = 0
  · exact (h.2.2.1 hs).1
  · obtain ⟨ev, hev, hne⟩ := h.2.2.2 hs
    exact absurd (hz ev hev) hne

/-- A first group of calls that stopped at a failing call. -/
theorem calls_spec_stop {obj : Option Nat} {c₁ : List (Bool × rte_swx_table_entry)}
    {status : Int} {e₁ : List event} (c₂ : List (Bool × rte_swx_table_entry))
    (h : calls_spec obj c₁ status e₁) (hs : status ≠ 0) :
    calls_spec obj (c₁ ++ c₂) status e₁ :=
  ⟨h.1, h.2.1.trans (List.prefix_append _ _), fun h0 => absurd h0 hs, fun _ => h.2.2.2 hs⟩

/-- A first group of calls that all succeeded, followed by a second group. -/
theorem calls_spec_seq {obj : Option Nat} {c₁ c₂ : List (Bool × rte_swx_table_entry)}
    {st₁ st₂ : Int} {e₁ e₂ : List event} (h₁ : calls_spec obj c₁ st₁ e₁) (hs : st₁ = 0)
    (h₂ : calls_spec obj c₂ st₂ e₂) : calls_spec obj (c₁ ++ c₂) st₂ (e₁ ++ e₂) := by
  obtain ⟨hfull, hzero⟩ := h₁.2.2.1 hs
  refine ⟨fun ev hev => ?_, ?_, fun h0 => ⟨?_, fun ev hev => ?_⟩, fun hne => ?_⟩
  · rcases List.mem_append.mp hev with h | h
    · exact h₁.1 ev h
    · exact h₂.1 ev h
  · rw [List.filterMap_append, hfull]
    exact (List.prefix_append_right_inj c₁).mpr h₂.2.1
  · rw [List.filterMap_append, hfull, (h₂.2.2.1 h0).1]
  · rcases List.mem_append.mp hev with h | h
    · exact hzero ev h
    · exact (h₂.2.2.1 h0).2 ev h
  · obtain ⟨ev, hev, hbad⟩ := h₂.2.2.2 hne
    exact ⟨ev, List.mem_append_right _ hev, hbad⟩

theorem apply_calls_spec (b : backend) (is_add : Bool) (table_id : Nat) (obj : Option Nat)
    (l : List rte_swx_table_entry) (log : List event) (n : Nat) :
    ∃ extra, (apply_calls b is_add table_id obj l log n).2.1 = log ++ extra ∧
      calls_spec obj (l.map (fun e => (is_add, e)))
        (apply_calls b is_add table_id obj l log n).1 extra := by
  induction l generalizing log n with
  | nil =>
    refine ⟨[], (List.append_nil log).symm, ?_⟩
    exact calls_spec_nil obj
  | cons entry rest ih =>
    cases is_add with
    | true =>
      unfold apply_calls
      dsimp only
      simp only [↓reduceIte]
      by_cases hst : b.add log table_id obj entry ≠ 0
      · rw [if_pos hst]
        refine ⟨[event.add table_id obj entry (b.add log table_id obj entry)], rfl, ?_⟩
        refine ⟨fun ev hev => ?_, ?_, fun h0 => absurd h0 hst, fun _ => ⟨_, List.mem_singleton.mpr rfl, hst⟩⟩
        · rw [List.mem_singleton.mp hev]; rfl
        · exact ⟨rest.map (fun e => (true, e)), rfl⟩
      · rw [if_neg hst]
        obtain ⟨extra, hlog, hspec⟩ := ih
          (log ++ [event.add table_id obj entry (b.add log table_id obj entry)]) (uadd32 n 1)
        refine ⟨event.add table_id obj entry (b.add log table_id obj entry) :: extra, ?_, ?_⟩
        · rw [hlog, List.append_assoc]; rfl
        · have h1 : calls_spec obj [(true, entry)] 0
              [event.add table_id obj entry (b.add log table_id obj entry)] := by
            refine ⟨fun ev hev => ?_, List.prefix_refl _, fun _ => ⟨rfl, fun ev hev => ?_⟩,
              fun h => absurd rfl h⟩
            · rw [List.mem_singleton.mp hev]; rfl
            · rw [List.mem_singleton.mp hev]; exact not_not.mp hst
          exact calls_spec_seq h1 rfl hspec
    | false =>
      unfold apply_calls
      dsimp only
      simp only [Bool.false_eq_true, ↓reduceIte]
      by_cases hst : b.del log table_id obj entry ≠ 0
      · rw [if_pos hst]
        refine ⟨[event.del table_id obj entry (b.del log table_id obj entry)], rfl, ?_⟩
        refine ⟨fun ev hev => ?_, ?_, fun h0 => absurd h0 hst, fun _ => ⟨_, List.mem_singleton.mpr rfl, hst⟩⟩
        · rw [List.mem_singleton.mp hev]; rfl
        · exact ⟨rest.map (fun e => (false, e)), rfl⟩
      · rw [if_neg hst]
        obtain ⟨extra, hlog, hspec⟩ := ih
          (log ++ [event.del table_id obj entry (b.del log table_id obj entry)]) (uadd32 n 1)
        refine ⟨event.del table_id obj entry (b.del log table_id obj entry) :: extra, ?_, ?_⟩
        · rw [hlog, List.append_assoc]; rfl
        · have h1 : calls_spec obj [(false, entry)] 0
              [event.del table_id obj entry (b.del log table_id obj entry)] := by
            refine ⟨fun ev hev => ?_, List.prefix_refl _, fun _ => ⟨rfl, fun ev hev => ?_⟩,
              fun h => absurd rfl h⟩
            · rw [List.mem_singleton.mp hev]; rfl
            · rw [List.mem_singleton.mp hev]; exact not_not.mp hst
          exact calls_spec_seq h1 rfl hspec

theorem table_rollfwd0_calls (b : backend) (ctl_actions : List action) (table_id : Nat)
    (t : table) (ts ts_next : rte_swx_table_state) (after_swap : Bool) (log : List event)
    (ho : t.ops_add = true) :
    ∃ extra, (table_rollfwd0 b ctl_actions table_id t ts ts_next after_swap log).2.2.2
        = log ++ extra ∧
      calls_spec ts_next.obj (staged_calls t)
        (table_rollfwd0 b ctl_actions table_id t ts ts_next after_swap log).1 extra := by
  unfold table_rollfwd0 staged_calls
  by_cases h : t.is_stub = true ∨ table_is_update_pending t false = 0
  · rw [if_pos h, if_pos h]
    exact ⟨[], (List.append_nil log).symm, calls_spec_nil _⟩
  · rw [if_neg h, if_neg h, if_pos ho]
    dsimp only
    obtain ⟨e₁, hl₁, hs₁⟩ := apply_calls_spec b true table_id ts_next.obj t.pending_add log 0
    by_cases h1 : (apply_calls b true table_id ts_next.obj t.pending_add log 0).1 ≠ 0
    · rw [if_pos h1]
      refine ⟨e₁, hl₁, ?_⟩
      rw [List.append_assoc]
      exact calls_spec_stop _ hs₁ h1
    · rw [if_neg h1]
      obtain ⟨e₂, hl₂, hs₂⟩ := apply_calls_spec b true table_id ts_next.obj t.pending_modify1
        (apply_calls b true table_id ts_next.obj t.pending_add log 0).2.1 0
      have hs₁₂ := calls_spec_seq hs₁ (not_not.mp h1) hs₂
      by_cases h2 : (apply_calls b true table_id ts_next.obj t.pending_modify1
          (apply_calls b true table_id ts_next.obj t.pending_add log 0).2.1 0).1 ≠ 0
      · rw [if_pos h2]
        refine ⟨e₁ ++ e₂, ?_, calls_spec_stop _ hs₁₂ h2⟩
        dsimp only
        rw [hl₂, hl₁, List.append_assoc]
      · rw [if_neg h2]
        obtain ⟨e₃, hl₃, hs₃⟩ := apply_calls_spec b false table_id ts_next.obj t.pending_delete
          (apply_calls b true table_id ts_next.obj t.pending_modify1
            (apply_calls b true table_id ts_next.obj t.pending_add log 0).2.1 0).2.1 0
        refine ⟨(e₁ ++ e₂) ++ e₃, ?_, calls_spec_seq hs₁₂ (not_not.mp h2) hs₃⟩
        dsimp only
        rw [hl₃, hl₂, hl₁, List.append_assoc, List.append_assoc, List.append_assoc]

theorem staged_calls_same {t u : table} (h : same_up_to_counters t u) :
    staged_calls u = staged_calls t := by
  obtain ⟨-, -, ha, -, h1, hd, -, hs, -, -⟩ := same_up_to_counters_fields h
  unfold staged_calls
  rw [table_is_update_pending_same h, ha, h1, hd, hs]

/-! ## Equivalence of `ts` and `ts_next` -/

theorem entry_add_lists_static (t : table) (e n : rte_swx_table_entry) :
    (entry_add_lists t e n).is_stub = t.is_stub ∧ (entry_add_lists t e n).ops_add = t.ops_add := by
  unfold entry_add_lists
  split
  · exact ⟨rfl, rfl⟩
  · split
    · exact ⟨rfl, rfl⟩
    · split
      · exact ⟨rfl, rfl⟩
      · split <;> exact ⟨rfl, rfl⟩

theorem create_object_appends (b : backend) (j : Nat) (t : table)
    (ts_next : rte_swx_table_state) (log : List event) :
    log_appends j log
      (if ¬ t.is_stub ∧ t.ops_add then
        ((if (b.create log j t.entries).isNone then -ENODEV else 0 : Int),
          ({ ts_next with obj := b.create log j t.entries } : rte_swx_table_state),
          log ++ [event.create j t.entries (b.create log j t.entries)])
      else ((0 : Int), ts_next, log)).2.2 := by
  by_cases hc : ¬ t.is_stub ∧ t.ops_add
  · rw [if_pos hc]
    exact ⟨[_], rfl, fun ev hev => by rw [List.mem_singleton.mp hev]; rfl⟩
  · rw [if_neg hc]
    exact log_appends_refl _ _

theorem table_state_create_at_local (b : backend) (s : commit_state) (j : Nat) :
    step_local j s (table_state_create_at b s j).2 ∧
      (table_state_create_at b s j).2.ctl.tables = s.ctl.tables := by
  unfold table_state_create_at
  split
  · rename_i t ts ts_next h1 h2 h3
    have hlog := create_object_appends b j t ts_next s.log
    dsimp only
    generalize (if ¬ t.is_stub ∧ t.ops_add then
        ((if (b.create s.log j t.entries).isNone then -ENODEV else 0 : Int),
          ({ ts_next with obj := b.create s.log j t.entries } : rte_swx_table_state),
          s.log ++ [event.create j t.entries (b.create s.log j t.entries)])
      else ((0 : Int), ts_next, s.log)) = r at hlog ⊢
    split_ifs <;>
    · refine ⟨⟨rfl, rfl, rfl, ?_, fun i hi => ⟨rfl, ?_⟩, hlog⟩, rfl⟩
      · simp
      · dsimp only
        rw [List.getElem?_set_ne (Ne.symm hi)]
  · exact ⟨step_local_refl j s, rfl⟩

theorem table_state_create_loop_cons (b : backend) (j : Nat) (l : List Nat) (s : commit_state) :
    table_state_create_loop b (j :: l) s =
      if (table_state_create_at b s j).1 ≠ 0 then table_state_create_at b s j
      else table_state_create_loop b l (table_state_create_at b s j).2 := rfl

theorem table_state_create_loop_append (b : backend) (l₁ l₂ : List Nat) (s : commit_state) :
    table_state_create_loop b (l₁ ++ l₂) s =
      if (table_state_create_loop b l₁ s).1 ≠ 0 then table_state_create_loop b l₁ s
      else table_state_create_loop b l₂ (table_state_create_loop b l₁ s).2 := by
  induction l₁ generalizing s with
  | nil =>
    have h : (table_state_create_loop b [] s).1 = 0 := rfl
    rw [List.nil_append, if_neg (not_not.mpr h)]
    rfl
  | cons j rest ih =>
    rw [List.cons_append, table_state_create_loop_cons, table_state_create_loop_cons]
    by_cases h1 : (table_state_create_at b s j).1 ≠ 0
    · simp only [if_pos h1]
    · simp only [if_neg h1, ih]

theorem table_state_create_loop_skip (b : backend) (i : Nat) (l : List Nat)
    (hl : ∀ j ∈ l, j ≠ i) (s : commit_state) :
    local_view i (table_state_create_loop b l s).2 = local_view i s := by
  induction l generalizing s with
  | nil => rfl
  | cons j rest ih =>
    obtain ⟨h3, -⟩ := local_view_of_step (hl j (List.mem_cons_self _ _))
      (table_state_create_at_local b s j).1
    rw [table_state_create_loop_cons]
    split_ifs
    · exact h3
    · exact (ih (fun k hk => hl k (List.mem_cons_of_mem _ hk)) _).trans h3

theorem table_state_create_loop_frame (b : backend) (l : List Nat) (s : commit_state) :
    (table_state_create_loop b l s).2.ctl.tables = s.ctl.tables ∧
    (table_state_create_loop b l s).2.ctl.ts = s.ctl.ts ∧
    (table_state_create_loop b l s).2.ctl.actions = s.ctl.actions ∧
    (table_state_create_loop b l s).2.ctl.ts_next.length = s.ctl.ts_next.length := by
  induction l generalizing s with
  | nil => exact ⟨rfl, rfl, rfl, rfl⟩
  | cons j rest ih =>
    obtain ⟨⟨ha, hts, -, hn, -, -⟩, htab⟩ := table_state_create_at_local b s j
    rw [table_state_create_loop_cons]
    split_ifs
    · exact ⟨htab, hts, ha, hn⟩
    · obtain ⟨h1, h2, h3, h4⟩ := ih (table_state_create_at b s j).2
      exact ⟨h1.trans htab, h2.trans hts, h3.trans ha, h4.trans hn⟩

/-- When the loop of `table_state_create` succeeds, what it leaves for table `i`
is what its iteration `i` leaves for it, run on a state that agrees with the
initial one on table `i`, and that iteration returned `0`. -/
theorem table_state_create_loop_view (b : backend) (i n : Nat) (hi : i < n) (s : commit_state)
    (hok : (table_state_create_loop b (List.range n) s).1 = 0) :
    ∃ s', local_view i s' = local_view i s ∧
      local_view i (table_state_create_loop b (List.range n) s).2
        = local_view i (table_state_create_at b s' i).2 ∧
      (table_state_create_at b s' i).1 = 0 := by
  have h1 := table_state_create_loop_skip b i (List.range i)
    (fun j hj => by rw [List.mem_range] at hj; omega) s
  rw [range_split i n hi, table_state_create_loop_append] at hok ⊢
  by_cases hf : (table_state_create_loop b (List.range i) s).1 ≠ 0
  · rw [if_pos hf] at hok
    exact absurd hok hf
  · rw [if_neg hf, table_state_create_loop_cons] at hok ⊢
    by_cases h2 : (table_state_create_at b (table_state_create_loop b (List.range i) s).2 i).1 ≠ 0
    · rw [if_pos h2] at hok
      exact absurd hok h2
    · rw [if_neg h2]
      exact ⟨(table_state_create_loop b (List.range i) s).2, h1,
        table_state_create_loop_skip b i (List.range' (i + 1) (n - (i + 1)))
          (fun j hj => by rw [List.mem_range'_1] at hj; omega) _, not_not.mp h2⟩

/-- An iteration of the loop of `table_state_create` that returned `0` leaves a
`ts_next` element equivalent to the `ts` element. -/
theorem table_state_create_at_symmetric (b : backend) (s : commit_state) (i : Nat) (t : table)
    (ts ts_next : rte_swx_table_state) (ht : s.ctl.tables[i]? = some t)
    (hts : s.ctl.ts[i]? = some ts) (htsn : s.ctl.ts_next[i]? = some ts_next)
    (hsize : t.params.action_data_size ≤ ts.default_action_data.length)
    (hok : (table_state_create_at b s i).1 = 0) :
    ∃ x, (table_state_create_at b s i).2.ctl.ts_next[i]? = some x ∧ ts_symmetric t ts x := by
  unfold table_state_create_at at hok ⊢
  rw [ht, hts, htsn] at hok ⊢
  dsimp only at hok ⊢
  generalize (if ¬ t.is_stub ∧ t.ops_add then
      ((if (b.create s.log i t.entries).isNone then -ENODEV else 0 : Int),
        ({ ts_next with obj := b.create s.log i t.entries } : rte_swx_table_state),
        s.log ++ [event.create i t.entries (b.create s.log i t.entries)])
    else ((0 : Int), ts_next, s.log)) = r at hok ⊢
  by_cases h1 : r.1 ≠ 0
  · rw [if_pos h1] at hok
    exact absurd hok h1
  rw [if_neg h1] at hok ⊢
  by_cases h2 : ¬ b.malloc_ok r.2.2 i 0 = true
  · rw [if_pos h2] at hok
    have hne : (-ENOMEM : Int) ≠ 0 := by unfold ENOMEM; decide
    exact absurd hok hne
  rw [if_neg h2]
  refine ⟨_, getElem?_set_self_state htsn, rfl, fun k hk => (getD_copy_bytes _ k _ hk).symm,
    hsize, ?_, fun hs ho => ?_⟩
  · show _ ≤ (copy_bytes _ _).length
    unfold copy_bytes
    simp
  · show (if ¬ t.is_stub ∧ ¬ t.ops_add then
        ({ r.2.1 with obj := ts.obj } : rte_swx_table_state) else r.2.1).obj = ts.obj
    rw [if_pos (by rw [hs, ho]; exact ⟨by decide, by decide⟩)]

/-- A successful `table_state_create` keeps the actions, the tables and the `ts`
array, and leaves `ts_next` elements equivalent to the `ts` elements, provided
each `ts` element holds `action_data_size` bytes of default action data. -/
theorem table_state_create_symmetric (b : backend) (callocOk : Bool)
    (ctl : rte_swx_ctl_pipeline)
    (hsize : ∀ (i : Nat) (t : table) (ts : rte_swx_table_state), ctl.tables[i]? = some t →
      ctl.ts[i]? = some ts → t.params.action_data_size ≤ ts.default_action_data.length)
    (hok : (table_state_create b callocOk ctl).1 = 0) :
    ctl_symmetric (table_state_create b callocOk ctl).2.1 ∧
    (table_state_create b callocOk ctl).2.1.tables = ctl.tables ∧
    (table_state_create b callocOk ctl).2.1.ts = ctl.ts ∧
    (table_state_create b callocOk ctl).2.1.actions = ctl.actions := by
  have hne : (-ENOMEM : Int) ≠ 0 := by unfold ENOMEM; decide
  unfold table_state_create at hok ⊢
  cases callocOk with
  | false => exact absurd hok hne
  | true =>
    rw [if_neg (by decide)] at hok ⊢
    dsimp only at hok ⊢
    generalize hs₀ : commit_state.mk (rte_swx_ctl_pipeline.mk ctl.actions ctl.tables ctl.ts
      (List.replicate ctl.tables.length (rte_swx_table_state.mk none [] 0))) [] = s₀ at hok ⊢
    have ht₀ : s₀.ctl.tables = ctl.tables := by rw [← hs₀]
    have hts₀ : s₀.ctl.ts = ctl.ts := by rw [← hs₀]
    have ha₀ : s₀.ctl.actions = ctl.actions := by rw [← hs₀]
    have hn₀ : s₀.ctl.ts_next.length = ctl.tables.length := by rw [← hs₀]; simp
    by_cases h0 : (table_state_create_loop b (List.range ctl.tables.length) s₀).1 ≠ 0
    · rw [if_pos h0] at hok
      exact absurd hok h0
    rw [if_neg h0]
    dsimp only
    obtain ⟨f1, f2, f3, f4⟩ := table_state_create_loop_frame b (List.range ctl.tables.length) s₀
    refine ⟨fun i T TS TSN hT hTS hTSN => ?_, f1.trans ht₀, f2.trans hts₀, f3.trans ha₀⟩
    rw [f1, ht₀] at hT
    rw [f2, hts₀] at hTS
    have hi : i < ctl.tables.length := (List.getElem?_eq_some_iff.mp hT).1
    obtain ⟨s', hv', hview, hst⟩ := table_state_create_loop_view b i ctl.tables.length hi s₀
      (not_not.mp h0)
    have hT' : s'.ctl.tables[i]? = some T :=
      (congrArg (fun v => v.1) hv').trans ((congrArg (fun l => l[i]?) ht₀).trans hT)
    have hTS' : s'.ctl.ts[i]? = some TS :=
      (congrArg (fun v => v.2.1) hv').trans ((congrArg (fun l => l[i]?) hts₀).trans hTS)
    have hN' : s'.ctl.ts_next[i]? = some (s₀.ctl.ts_next.get ⟨i, by omega⟩) :=
      (congrArg (fun v => v.2.2.1) hv').trans (List.getElem?_eq_getElem (by omega))
    obtain ⟨x, hx, hsym⟩ := table_state_create_at_symmetric b s' i T TS _ hT' hTS' hN'
      (hsize i T TS hT hTS) hst
    have hfin := (congrArg (fun v => v.2.2.1) hview).trans hx
    have hfin' : (table_state_create_loop b (List.range ctl.tables.length) s₀).2.ctl.ts_next[i]?
        = some x := hfin
    rw [hfin'] at hTSN
    cases hTSN
    exact hsym

theorem ctl_symmetric_example_created : ctl_symmetric example_created := by
  have h := table_state_create_symmetric example_backend true example_ctl
    (by
      intro i t ts ht hts
      have hi : i < 1 := (List.getElem?_eq_some_iff.mp ht).1
      have hi0 : i = 0 := by omega
      subst hi0
      cases ht
      cases hts
      decide)
    (by decide)
  exact h.1

/-! ## The backend calls of a successful commit for an incremental table -/

theorem keycmp_of_paired {params : rte_swx_table_params} :
    ∀ {l₀ l₁ : List rte_swx_table_entry},
      l₀.map (key_class params) = l₁.map (key_class params) →
      ∀ (i : Nat) (x y : rte_swx_table_entry), l₀[i]? = some x → l₁[i]? = some y →
        table_entry_keycmp params x y = 0 := by
  intro l₀ l₁ h i x y hx hy
  have h0 : (l₀.map (key_class params))[i]? = some (key_class params x) := by
    rw [List.getElem?_map, hx]; rfl
  have h1 : (l₁.map (key_class params))[i]? = some (key_class params y) := by
    rw [List.getElem?_map, hy]; rfl
  rw [h, h1] at h0
  exact (keycmp_eq_zero_iff params x y).mpr (Option.some.inj h0).symm

/-- Claim C37.  In every state reached from a controller whose tables are empty
by any sequence of entry adds, entry deletes, default-entry adds, commits and
aborts, `pending_modify0` and `pending_modify1` of every table have the same
length and correspond position by position: the elements at the same index are
equal under `table_entry_keycmp`.  Hence for every `n` the first `n` elements of
`pending_modify0`, which `table_rollback` adds back, have the keys of the first
`n` elements of `pending_modify1`, which `table_rollfwd0` had added. -/
theorem pending_modify_positional (ctl0 : rte_swx_ctl_pipeline) (ops : List ctl_op)
    (h : tables_empty ctl0) :
    ∀ t ∈ (ctl_run ctl0 ops).tables,
      t.pending_modify0.length = t.pending_modify1.length ∧
      (∀ (i : Nat) (x y : rte_swx_table_entry), t.pending_modify0[i]? = some x →
        t.pending_modify1[i]? = some y → table_entry_keycmp t.params x y = 0) ∧
      (∀ n : Nat, (t.pending_modify0.take n).map (key_class t.params) =
        (t.pending_modify1.take n).map (key_class t.params)) := by
  intro t ht
  obtain ⟨-, hpair⟩ := reachable_staging_inv ctl0 ops h t ht
  refine ⟨?_, keycmp_of_paired hpair, fun n => ?_⟩
  · have := congrArg List.length hpair
    simpa using this
  · rw [List.map_take, List.map_take, hpair]

/-- On the controller reached by installing two keys and then staging a modify of
key `10, 0, 0, 1`, an add of key `10, 0, 0, 3` and a delete of key `10, 0, 0, 2`:
the old and the new version of key `10, 0, 0, 1` sit at index `0` of the two
lists. -/
theorem pending_modify_positional_witness :
    tables_empty example_ctl ∧
    (table0 (ctl_run example_ctl (example_install_ops ++ example_stage_ops))).pending_modify0
      = [example_entry 1 1] ∧
    (table0 (ctl_run example_ctl (example_install_ops ++ example_stage_ops))).pending_modify1
      = [example_entry 1 5] ∧
    ∀ t ∈ (ctl_run example_ctl (example_install_ops ++ example_stage_ops)).tables,
      t.pending_modify0.length = t.pending_modify1.length ∧
      (∀ (i : Nat) (x y : rte_swx_table_entry), t.pending_modify0[i]? = some x →
        t.pending_modify1[i]? = some y → table_entry_keycmp t.params x y = 0) ∧
      (∀ n : Nat, (t.pending_modify0.take n).map (key_class t.params) =
        (t.pending_modify1.take n).map (key_class t.params)) :=
  ⟨by unfold tables_empty; decide, by decide, by decide,
    pending_modify_positional example_ctl (example_install_ops ++ example_stage_ops)
      (by unfold tables_empty; decide)⟩

/-! ## Key equality is an equivalence -/

/-- Claim C38.  For fixed table parameters, the relation
`table_entry_keycmp(table, a, b) == 0` on entries that have a key is reflexive,
symmetric and transitive. -/
theorem table_entry_keycmp_equivalence (params : rte_swx_table_params) :
    (∀ a : rte_swx_table_entry, a.key.isSome → table_entry_keycmp params a a = 0) ∧
    (∀ a b : rte_swx_table_entry, a.key.isSome → b.key.isSome →
      table_entry_keycmp params a b = 0 → table_entry_keycmp params b a = 0) ∧
    (∀ a b c : rte_swx_table_entry, a.key.isSome → b.key.isSome → c.key.isSome →
      table_entry_keycmp params a b = 0 → table_entry_keycmp params b c = 0 →
      table_entry_keycmp params a c = 0) := by
  refine ⟨fun a _ => ?_, fun a b _ _ h => ?_, fun a b c _ _ _ h₁ h₂ => ?_⟩
  · exact (keycmp_eq_zero_iff params a a).mpr rfl
  · exact (keycmp_eq_zero_iff params b a).mpr ((keycmp_eq_zero_iff params a b).mp h).symm
  · exact (keycmp_eq_zero_iff params a c).mpr
      (((keycmp_eq_zero_iff params a b).mp h₁).trans ((keycmp_eq_zero_iff params b c).mp h₂))

/-- With the parameters of the concrete table: key `10, 0, 0, 1` with action data
`0, 1` and with action data `0, 5` are equal, in both orders. -/
theorem table_entry_keycmp_equivalence_witness :
    (example_entry 1 1).key.isSome ∧ (example_entry 1 5).key.isSome ∧
    table_entry_keycmp example_table.params (example_entry 1 1) (example_entry 1 5) = 0 ∧
    table_entry_keycmp example_table.params (example_entry 1 5) (example_entry 1 1) = 0 ∧
    table_entry_keycmp example_table.params (example_entry 1 1) (example_entry 2 1) = 1 :=
  ⟨by decide, by decide, by decide,
    (table_entry_keycmp_equivalence example_table.params).2.1 (example_entry 1 1)
      (example_entry 1 5) (by decide) (by decide) (by decide),
    by decide⟩

/-! ## Repeating an add; a delete after a staged modify -/

theorem entry_add_lists_fixed (t : table) (e n : rte_swx_table_entry) :
    (entry_add_lists t e n).info_name = t.info_name ∧
    (entry_add_lists t e n).actions = t.actions := by
  unfold entry_add_lists
  split
  · exact ⟨rfl, rfl⟩
  · split
    · exact ⟨rfl, rfl⟩
    · split
      · exact ⟨rfl, rfl⟩
      · split <;> exact ⟨rfl, rfl⟩

theorem table_entry_check_congr (ctl_actions : List action) {t u : table}
    (hs : u.is_stub = t.is_stub) (hp : u.params = t.params) (ha : u.actions = t.actions)
    (entry : Option rte_swx_table_entry) (kc dc : Bool) :
    table_entry_check ctl_actions u entry kc dc = table_entry_check ctl_actions t entry kc dc := by
  unfold table_entry_check table_entry_key_check_em
  rw [hs, hp, ha]

theorem table_entry_duplicate_congr (ctl_actions : List action) {t u : table}
    (hs : u.is_stub = t.is_stub) (hp : u.params = t.params) (ha : u.actions = t.actions)
    (entry : Option rte_swx_table_entry) (kd dd ok : Bool) :
    table_entry_duplicate ctl_actions u entry kd dd ok
      = table_entry_duplicate ctl_actions t entry kd dd ok := by
  unfold table_entry_duplicate
  rw [hs, hp, ha]

theorem find_append_new {params : rte_swx_table_params} {e n : rte_swx_table_entry}
    {l : List rte_swx_table_entry} (hl : l.find? (key_equal params e) = none)
    (hn : key_class params n = key_class params e) :
    (l ++ [n]).find? (key_equal params e) = some n ∧
    (l ++ [n]).eraseP (key_equal params e) = l ∧
    replace_first (key_equal params e) n (l ++ [n]) = l ++ [n] := by
  have hkn : key_equal params e n = true := (key_equal_iff _ _ _).mpr hn.symm
  have hpre : ∀ y ∈ l, key_equal params e y = false := find_none_iff.mp hl
  have h := find_of_split l [] hkn hpre
  exact ⟨h.1, by rw [h.2, List.append_nil], replace_first_split _ n n l [] hkn hpre⟩

theorem find_replaced {params : rte_swx_table_params} {e n x : rte_swx_table_entry}
    {l : List rte_swx_table_entry} (hl : l.find? (key_equal params e) = some x)
    (hn : key_class params n = key_class params e) :
    (replace_first (key_equal params e) n l).find? (key_equal params e) = some n ∧
    replace_first (key_equal params e) n (replace_first (key_equal params e) n l)
      = replace_first (key_equal params e) n l := by
  have hkn : key_equal params e n = true := (key_equal_iff _ _ _).mpr hn.symm
  obtain ⟨pre, post, -, -, hpre, -, hrep⟩ := find_split hl
  rw [hrep n]
  exact ⟨(find_of_split pre post hkn hpre).1, replace_first_split _ n n pre post hkn hpre⟩

theorem find_erased_none {params : rte_swx_table_params} {e x : rte_swx_table_entry}
    {l : List rte_swx_table_entry} (hnd : (l.map (key_class params)).Nodup)
    (hl : l.find? (key_equal params e) = some x) :
    (l.eraseP (key_equal params e)).find? (key_equal params e) = none := by
  obtain ⟨pre, post, hsplit, hkx, hpre, her, -⟩ := find_key_split hl
  rw [her, find_key_none, List.map_append, List.mem_append]
  rw [hsplit, List.map_append, List.map_cons, List.nodup_append] at hnd
  obtain ⟨-, hnd2, hdis⟩ := hnd
  rintro (h | h)
  · exact hpre h
  · rw [← hkx] at h
    exact (List.nodup_cons.mp hnd2).1 h

/-- The list part of an add, done a second time with the same entry, changes
nothing. -/
theorem entry_add_lists_twice (t : table) (e n : rte_swx_table_entry)
    (hinv : staging_inv t) (hn : key_class t.params n = key_class t.params e) :
    entry_add_lists (entry_add_lists t e n) e n = entry_add_lists t e n := by
  obtain ⟨ndE, -, -, -⟩ := staging_inv_nodup t hinv
  have hdis := staging_inv_disjoint t hinv (key_class t.params e)
  cases h0 : table_entries_find t e with
  | some x =>
    have hmem : key_class t.params e ∈ t.entries.map (key_class t.params) := by
      obtain ⟨pre, post, hsplit, hkx, -⟩ := find_key_split h0
      rw [← hkx]
      exact List.mem_map.mpr ⟨x, by rw [hsplit]; simp, rfl⟩
    have hA : t.pending_add.find? (key_equal t.params e) = none :=
      find_key_none.mpr (hdis.1 hmem).1
    have hM : t.pending_modify1.find? (key_equal t.params e) = none :=
      find_key_none.mpr (hdis.1 hmem).2.1
    rw [entry_add_lists_in_entries t e n x h0]
    have hnew := find_append_new hM hn
    rw [entry_add_lists_in_pending_modify1
      { t with
        pending_modify1 := t.pending_modify1 ++ [n],
        entries := t.entries.eraseP (key_equal t.params e),
        pending_modify0 := t.pending_modify0 ++ [x] } e n n (find_erased_none ndE h0) hA hnew.1]
    dsimp only
    rw [hnew.2.2]
  | none =>
    cases h1 : table_pending_add_find t e with
    | some x =>
      rw [entry_add_lists_in_pending_add t e n x h0 h1]
      have hrep := find_replaced h1 hn
      rw [entry_add_lists_in_pending_add
        { t with pending_add := replace_first (key_equal t.params e) n t.pending_add }
        e n n h0 hrep.1]
      dsimp only
      rw [hrep.2]
    | none =>
      cases h2 : table_pending_modify1_find t e with
      | some x =>
        rw [entry_add_lists_in_pending_modify1 t e n x h0 h1 h2]
        have hrep := find_replaced h2 hn
        rw [entry_add_lists_in_pending_modify1
          { t with
            pending_modify1 := replace_first (key_equal t.params e) n t.pending_modify1 }
          e n n h0 h1 hrep.1]
        dsimp only
        rw [hrep.2]
      | none =>
        cases h3 : table_pending_delete_find t e with
        | some x =>
          rw [entry_add_lists_in_pending_delete t e n x h0 h1 h2 h3]
          have hnew := find_append_new h2 hn
          rw [entry_add_lists_in_pending_modify1
            { t with
              pending_modify1 := t.pending_modify1 ++ [n],
              pending_delete := t.pending_delete.eraseP (key_equal t.params e),
              pending_modify0 := t.pending_modify0 ++ [x] } e n n h0 h1 hnew.1]
          dsimp only
          rw [hnew.2.2]
        | none =>
          rw [entry_add_lists_absent t e n h0 h1 h2 h3]
          have hnew := find_append_new h1 hn
          rw [entry_add_lists_in_pending_add { t with pending_add := t.pending_add ++ [n] }
            e n n h0 hnew.1]
          dsimp only
          rw [hnew.2.2]

theorem key_equal_congr {params : rte_swx_table_params} {d e : rte_swx_table_entry}
    (h : key_class params d = key_class params e) : key_equal params d = key_equal params e := by
  funext y
  rw [Bool.eq_iff_iff, key_equal_iff, key_equal_iff, h]

/-- The list part of a delete, after the list part of an add of the same key that
was in `entries`, gives what the delete alone gives. -/
theorem entry_delete_lists_after_add (t : table) (e n d x : rte_swx_table_entry)
    (hinv : staging_inv t) (hn : key_class t.params n = key_class t.params e)
    (hd : key_class t.params d = key_class t.params e)
    (h0 : table_entries_find t e = some x) :
    entry_delete_lists (entry_add_lists t e n) d = entry_delete_lists t d := by
  obtain ⟨ndE, -, -, -⟩ := staging_inv_nodup t hinv
  have hdis := staging_inv_disjoint t hinv (key_class t.params e)
  have hmem : key_class t.params e ∈ t.entries.map (key_class t.params) := by
    obtain ⟨pre, post, hsplit, hkx, -⟩ := find_key_split h0
    rw [← hkx]
    exact List.mem_map.mpr ⟨x, by rw [hsplit]; simp, rfl⟩
  have hkx : key_class t.params x = key_class t.params e := by
    obtain ⟨pre, post, -, hkx, -⟩ := find_key_split h0
    exact hkx
  have hA : t.pending_add.find? (key_equal t.params e) = none :=
    find_key_none.mpr (hdis.1 hmem).1
  have hM : t.pending_modify1.find? (key_equal t.params e) = none :=
    find_key_none.mpr (hdis.1 hmem).2.1
  have hM0 : t.pending_modify0.find? (key_equal t.params e) = none := by
    rw [find_key_none, hinv.2]
    exact (hdis.1 hmem).2.1
  have hde := key_equal_congr hd
  have h0d : table_entries_find t d = some x := by
    unfold table_entries_find
    rw [hde]
    exact h0
  rw [entry_add_lists_in_entries t e n x h0, entry_delete_lists_in_entries t d x h0d]
  have hnew1 := find_append_new hM hn
  have hnew0 := find_append_new hM0 hkx
  have hE' := find_erased_none ndE h0
  rw [← hde] at hnew1 hnew0 hE' hA ⊢
  rw [entry_delete_lists_in_pending_modify1
    { t with
      pending_modify1 := t.pending_modify1 ++ [n],
      entries := t.entries.eraseP (key_equal t.params d),
      pending_modify0 := t.pending_modify0 ++ [x] } d n x hE' hA hnew1.1 hnew0.1]
  dsimp only
  rw [hnew1.2.1, hnew0.2.1]

theorem entry_add_cases (ctl : rte_swx_ctl_pipeline) (table_name : Option String)
    (entry : Option rte_swx_table_entry) (ok : Bool) :
    (rte_swx_ctl_pipeline_table_entry_add ctl table_name entry ok).2 = ctl ∨
    ∃ name i t e n, table_name = some name ∧ name ≠ "" ∧ entry = some e ∧
      table_find ctl name = some (i, t) ∧
      table_entry_check ctl.actions t (some e) true true = 0 ∧
      table_entry_duplicate ctl.actions t (some e) true true ok = some n ∧
      rte_swx_ctl_pipeline_table_entry_add ctl table_name entry ok =
        (0, { ctl with tables := ctl.tables.set i (entry_add_lists t e n) }) := by
  unfold rte_swx_ctl_pipeline_table_entry_add
  cases table_name with
  | none => exact Or.inl rfl
  | some name =>
    dsimp only
    split_ifs with hname
    · exact Or.inl rfl
    · cases hf : table_find ctl name with
      | none => exact Or.inl rfl
      | some r =>
        obtain ⟨i, t⟩ := r
        cases entry with
        | none => exact Or.inl rfl
        | some e =>
          dsimp only
          split_ifs with hc
          · exact Or.inl rfl
          · cases hd : table_entry_duplicate ctl.actions t (some e) true true ok with
            | none => exact Or.inl rfl
            | some n =>
              exact Or.inr ⟨name, i, t, e, n, rfl, hname, rfl, hf, not_not.mp hc, hd, rfl⟩

/-- Claim C39.  In every state reached from a controller whose tables are empty
by any sequence of entry adds, entry deletes, default-entry adds, commits and
aborts: `rte_swx_ctl_pipeline_table_entry_add` called a second time with the same
arguments (and the same allocation outcome) returns the status of the first call
and leaves the state the first call produced, every list included, the new
duplicate taking the place of the first one; and for an entry `e` whose key is
the key of an element of `entries`, an add of `e` followed by a delete with an
entry `d` of the same key that passes the key check gives the status and the
state of the delete alone. -/
theorem entry_add_idempotent (ctl0 : rte_swx_ctl_pipeline) (ops : List ctl_op)
    (hempty : tables_empty ctl0) :
    (∀ (table_name : Option String) (entry : Option rte_swx_table_entry) (ok : Bool),
      rte_swx_ctl_pipeline_table_entry_add
          (rte_swx_ctl_pipeline_table_entry_add (ctl_run ctl0 ops) table_name entry ok).2
          table_name entry ok
        = rte_swx_ctl_pipeline_table_entry_add (ctl_run ctl0 ops) table_name entry ok) ∧
    (∀ (name : String) (i : Nat) (t : table) (e d x : rte_swx_table_entry) (ok : Bool),
      name ≠ "" → table_find (ctl_run ctl0 ops) name = some (i, t) →
      x ∈ t.entries → table_entry_keycmp t.params e x = 0 →
      table_entry_keycmp t.params d e = 0 →
      table_entry_check (ctl_run ctl0 ops).actions t (some d) true false = 0 →
      rte_swx_ctl_pipeline_table_entry_delete
          (rte_swx_ctl_pipeline_table_entry_add (ctl_run ctl0 ops) (some name) (some e) ok).2
          (some name) (some d)
        = rte_swx_ctl_pipeline_table_entry_delete (ctl_run ctl0 ops) (some name) (some d)) := by
  constructor
  · intro table_name entry ok
    rcases entry_add_cases (ctl_run ctl0 ops) table_name entry ok with
      heq | ⟨name, i, t, e, n, htn, hname, hen, hfind, hcheck, hdup, hadd⟩
    · rw [heq]
    · have hinv : staging_inv t :=
        reachable_staging_inv ctl0 ops hempty t (table_find_mem _ name i t hfind)
      have hn := duplicate_key_class (ctl_run ctl0 ops).actions t e n true ok hcheck hdup
      have hst := entry_add_lists_static t e n
      have hfx := entry_add_lists_fixed t e n
      have hpar := entry_add_lists_params t e n
      have hfind1 := table_find_set (ctl_run ctl0 ops) name i t (entry_add_lists t e n) hfind
        hfx.1
      have hcheck1 : table_entry_check (ctl_run ctl0 ops).actions (entry_add_lists t e n)
          (some e) true true = 0 :=
        (table_entry_check_congr _ hst.1 hpar hfx.2 _ _ _).trans hcheck
      have hdup1 : table_entry_duplicate (ctl_run ctl0 ops).actions (entry_add_lists t e n)
          (some e) true true ok = some n :=
        (table_entry_duplicate_congr _ hst.1 hpar hfx.2 _ _ _ _).trans hdup
      have hadd1 := entry_add_eq
        { ctl_run ctl0 ops with
          tables := (ctl_run ctl0 ops).tables.set i (entry_add_lists t e n) }
        name i (entry_add_lists t e n) e n ok hname hfind1 hcheck1 hdup1
      rw [hadd]
      dsimp only
      rw [← htn, ← hen] at hadd1
      rw [hadd1, entry_add_lists_twice t e n hinv hn]
      dsimp only
      rw [List.set_set]
  · intro name i t e d x ok hname hfind hx hkx hkd hcheckd
    have hinv : staging_inv t :=
      reachable_staging_inv ctl0 ops hempty t (table_find_mem _ name i t hfind)
    rcases entry_add_cases (ctl_run ctl0 ops) (some name) (some e) ok with
      heq | ⟨name', i', t', e', n, htn, -, hen, hfind', hcheck, hdup, hadd⟩
    · rw [heq]
    · cases htn
      cases hen
      rw [hfind] at hfind'
      cases hfind'
      have hn := duplicate_key_class (ctl_run ctl0 ops).actions t e n true ok hcheck hdup
      obtain ⟨ndE, -, -, -⟩ := staging_inv_nodup t hinv
      have h0 : table_entries_find t e = some x :=
        find_key_of_mem ndE hx ((keycmp_eq_zero_iff _ _ _).mp hkx).symm
      have hst := entry_add_lists_static t e n
      have hfx := entry_add_lists_fixed t e n
      have hpar := entry_add_lists_params t e n
      have hfind1 := table_find_set (ctl_run ctl0 ops) name i t (entry_add_lists t e n) hfind
        hfx.1
      have hcheck1 : table_entry_check (ctl_run ctl0 ops).actions (entry_add_lists t e n)
          (some d) true false = 0 :=
        (table_entry_check_congr _ hst.1 hpar hfx.2 _ _ _).trans hcheckd
      have hdel1 := entry_delete_eq
        { ctl_run ctl0 ops with
          tables := (ctl_run ctl0 ops).tables.set i (entry_add_lists t e n) }
        name i (entry_add_lists t e n) d hname hfind1 hcheck1
      have hkc : key_class (entry_add_lists t e n).params d
          = key_class (entry_add_lists t e n).params e := by
        rw [hpar]
        exact (keycmp_eq_zero_iff _ _ _).mp hkd
      rw [hadd]
      dsimp only
      rw [hdel1, entry_delete_eq (ctl_run ctl0 ops) name i t d hname hfind hcheckd,
        entry_delete_lists_after_add t e n d x hinv hn ((keycmp_eq_zero_iff _ _ _).mp hkd) h0]
      dsimp only
      rw [List.set_set]

/-- On the concrete controller with keys `10, 0, 0, 1` and `10, 0, 0, 2`
installed: a modify of key `10, 0, 0, 1` staged twice is staged once, and a
delete of that key after the modify leaves what the delete alone leaves, the
installed entry in `pending_delete`. -/
theorem entry_add_idempotent_witness :
    tables_empty example_ctl ∧
    (table0 (rte_swx_ctl_pipeline_table_entry_add (ctl_run example_ctl example_install_ops)
      (some "t0") (some (example_entry 1 5)) true).2).pending_modify1 = [example_entry 1 5] ∧
    (table0 (rte_swx_ctl_pipeline_table_entry_delete
      (rte_swx_ctl_pipeline_table_entry_add (ctl_run example_ctl example_install_ops)
        (some "t0") (some (example_entry 1 5)) true).2
      (some "t0") (some (example_entry 1 5))).2).pending_delete = [example_entry 1 1] ∧
    (∀ (table_name : Option String) (entry : Option rte_swx_table_entry) (ok : Bool),
      rte_swx_ctl_pipeline_table_entry_add
          (rte_swx_ctl_pipeline_table_entry_add (ctl_run example_ctl example_install_ops)
            table_name entry ok).2
          table_name entry ok
        = rte_swx_ctl_pipeline_table_entry_add (ctl_run example_ctl example_install_ops)
            table_name entry ok) ∧
    (∀ (name : String) (i : Nat) (t : table) (e d x : rte_swx_table_entry) (ok : Bool),
      name ≠ "" → table_find (ctl_run example_ctl example_install_ops) name = some (i, t) →
      x ∈ t.entries → table_entry_keycmp t.params e x = 0 →
      table_entry_keycmp t.params d e = 0 →
      table_entry_check (ctl_run example_ctl example_install_ops).actions t (some d)
        true false = 0 →
      rte_swx_ctl_pipeline_table_entry_delete
          (rte_swx_ctl_pipeline_table_entry_add (ctl_run example_ctl example_install_ops)
            (some name) (some e) ok).2
          (some name) (some d)
        = rte_swx_ctl_pipeline_table_entry_delete (ctl_run example_ctl example_install_ops)
            (some name) (some d)) :=
  ⟨by unfold tables_empty; decide, by decide, by decide,
    entry_add_idempotent example_ctl example_install_ops (by unfold tables_empty; decide)⟩

/-! ## The calls of a commit without failure, for an incremental table -/

theorem apply_calls_kinds (b : backend) (is_add : Bool) (table_id : Nat) (obj : Option Nat)
    (l : List rte_swx_table_entry) (log : List event) (n : Nat) :
    ∃ extra, (apply_calls b is_add table_id obj l log n).2.1 = log ++ extra ∧
      ∀ ev ∈ extra, (call_of ev).isSome = true := by
  induction l generalizing log n with
  | nil => exact ⟨[], (List.append_nil log).symm, fun _ h => absurd h (List.not_mem_nil _)⟩
  | cons entry rest ih =>
    unfold apply_calls
    dsimp only
    split_ifs with h1 h2 h2
    · exact ⟨[_], rfl, fun ev hev => by rw [List.mem_singleton.mp hev]; rfl⟩
    · obtain ⟨extra, hlog, hk⟩ := ih (log ++
        [event.add table_id obj entry (b.add log table_id obj entry)]) (uadd32 n 1)
      refine ⟨_ :: extra, by rw [hlog, List.append_assoc]; rfl, fun ev hev => ?_⟩
      rcases List.mem_cons.mp hev with h | h
      · rw [h]; rfl
      · exact hk ev h
    · exact ⟨[_], rfl, fun ev hev => by rw [List.mem_singleton.mp hev]; rfl⟩
    · obtain ⟨extra, hlog, hk⟩ := ih (log ++
        [event.del table_id obj entry (b.del log table_id obj entry)]) (uadd32 n 1)
      refine ⟨_ :: extra, by rw [hlog, List.append_assoc]; rfl, fun ev hev => ?_⟩
      rcases List.mem_cons.mp hev with h | h
      · rw [h]; rfl
      · exact hk ev h

theorem table_rollfwd0_kinds (b : backend) (ctl_actions : List action) (table_id : Nat)
    (t : table) (ts ts_next : rte_swx_table_state) (after_swap : Bool) (log : List event)
    (ho : t.ops_add = true) :
    ∀ ev ∈ (table_rollfwd0 b ctl_actions table_id t ts ts_next after_swap log).2.2.2.drop
      log.length, (call_of ev).isSome = true := by
  unfold table_rollfwd0
  by_cases h : t.is_stub = true ∨ table_is_update_pending t false = 0
  · rw [if_pos h]
    dsimp only
    rw [List.drop_length]
    exact fun _ hev => absurd hev (List.not_mem_nil _)
  · rw [if_neg h, if_pos ho]
    dsimp only
    obtain ⟨e₁, hl₁, hk₁⟩ := apply_calls_kinds b true table_id ts_next.obj t.pending_add log 0
    obtain ⟨e₂, hl₂, hk₂⟩ := apply_calls_kinds b true table_id ts_next.obj t.pending_modify1
      (apply_calls b true table_id ts_next.obj t.pending_add log 0).2.1 0
    obtain ⟨e₃, hl₃, hk₃⟩ := apply_calls_kinds b false table_id ts_next.obj t.pending_delete
      (apply_calls b true table_id ts_next.obj t.pending_modify1
        (apply_calls b true table_id ts_next.obj t.pending_add log 0).2.1 0).2.1 0
    split_ifs
    · dsimp only
      rw [hl₁, List.drop_left]
      exact hk₁
    · dsimp only
      rw [hl₂, hl₁, List.append_assoc, List.drop_left]
      intro ev hev
      rcases List.mem_append.mp hev with h | h
      · exact hk₁ ev h
      · exact hk₂ ev h
    · dsimp only
      rw [hl₃, hl₂, hl₁, List.append_assoc, List.append_assoc, List.drop_left]
      intro ev hev
      rcases List.mem_append.mp hev with h | h
      · exact hk₁ ev h
      · rcases List.mem_append.mp h with h | h
        · exact hk₂ ev h
        · exact hk₃ ev h

/-- Add and del calls on table `i` and object `obj` that all return `0` are
determined by their kinds and entries. -/
theorem events_of_calls (i : Nat) (obj : Option Nat) (extra : List event)
    (h : ∀ ev ∈ extra, (call_of ev).isSome = true ∧ event_table_id ev = some i ∧
      event_obj ev = obj ∧ event_status ev = 0) :
    extra = (extra.filterMap call_of).map
      (fun c => if c.1 then event.add i obj c.2 0 else event.del i obj c.2 0) := by
  induction extra with
  | nil => rfl
  | cons ev rest ih =>
    obtain ⟨h1, h2, h3, h4⟩ := h ev (List.mem_cons_self _ _)
    have ih' := ih (fun x hx => h x (List.mem_cons_of_mem _ hx))
    cases ev with
    | add tid o e st =>
      have e2 : tid = i := Option.some.inj h2
      have e3 : o = obj := h3
      have e4 : st = 0 := h4
      subst e2 e3 e4
      rw [List.filterMap_cons_some (by rfl : call_of (event.add tid o e 0) = some (true, e)),
        List.map_cons, ← ih']
      rfl
    | del tid o e st =>
      have e2 : tid = i := Option.some.inj h2
      have e3 : o = obj := h3
      have e4 : st = 0 := h4
      subst e2 e3 e4
      rw [List.filterMap_cons_some (by rfl : call_of (event.del tid o e 0) = some (false, e)),
        List.map_cons, ← ih']
      rfl
    | create tid l o => exact Bool.noConfusion h1
    | free tid o => exact Bool.noConfusion h1
    | table_state_set x => exact Bool.noConfusion h1

theorem staged_calls_eq (t : table) (hs : t.is_stub = false)
    (hlen : t.pending_add.length + t.pending_modify1.length + t.pending_delete.length < U32) :
    staged_calls t =
      t.pending_add.map (fun e => (true, e)) ++ t.pending_modify1.map (fun e => (true, e)) ++
        t.pending_delete.map (fun e => (false, e)) := by
  unfold staged_calls
  split_ifs with h
  · rcases h with h | h
    · rw [hs] at h
      exact absurd h (by decide)
    · unfold table_is_update_pending at h
      have h0 : ¬ ((false = true) ∧ t.pending_default.isSome = true) := fun hc => by
        exact absurd hc.1 (by decide)
      rw [if_neg h0, Nat.add_zero, Nat.mod_eq_of_lt hlen] at h
      have ha : t.pending_add = [] := List.length_eq_zero.mp (by omega)
      have h1 : t.pending_modify1 = [] := List.length_eq_zero.mp (by omega)
      have hd : t.pending_delete = [] := List.length_eq_zero.mp (by omega)
      rw [ha, h1, hd]
      rfl
  · rfl

theorem log_of_mem {i : Nat} {log : List event} {ev : event} (h : ev ∈ log_of i log) :
    ev ∈ log ∧ event_table_id ev = some i := by
  unfold log_of at h
  rw [List.mem_filter, decide_eq_true_eq] at h
  exact h

theorem map_staged_calls (i : Nat) (obj : Option Nat) (pa pm pd : List rte_swx_table_entry) :
    (pa.map (fun e => (true, e)) ++ pm.map (fun e => (true, e)) ++
        pd.map (fun e => (false, e))).map
      (fun c : Bool × rte_swx_table_entry =>
        if c.1 then event.add i obj c.2 0 else event.del i obj c.2 0) =
    pa.map (fun e => event.add i obj e 0) ++ pm.map (fun e => event.add i obj e 0) ++
      pd.map (fun e => event.del i obj e 0) := by
  rw [List.map_append, List.map_append, List.map_map, List.map_map, List.map_map]
  rfl

/-- Claim C32.  Let a commit return `0` with every backend call it made
returning `0`.  Its calls are backend calls, one
`rte_swx_pipeline_table_state_set`, backend calls.  For a table with `ops.add`
that is not a stub (its staged entries fewer than `2 ^ 32`), the calls for the
table before the swap are exactly: `ops.add` once for each entry of
`pending_add`, then `ops.add` once for each entry of `pending_modify1`, then
`ops.del` once for each entry of `pending_delete`, in list order, all on the
object of `ts_next`; the calls for the table after the swap are the same
sequence on the object of `ts`, the state that was live before the swap. -/
theorem commit_incremental_calls (b : backend) (ctl : rte_swx_ctl_pipeline)
    (abort_on_fail : Bool)
    (hok : (rte_swx_ctl_pipeline_commit b ctl abort_on_fail).1 = 0)
    (hz : ∀ ev ∈ (rte_swx_ctl_pipeline_commit b ctl abort_on_fail).2.2, event_status ev = 0)
    (i : Nat) (t : table) (ts ts_next : rte_swx_table_state)
    (ht : ctl.tables[i]? = some t) (hts : ctl.ts[i]? = some ts)
    (htsn : ctl.ts_next[i]? = some ts_next)
    (hs : t.is_stub = false) (ho : t.ops_add = true)
    (hlen : t.pending_add.length + t.pending_modify1.length + t.pending_delete.length < U32) :
    ∃ (pre post : List event) (X : List rte_swx_table_state),
      (rte_swx_ctl_pipeline_commit b ctl abort_on_fail).2.2
        = pre ++ event.table_state_set X :: post ∧
      (∀ ev ∈ pre, event_table_id ev ≠ none) ∧ (∀ ev ∈ post, event_table_id ev ≠ none) ∧
      log_of i pre =
        t.pending_add.map (fun e => event.add i ts_next.obj e 0) ++
          t.pending_modify1.map (fun e => event.add i ts_next.obj e 0) ++
          t.pending_delete.map (fun e => event.del i ts_next.obj e 0) ∧
      log_of i post =
        t.pending_add.map (fun e => event.add i ts.obj e 0) ++
          t.pending_modify1.map (fun e => event.add i ts.obj e 0) ++
          t.pending_delete.map (fun e => event.del i ts.obj e 0) := by
  obtain ⟨-, heq⟩ := commit_ok_eq b ctl abort_on_fail hok
  obtain ⟨log₁, log₂, r₁, r₂, ts_next₂, hr₁, hst₁, hn₂, hr₂, hlog0, hview⟩ :=
    commit_ok_view b ctl abort_on_fail hok i t ts ts_next ht hts htsn
  rw [heq] at hz ⊢
  dsimp only at hz ⊢
  obtain ⟨-, -, -, v4⟩ := local_view_parts hview
  have hsame₁ : same_up_to_counters t r₁.2.1 := by
    rw [hr₁]; exact table_rollfwd0_same _ _ _ _ _ _ _ _
  have ho₁ : r₁.2.1.ops_add = t.ops_add := (same_up_to_counters_fields hsame₁).2.2.2.2.2.2.2.2.1
  -- the calls of the two passes
  obtain ⟨extra₁, hx₁, hc₁⟩ := table_rollfwd0_calls b ctl.actions i t ts ts_next false log₁ ho
  obtain ⟨extra₂, hx₂, hc₂⟩ := table_rollfwd0_calls b ctl.actions i r₁.2.1 ts_next₂ ts true log₂
    (ho₁.trans ho)
  have hk₁ := table_rollfwd0_kinds b ctl.actions i t ts ts_next false log₁ ho
  have hk₂ := table_rollfwd0_kinds b ctl.actions i r₁.2.1 ts_next₂ ts true log₂ (ho₁.trans ho)
  rw [← hr₁] at hx₁ hc₁ hk₁
  rw [← hr₂] at hx₂ hc₂ hk₂
  rw [staged_calls_same hsame₁] at hc₂
  rw [hst₁] at hc₁
  rw [hx₁, List.drop_left] at hlog0 v4 hk₁
  rw [hx₂, List.drop_left] at v4 hk₂
  -- the shape of the log
  have h0 := commit_stage0_frame b (List.range ctl.tables.length) { ctl := ctl, log := [] }
  have hlog1 : (commit_stage1 b ctl).log =
      (commit_stage0 b (List.range ctl.tables.length) { ctl := ctl, log := [] }).2.log :=
    (foldl_rollfwd1_tables _ _).2
  have h2 := foldl_frame (commit_after_swap b) (commit_after_swap_local b)
    (List.range ctl.tables.length) (commit_swap (commit_stage1 b ctl))
  obtain ⟨post, hpost, hcalls⟩ := h2.2.2.2.2
  obtain ⟨pre', hpre', hprecalls⟩ := h0.2.2.2.2
  have hswaplog : (commit_swap (commit_stage1 b ctl)).log =
      (commit_stage0 b (List.range ctl.tables.length) { ctl := ctl, log := [] }).2.log ++
        [event.table_state_set (commit_stage1 b ctl).ctl.ts_next] := by
    rw [← hlog1]
    rfl
  have hfinal : ((List.range ctl.tables.length).foldl (commit_after_swap b)
      (commit_swap (commit_stage1 b ctl))).log =
      (commit_stage0 b (List.range ctl.tables.length) { ctl := ctl, log := [] }).2.log ++
        event.table_state_set (commit_stage1 b ctl).ctl.ts_next :: post := by
    rw [hpost, hswaplog, List.append_assoc]
    rfl
  have hpost_of : log_of i post = extra₂ := by
    rw [hfinal, log_of_append, hlog0] at v4
    have hcons : log_of i (event.table_state_set (commit_stage1 b ctl).ctl.ts_next :: post)
        = log_of i post := rfl
    rw [hcons] at v4
    exact List.append_cancel_left v4
  rw [hfinal] at hz
  -- every call returned `0`
  have hz₁ : ∀ ev ∈ extra₁, event_status ev = 0 := by
    intro ev hev
    rw [← hlog0] at hev
    exact hz ev (List.mem_append_left _ (log_of_mem hev).1)
  have hz₂ : ∀ ev ∈ extra₂, event_status ev = 0 := by
    intro ev hev
    rw [← hpost_of] at hev
    exact hz ev (List.mem_append_right _ (List.mem_cons_of_mem _ (log_of_mem hev).1))
  have hid₁ : ∀ ev ∈ extra₁, event_table_id ev = some i := by
    intro ev hev
    rw [← hlog0] at hev
    exact (log_of_mem hev).2
  have hid₂ : ∀ ev ∈ extra₂, event_table_id ev = some i := by
    intro ev hev
    rw [← hpost_of] at hev
    exact (log_of_mem hev).2
  have hE₁ := events_of_calls i ts_next.obj extra₁
    (fun ev hev => ⟨hk₁ ev hev, hid₁ ev hev, hc₁.1 ev hev, hz₁ ev hev⟩)
  have hE₂ := events_of_calls i ts.obj extra₂
    (fun ev hev => ⟨hk₂ ev hev, hid₂ ev hev, hc₂.1 ev hev, hz₂ ev hev⟩)
  rw [(hc₁.2.2.1 rfl).1, staged_calls_eq t hs hlen, map_staged_calls] at hE₁
  rw [calls_spec_all_zero hc₂ hz₂, staged_calls_eq t hs hlen, map_staged_calls] at hE₂
  refine ⟨_, post, _, hfinal, ?_, hcalls, ?_, ?_⟩
  · intro ev hev
    rw [hpre'] at hev
    exact hprecalls ev hev
  · rw [hlog0]
    exact hE₁
  · rw [hpost_of]
    exact hE₂

/-- Scenario S4 on the concrete controller: with key `10, 0, 0, 1` installed and
a modify of its action data staged (`pending_modify0` holds the old version,
`pending_modify1` the new one), a commit whose backend calls all succeed calls
`add` of the new version once before the swap and once after it, on the other
object, and ends with the new version in `entries`. -/
theorem commit_incremental_calls_witness :
    (table0 (ctl_run example_ctl example_modify_ops)).pending_modify0 = [example_entry 1 1] ∧
    (table0 (ctl_run example_ctl example_modify_ops)).pending_modify1 = [example_entry 1 5] ∧
    (rte_swx_ctl_pipeline_commit example_backend
      (ctl_run example_ctl example_modify_ops) false).2.2 =
      [event.add 0 (some 1) (example_entry 1 5) 0,
       event.table_state_set
         [{ obj := some 1, default_action_data := [0, 0], default_action_id := 0 }],
       event.add 0 (some 2) (example_entry 1 5) 0] ∧
    (table0 (rte_swx_ctl_pipeline_commit example_backend
      (ctl_run example_ctl example_modify_ops) false).2.1).entries = [example_entry 1 5] ∧
    ∃ (pre post : List event) (X : List rte_swx_table_state),
      (rte_swx_ctl_pipeline_commit example_backend
        (ctl_run example_ctl example_modify_ops) false).2.2
        = pre ++ event.table_state_set X :: post ∧
      (∀ ev ∈ pre, event_table_id ev ≠ none) ∧ (∀ ev ∈ post, event_table_id ev ≠ none) ∧
      log_of 0 pre =
        (table0 (ctl_run example_ctl example_modify_ops)).pending_add.map
            (fun e => event.add 0 (some 1) e 0) ++
          (table0 (ctl_run example_ctl example_modify_ops)).pending_modify1.map
            (fun e => event.add 0 (some 1) e 0) ++
          (table0 (ctl_run example_ctl example_modify_ops)).pending_delete.map
            (fun e => event.del 0 (some 1) e 0) ∧
      log_of 0 post =
        (table0 (ctl_run example_ctl example_modify_ops)).pending_add.map
            (fun e => event.add 0 (some 2) e 0) ++
          (table0 (ctl_run example_ctl example_modify_ops)).pending_modify1.map
            (fun e => event.add 0 (some 2) e 0) ++
          (table0 (ctl_run example_ctl example_modify_ops)).pending_delete.map
            (fun e => event.del 0 (some 2) e 0) :=
  ⟨by decide, by decide, by decide, by decide,
    commit_incremental_calls example_backend (ctl_run example_ctl example_modify_ops) false
      (by decide) (by decide) 0 (table0 (ctl_run example_ctl example_modify_ops))
      { obj := some 2, default_action_data := [0, 0], default_action_id := 0 }
      { obj := some 1, default_action_data := [0, 0], default_action_id := 0 }
      (by decide) (by decide) (by decide) (by decide) (by decide)
      (by unfold U32; decide)⟩

/-! ## The calls of a rollback for a table without `ops.add` -/

/-- Claim C31 fails on the code.  On a controller with two tables without
`ops.add`, after `table_state_create` (which makes each `ts_next` object the `ts`
object: `1` for table 0, `3` for table 1) one key is staged for add in each
table.  A commit whose `create` fails for table 0 returns `-ENODEV`; the loop
before the swap never reaches table 1, no object is built for it, and the
rollback calls `ops.free` on the object `3`, which is the live object of
`ts[1]` and stays in `ts[1]` and `ts_next[1]`.  With a backend whose allocations
fail the commit returns `-ENOMEM` before any `create`, and the rollback calls
`ops.free` on both live objects. -/
theorem rollback_frees_live_object :
    (table_state_create example_backend true example_ctl_rebuild).1 = 0 ∧
    example_rebuild_staged.ts.map (fun s => s.obj) = [some 1, some 3] ∧
    example_rebuild_staged.ts_next.map (fun s => s.obj) = [some 1, some 3] ∧
    (rte_swx_ctl_pipeline_commit example_backend_create0_fails
      example_rebuild_staged false).1 = -ENODEV ∧
    (rte_swx_ctl_pipeline_commit example_backend_create0_fails
      example_rebuild_staged false).2.2 =
      [event.create 0 [example_entry 1 1] none, event.free 1 (some 3)] ∧
    (rte_swx_ctl_pipeline_commit example_backend_create0_fails
      example_rebuild_staged false).2.1.ts.map (fun s => s.obj) = [some 1, some 3] ∧
    (rte_swx_ctl_pipeline_commit example_backend_create0_fails
      example_rebuild_staged false).2.1.ts_next.map (fun s => s.obj) = [some 1, some 3] ∧
    (rte_swx_ctl_pipeline_commit example_backend_no_memory
      example_rebuild_staged false).1 = -ENOMEM ∧
    (rte_swx_ctl_pipeline_commit example_backend_no_memory
      example_rebuild_staged false).2.2 = [event.free 0 (some 1), event.free 1 (some 3)] := by
  refine ⟨?_, ?_, ?_, ?_, ?_, ?_, ?_, ?_, ?_⟩ <;> decide

/-! ## Blank lines and comments -/

theorem strtok_tokens_nil (cur : List Char) :
    strtok_tokens cur [] = if cur.isEmpty then [] else [cur.reverse] := rfl

theorem strtok_tokens_cons (cur : List Char) (c : Char) (rest : List Char) :
    strtok_tokens cur (c :: rest) =
      if is_delimiter c then
        if cur.isEmpty then strtok_tokens [] rest else cur.reverse :: strtok_tokens [] rest
      else strtok_tokens (c :: cur) rest := rfl

theorem strtok_tokens_cur (c : Char) (cur s : List Char) :
    strtok_tokens (c :: cur) s =
      ((c :: cur).reverse ++ s.takeWhile (fun x => ! is_delimiter x)) ::
        strtok_tokens [] (s.dropWhile (fun x => ! is_delimiter x)) := by
  induction s generalizing c cur with
  | nil =>
    rw [strtok_tokens_nil, if_neg (by simp)]
    simp [strtok_tokens_nil]
  | cons x rest ih =>
    rw [strtok_tokens_cons]
    by_cases hx : is_delimiter x = true
    · rw [if_pos hx, if_neg (by simp)]
      rw [List.takeWhile_cons_of_neg (by simp [hx]), List.dropWhile_cons_of_neg (by simp [hx])]
      rw [List.append_nil, strtok_tokens_cons, if_pos hx, if_pos (by rfl)]
    · rw [if_neg hx, ih]
      rw [List.takeWhile_cons_of_pos (by simp [hx]), List.dropWhile_cons_of_pos (by simp [hx])]
      simp

theorem strtok_tokens_skip (s : List Char) :
    strtok_tokens [] s = strtok_tokens [] (s.dropWhile is_delimiter) := by
  induction s with
  | nil => rfl
  | cons x rest ih =>
    by_cases hx : is_delimiter x = true
    · rw [List.dropWhile_cons_of_pos hx, ← ih, strtok_tokens_cons, if_pos hx, if_pos (by rfl)]
    · rw [List.dropWhile_cons_of_neg hx]

theorem strtok_tokens_first (x : Char) (rest : List Char) (hx : is_delimiter x = false) :
    strtok_tokens [] (x :: rest) =
      (x :: rest.takeWhile (fun c => ! is_delimiter c)) ::
        strtok_tokens [] (rest.dropWhile (fun c => ! is_delimiter c)) := by
  rw [strtok_tokens_cons, if_neg (by rw [hx]; decide), strtok_tokens_cur]
  rfl

theorem dropWhile_head_not {s : List Char} {x : Char} {rest : List Char}
    (h : s.dropWhile is_delimiter = x :: rest) : is_delimiter x = false := by
  have := List.head_dropWhile_not is_delimiter s (by rw [h]; exact List.cons_ne_nil _ _)
  simp only [h, List.head_cons] at this
  exact this

/-- A line has no token exactly when it consists of delimiters. -/
theorem strtok_tokens_eq_nil_iff (s : List Char) :
    strtok_tokens [] s = [] ↔ s.dropWhile is_delimiter = [] := by
  rw [strtok_tokens_skip]
  cases h : s.dropWhile is_delimiter with
  | nil => exact ⟨fun _ => rfl, fun _ => rfl⟩
  | cons x rest =>
    rw [strtok_tokens_first x rest (dropWhile_head_not h)]
    exact ⟨fun hc => List.noConfusion hc, fun hc => List.noConfusion hc⟩

/-- The first token of a line is a comment exactly when the line, after its
leading delimiters, starts as a comment does. -/
theorem first_token_is_comment (s : List Char) (tok : List Char) (toks : List (List Char))
    (h : strtok_tokens [] s = tok :: toks) :
    token_is_comment tok = token_is_comment (s.dropWhile is_delimiter) := by
  rw [strtok_tokens_skip] at h
  cases hd : s.dropWhile is_delimiter with
  | nil => rw [hd] at h; exact List.noConfusion h
  | cons x rest =>
    rw [hd, strtok_tokens_first x rest (dropWhile_head_not hd)] at h
    have htok := (List.cons.inj h).1
    rw [← htok]
    unfold token_is_comment
    dsimp only
    cases rest with
    | nil => rfl
    | cons y rest' =>
      by_cases hy : is_delimiter y = true
      · rw [List.takeWhile_cons_of_neg (by simp [hy])]
        have hne : y ≠ '/' := by
          intro hc
          rw [hc] at hy
          exact absurd hy (by decide)
        simp [hne]
      · rw [List.takeWhile_cons_of_pos (by simp [hy])]
        rfl

theorem read_tokens_nil (acc : List (List Char)) : read_tokens [] acc = some acc := rfl

theorem read_tokens_cons (tok : List Char) (rest acc : List (List Char)) :
    read_tokens (tok :: rest) acc =
      if token_is_comment tok then some acc
      else if acc.length ≥ RTE_SWX_CTL_ENTRY_TOKENS_MAX then none
      else read_tokens rest (acc ++ [tok]) := rfl

theorem read_tokens_takeWhile (toks acc : List (List Char)) :
    read_tokens toks acc = read_tokens (toks.takeWhile (fun tok => ! token_is_comment tok)) acc := by
  induction toks generalizing acc with
  | nil => rfl
  | cons tok rest ih =>
    by_cases hc : token_is_comment tok = true
    · rw [List.takeWhile_cons_of_neg (by simp [hc]), read_tokens_cons, if_pos hc]
      rfl
    · rw [List.takeWhile_cons_of_pos (by simp [hc]), read_tokens_cons, read_tokens_cons,
        if_neg hc, if_neg hc]
      split_ifs
      · rfl
      · exact ih _

theorem read_tokens_acc (toks acc : List (List Char)) (r : List (List Char))
    (h : read_tokens toks acc = some r) :
    r = acc ++ toks.takeWhile (fun tok => ! token_is_comment tok) := by
  induction toks generalizing acc with
  | nil =>
    rw [read_tokens_nil] at h
    rw [List.takeWhile_nil, List.append_nil]
    exact (Option.some.inj h).symm
  | cons tok rest ih =>
    rw [read_tokens_cons] at h
    by_cases hc : token_is_comment tok = true
    · rw [if_pos hc] at h
      rw [List.takeWhile_cons_of_neg (by simp [hc]), List.append_nil]
      exact (Option.some.inj h).symm
    · rw [if_neg hc] at h
      split_ifs at h
      rw [ih _ h, List.takeWhile_cons_of_pos (by simp [hc]), List.append_assoc]
      rfl

theorem entry_read_eq (ctl : rte_swx_ctl_pipeline) (name : String) (i : Nat) (t : table)
    (s : List Char) (hname : name ≠ "") (hfind : table_find ctl name = some (i, t))
    (hs : s ≠ []) :
    ∃ entry, table_entry_alloc t true = some entry ∧
      rte_swx_ctl_pipeline_table_entry_read ctl (some name) (some s) true =
        match read_tokens (strtok_tokens [] s) [] with
        | none => some (none, some 0)
        | some tokens =>
          if tokens = [] then some (none, some 1)
          else
            match read_entry ctl.actions t tokens entry with
            | read_outcome.ok e => some (some e, none)
            | read_outcome.error => some (none, some 0)
            | read_outcome.undefined => none := by
  refine ⟨_, rfl, ?_⟩
  unfold rte_swx_ctl_pipeline_table_entry_read
  simp only [hname, if_false, hfind, hs]
  rfl

/-- Claim C34 fails as stated.  For the empty line
`rte_swx_ctl_pipeline_table_entry_read` returns no entry and stores `0`, not
`1`, in `*is_blank_or_comment`: the test `!string[0]` comes before the tokens are
read.  The same holds for a blank line and for a comment line when the table
name is that of no table or an allocation fails. -/
theorem empty_line_not_flagged :
    rte_swx_ctl_pipeline_table_entry_read example_ctl (some "t0") (some []) true
      = some (none, some 0) ∧
    rte_swx_ctl_pipeline_table_entry_read example_ctl (some "t1") (some "   ".data) true
      = some (none, some 0) ∧
    rte_swx_ctl_pipeline_table_entry_read example_ctl (some "t0") (some "# text".data) false
      = some (none, some 0) ∧
    rte_swx_ctl_pipeline_table_entry_read example_ctl (some "t0") (some "   ".data) true
      = some (none, some 1) := by
  refine ⟨?_, ?_, ?_, ?_⟩ <;> decide

/-- Claim C34 (amended).  Let the table name be that of a table, the line be
not empty and the allocations succeed.  If the line has only delimiters
(`" \f\n\r\t\v"`), or what follows its leading delimiters starts with `#`, `;`
or `//`, `rte_swx_ctl_pipeline_table_entry_read` returns no entry and stores `1`
in `*is_blank_or_comment`.  For every other line the call either returns no
entry and stores `0`, or returns an entry and stores nothing, or does what C
leaves undefined (a copy outside a buffer of the entry, for instance for a line
that names an action whose data the table has no room for); it never stores
`1`.  The result is the same for two lines that have the same tokens before
their first comment token. -/
theorem entry_read_blank_or_comment (ctl : rte_swx_ctl_pipeline) (name : String) (i : Nat)
    (t : table) (s : List Char) (hname : name ≠ "")
    (hfind : table_find ctl name = some (i, t)) (hs : s ≠ []) :
    ((s.dropWhile is_delimiter = [] ∨ token_is_comment (s.dropWhile is_delimiter) = true) →
      rte_swx_ctl_pipeline_table_entry_read ctl (some name) (some s) true
        = some (none, some 1)) ∧
    (¬ (s.dropWhile is_delimiter = [] ∨ token_is_comment (s.dropWhile is_delimiter) = true) →
      rte_swx_ctl_pipeline_table_entry_read ctl (some name) (some s) true
        = some (none, some 0) ∨
      (∃ e, rte_swx_ctl_pipeline_table_entry_read ctl (some name) (some s) true
        = some (some e, none)) ∨
      rte_swx_ctl_pipeline_table_entry_read ctl (some name) (some s) true = none) ∧
    (∀ s' : List Char, s' ≠ [] →
      (strtok_tokens [] s').takeWhile (fun tok => ! token_is_comment tok) =
        (strtok_tokens [] s).takeWhile (fun tok => ! token_is_comment tok) →
      rte_swx_ctl_pipeline_table_entry_read ctl (some name) (some s') true =
        rte_swx_ctl_pipeline_table_entry_read ctl (some name) (some s) true) := by
  obtain ⟨entry, hentry, heq⟩ := entry_read_eq ctl name i t s hname hfind hs
  refine ⟨fun h => ?_, fun h => ?_, fun s' hs' htok => ?_⟩
  · rw [heq]
    rcases h with h | h
    · rw [(strtok_tokens_eq_nil_iff s).mpr h, read_tokens_nil]
      rfl
    · cases htoks : strtok_tokens [] s with
      | nil => rfl
      | cons tok toks =>
        rw [read_tokens_cons, if_pos (by rw [first_token_is_comment s tok toks htoks]; exact h)]
        rfl
  · rw [heq]
    cases htoks : strtok_tokens [] s with
    | nil => exact absurd (Or.inl ((strtok_tokens_eq_nil_iff s).mp htoks)) h
    | cons tok toks =>
      have hc : ¬ token_is_comment tok = true := by
        rw [first_token_is_comment s tok toks htoks]
        exact fun hc => h (Or.inr hc)
      cases hr : read_tokens (tok :: toks) [] with
      | none => exact Or.inl rfl
      | some tokens =>
        have hacc := read_tokens_acc _ _ _ hr
        rw [List.takeWhile_cons_of_pos (by simp [hc]), List.nil_append] at hacc
        have hne : tokens ≠ [] := by rw [hacc]; exact List.cons_ne_nil _ _
        dsimp only
        rw [if_neg hne]
        cases read_entry ctl.actions t tokens entry with
        | ok e => exact Or.inr (Or.inl ⟨e, rfl⟩)
        | error => exact Or.inl rfl
        | undefined => exact Or.inr (Or.inr rfl)
  · obtain ⟨entry', hentry', heq'⟩ := entry_read_eq ctl name i t s' hname hfind hs'
    rw [hentry] at hentry'
    cases hentry'
    rw [heq, heq', read_tokens_takeWhile (strtok_tokens [] s'),
      read_tokens_takeWhile (strtok_tokens [] s), htok]

/-- On the concrete controller: a line of blanks followed by a comment stores
`1`; a line with an unknown keyword stores `0`; a trailing comment does not
change what is read.  On the controller whose table has no action data, the
line `action fwd port N(7)` makes the call copy through the `NULL`
`action_data`. -/
theorem entry_read_blank_or_comment_witness :
    rte_swx_ctl_pipeline_table_entry_read example_ctl_no_data (some "t0")
      (some "action fwd port N(7)".data) true = none ∧
    rte_swx_ctl_pipeline_table_entry_read example_ctl (some "t0") (some "  // text".data) true
      = some (none, some 1) ∧
    rte_swx_ctl_pipeline_table_entry_read example_ctl (some "t0") (some "table t0".data) true
      = some (none, some 0) ∧
    rte_swx_ctl_pipeline_table_entry_read example_ctl (some "t0")
        (some "match 0x0a000001 action fwd port H(7) # text".data) true =
      rte_swx_ctl_pipeline_table_entry_read example_ctl (some "t0")
        (some "match 0x0a000001 action fwd port H(7)".data) true ∧
    ((("  // text".data).dropWhile is_delimiter = [] ∨
        token_is_comment (("  // text".data).dropWhile is_delimiter) = true) →
      rte_swx_ctl_pipeline_table_entry_read example_ctl (some "t0")
        (some "  // text".data) true = some (none, some 1)) :=
  ⟨by decide, by decide, by decide, by decide,
    (entry_read_blank_or_comment example_ctl "t0" 0 example_table "  // text".data
      (by decide) (by decide) (by decide)).1⟩

/-! ## The clauses of a line that is read as an entry -/

theorem memcpy_val_some (dst : Option (List Nat)) (offset val n : Nat) (d : List Nat)
    (h : memcpy_val dst offset val n = some d) :
    ∃ d₀, dst = some d₀ ∧ offset + n ≤ d₀.length ∧ n ≤ 8 ∧
      d = write_bytes d₀ offset (val_bytes val n) := by
  unfold memcpy_val at h
  cases dst with
  | none => exact Option.noConfusion h
  | some d₀ =>
    dsimp only at h
    by_cases hfit : offset + n ≤ d₀.length ∧ n ≤ 8
    · rw [if_pos hfit] at h
      exact ⟨d₀, rfl, hfit.1, hfit.2, (Option.some.inj h).symm⟩
    · rw [if_neg hfit] at h
      exact Option.noConfusion h

/-- What an iteration of the action argument loop that runs to its end has
checked and written. -/
theorem read_action_arg_ok (arg : action_arg_info) (arg_name arg_val : List Char)
    (arg_offset : Nat) (action_data d : Option (List Nat))
    (h : read_action_arg arg arg_name arg_val arg_offset action_data = read_outcome.ok d) :
    (arg_name = arg.name.data ∧ 4 ≤ arg_val.length ∧
      (arg_val.head? = some 'H' ∨ arg_val.head? = some 'N') ∧
      (arg_val.drop 1).head? = some '(' ∧ arg_val.getLast? = some ')' ∧
      (strtoull ((arg_val.dropLast).drop 2)).2 = []) ∧
    ∃ d₀, action_data = some d₀ ∧ arg_offset + arg.n_bits / 8 ≤ d₀.length ∧
      arg.n_bits / 8 ≤ 8 ∧
      (arg_val.head? = some 'N' → 1 ≤ arg.n_bits ∧ arg.n_bits ≤ 64) ∧
      d = some (write_bytes d₀ arg_offset
        (val_bytes (if arg_val.head? = some 'N'
            then field_hton (strtoull ((arg_val.dropLast).drop 2)).1 arg.n_bits
            else (strtoull ((arg_val.dropLast).drop 2)).1) (arg.n_bits / 8))) := by
  unfold read_action_arg at h
  by_cases hbad : arg_name ≠ arg.name.data ∨ arg_val.length < 4 ∨
      (arg_val.head? ≠ some 'H' ∧ arg_val.head? ≠ some 'N') ∨
      (arg_val.drop 1).head? ≠ some '(' ∨ arg_val.getLast? ≠ some ')'
  · rw [if_pos hbad] at h
    exact read_outcome.noConfusion h
  · rw [if_neg hbad] at h
    dsimp only at h
    by_cases hrest : (strtoull ((arg_val.dropLast).drop 2)).2 ≠ []
    · rw [if_pos hrest] at h
      exact read_outcome.noConfusion h
    · rw [if_neg hrest] at h
      by_cases hun : decide (arg_val.head? = some 'N') = true ∧
          field_hton_defined arg.n_bits = false
      · rw [if_pos hun] at h
        exact read_outcome.noConfusion h
      · rw [if_neg hun] at h
        obtain ⟨h1, hgood⟩ := not_or.mp hbad
        obtain ⟨h2, hgood⟩ := not_or.mp hgood
        obtain ⟨h3, hgood⟩ := not_or.mp hgood
        obtain ⟨h4, h5⟩ := not_or.mp hgood
        refine ⟨⟨not_not.mp h1, by omega, ?_, not_not.mp h4, not_not.mp h5, not_not.mp hrest⟩, ?_⟩
        · by_contra hc
          exact h3 ⟨fun hH => hc (Or.inl hH), fun hN => hc (Or.inr hN)⟩
        · cases hm : memcpy_val action_data arg_offset
              (if decide (arg_val.head? = some 'N') = true
                then field_hton (strtoull ((arg_val.dropLast).drop 2)).1 arg.n_bits
                else (strtoull ((arg_val.dropLast).drop 2)).1) (arg.n_bits / 8) with
          | none => rw [hm] at h; exact read_outcome.noConfusion h
          | some d₁ =>
            rw [hm] at h
            obtain ⟨d₀, hd₀, hfit, h8, hd₁⟩ := memcpy_val_some _ _ _ _ _ hm
            refine ⟨d₀, hd₀, hfit, h8, ?_, ?_⟩
            · intro hN
              have hdef : field_hton_defined arg.n_bits = true := by
                by_contra hc
                exact hun ⟨decide_eq_true hN, Bool.eq_false_iff.mpr hc⟩
              unfold field_hton_defined at hdef
              exact of_decide_eq_true hdef
            · have hd := read_outcome.ok.inj h
              rw [← hd, hd₁]
              simp only [decide_eq_true_eq]

theorem read_action_args_nil (tokens : List (List Char)) (arg_offset : Nat)
    (action_data : Option (List Nat)) :
    read_action_args [] tokens arg_offset action_data = read_outcome.ok action_data := by
  unfold read_action_args
  rfl

theorem read_action_args_cons (arg : action_arg_info) (args : List action_arg_info)
    (arg_name arg_val : List Char) (tokens : List (List Char)) (arg_offset : Nat)
    (action_data : Option (List Nat)) :
    read_action_args (arg :: args) (arg_name :: arg_val :: tokens) arg_offset action_data =
      match read_action_arg arg arg_name arg_val arg_offset action_data with
      | read_outcome.ok action_data' =>
        read_action_args args tokens (uadd32 arg_offset (arg.n_bits / 8)) action_data'
      | read_outcome.error => read_outcome.error
      | read_outcome.undefined => read_outcome.undefined := rfl

theorem read_action_args_short (arg : action_arg_info) (args : List action_arg_info)
    (tokens : List (List Char)) (arg_offset : Nat) (action_data : Option (List Nat))
    (h : tokens.length < 2) :
    read_action_args (arg :: args) tokens arg_offset action_data = read_outcome.undefined := by
  match tokens, h with
  | [], _ => rfl
  | [_], _ => rfl
  | _ :: _ :: _, h => simp only [List.length_cons] at h; omega

theorem read_action_args_names :
    ∀ (args : List action_arg_info) (tokens : List (List Char)) (arg_offset : Nat)
      (action_data d : Option (List Nat)),
      read_action_args args tokens arg_offset action_data = read_outcome.ok d →
      2 * args.length ≤ tokens.length ∧
      ∀ (j : Nat) (arg : action_arg_info), args[j]? = some arg →
        ∃ arg_val, tokens[2 * j]? = some arg.name.data ∧ tokens[2 * j + 1]? = some arg_val ∧
          4 ≤ arg_val.length ∧ (arg_val.head? = some 'H' ∨ arg_val.head? = some 'N') ∧
          (arg_val.drop 1).head? = some '(' ∧ arg_val.getLast? = some ')' ∧
          (strtoull ((arg_val.dropLast).drop 2)).2 = [] := by
  intro args
  induction args with
  | nil =>
    intro tokens arg_offset action_data d _
    exact ⟨Nat.zero_le _, fun j arg hj => Option.noConfusion hj⟩
  | cons a rest ih =>
    intro tokens arg_offset action_data d h
    match tokens, h with
    | [], h => exact read_outcome.noConfusion h
    | [_], h => exact read_outcome.noConfusion h
    | arg_name :: arg_val :: tokens', h =>
      rw [read_action_args_cons] at h
      cases hstep : read_action_arg a arg_name arg_val arg_offset action_data with
      | error => rw [hstep] at h; exact read_outcome.noConfusion h
      | undefined => rw [hstep] at h; exact read_outcome.noConfusion h
      | ok action_data' =>
        rw [hstep] at h
        obtain ⟨hlen, hrest⟩ := ih tokens' _ _ d h
        refine ⟨by simp only [List.length_cons]; omega, fun j arg hj => ?_⟩
        cases j with
        | zero =>
          have ha : a = arg := by
            rw [List.getElem?_cons_zero] at hj
            exact Option.some.inj hj
          subst ha
          obtain ⟨⟨h1, h2, h3, h4, h5, h6⟩, _⟩ := read_action_arg_ok _ _ _ _ _ _ hstep
          refine ⟨arg_val, ?_, by simp, h2, h3, h4, h5, h6⟩
          rw [h1]
          rfl
        | succ k =>
          rw [List.getElem?_cons_succ] at hj
          obtain ⟨v, hv1, hv2, hv⟩ := hrest k arg hj
          refine ⟨v, ?_, ?_, hv⟩
          · rw [show 2 * (k + 1) = (2 * k) + 1 + 1 by ring, List.getElem?_cons_succ,
              List.getElem?_cons_succ]
            exact hv1
          · rw [show 2 * (k + 1) + 1 = (2 * k + 1) + 1 + 1 by ring, List.getElem?_cons_succ,
              List.getElem?_cons_succ]
            exact hv2

theorem action_find_from_mem (k : Nat) (l : List action) (action_name : List Char) (i : Nat)
    (a : action) (h : action_find_from k l action_name = some (i, a)) : a ∈ l := by
  induction l generalizing k with
  | nil => exact Option.noConfusion h
  | cons b rest ih =>
    unfold action_find_from at h
    split_ifs at h
    · have := Option.some.inj h
      rw [Prod.mk.injEq] at this
      rw [← this.2]
      exact List.mem_cons_self _ _
    · exact List.mem_cons_of_mem _ (ih (k + 1) h)

/-- What `read_action` accepts: the token `action`, the name of an action, and
the tokens of its arguments, with no token left; the action data of the entry
is what the argument loop leaves. -/
theorem read_action_ok (ctl_actions : List action) (tokens : List (List Char))
    (entry e : rte_swx_table_entry)
    (hargs : ∀ a ∈ ctl_actions, 2 + a.args.length * 2 < U32)
    (h : read_action ctl_actions tokens entry = read_outcome.ok e) :
    ∃ (aname : List Char) (action_id : Nat) (a : action) (argtoks : List (List Char)),
      tokens = "action".data :: aname :: argtoks ∧
      action_find ctl_actions aname = some (action_id, a) ∧ e.action_id = action_id ∧
      argtoks.length = 2 * a.args.length ∧
      read_action_args a.args argtoks 0 entry.action_data = read_outcome.ok e.action_data := by
  unfold read_action at h
  by_cases h1 : tokens ≠ [] ∧ tokens.head? ≠ some "action".data
  · rw [if_pos h1] at h
    exact read_outcome.noConfusion h
  rw [if_neg h1] at h
  by_cases h2 : tokens.length < 2
  · rw [if_pos h2] at h
    exact read_outcome.noConfusion h
  rw [if_neg h2] at h
  cases tokens with
  | nil => exact absurd (Nat.zero_lt_succ 1) h2
  | cons t0 tl =>
    cases tl with
    | nil => exact absurd (Nat.lt_succ_self 1) h2
    | cons t1 rest =>
      have ht0 : t0 = "action".data := by
        by_contra hc
        apply h1
        refine ⟨List.cons_ne_nil _ _, ?_⟩
        intro hhead
        exact hc (Option.some.inj hhead)
      have hget : (t0 :: t1 :: rest).getD 1 [] = t1 := rfl
      rw [hget] at h
      cases hfind : action_find ctl_actions t1 with
      | none => rw [hfind] at h; exact read_outcome.noConfusion h
      | some r =>
        obtain ⟨action_id, a⟩ := r
        rw [hfind] at h
        dsimp only at h
        have hmem : a ∈ ctl_actions := action_find_from_mem 0 ctl_actions t1 action_id a hfind
        have hlim : (2 + a.args.length * 2) % U32 = 2 + a.args.length * 2 :=
          Nat.mod_eq_of_lt (hargs a hmem)
        rw [hlim] at h
        by_cases h3 : (t0 :: t1 :: rest).length < 2 + a.args.length * 2
        · rw [if_pos h3] at h
          exact read_outcome.noConfusion h
        rw [if_neg h3] at h
        have hdrop : (t0 :: t1 :: rest).drop 2 = rest := rfl
        rw [hdrop] at h
        cases hr : read_action_args a.args rest 0 entry.action_data with
        | error => rw [hr] at h; exact read_outcome.noConfusion h
        | undefined => rw [hr] at h; exact read_outcome.noConfusion h
        | ok d =>
          rw [hr] at h
          dsimp only at h
          by_cases h4 : (t0 :: t1 :: rest).drop (2 + a.args.length * 2) ≠ []
          · rw [if_pos h4] at h
            exact read_outcome.noConfusion h
          rw [if_neg h4] at h
          have he := read_outcome.ok.inj h
          have hlen : rest.length = 2 * a.args.length := by
            have h5 := List.drop_eq_nil_iff.mp (not_not.mp h4)
            simp only [List.length_cons] at h3 h5
            omega
          refine ⟨t1, action_id, a, rest, by rw [ht0], hfind, by rw [← he], hlen, ?_⟩
          rw [← he]
          exact hr

theorem read_match_field_action_data (first_offset : Nat) (mf : match_field_info)
    (token : List Char) (entry e : rte_swx_table_entry)
    (h : read_match_field first_offset mf token entry = read_outcome.ok e) :
    e.action_data = entry.action_data ∧
      (strtoull (token.takeWhile (fun c => c ≠ '/'))).2 = [] := by
  unfold read_match_field at h
  dsimp only at h
  cases hmask : read_match_field_mask (usub32 mf.offset first_offset / 8) mf token entry with
  | error => rw [hmask] at h; exact read_outcome.noConfusion h
  | undefined => rw [hmask] at h; exact read_outcome.noConfusion h
  | ok entry' =>
    rw [hmask] at h
    dsimp only at h
    have h1 : entry'.action_data = entry.action_data := by
      unfold read_match_field_mask at hmask
      dsimp only at hmask
      split_ifs at hmask
      all_goals
        cases hk : entry.key_mask with
        | none =>
          rw [hk] at hmask
          rw [← read_outcome.ok.inj hmask]
        | some km =>
          rw [hk] at hmask
          dsimp only at hmask
          split at hmask
          · exact read_outcome.noConfusion hmask
          · rw [← read_outcome.ok.inj hmask]
    unfold read_match_field_value at h
    dsimp only at h
    by_cases hv : (strtoull (token.takeWhile (fun c => c ≠ '/'))).2 ≠ []
    · rw [if_pos hv] at h
      exact read_outcome.noConfusion h
    · rw [if_neg hv] at h
      refine ⟨?_, not_not.mp hv⟩
      split_ifs at h
      all_goals
        split at h
        · exact read_outcome.noConfusion h
        · rw [← read_outcome.ok.inj h]
          exact h1

theorem read_match_fields_ok (first_offset : Nat) :
    ∀ (mfs : List match_field_info) (tokens : List (List Char)) (entry e : rte_swx_table_entry),
      read_match_fields first_offset mfs tokens entry = read_outcome.ok e →
      e.action_data = entry.action_data ∧ mfs.length ≤ tokens.length ∧
      ∀ tok ∈ tokens.take mfs.length, (strtoull (tok.takeWhile (fun c => c ≠ '/'))).2 = [] := by
  intro mfs
  induction mfs with
  | nil =>
    intro tokens entry e h
    unfold read_match_fields at h
    refine ⟨by rw [← read_outcome.ok.inj h], Nat.zero_le _, ?_⟩
    intro tok htok
    simp at htok
  | cons mf rest ih =>
    intro tokens entry e h
    cases tokens with
    | nil => exact read_outcome.noConfusion h
    | cons token tokens' =>
      unfold read_match_fields at h
      cases hstep : read_match_field first_offset mf token entry with
      | error => rw [hstep] at h; exact read_outcome.noConfusion h
      | undefined => rw [hstep] at h; exact read_outcome.noConfusion h
      | ok entry' =>
        rw [hstep] at h
        dsimp only at h
        obtain ⟨h1, h2⟩ := read_match_field_action_data _ _ _ _ _ hstep
        obtain ⟨h3, h4, h5⟩ := ih tokens' entry' e h
        refine ⟨h3.trans h1, by simp only [List.length_cons]; omega, ?_⟩
        intro tok htok
        rw [List.length_cons, List.take_succ_cons] at htok
        rcases List.mem_cons.mp htok with heq | hmem
        · rw [heq]; exact h2
        · exact h5 tok hmem

/-- What `read_entry` accepts before the action clause: nothing, or the token
`match`, one token for each match field of the table and, optionally, the token
`priority` and a value.  The action data is not touched before the action
clause. -/
theorem read_entry_ok (ctl_actions : List action) (t : table) (tokens : List (List Char))
    (entry e : rte_swx_table_entry) (hmf : 1 + t.mf.length < U32)
    (h : read_entry ctl_actions t tokens entry = read_outcome.ok e) :
    ∃ (m rest : List (List Char)) (entry' : rte_swx_table_entry),
      tokens = m ++ rest ∧ read_action ctl_actions rest entry' = read_outcome.ok e ∧
      entry'.action_data = entry.action_data ∧
      (m = [] ∨ ∃ fields prio, m = "match".data :: (fields ++ prio) ∧
        fields.length = t.mf.length ∧ (prio = [] ∨ ∃ p, prio = ["priority".data, p])) := by
  unfold read_entry at h
  by_cases hm : tokens.head? ≠ some "match".data
  · rw [if_pos hm] at h
    exact ⟨[], tokens, entry, rfl, h, rfl, Or.inl rfl⟩
  rw [if_neg hm, Nat.mod_eq_of_lt hmf] at h
  cases tokens with
  | nil => exact absurd (not_not.mp hm) (by simp)
  | cons t0 tl =>
    have ht0 : t0 = "match".data := by
      have := not_not.mp hm
      exact Option.some.inj this
    by_cases hlen : (t0 :: tl).length < 1 + t.mf.length
    · rw [if_pos hlen] at h
      exact read_outcome.noConfusion h
    rw [if_neg hlen] at h
    have hd1 : (t0 :: tl).drop 1 = tl := rfl
    have hdn : (t0 :: tl).drop (1 + t.mf.length) = tl.drop t.mf.length := by
      rw [Nat.add_comm, List.drop_succ_cons]
    rw [hd1, hdn] at h
    have hfl : (tl.take t.mf.length).length = t.mf.length := by
      rw [List.length_take]
      simp only [List.length_cons] at hlen
      omega
    cases hf : read_match_fields ((t.mf.map (fun f => f.offset)).getD 0 0) t.mf tl entry with
    | error => rw [hf] at h; exact read_outcome.noConfusion h
    | undefined => rw [hf] at h; exact read_outcome.noConfusion h
    | ok entry₁ =>
      rw [hf] at h
      dsimp only at h
      unfold read_priority at h
      have hdata := (read_match_fields_ok _ _ _ _ _ hf).1
      by_cases hp : (tl.drop t.mf.length).head? = some "priority".data
      · rw [if_pos hp] at h
        by_cases hl2 : (tl.drop t.mf.length).length < 2
        · rw [if_pos hl2] at h
          split_ifs at h
        rw [if_neg hl2] at h
        by_cases hs : (strtoull ((tl.drop t.mf.length).getD 1 [])).2 ≠ []
        · rw [if_pos hs] at h
          exact read_outcome.noConfusion h
        rw [if_neg hs] at h
        cases hrest : tl.drop t.mf.length with
        | nil => rw [hrest] at hl2; exact absurd (Nat.zero_lt_succ 1) hl2
        | cons p0 tl2 =>
          cases tl2 with
          | nil => rw [hrest] at hl2; exact absurd (Nat.lt_succ_self 1) hl2
          | cons p rest₂ =>
            rw [hrest] at h hp
            have hp0 : p0 = "priority".data := Option.some.inj hp
            refine ⟨"match".data :: (tl.take t.mf.length ++ ["priority".data, p]), rest₂, _,
              ?_, h, hdata, Or.inr ⟨tl.take t.mf.length, ["priority".data, p], rfl, hfl,
                Or.inr ⟨p, rfl⟩⟩⟩
            rw [ht0, List.cons_append, List.append_assoc]
            congr 1
            conv_lhs => rw [← List.take_append_drop t.mf.length tl, hrest, hp0]
            rfl
      · rw [if_neg hp] at h
        refine ⟨"match".data :: (tl.take t.mf.length ++ []), tl.drop t.mf.length, entry₁,
          ?_, h, hdata, Or.inr ⟨tl.take t.mf.length, [], rfl, hfl, Or.inl rfl⟩⟩
        rw [ht0, List.append_nil, List.cons_append, List.take_append_drop]

/-- Taking an entry out of the result of
`rte_swx_ctl_pipeline_table_entry_read`: the name is that of a table, and the
tokens of the line before its first comment are read by `read_entry` from the
entry `table_entry_alloc` gives. -/
theorem entry_read_ok (ctl : rte_swx_ctl_pipeline) (table_name : Option String)
    (s : List Char) (ok : Bool) (e : rte_swx_table_entry) (flag : Option Nat)
    (h : rte_swx_ctl_pipeline_table_entry_read ctl table_name (some s) ok
      = some (some e, flag)) :
    flag = none ∧ ∃ name i t entry, table_name = some name ∧
      table_find ctl name = some (i, t) ∧ table_entry_alloc t ok = some entry ∧
      read_entry ctl.actions t
        ((strtok_tokens [] s).takeWhile (fun tok => ! token_is_comment tok)) entry
        = read_outcome.ok e := by
  have hne : ∀ (f : Nat), (some ((none : Option rte_swx_table_entry), some f)
      = some (some e, flag)) → False := by
    intro f hc
    exact absurd (congrArg Prod.fst (Option.some.inj hc)) (by simp)
  unfold rte_swx_ctl_pipeline_table_entry_read at h
  cases table_name with
  | none => exact (hne 0 h).elim
  | some name =>
    dsimp only at h
    by_cases hname : name = ""
    · rw [if_pos hname] at h
      exact (hne 0 h).elim
    rw [if_neg hname] at h
    cases hfind : table_find ctl name with
    | none => rw [hfind] at h; exact (hne 0 h).elim
    | some r =>
      obtain ⟨i, t⟩ := r
      rw [hfind] at h
      dsimp only at h
      by_cases hs : s = []
      · rw [if_pos hs] at h
        exact (hne 0 h).elim
      rw [if_neg hs] at h
      cases ha : table_entry_alloc t ok with
      | none => rw [ha] at h; exact (hne 0 h).elim
      | some entry =>
        rw [ha] at h
        dsimp only at h
        cases hr : read_tokens (strtok_tokens [] s) [] with
        | none => rw [hr] at h; exact (hne 0 h).elim
        | some tokens =>
          rw [hr] at h
          dsimp only at h
          by_cases hnil : tokens = []
          · rw [if_pos hnil] at h
            exact (hne 1 h).elim
          rw [if_neg hnil] at h
          cases hre : read_entry ctl.actions t tokens entry with
          | error => rw [hre] at h; exact (hne 0 h).elim
          | undefined => rw [hre] at h; exact Option.noConfusion h
          | ok e' =>
            rw [hre] at h
            dsimp only at h
            have hpair := Option.some.inj h
            rw [Prod.mk.injEq] at hpair
            have he : e' = e := Option.some.inj hpair.1
            subst he
            have htok := read_tokens_acc _ _ _ hr
            rw [List.nil_append] at htok
            refine ⟨hpair.2.symm, name, i, t, entry, rfl, hfind, ha, ?_⟩
            rw [← htok]
            exact hre

/-- Claim C35 fails as stated.  The table `t0` of the concrete controller has a
match field, and the line `action fwd port N(0x0007)`, which has no `match`
clause, is read as an entry: its key is the zeroed key `table_entry_alloc`
leaves. -/
theorem line_without_match_is_read :
    example_table.mf.length = 1 ∧
    rte_swx_ctl_pipeline_table_entry_read example_ctl (some "t0")
      (some "action fwd port N(0x0007)".data) true =
      some (some { key := some [0, 0, 0, 0], key_mask := none, key_signature := 0,
                   key_priority := 0, action_id := 0, action_data := some [0, 7] }, none) := by
  refine ⟨?_, ?_⟩ <;> decide

/-- Claim C35 (amended).  When `rte_swx_ctl_pipeline_table_entry_read` returns an
entry (the counts of match fields and of action arguments being far below
`2 ^ 32`), it stores nothing in `*is_blank_or_comment` and the tokens of the line
before its first comment token are: optionally a match clause, made of the token
`match`, exactly one token for each match field of the table and optionally the
token `priority` and a value; then exactly one action clause, made of the token
`action`, the name of an action of the pipeline, which becomes the `action_id`
of the entry, and for each argument of that action, in the declared order, the
name of the argument and a value of the form `H(..)` or `N(..)` that `strtoull`
reads to its end; and no further token.  The match clause may be absent even
when the table has match fields. -/
theorem entry_read_clauses (ctl : rte_swx_ctl_pipeline) (name : String) (i : Nat)
    (t : table) (s : List Char) (ok : Bool) (e : rte_swx_table_entry) (flag : Option Nat)
    (hfind : table_find ctl name = some (i, t))
    (hmf : 1 + t.mf.length < U32)
    (hargs : ∀ a ∈ ctl.actions, 2 + a.args.length * 2 < U32)
    (h : rte_swx_ctl_pipeline_table_entry_read ctl (some name) (some s) ok
      = some (some e, flag)) :
    flag = none ∧
    ∃ (m : List (List Char)) (aname : List Char) (action_id : Nat) (a : action)
      (argtoks : List (List Char)),
      (strtok_tokens [] s).takeWhile (fun tok => ! token_is_comment tok) =
        m ++ "action".data :: aname :: argtoks ∧
      (m = [] ∨ ∃ fields prio, m = "match".data :: (fields ++ prio) ∧
        fields.length = t.mf.length ∧ (prio = [] ∨ ∃ p, prio = ["priority".data, p])) ∧
      action_find ctl.actions aname = some (action_id, a) ∧ e.action_id = action_id ∧
      argtoks.length = 2 * a.args.length ∧
      ∀ (j : Nat) (arg : action_arg_info), a.args[j]? = some arg →
        ∃ arg_val, argtoks[2 * j]? = some arg.name.data ∧ argtoks[2 * j + 1]? = some arg_val ∧
          4 ≤ arg_val.length ∧ (arg_val.head? = some 'H' ∨ arg_val.head? = some 'N') ∧
          (arg_val.drop 1).head? = some '(' ∧ arg_val.getLast? = some ')' ∧
          (strtoull ((arg_val.dropLast).drop 2)).2 = [] := by
  obtain ⟨hflag, name', i', t', entry, hname', hfind', _, hre⟩ :=
    entry_read_ok ctl (some name) s ok e flag h
  rw [← Option.some.inj hname', hfind] at hfind'
  obtain ⟨_, ht'⟩ := Prod.mk.inj (Option.some.inj hfind')
  subst ht'
  obtain ⟨m, rest, entry', hsplit, hact, _, hm⟩ :=
    read_entry_ok ctl.actions t _ entry e hmf hre
  obtain ⟨aname, action_id, a, argtoks, hrest, hfa, hid, hlen, hloop⟩ :=
    read_action_ok ctl.actions rest entry' e hargs hact
  refine ⟨hflag, m, aname, action_id, a, argtoks, ?_, hm, hfa, hid, hlen,
    (read_action_args_names a.args argtoks 0 entry'.action_data e.action_data hloop).2⟩
  rw [hsplit, hrest]

/-- On the concrete controller, the line of scenario S6 is read as an entry, and
its tokens have the shape the theorem gives. -/
theorem entry_read_clauses_witness :
    rte_swx_ctl_pipeline_table_entry_read example_ctl (some "t0")
      (some "match 0x0a000001/0xffffffff priority 10 action fwd port N(0x0007)".data) true =
      some (some { key := some [10, 0, 0, 1], key_mask := none, key_signature := 0,
                   key_priority := 10, action_id := 0, action_data := some [0, 7] }, none) ∧
    ∃ (m : List (List Char)) (aname : List Char) (action_id : Nat) (a : action)
      (argtoks : List (List Char)),
      (strtok_tokens []
          "match 0x0a000001/0xffffffff priority 10 action fwd port N(0x0007)".data).takeWhile
          (fun tok => ! token_is_comment tok) =
        m ++ "action".data :: aname :: argtoks ∧
      (m = [] ∨ ∃ fields prio, m = "match".data :: (fields ++ prio) ∧
        fields.length = example_table.mf.length ∧
        (prio = [] ∨ ∃ p, prio = ["priority".data, p])) ∧
      action_find example_ctl.actions aname = some (action_id, a) ∧
      (0 : Nat) = action_id ∧
      argtoks.length = 2 * a.args.length ∧
      ∀ (j : Nat) (arg : action_arg_info), a.args[j]? = some arg →
        ∃ arg_val, argtoks[2 * j]? = some arg.name.data ∧ argtoks[2 * j + 1]? = some arg_val ∧
          4 ≤ arg_val.length ∧ (arg_val.head? = some 'H' ∨ arg_val.head? = some 'N') ∧
          (arg_val.drop 1).head? = some '(' ∧ arg_val.getLast? = some ')' ∧
          (strtoull ((arg_val.dropLast).drop 2)).2 = [] :=
  ⟨by decide,
    (entry_read_clauses example_ctl "t0" 0 example_table
      "match 0x0a000001/0xffffffff priority 10 action fwd port N(0x0007)".data true
      { key := some [10, 0, 0, 1], key_mask := none, key_signature := 0,
        key_priority := 10, action_id := 0, action_data := some [0, 7] } none
      (by decide) (by unfold U32; decide)
      (by unfold U32; decide) (by decide)).2⟩

/-! ## Byte order of the values read -/

theorem horner_byte (b0 b1 b2 b3 b4 b5 b6 b7 : Nat) (h0 : b0 < 256) (h1 : b1 < 256)
    (h2 : b2 < 256) (h3 : b3 < 256) (h4 : b4 < 256) (h5 : b5 < 256) (h6 : b6 < 256)
    (h7 : b7 < 256) (j : Nat) (hj : j < 8) :
    (b0 * 72057594037927936 + (b1 * 281474976710656 + (b2 * 1099511627776 +
      (b3 * 4294967296 + (b4 * 16777216 + (b5 * 65536 + (b6 * 256 + b7))))))) / 2 ^ (8 * j) % 256
      = [b7, b6, b5, b4, b3, b2, b1, b0].getD j 0 := by
  interval_cases j <;> simp only [List.getD_cons_zero, List.getD_cons_succ] <;> norm_num <;> omega

theorem hton64_byte (x j : Nat) (hj : j < 8) :
    hton64 x / 2 ^ (8 * j) % 256 = x / 2 ^ (8 * (7 - j)) % 256 := by
  unfold hton64
  simp only [List.range, List.range.loop, List.map_cons, List.map_nil, List.sum_cons,
    List.sum_nil, Nat.shiftRight_eq_div_pow, Nat.shiftLeft_eq]
  norm_num
  rw [horner_byte _ _ _ _ _ _ _ _ (Nat.mod_lt _ (by norm_num)) (Nat.mod_lt _ (by norm_num))
    (Nat.mod_lt _ (by norm_num)) (Nat.mod_lt _ (by norm_num)) (Nat.mod_lt _ (by norm_num))
    (Nat.mod_lt _ (by norm_num)) (Nat.mod_lt _ (by norm_num)) (Nat.mod_lt _ (by norm_num)) j hj]
  interval_cases j <;> simp only [List.getD_cons_zero, List.getD_cons_succ] <;> norm_num

/-- The bytes that `memcpy` takes from a value after `field_hton`: the low-order
`m` bytes of the value, most significant first. -/
theorem val_bytes_field_hton (v m : Nat) (hm1 : 1 ≤ m) (hm8 : m ≤ 8) (hv : v < 2 ^ (8 * m)) :
    val_bytes (field_hton v (8 * m)) m =
      (List.range m).map (fun k => v / 2 ^ (8 * (m - 1 - k)) % 256) := by
  unfold val_bytes field_hton
  apply List.map_congr_left
  intro k hk
  rw [List.mem_range] at hk
  rw [Nat.shiftRight_eq_div_pow, Nat.shiftLeft_eq, hton64_byte _ k (by omega)]
  have hlt : v * 2 ^ (64 - 8 * m) < 2 ^ 64 := by
    have h64 : (2 : Nat) ^ 64 = 2 ^ (8 * m) * 2 ^ (64 - 8 * m) := by
      rw [← pow_add]
      congr 1
      omega
    rw [h64]
    exact Nat.mul_lt_mul_of_pos_right hv (by positivity)
  rw [Nat.mod_eq_of_lt hlt]
  have hsplit : 8 * (7 - k) = (64 - 8 * m) + 8 * (m - 1 - k) := by omega
  rw [hsplit, pow_add, ← Nat.div_div_eq_div_mul, Nat.mul_div_cancel _ (by positivity)]

/-- The bytes that `memcpy` takes from a value as it is: the low-order `m` bytes
of the value, least significant first. -/
theorem val_bytes_eq (v m : Nat) :
    val_bytes v m = (List.range m).map (fun k => v / 2 ^ (8 * k) % 256) := by
  unfold val_bytes
  apply List.map_congr_left
  intro k _
  rw [Nat.shiftRight_eq_div_pow]

theorem getD_write_bytes (dst : List Nat) (offset : Nat) (src : List Nat) (k : Nat)
    (hk : k < src.length) (hlen : offset + k < dst.length) :
    (write_bytes dst offset src).getD (offset + k) 0 = src.getD k 0 := by
  unfold write_bytes
  rw [List.getD_eq_getElem?_getD, List.getElem?_map, List.getElem?_range hlen]
  simp only [Option.map_some', Option.getD_some]
  rw [if_pos ⟨by omega, by omega⟩, Nat.add_sub_cancel_left]

theorem length_write_bytes (dst : List Nat) (offset : Nat) (src : List Nat) :
    (write_bytes dst offset src).length = dst.length := by
  unfold write_bytes
  rw [List.length_map, List.length_range]

theorem getD_write_bytes_before (dst : List Nat) (offset : Nat) (src : List Nat) (p : Nat)
    (hp : p < offset) : (write_bytes dst offset src).getD p 0 = dst.getD p 0 := by
  unfold write_bytes
  by_cases hlen : p < dst.length
  · rw [List.getD_eq_getElem?_getD, List.getElem?_map, List.getElem?_range hlen]
    simp only [Option.map_some', Option.getD_some]
    rw [if_neg (by omega)]
  · rw [List.getD_eq_default _ _ (by rw [List.length_map, List.length_range]; omega),
      List.getD_eq_default _ _ (by omega)]

theorem getD_val_bytes (val n k : Nat) (hk : k < n) :
    (val_bytes val n).getD k 0 = val / 2 ^ (8 * k) % 256 := by
  unfold val_bytes
  rw [List.getD_eq_getElem?_getD, List.getElem?_map, List.getElem?_range hk]
  simp only [Option.map_some', Option.getD_some, Nat.shiftRight_eq_div_pow]

theorem getD_val_bytes_field_hton (v m k : Nat) (hm1 : 1 ≤ m) (hm8 : m ≤ 8)
    (hv : v < 2 ^ (8 * m)) (hk : k < m) :
    (val_bytes (field_hton v (8 * m)) m).getD k 0 = v / 2 ^ (8 * (m - 1 - k)) % 256 := by
  rw [val_bytes_field_hton v m hm1 hm8 hv, List.getD_eq_getElem?_getD, List.getElem?_map,
    List.getElem?_range hk]
  rfl

theorem table_entry_alloc_action_data (t : table) (ok : Bool) (entry : rte_swx_table_entry)
    (d₀ : List Nat) (h : table_entry_alloc t ok = some entry)
    (hd : entry.action_data = some d₀) : d₀.length = t.params.action_data_size := by
  unfold table_entry_alloc at h
  by_cases hok : ¬ ok = true
  · rw [if_pos hok] at h
    exact Option.noConfusion h
  · rw [if_neg hok] at h
    rw [← Option.some.inj h] at hd
    dsimp only at hd
    by_cases hz : t.params.action_data_size ≠ 0
    · rw [if_pos hz] at hd
      rw [← Option.some.inj hd, List.length_replicate]
    · rw [if_neg hz] at hd
      exact Option.noConfusion hd

/-- The argument loop, from `arg_offset` on: the buffer keeps its length and its
bytes before `arg_offset`, and argument `j` leaves its `n_bits / 8` bytes at
`arg_offset` plus the sum of `n_bits / 8` of the arguments before it. -/
theorem read_action_args_bytes :
    ∀ (args : List action_arg_info) (tokens : List (List Char)) (arg_offset : Nat)
      (action_data action_data' : Option (List Nat)),
      (∀ d₀, action_data = some d₀ → d₀.length < U32) →
      read_action_args args tokens arg_offset action_data = read_outcome.ok action_data' →
      (∀ d₀, action_data = some d₀ → ∃ d, action_data' = some d ∧ d.length = d₀.length ∧
        ∀ p, p < arg_offset → d.getD p 0 = d₀.getD p 0) ∧
      ∀ (j : Nat) (arg : action_arg_info), args[j]? = some arg →
        ∃ arg_val d₀ d, tokens[2 * j + 1]? = some arg_val ∧ action_data = some d₀ ∧
          action_data' = some d ∧ d.length = d₀.length ∧
          arg_offset + ((args.take j).map (fun x => x.n_bits / 8)).sum + arg.n_bits / 8
            ≤ d.length ∧
          arg.n_bits / 8 ≤ 8 ∧
          (arg_val.head? = some 'N' → 1 ≤ arg.n_bits ∧ arg.n_bits ≤ 64) ∧
          ∀ k, k < arg.n_bits / 8 →
            d.getD (arg_offset + ((args.take j).map (fun x => x.n_bits / 8)).sum + k) 0 =
              (val_bytes (if arg_val.head? = some 'N'
                then field_hton (strtoull ((arg_val.dropLast).drop 2)).1 arg.n_bits
                else (strtoull ((arg_val.dropLast).drop 2)).1) (arg.n_bits / 8)).getD k 0 := by
  intro args
  induction args with
  | nil =>
    intro tokens arg_offset action_data action_data' _ h
    rw [read_action_args_nil] at h
    have hd := read_outcome.ok.inj h
    refine ⟨fun d₀ hd₀ => ⟨d₀, by rw [← hd, hd₀], rfl, fun p _ => rfl⟩, ?_⟩
    intro j arg hj
    exact Option.noConfusion hj
  | cons a rest ih =>
    intro tokens arg_offset action_data action_data' hsize h
    match tokens, h with
    | [], h => exact read_outcome.noConfusion h
    | [_], h => exact read_outcome.noConfusion h
    | arg_name :: arg_val :: tokens', h =>
      rw [read_action_args_cons] at h
      cases hstep : read_action_arg a arg_name arg_val arg_offset action_data with
      | error => rw [hstep] at h; exact read_outcome.noConfusion h
      | undefined => rw [hstep] at h; exact read_outcome.noConfusion h
      | ok action_data₁ =>
        rw [hstep] at h
        dsimp only at h
        obtain ⟨_, d₀, hd₀, hfit, h8, hN, hd₁⟩ := read_action_arg_ok _ _ _ _ _ _ hstep
        have hlt : d₀.length < U32 := hsize d₀ hd₀
        have hu : uadd32 arg_offset (a.n_bits / 8) = arg_offset + a.n_bits / 8 :=
          uadd32_eq (by omega)
        rw [hu] at h
        have hlen₁ := length_write_bytes d₀ arg_offset
          (val_bytes (if arg_val.head? = some 'N'
            then field_hton (strtoull ((arg_val.dropLast).drop 2)).1 a.n_bits
            else (strtoull ((arg_val.dropLast).drop 2)).1) (a.n_bits / 8))
        have hsize₁ : ∀ d, action_data₁ = some d → d.length < U32 := by
          intro d hd
          rw [hd₁] at hd
          rw [← Option.some.inj hd, hlen₁]
          exact hlt
        obtain ⟨ih1, ih2⟩ := ih tokens' _ action_data₁ action_data' hsize₁ h
        obtain ⟨d, hd, hdlen, hpre⟩ := ih1 _ hd₁
        rw [hlen₁] at hdlen
        have hvlen : (val_bytes (if arg_val.head? = some 'N'
            then field_hton (strtoull ((arg_val.dropLast).drop 2)).1 a.n_bits
            else (strtoull ((arg_val.dropLast).drop 2)).1) (a.n_bits / 8)).length
            = a.n_bits / 8 := by
          unfold val_bytes
          rw [List.length_map, List.length_range]
        refine ⟨?_, ?_⟩
        · intro d₀' hd₀'
          rw [hd₀] at hd₀'
          have hsame : d₀ = d₀' := Option.some.inj hd₀'
          subst hsame
          refine ⟨d, hd, hdlen, fun p hp => ?_⟩
          rw [hpre p (by omega), getD_write_bytes_before _ _ _ _ hp]
        · intro j arg hj
          cases j with
          | zero =>
            have ha : a = arg := by
              rw [List.getElem?_cons_zero] at hj
              exact Option.some.inj hj
            subst ha
            refine ⟨arg_val, d₀, d, by simp, hd₀, hd, hdlen, ?_, h8, hN, ?_⟩
            · simp only [List.take_zero, List.map_nil, List.sum_nil, Nat.add_zero]
              omega
            · intro k hk
              simp only [List.take_zero, List.map_nil, List.sum_nil, Nat.add_zero]
              rw [hpre (arg_offset + k) (by omega),
                getD_write_bytes _ _ _ k (by rw [hvlen]; exact hk) (by omega)]
          | succ j' =>
            rw [List.getElem?_cons_succ] at hj
            obtain ⟨v, e₀, e, hv, he₀, he, helen, hefit, he8, heN, hbytes⟩ := ih2 j' arg hj
            rw [hd₁] at he₀
            have he₀' := Option.some.inj he₀
            rw [hd] at he
            have hed : d = e := Option.some.inj he
            subst hed
            have hsum : arg_offset + ((List.take (j' + 1) (a :: rest)).map
                (fun x => x.n_bits / 8)).sum =
                arg_offset + a.n_bits / 8 + ((rest.take j').map (fun x => x.n_bits / 8)).sum := by
              rw [List.take_succ_cons, List.map_cons, List.sum_cons]
              omega
            refine ⟨v, d₀, d, ?_, hd₀, hd, hdlen, ?_, he8, heN, ?_⟩
            · rw [show 2 * (j' + 1) + 1 = (2 * j' + 1) + 1 + 1 by ring, List.getElem?_cons_succ,
                List.getElem?_cons_succ]
              exact hv
            · rw [hsum]
              exact hefit
            · intro k hk
              rw [hsum]
              exact hbytes k hk

/-- The bytes of the action data of an entry that
`rte_swx_ctl_pipeline_table_entry_read` returns, argument by argument. -/
theorem entry_read_arg_bytes (ctl : rte_swx_ctl_pipeline) (name : String) (i : Nat)
    (t : table) (s : List Char) (ok : Bool) (e : rte_swx_table_entry) (flag : Option Nat)
    (hfind : table_find ctl name = some (i, t))
    (hmf : 1 + t.mf.length < U32)
    (hargs : ∀ a ∈ ctl.actions, 2 + a.args.length * 2 < U32)
    (hsize : t.params.action_data_size < U32)
    (h : rte_swx_ctl_pipeline_table_entry_read ctl (some name) (some s) ok
      = some (some e, flag)) :
    ∃ (m : List (List Char)) (aname : List Char) (a : action) (argtoks : List (List Char)),
      (strtok_tokens [] s).takeWhile (fun tok => ! token_is_comment tok) =
        m ++ "action".data :: aname :: argtoks ∧
      action_find ctl.actions aname = some (e.action_id, a) ∧
      argtoks.length = 2 * a.args.length ∧
      ∀ (j : Nat) (arg : action_arg_info), a.args[j]? = some arg →
        ∃ (arg_val : List Char) (d : List Nat),
          argtoks[2 * j]? = some arg.name.data ∧ argtoks[2 * j + 1]? = some arg_val ∧
          (arg_val.head? = some 'H' ∨ arg_val.head? = some 'N') ∧
          e.action_data = some d ∧ d.length = t.params.action_data_size ∧
          ((a.args.take j).map (fun x => x.n_bits / 8)).sum + arg.n_bits / 8 ≤ d.length ∧
          (arg_val.head? = some 'N' → ∀ m, arg.n_bits = 8 * m →
            (strtoull ((arg_val.dropLast).drop 2)).1 < 2 ^ arg.n_bits → ∀ k, k < m →
              d.getD (((a.args.take j).map (fun x => x.n_bits / 8)).sum + k) 0 =
                (strtoull ((arg_val.dropLast).drop 2)).1 / 2 ^ (8 * (m - 1 - k)) % 256) ∧
          (arg_val.head? = some 'H' → ∀ k, k < arg.n_bits / 8 →
            d.getD (((a.args.take j).map (fun x => x.n_bits / 8)).sum + k) 0 =
              (strtoull ((arg_val.dropLast).drop 2)).1 / 2 ^ (8 * k) % 256) := by
  obtain ⟨_, name', i', t', entry, hname', hfind', halloc, hre⟩ :=
    entry_read_ok ctl (some name) s ok e flag h
  rw [← Option.some.inj hname', hfind] at hfind'
  obtain ⟨_, ht'⟩ := Prod.mk.inj (Option.some.inj hfind')
  subst ht'
  obtain ⟨m, rest, entry', hsplit, hact, hdata, _⟩ :=
    read_entry_ok ctl.actions t _ entry e hmf hre
  obtain ⟨aname, action_id, a, argtoks, hrest, hfa, hid, hlen, hloop⟩ :=
    read_action_ok ctl.actions rest entry' e hargs hact
  have hentry : ∀ d₀, entry'.action_data = some d₀ → d₀.length = t.params.action_data_size := by
    intro d₀ hd₀
    rw [hdata] at hd₀
    exact table_entry_alloc_action_data t ok entry d₀ halloc hd₀
  obtain ⟨_, hbytes⟩ := read_action_args_bytes a.args argtoks 0 entry'.action_data e.action_data
    (fun d₀ hd₀ => by rw [hentry d₀ hd₀]; exact hsize) hloop
  have hnames := (read_action_args_names a.args argtoks 0 entry'.action_data e.action_data
    hloop).2
  refine ⟨m, aname, a, argtoks, by rw [hsplit, hrest], by rw [hid]; exact hfa, hlen, ?_⟩
  intro j arg hj
  obtain ⟨arg_val, d₀, d, hval, hd₀, hd, hdlen, hfit, h8, hN, hb⟩ := hbytes j arg hj
  obtain ⟨arg_val', hn1, hn2, _, hHN, _⟩ := hnames j arg hj
  rw [hval] at hn2
  have hsame : arg_val = arg_val' := Option.some.inj hn2
  subst hsame
  simp only [Nat.zero_add] at hfit hb
  refine ⟨arg_val, d, hn1, hval, hHN, hd, by rw [hdlen]; exact hentry d₀ hd₀, hfit, ?_, ?_⟩
  · intro hhead m' hm' hv k hk
    obtain ⟨hn1', hn64⟩ := hN hhead
    have hdiv : arg.n_bits / 8 = m' := by rw [hm']; omega
    rw [hb k (by rw [hdiv]; exact hk), if_pos hhead, hdiv, hm']
    exact getD_val_bytes_field_hton _ m' k (by omega) (by omega) (by rw [← hm']; exact hv) hk
  · intro hhead k hk
    have hnot : ¬ arg_val.head? = some 'N' := by
      rw [hhead]
      decide
    rw [hb k hk, if_neg hnot]
    exact getD_val_bytes _ _ k hk

theorem read_tokens_short (toks acc : List (List Char))
    (h : acc.length + (toks.takeWhile (fun tok => ! token_is_comment tok)).length
      ≤ RTE_SWX_CTL_ENTRY_TOKENS_MAX) :
    read_tokens toks acc = some (acc ++ toks.takeWhile (fun tok => ! token_is_comment tok)) := by
  induction toks generalizing acc with
  | nil => rw [read_tokens_nil, List.takeWhile_nil, List.append_nil]
  | cons tok rest ih =>
    rw [read_tokens_cons]
    by_cases hc : token_is_comment tok = true
    · rw [if_pos hc, List.takeWhile_cons_of_neg (by simp [hc]), List.append_nil]
    · rw [List.takeWhile_cons_of_pos (by simp [hc]), List.length_cons] at h
      rw [if_neg hc, if_neg (by omega), ih _ (by rw [List.length_append]; simp; omega),
        List.takeWhile_cons_of_pos (by simp [hc]), List.append_assoc]
      rfl

/-- An iteration of the action argument loop on the name of the argument and a
value `H(lit)` or `N(lit)` runs to its end when `strtoull` reads `lit` to its
end and the bytes fit the action data. -/
theorem read_action_arg_runs (arg : action_arg_info) (c : Char) (hc : c = 'H' ∨ c = 'N')
    (lit : List Char) (hlit : (strtoull lit).2 = []) (hne : lit ≠ [])
    (arg_offset : Nat) (d₀ : List Nat) (hbits : 1 ≤ arg.n_bits ∧ arg.n_bits ≤ 64)
    (hfit : arg_offset + arg.n_bits / 8 ≤ d₀.length) :
    ∃ d, read_action_arg arg arg.name.data (c :: '(' :: (lit ++ [')'])) arg_offset (some d₀) =
      read_outcome.ok (some d) ∧ d.length = d₀.length := by
  have hlen : 4 ≤ (c :: '(' :: (lit ++ [')'])).length := by
    have : 0 < lit.length := List.length_pos.mpr hne
    simp only [List.length_cons, List.length_append, List.length_nil]
    omega
  have hlast : (c :: '(' :: (lit ++ [')'])).getLast? = some ')' := by
    rw [show c :: '(' :: (lit ++ [')']) = (c :: '(' :: lit) ++ [')'] by simp]
    exact List.getLast?_concat _
  have hdl : ((c :: '(' :: (lit ++ [')'])).dropLast).drop 2 = lit := by
    rw [show c :: '(' :: (lit ++ [')']) = (c :: '(' :: lit) ++ [')'] by simp,
      List.dropLast_concat]
    rfl
  have hgood : ¬ (arg.name.data ≠ arg.name.data ∨ (c :: '(' :: (lit ++ [')'])).length < 4 ∨
      ((c :: '(' :: (lit ++ [')'])).head? ≠ some 'H' ∧
        (c :: '(' :: (lit ++ [')'])).head? ≠ some 'N') ∨
      ((c :: '(' :: (lit ++ [')'])).drop 1).head? ≠ some '(' ∨
      (c :: '(' :: (lit ++ [')'])).getLast? ≠ some ')') := by
    rintro (h | h | h | h | h)
    · exact h rfl
    · omega
    · rcases hc with hc | hc
      · exact h.1 (by rw [hc]; rfl)
      · exact h.2 (by rw [hc]; rfl)
    · exact h rfl
    · exact h hlast
  have hdef : field_hton_defined arg.n_bits = true := by
    unfold field_hton_defined
    exact decide_eq_true hbits
  unfold read_action_arg
  rw [if_neg hgood]
  dsimp only
  rw [hdl, if_neg (by rw [hlit]; simp), if_neg (by rw [hdef]; simp)]
  unfold memcpy_val
  dsimp only
  rw [if_pos ⟨hfit, by omega⟩]
  exact ⟨_, rfl, length_write_bytes _ _ _⟩

/-- The action argument loop runs to its end on tokens that give, for each
argument in order, its name and a value `H(lit)` or `N(lit)` with `lit` read to
its end by `strtoull`, when each argument has from 1 to 64 bits and the bytes
of all of them fit the action data. -/
theorem read_action_args_run :
    ∀ (args : List action_arg_info) (argtoks : List (List Char)) (arg_offset : Nat)
      (d₀ : List Nat),
      argtoks.length = 2 * args.length →
      (∀ (j : Nat) (arg : action_arg_info), args[j]? = some arg →
        ∃ c lit, argtoks[2 * j]? = some arg.name.data ∧
          argtoks[2 * j + 1]? = some (c :: '(' :: (lit ++ [')'])) ∧ (c = 'H' ∨ c = 'N') ∧
          lit ≠ [] ∧ (strtoull lit).2 = []) →
      (∀ arg ∈ args, 1 ≤ arg.n_bits ∧ arg.n_bits ≤ 64) →
      arg_offset + (args.map (fun x => x.n_bits / 8)).sum ≤ d₀.length →
      d₀.length < U32 →
      ∃ d, read_action_args args argtoks arg_offset (some d₀) = read_outcome.ok (some d) := by
  intro args
  induction args with
  | nil =>
    intro argtoks arg_offset d₀ _ _ _ _ _
    exact ⟨d₀, read_action_args_nil _ _ _⟩
  | cons a rest ih =>
    intro argtoks arg_offset d₀ hlen htoks hbits hfit hsize
    match argtoks, hlen, htoks with
    | [], hlen, _ => simp only [List.length_nil, List.length_cons] at hlen; omega
    | [_], hlen, _ => simp only [List.length_cons, List.length_nil] at hlen; omega
    | nm :: val :: toks, hlen, htoks =>
      obtain ⟨c, lit, h0, h1, hc, hne, hlit⟩ := htoks 0 a (by simp)
      have hnm : nm = a.name.data := by
        simp only [Nat.mul_zero, List.getElem?_cons_zero, Option.some.injEq] at h0
        exact h0
      have hval : val = c :: '(' :: (lit ++ [')']) := by
        simp only [Nat.mul_zero, Nat.zero_add, List.getElem?_cons_succ,
          List.getElem?_cons_zero, Option.some.injEq] at h1
        exact h1
      rw [List.map_cons, List.sum_cons] at hfit
      obtain ⟨d₁, hstep, hd₁⟩ := read_action_arg_runs a c hc lit hlit hne arg_offset d₀
        (hbits a (List.mem_cons_self _ _)) (by omega)
      rw [read_action_args_cons, hnm, hval, hstep]
      dsimp only
      rw [uadd32_eq (by omega)]
      refine ih toks _ d₁ ?_ ?_ ?_ ?_ ?_
      · simp only [List.length_cons] at hlen
        omega
      · intro j arg hj
        obtain ⟨c', lit', g0, g1, g⟩ := htoks (j + 1) arg
          (by rw [List.getElem?_cons_succ]; exact hj)
        refine ⟨c', lit', ?_, ?_, g⟩
        · rw [show 2 * (j + 1) = (2 * j) + 1 + 1 by ring, List.getElem?_cons_succ,
            List.getElem?_cons_succ] at g0
          exact g0
        · rw [show 2 * (j + 1) + 1 = (2 * j + 1) + 1 + 1 by ring, List.getElem?_cons_succ,
            List.getElem?_cons_succ] at g1
          exact g1
      · exact fun arg harg => hbits arg (List.mem_cons_of_mem _ harg)
      · rw [hd₁]
        omega
      · rw [hd₁]
        exact hsize

/-- A line made of an action clause alone, with the name of each argument and a
value `H(lit)` or `N(lit)` that `strtoull` reads to its end, is read as an entry
when every argument has from 8 to 64 bits and the bytes of all of them fit the
action data of the table. -/
theorem action_clause_is_read (ctl : rte_swx_ctl_pipeline) (name : String) (i : Nat)
    (t : table) (hfind : table_find ctl name = some (i, t))
    (hargs : ∀ a ∈ ctl.actions, 2 + a.args.length * 2 < U32)
    (hsize : t.params.action_data_size < U32)
    (s : List Char) (a : action) (action_id : Nat) (argtoks : List (List Char))
    (hname : name ≠ "") (hs : s ≠ [])
    (htoks : (strtok_tokens [] s).takeWhile (fun tok => ! token_is_comment tok) =
      "action".data :: a.name.data :: argtoks)
    (hfa : action_find ctl.actions a.name.data = some (action_id, a))
    (hlen : argtoks.length = 2 * a.args.length)
    (hmax : 2 + 2 * a.args.length ≤ RTE_SWX_CTL_ENTRY_TOKENS_MAX)
    (hvals : ∀ (j : Nat) (arg : action_arg_info), a.args[j]? = some arg →
      ∃ c lit, argtoks[2 * j]? = some arg.name.data ∧
        argtoks[2 * j + 1]? = some (c :: '(' :: (lit ++ [')'])) ∧ (c = 'H' ∨ c = 'N') ∧
        lit ≠ [] ∧ (strtoull lit).2 = [])
    (hbits : ∀ arg ∈ a.args, 8 ≤ arg.n_bits ∧ arg.n_bits ≤ 64)
    (hfit : (a.args.map (fun x => x.n_bits / 8)).sum ≤ t.params.action_data_size) :
    ∃ e, rte_swx_ctl_pipeline_table_entry_read ctl (some name) (some s) true
      = some (some e, none) := by
  obtain ⟨entry, hentry, heq⟩ := entry_read_eq ctl name i t s hname hfind hs
  have hrt := read_tokens_short (strtok_tokens [] s) [] (by
    rw [htoks]
    simp only [List.length_nil, List.length_cons, hlen]
    omega)
  rw [List.nil_append, htoks] at hrt
  rw [heq, hrt]
  dsimp only
  rw [if_neg (List.cons_ne_nil _ _)]
  have hmem : a ∈ ctl.actions := action_find_from_mem 0 ctl.actions _ action_id a hfa
  have hloop : ∃ d, read_action_args a.args argtoks 0 entry.action_data = read_outcome.ok d := by
    cases hargs' : a.args with
    | nil => exact ⟨_, read_action_args_nil _ _ _⟩
    | cons arg rest =>
      have hpos : 1 ≤ (a.args.map (fun x => x.n_bits / 8)).sum := by
        rw [hargs', List.map_cons, List.sum_cons]
        have := (hbits arg (by rw [hargs']; exact List.mem_cons_self _ _)).1
        omega
      have hd : entry.action_data = some (List.replicate t.params.action_data_size 0) := by
        unfold table_entry_alloc at hentry
        rw [if_neg (by simp)] at hentry
        rw [← Option.some.inj hentry]
        dsimp only
        rw [if_pos (by omega)]
      rw [hd, ← hargs']
      obtain ⟨d, hd'⟩ := read_action_args_run a.args argtoks 0
        (List.replicate t.params.action_data_size 0) hlen hvals
        (fun arg harg => ⟨by have := (hbits arg harg).1; omega, (hbits arg harg).2⟩)
        (by rw [List.length_replicate]; omega) (by rw [List.length_replicate]; exact hsize)
      exact ⟨some d, hd'⟩
  obtain ⟨d, hd⟩ := hloop
  have hre : read_entry ctl.actions t ("action".data :: a.name.data :: argtoks) entry =
      read_outcome.ok { entry with action_id := action_id, action_data := d } := by
    unfold read_entry
    have hhead : ("action".data :: a.name.data :: argtoks).head? ≠ some "match".data := by
      rw [List.head?_cons]
      decide
    rw [if_pos hhead]
    unfold read_action
    rw [if_neg (by simp), if_neg (by simp)]
    have hget : ("action".data :: a.name.data :: argtoks).getD 1 [] = a.name.data := rfl
    rw [hget, hfa]
    dsimp only
    have hlim : (2 + a.args.length * 2) % U32 = 2 + a.args.length * 2 :=
      Nat.mod_eq_of_lt (hargs a hmem)
    rw [hlim, if_neg (by simp only [List.length_cons, hlen]; omega)]
    have hdrop : ("action".data :: a.name.data :: argtoks).drop 2 = argtoks := rfl
    rw [hdrop, hd]
    dsimp only
    rw [if_neg (by
      rw [not_not]
      apply List.drop_eq_nil_iff.mpr
      simp only [List.length_cons, hlen]
      omega)]
  rw [hre]
  exact ⟨_, rfl⟩

/-- Claim C36.  Let the table name be that of a table (the counts of match
fields and of action arguments and the action data size of the table being
below `2 ^ 32`).

First part: whenever `rte_swx_ctl_pipeline_table_entry_read` returns an entry
for a line, the tokens of the line before its first comment end with the token
`action`, the name of the action of the entry and, for each argument of that
action, its name and a value token `H(lit)` or `N(lit)`; the action data of the
entry is a buffer of the size the table gives, and for argument `j`, with `v`
the value `strtoull` reads from `lit`, the `n_bits / 8` bytes at the offset that
is the sum of `n_bits / 8` of the arguments before it (the first argument is at
offset `0`) are: for `N(lit)`, when `n_bits = 8 * m` and `v < 2 ^ n_bits`, the
`m` low-order bytes of `v`, most significant first (big-endian); for `H(lit)`,
the low-order bytes of `v`, least significant first (little-endian).

Second part: an entry is returned for every line made of an action clause alone
that gives, for each argument of the action in order, its name and a value
`H(lit)` or `N(lit)` with `lit` read to its end by `strtoull`, when every
argument has from 8 to 64 bits and the bytes of all arguments fit the action
data of the table (allocations succeeding). -/
theorem action_arg_byte_order (ctl : rte_swx_ctl_pipeline) (name : String) (i : Nat)
    (t : table) (hfind : table_find ctl name = some (i, t))
    (hmf : 1 + t.mf.length < U32)
    (hargs : ∀ a ∈ ctl.actions, 2 + a.args.length * 2 < U32)
    (hsize : t.params.action_data_size < U32) :
    (∀ (s : List Char) (ok : Bool) (e : rte_swx_table_entry) (flag : Option Nat),
      rte_swx_ctl_pipeline_table_entry_read ctl (some name) (some s) ok
        = some (some e, flag) →
      ∃ (m : List (List Char)) (aname : List Char) (a : action) (argtoks : List (List Char)),
        (strtok_tokens [] s).takeWhile (fun tok => ! token_is_comment tok) =
          m ++ "action".data :: aname :: argtoks ∧
        action_find ctl.actions aname = some (e.action_id, a) ∧
        argtoks.length = 2 * a.args.length ∧
        ∀ (j : Nat) (arg : action_arg_info), a.args[j]? = some arg →
          ∃ (arg_val : List Char) (d : List Nat),
            argtoks[2 * j]? = some arg.name.data ∧ argtoks[2 * j + 1]? = some arg_val ∧
            (arg_val.head? = some 'H' ∨ arg_val.head? = some 'N') ∧
            e.action_data = some d ∧ d.length = t.params.action_data_size ∧
            ((a.args.take j).map (fun x => x.n_bits / 8)).sum + arg.n_bits / 8 ≤ d.length ∧
            (arg_val.head? = some 'N' → ∀ m, arg.n_bits = 8 * m →
              (strtoull ((arg_val.dropLast).drop 2)).1 < 2 ^ arg.n_bits → ∀ k, k < m →
                d.getD (((a.args.take j).map (fun x => x.n_bits / 8)).sum + k) 0 =
                  (strtoull ((arg_val.dropLast).drop 2)).1 / 2 ^ (8 * (m - 1 - k)) % 256) ∧
            (arg_val.head? = some 'H' → ∀ k, k < arg.n_bits / 8 →
              d.getD (((a.args.take j).map (fun x => x.n_bits / 8)).sum + k) 0 =
                (strtoull ((arg_val.dropLast).drop 2)).1 / 2 ^ (8 * k) % 256)) ∧
    (∀ (s : List Char) (a : action) (action_id : Nat) (argtoks : List (List Char)),
      name ≠ "" → s ≠ [] →
      (strtok_tokens [] s).takeWhile (fun tok => ! token_is_comment tok) =
        "action".data :: a.name.data :: argtoks →
      action_find ctl.actions a.name.data = some (action_id, a) →
      argtoks.length = 2 * a.args.length →
      2 + 2 * a.args.length ≤ RTE_SWX_CTL_ENTRY_TOKENS_MAX →
      (∀ (j : Nat) (arg : action_arg_info), a.args[j]? = some arg →
        ∃ c lit, argtoks[2 * j]? = some arg.name.data ∧
          argtoks[2 * j + 1]? = some (c :: '(' :: (lit ++ [')'])) ∧ (c = 'H' ∨ c = 'N') ∧
          lit ≠ [] ∧ (strtoull lit).2 = []) →
      (∀ arg ∈ a.args, 8 ≤ arg.n_bits ∧ arg.n_bits ≤ 64) →
      (a.args.map (fun x => x.n_bits / 8)).sum ≤ t.params.action_data_size →
      ∃ e, rte_swx_ctl_pipeline_table_entry_read ctl (some name) (some s) true
        = some (some e, none)) :=
  ⟨fun s ok e flag h => entry_read_arg_bytes ctl name i t s ok e flag hfind hmf hargs hsize h,
    fun s a action_id argtoks hname hs htoks hfa hlen hmax hvals hbits hfit =>
      action_clause_is_read ctl name i t hfind hargs hsize s a action_id argtoks hname hs htoks
        hfa hlen hmax hvals hbits hfit⟩

/-- On the controller whose action `set` has an 8-bit argument `a` and a 16-bit
argument `b`, the line `match 0x0a000001 action set a H(1) b N(0x0203)` gives the
action data `01 02 03`: `a` at offset `0`, `b` at offset `1` with its bytes in
big-endian order.  On the controller of scenario S6, `port N(0x0007)` gives
`00 07` and `port H(0x0007)` gives `07 00`. -/
theorem action_arg_byte_order_witness :
    (table_find example_ctl_args "t0" = some (0, example_table_args) ∧
      rte_swx_ctl_pipeline_table_entry_read example_ctl_args (some "t0")
        (some "match 0x0a000001 action set a H(1) b N(0x0203)".data) true =
        some (some { key := some [10, 0, 0, 1], key_mask := none, key_signature := 0,
                     key_priority := 0, action_id := 0, action_data := some [1, 2, 3] },
          none)) ∧
    rte_swx_ctl_pipeline_table_entry_read example_ctl (some "t0")
      (some "match 0x0a000001 action fwd port N(0x0007)".data) true =
      some (some { key := some [10, 0, 0, 1], key_mask := none, key_signature := 0,
                   key_priority := 0, action_id := 0, action_data := some [0, 7] }, none) ∧
    rte_swx_ctl_pipeline_table_entry_read example_ctl (some "t0")
      (some "match 0x0a000001 action fwd port H(0x0007)".data) true =
      some (some { key := some [10, 0, 0, 1], key_mask := none, key_signature := 0,
                   key_priority := 0, action_id := 0, action_data := some [7, 0] }, none) ∧
    rte_swx_ctl_pipeline_table_entry_read example_ctl_args (some "t0")
      (some "action set a H(1) b N(0x0203)".data) true =
      some (some { key := some [0, 0, 0, 0], key_mask := none, key_signature := 0,
                   key_priority := 0, action_id := 0, action_data := some [1, 2, 3] }, none) ∧
    ∃ (m : List (List Char)) (aname : List Char) (a : action) (argtoks : List (List Char)),
      (strtok_tokens [] "match 0x0a000001 action set a H(1) b N(0x0203)".data).takeWhile
          (fun tok => ! token_is_comment tok) =
        m ++ "action".data :: aname :: argtoks ∧
      action_find example_ctl_args.actions aname = some (0, a) ∧
      argtoks.length = 2 * a.args.length ∧
      ∀ (j : Nat) (arg : action_arg_info), a.args[j]? = some arg →
        ∃ (arg_val : List Char) (d : List Nat),
          argtoks[2 * j]? = some arg.name.data ∧ argtoks[2 * j + 1]? = some arg_val ∧
          (arg_val.head? = some 'H' ∨ arg_val.head? = some 'N') ∧
          some [1, 2, 3] = some d ∧ d.length = example_table_args.params.action_data_size ∧
          ((a.args.take j).map (fun x => x.n_bits / 8)).sum + arg.n_bits / 8 ≤ d.length ∧
          (arg_val.head? = some 'N' → ∀ m, arg.n_bits = 8 * m →
            (strtoull ((arg_val.dropLast).drop 2)).1 < 2 ^ arg.n_bits → ∀ k, k < m →
              d.getD (((a.args.take j).map (fun x => x.n_bits / 8)).sum + k) 0 =
                (strtoull ((arg_val.dropLast).drop 2)).1 / 2 ^ (8 * (m - 1 - k)) % 256) ∧
          (arg_val.head? = some 'H' → ∀ k, k < arg.n_bits / 8 →
            d.getD (((a.args.take j).map (fun x => x.n_bits / 8)).sum + k) 0 =
              (strtoull ((arg_val.dropLast).drop 2)).1 / 2 ^ (8 * k) % 256) :=
  ⟨⟨by decide, by decide⟩, by decide, by decide, by decide,
    (action_arg_byte_order example_ctl_args "t0" 0 example_table_args
      (by decide) (by unfold U32; decide) (by unfold U32; decide) (by unfold U32; decide)).1
      "match 0x0a000001 action set a H(1) b N(0x0203)".data true
      { key := some [10, 0, 0, 1], key_mask := none, key_signature := 0,
        key_priority := 0, action_id := 0, action_data := some [1, 2, 3] } none
      (by decide)⟩

/-! ## The text of an entry, printed and read back -/

theorem strtok_tokens_word (w rest : List Char) (d : Char)
    (hw : ∀ c ∈ w, is_delimiter c = false) (hd : is_delimiter d = true) :
    strtok_tokens [] (w ++ d :: rest) = (if w = [] then [] else [w]) ++ strtok_tokens [] rest := by
  cases w with
  | nil =>
    rw [List.nil_append, strtok_tokens_cons, if_pos hd, if_pos (by rfl)]
    rfl
  | cons x w' =>
    have hx : is_delimiter x = false := hw x (List.mem_cons_self _ _)
    have hw' : ∀ a ∈ w', (fun c => ! is_delimiter c) a = true := by
      intro a ha
      simp only [hw a (List.mem_cons_of_mem _ ha), Bool.not_false]
    rw [List.cons_append, strtok_tokens_first x _ hx, List.takeWhile_append_of_pos hw',
      List.takeWhile_cons_of_neg (by simp [hd]), List.append_nil,
      List.dropWhile_append_of_pos hw', List.dropWhile_cons_of_neg (by simp [hd]),
      strtok_tokens_cons, if_pos hd, if_pos (by rfl), if_neg (List.cons_ne_nil _ _)]
    rfl

theorem digitChar_hex : ∀ d, d < 16 → Nat.digitChar d ∈ "0123456789abcdef".data := by
  decide

theorem hex_not_delimiter :
    ∀ c ∈ "0123456789abcdef/".data, is_delimiter c = false := by
  decide

theorem hex_in_dump : ∀ c ∈ "0123456789abcdef".data, c ∈ "0123456789abcdef/".data := by
  decide

theorem print_02x_chars (n : Nat) (f : Nat → Nat) :
    ∀ c ∈ (List.range n).flatMap (fun i => print_02x (f i)), c ∈ "0123456789abcdef/".data := by
  intro c hc
  rw [List.mem_flatMap] at hc
  obtain ⟨i, _, hci⟩ := hc
  unfold print_02x at hci
  rcases List.mem_cons.mp hci with h | h
  · rw [h]
    exact hex_in_dump _ (digitChar_hex _ (Nat.mod_lt _ (by norm_num)))
  · rw [List.mem_singleton] at h
    rw [h]
    exact hex_in_dump _ (digitChar_hex _ (Nat.mod_lt _ (by norm_num)))

theorem toDigitsCore_chars (fuel : Nat) :
    ∀ (n : Nat) (acc : List Char), (∀ c ∈ acc, c ∈ "0123456789abcdef/".data) →
      ∀ c ∈ Nat.toDigitsCore 10 fuel n acc, c ∈ "0123456789abcdef/".data := by
  induction fuel with
  | zero => intro n acc hacc c hc; exact hacc c hc
  | succ fuel ih =>
    intro n acc hacc c hc
    unfold Nat.toDigitsCore at hc
    have hd : ∀ x ∈ Nat.digitChar (n % 10) :: acc, x ∈ "0123456789abcdef/".data := by
      intro x hx
      rcases List.mem_cons.mp hx with h | h
      · rw [h]
        exact hex_in_dump _ (digitChar_hex _ (by omega))
      · exact hacc x h
    dsimp only at hc
    split_ifs at hc
    · exact hd c hc
    · exact ih _ _ hd c hc

theorem toDigitsCore_ne_nil (fuel : Nat) :
    ∀ (n : Nat) (acc : List Char), (0 < fuel ∨ acc ≠ []) → Nat.toDigitsCore 10 fuel n acc ≠ [] := by
  induction fuel with
  | zero =>
    intro n acc h
    rcases h with h | h
    · omega
    · exact h
  | succ fuel ih =>
    intro n acc _
    unfold Nat.toDigitsCore
    dsimp only
    split_ifs
    · exact List.cons_ne_nil _ _
    · exact ih _ _ (Or.inr (List.cons_ne_nil _ _))

theorem action_find_from_getElem (k : Nat) (l : List action) (action_name : List Char) (i : Nat)
    (a : action) (h : action_find_from k l action_name = some (i, a)) :
    ∃ j, i = k + j ∧ l[j]? = some a := by
  induction l generalizing k with
  | nil => exact Option.noConfusion h
  | cons b rest ih =>
    unfold action_find_from at h
    split_ifs at h
    · have := Option.some.inj h
      rw [Prod.mk.injEq] at this
      exact ⟨0, this.1.symm, by rw [← this.2]; simp⟩
    · obtain ⟨j, hj1, hj2⟩ := ih (k + 1) h
      exact ⟨j + 1, by omega, by rw [List.getElem?_cons_succ]; exact hj2⟩

/-- The action clause `action NAME` followed by at most one token is not read
when the action has an argument; nor is a truncation of it. -/
theorem read_action_printed (ctl_actions : List action) (a : action) (action_id : Nat)
    (aname : List Char) (dl : List (List Char)) (entry : rte_swx_table_entry)
    (hfind : action_find ctl_actions aname = some (action_id, a)) (hargs : a.args ≠ [])
    (hdl : dl.length ≤ 1) (L : List (List Char))
    (hL : L <+: "action".data :: aname :: dl) (e : rte_swx_table_entry) :
    read_action ctl_actions L entry ≠ read_outcome.ok e := by
  intro h
  unfold read_action at h
  cases L with
  | nil =>
    rw [if_neg (by simp), if_pos (by simp)] at h
    exact read_outcome.noConfusion h
  | cons x L₁ =>
    obtain ⟨hx, hL₁⟩ := List.cons_prefix_cons.mp hL
    cases L₁ with
    | nil =>
      by_cases h1 : [x] ≠ [] ∧ [x].head? ≠ some "action".data
      · rw [if_pos h1] at h
        exact read_outcome.noConfusion h
      · rw [if_neg h1, if_pos (by simp)] at h
        exact read_outcome.noConfusion h
    | cons y L₂ =>
      obtain ⟨hy, hL₂⟩ := List.cons_prefix_cons.mp hL₁
      have hlen₂ : L₂.length ≤ 1 := le_trans hL₂.length_le hdl
      by_cases h1 : (x :: y :: L₂) ≠ [] ∧ (x :: y :: L₂).head? ≠ some "action".data
      · rw [if_pos h1] at h
        exact read_outcome.noConfusion h
      rw [if_neg h1, if_neg (by simp)] at h
      have hget : (x :: y :: L₂).getD 1 [] = aname := by rw [hy]; rfl
      rw [hget, hfind] at h
      dsimp only at h
      by_cases h3 : (x :: y :: L₂).length < (2 + a.args.length * 2) % U32
      · rw [if_pos h3] at h
        exact read_outcome.noConfusion h
      rw [if_neg h3] at h
      have hdrop : (x :: y :: L₂).drop 2 = L₂ := rfl
      rw [hdrop] at h
      cases hargs' : a.args with
      | nil => exact hargs hargs'
      | cons arg rest =>
        rw [hargs', read_action_args_short arg rest L₂ 0 entry.action_data (by omega)] at h
        exact read_outcome.noConfusion h

/-- The priority and action clauses `priority P action NAME` followed by at most
one token are not read when the action has an argument; nor is a truncation of
them. -/
theorem read_priority_printed (ctl_actions : List action) (a : action) (action_id : Nat)
    (aname p : List Char) (dl : List (List Char)) (n_tokens : Nat) (entry : rte_swx_table_entry)
    (hfind : action_find ctl_actions aname = some (action_id, a)) (hargs : a.args ≠ [])
    (hdl : dl.length ≤ 1) (L : List (List Char))
    (hL : L <+: "priority".data :: p :: "action".data :: aname :: dl)
    (e : rte_swx_table_entry) :
    read_priority ctl_actions n_tokens L entry ≠ read_outcome.ok e := by
  intro h
  unfold read_priority at h
  cases L with
  | nil =>
    rw [if_neg (by simp)] at h
    exact read_action_printed ctl_actions a action_id aname dl entry hfind hargs hdl []
      List.nil_prefix e h
  | cons x L₁ =>
    obtain ⟨hx, hL₁⟩ := List.cons_prefix_cons.mp hL
    rw [if_pos (by rw [hx]; rfl)] at h
    cases L₁ with
    | nil =>
      rw [if_pos (by simp)] at h
      split_ifs at h
    | cons y L₂ =>
      obtain ⟨_, hL₂⟩ := List.cons_prefix_cons.mp hL₁
      rw [if_neg (by simp)] at h
      by_cases hs : (strtoull ((x :: y :: L₂).getD 1 [])).2 ≠ []
      · rw [if_pos hs] at h
        exact read_outcome.noConfusion h
      · rw [if_neg hs] at h
        have hdrop : (x :: y :: L₂).drop 2 = L₂ := rfl
        rw [hdrop] at h
        exact read_action_printed ctl_actions a action_id aname dl _ hfind hargs hdl L₂ hL₂ e h

theorem priority_not_value :
    (strtoull ("priority".data.takeWhile (fun c => c ≠ '/'))).2 ≠ [] := by
  decide

/-- A line `match [KM] priority P action NAME [D]`, or a truncation of it, is
not read as an entry of any table when the action `NAME` has an argument. -/
theorem read_entry_printed (ctl_actions : List action) (t : table) (a : action)
    (action_id : Nat) (aname p : List Char) (km dl : List (List Char))
    (entry : rte_swx_table_entry)
    (hfind : action_find ctl_actions aname = some (action_id, a)) (hargs : a.args ≠ [])
    (hdl : dl.length ≤ 1)
    (hkm : km = [] ∨ ∃ w, km = [w] ∧ w ≠ "priority".data ∧ w ≠ "action".data)
    (L : List (List Char))
    (hL : L <+: "match".data :: (km ++ "priority".data :: p :: "action".data :: aname :: dl))
    (e : rte_swx_table_entry) :
    read_entry ctl_actions t L entry ≠ read_outcome.ok e := by
  intro h
  unfold read_entry at h
  cases L with
  | nil =>
    rw [if_pos (by simp)] at h
    exact read_action_printed ctl_actions a action_id aname dl entry hfind hargs hdl []
      List.nil_prefix e h
  | cons x L' =>
    obtain ⟨hx, hL'⟩ := List.cons_prefix_cons.mp hL
    rw [if_neg (by rw [hx]; simp)] at h
    by_cases hlen : (x :: L').length < (1 + t.mf.length) % U32
    · rw [if_pos hlen] at h
      exact read_outcome.noConfusion h
    rw [if_neg hlen] at h
    have hd1 : (x :: L').drop 1 = L' := rfl
    rw [hd1] at h
    cases hf : read_match_fields ((t.mf.map (fun f => f.offset)).getD 0 0) t.mf L' entry with
    | error => rw [hf] at h; exact read_outcome.noConfusion h
    | undefined => rw [hf] at h; exact read_outcome.noConfusion h
    | ok entry₁ =>
      rw [hf] at h
      dsimp only at h
      obtain ⟨_, hn, hparse⟩ := read_match_fields_ok _ _ _ _ _ hf
      have hnp : "priority".data ∉ L'.take t.mf.length := fun hmem =>
        priority_not_value (hparse _ hmem)
      have hkmlen : km.length ≤ 1 := by
        rcases hkm with hk | ⟨w, hk, _⟩
        · rw [hk]; exact Nat.zero_le _
        · rw [hk]; exact le_refl _
      have hL'len : L'.length ≤ 6 := by
        have := hL'.length_le
        simp only [List.length_append, List.length_cons] at this
        omega
      have hmod : (1 + t.mf.length) % U32 = 1 + t.mf.length :=
        Nat.mod_eq_of_lt (by unfold U32; omega)
      have hdn : (x :: L').drop (1 + t.mf.length) = L'.drop t.mf.length := by
        rw [Nat.add_comm, List.drop_succ_cons]
      rw [hmod, hdn] at h
      rcases hkm with hk | ⟨w, hk, hw1, hw2⟩
      · rw [hk, List.nil_append] at hL'
        have hn0 : t.mf.length = 0 := by
          by_contra hne
          cases L' with
          | nil => simp only [List.length_nil] at hn; omega
          | cons y L'' =>
            obtain ⟨hy, _⟩ := List.cons_prefix_cons.mp hL'
            apply hnp
            obtain ⟨k, hk'⟩ := Nat.exists_eq_succ_of_ne_zero hne
            rw [hk', List.take_succ_cons, hy]
            exact List.mem_cons_self _ _
        rw [hn0, List.drop_zero] at h
        exact read_priority_printed ctl_actions a action_id aname p dl _ _ hfind hargs hdl L'
          hL' e h
      · rw [hk, List.singleton_append] at hL'
        cases L' with
        | nil =>
          have hn0 : t.mf.length = 0 := by
            simp only [List.length_nil] at hn
            omega
          rw [hn0, List.drop_zero] at h
          exact read_priority_printed ctl_actions a action_id aname p dl _ _ hfind hargs hdl []
            List.nil_prefix e h
        | cons y L'' =>
          obtain ⟨hy, hL''⟩ := List.cons_prefix_cons.mp hL'
          have hn1 : t.mf.length ≤ 1 := by
            by_contra hgt
            cases L'' with
            | nil => simp only [List.length_cons, List.length_nil] at hn; omega
            | cons z L3 =>
              obtain ⟨hz, _⟩ := List.cons_prefix_cons.mp hL''
              apply hnp
              obtain ⟨k, hk'⟩ : ∃ k, t.mf.length = k + 2 := ⟨t.mf.length - 2, by omega⟩
              rw [hk', List.take_succ_cons, List.take_succ_cons, hz]
              exact List.mem_cons_of_mem _ (List.mem_cons_self _ _)
          rcases Nat.le_one_iff_eq_zero_or_eq_one.mp hn1 with hn0 | hn1'
          · rw [hn0, List.drop_zero] at h
            unfold read_priority at h
            rw [if_neg (by rw [hy]; simp [hw1])] at h
            unfold read_action at h
            rw [if_pos ⟨List.cons_ne_nil _ _, by rw [hy]; simp [hw2]⟩] at h
            exact read_outcome.noConfusion h
          · rw [hn1'] at h
            have hdrop1 : (y :: L'').drop 1 = L'' := rfl
            rw [hdrop1] at h
            exact read_priority_printed ctl_actions a action_id aname p dl _ _ hfind hargs hdl
              L'' hL'' e h

/-- The tokens of a printed line. -/
theorem printed_line_tokens (km p aname d : List Char)
    (hkm : ∀ c ∈ km, is_delimiter c = false) (hp : ∀ c ∈ p, is_delimiter c = false)
    (hpne : p ≠ []) (hname : ∀ c ∈ aname, is_delimiter c = false) (hne : aname ≠ [])
    (hd : ∀ c ∈ d, is_delimiter c = false) :
    strtok_tokens [] ("match ".data ++ km ++ " priority ".data ++ p ++ " action ".data ++
        aname ++ " ".data ++ d ++ [Char.ofNat 10]) =
      "match".data :: ((if km = [] then [] else [km]) ++
        "priority".data :: p :: "action".data :: aname :: (if d = [] then [] else [d])) := by
  have hform : "match ".data ++ km ++ " priority ".data ++ p ++ " action ".data ++
        aname ++ " ".data ++ d ++ [Char.ofNat 10] =
      "match".data ++ ' ' :: (km ++ ' ' :: ("priority".data ++ ' ' :: (p ++ ' ' ::
        ("action".data ++ ' ' :: (aname ++ ' ' :: (d ++ Char.ofNat 10 :: [])))))) := by
    have h1 : "match ".data = "match".data ++ [' '] := rfl
    have h2 : " priority ".data = ' ' :: ("priority".data ++ [' ']) := rfl
    have h3 : " action ".data = ' ' :: ("action".data ++ [' ']) := rfl
    have h4 : " ".data = [' '] := rfl
    rw [h1, h2, h3, h4]
    simp only [List.append_assoc, List.cons_append, List.nil_append, List.singleton_append]
  have hsp : is_delimiter ' ' = true := by decide
  have hnl : is_delimiter (Char.ofNat 10) = true := by decide
  have hw1 : ∀ c ∈ "match".data, is_delimiter c = false := by decide
  have hw2 : ∀ c ∈ "priority".data, is_delimiter c = false := by decide
  have hw3 : ∀ c ∈ "action".data, is_delimiter c = false := by decide
  rw [hform, strtok_tokens_word _ _ _ hw1 hsp, strtok_tokens_word _ _ _ hkm hsp,
    strtok_tokens_word _ _ _ hw2 hsp, strtok_tokens_word _ _ _ hp hsp,
    strtok_tokens_word _ _ _ hw3 hsp, strtok_tokens_word _ _ _ hname hsp,
    strtok_tokens_word _ _ _ hd hnl, strtok_tokens_nil]
  have e1 : (if "match".data = [] then ([] : List (List Char)) else ["match".data])
      = ["match".data] := rfl
  have e2 : (if "priority".data = [] then ([] : List (List Char)) else ["priority".data])
      = ["priority".data] := rfl
  have e3 : (if "action".data = [] then ([] : List (List Char)) else ["action".data])
      = ["action".data] := rfl
  have e4 : (if p = [] then ([] : List (List Char)) else [p]) = [p] := if_neg hpne
  have e5 : (if aname = [] then ([] : List (List Char)) else [aname]) = [aname] := if_neg hne
  have e6 : (if ([] : List Char).isEmpty = true then ([] : List (List Char))
      else [([] : List Char).reverse]) = [] := rfl
  rw [e1, e2, e3, e4, e5, e6]
  simp only [List.append_assoc, List.cons_append, List.nil_append, List.singleton_append,
    List.append_nil]

/-- Claim C33 fails as stated.  Scenario S6 on the concrete controller, whose
table `t0` has one 4-byte exact-match header field and whose action `fwd` has
one 16-bit argument `port`: the line
`match 0x0a000001/0xffffffff priority 10 action fwd port N(0x0007)` is read as
the entry with key `0a 00 00 01`, priority `10` and action data `00 07`;
`table_entry_printf` prints that entry as
`match 0a000001 priority 10 action fwd 0007`, a dump of the bytes without the
`0x` prefixes, the argument name and the `N(..)` wrapper, and
`rte_swx_ctl_pipeline_table_entry_read` returns no entry for that line
(`strtoull` with base 0 stops at the `a` of `0a000001`). -/
theorem printed_entry_not_read_back :
    rte_swx_ctl_pipeline_table_entry_read example_ctl (some "t0")
      (some "match 0x0a000001/0xffffffff priority 10 action fwd port N(0x0007)".data) true =
      some (some { key := some [10, 0, 0, 1], key_mask := none, key_signature := 0,
                   key_priority := 10, action_id := 0, action_data := some [0, 7] }, none) ∧
    table_entry_printf example_ctl.actions example_table
      { key := some [10, 0, 0, 1], key_mask := none, key_signature := 0,
        key_priority := 10, action_id := 0, action_data := some [0, 7] } =
      some ("match 0a000001 priority 10 action fwd 0007".data ++ [Char.ofNat 10]) ∧
    rte_swx_ctl_pipeline_table_entry_read example_ctl (some "t0")
      (some ("match 0a000001 priority 10 action fwd 0007".data ++ [Char.ofNat 10])) true =
      some (none, some 0) ∧
    strtoull "0a000001".data = (0, "a000001".data) := by
  refine ⟨?_, ?_, ?_, ?_⟩ <;> decide

/-- Claim C33 (amended).  The line `table_entry_printf` writes for an entry is a
dump of its bytes and is not input for
`rte_swx_ctl_pipeline_table_entry_read`.  Let the action of the entry be the one
`action_find` gives for its name, let that name be a token (not empty, without
white space), and let the action have at least one argument.  Then, whatever
the table name and the outcome of the allocations, the call on the printed line
returns no entry: the action data is printed as one token of hexadecimal
digits, where the reader wants the name of each argument and a value `H(..)` or
`N(..)`. -/
theorem printed_line_not_read (ctl : rte_swx_ctl_pipeline) (table_name : Option String)
    (t : table) (e : rte_swx_table_entry) (a : action) (line : List Char) (ok : Bool)
    (hline : table_entry_printf ctl.actions t e = some line)
    (hfind : action_find ctl.actions a.name.data = some (e.action_id, a))
    (hne : a.name.data ≠ [])
    (hname : ∀ c ∈ a.name.data, is_delimiter c = false)
    (hargs : a.args ≠ []) :
    ∀ (e' : rte_swx_table_entry) (flag : Option Nat),
      rte_swx_ctl_pipeline_table_entry_read ctl table_name (some line) ok
        ≠ some (some e', flag) := by
  intro e' flag h
  obtain ⟨_, name, i, t', entry, _, _, _, hre⟩ :=
    entry_read_ok ctl table_name line ok e' flag h
  have hget : ctl.actions[e.action_id]? = some a := by
    obtain ⟨j, hj1, hj2⟩ := action_find_from_getElem 0 ctl.actions a.name.data e.action_id a hfind
    rw [hj1, Nat.zero_add]
    exact hj2
  unfold table_entry_printf at hline
  rw [hget] at hline
  dsimp only at hline
  split_ifs at hline
  have hl := Option.some.inj hline
  have hdump : ∀ c ∈ (List.range t.params.key_size).flatMap
        (fun i => print_02x (byte_at e.key i 0)) ++
      (match e.key_mask with
        | none => []
        | some key_mask =>
          '/' :: (List.range t.params.key_size).flatMap
            (fun i => print_02x (key_mask.getD i 0))), c ∈ "0123456789abcdef/".data := by
    intro c hc
    rcases List.mem_append.mp hc with hc | hc
    · exact print_02x_chars _ _ c hc
    · cases hk : e.key_mask with
      | none => rw [hk] at hc; exact absurd hc (List.not_mem_nil c)
      | some key_mask =>
        rw [hk] at hc
        rcases List.mem_cons.mp hc with hc | hc
        · rw [hc]; decide
        · exact print_02x_chars _ _ c hc
  have hp : ∀ c ∈ Nat.toDigits 10 e.key_priority, c ∈ "0123456789abcdef/".data := by
    unfold Nat.toDigits
    exact toDigitsCore_chars _ _ _ (fun c hc => absurd hc (List.not_mem_nil c))
  have hpne : Nat.toDigits 10 e.key_priority ≠ [] := by
    unfold Nat.toDigits
    exact toDigitsCore_ne_nil _ _ _ (Or.inl (Nat.succ_pos _))
  have htok := printed_line_tokens _ (Nat.toDigits 10 e.key_priority) a.name.data
    ((List.range a.data_size).flatMap (fun i => print_02x (byte_at e.action_data i 0)))
    (fun c hc => hex_not_delimiter c (hdump c hc)) (fun c hc => hex_not_delimiter c (hp c hc))
    hpne hname hne (fun c hc => hex_not_delimiter c (print_02x_chars _ _ c hc))
  have hl' : line = "match ".data ++
      ((List.range t.params.key_size).flatMap (fun i => print_02x (byte_at e.key i 0)) ++
        (match e.key_mask with
          | none => []
          | some key_mask =>
            '/' :: (List.range t.params.key_size).flatMap
              (fun i => print_02x (key_mask.getD i 0)))) ++
      " priority ".data ++ Nat.toDigits 10 e.key_priority ++ " action ".data ++ a.name.data ++
      " ".data ++
      (List.range a.data_size).flatMap (fun i => print_02x (byte_at e.action_data i 0)) ++
      [Char.ofNat 10] := by
    rw [← hl]
    simp only [List.append_assoc]
  rw [hl', htok] at hre
  refine read_entry_printed ctl.actions t' a e.action_id a.name.data _ _ _ entry hfind hargs
    ?_ ?_ _ (List.takeWhile_prefix _) e' hre
  · split_ifs
    · exact Nat.zero_le _
    · exact le_refl _
  · split_ifs with hnil
    · exact Or.inl rfl
    · refine Or.inr ⟨_, rfl, ?_, ?_⟩
      · intro hc
        have := hdump 'p' (by rw [hc]; decide)
        exact absurd this (by decide)
      · intro hc
        have := hdump 't' (by rw [hc]; decide)
        exact absurd this (by decide)

/-- Scenario S6: the entry read from the line of the scenario is printed as
`match 0a000001 priority 10 action fwd 0007`, and no call reads that line as an
entry. -/
theorem printed_line_not_read_witness :
    (table_entry_printf example_ctl.actions example_table
        { key := some [10, 0, 0, 1], key_mask := none, key_signature := 0,
          key_priority := 10, action_id := 0, action_data := some [0, 7] } =
        some ("match 0a000001 priority 10 action fwd 0007".data ++ [Char.ofNat 10]) ∧
      action_find example_ctl.actions "fwd".data =
        some (0, { name := "fwd", args := [{ name := "port", n_bits := 16 }], data_size := 2 })) ∧
    ∀ (e' : rte_swx_table_entry) (flag : Option Nat),
      rte_swx_ctl_pipeline_table_entry_read example_ctl (some "t0")
        (some ("match 0a000001 priority 10 action fwd 0007".data ++ [Char.ofNat 10])) true
        ≠ some (some e', flag) :=
  ⟨⟨by decide, by decide⟩,
    printed_line_not_read example_ctl (some "t0") example_table
      { key := some [10, 0, 0, 1], key_mask := none, key_signature := 0,
        key_priority := 10, action_id := 0, action_data := some [0, 7] }
      { name := "fwd", args := [{ name := "port", n_bits := 16 }], data_size := 2 }
      ("match 0a000001 priority 10 action fwd 0007".data ++ [Char.ofNat 10]) true
      (by decide) (by decide) (by decide) (by decide) (by decide)⟩

end SwxCtl
